import Mathlib

/-!
# gingest: a shallow embedding of the ingestion pipeline

The Go sources embedded here are `internal/utils/utils.go`,
`internal/utils/defaults.go`, `internal/utils/git.go`,
`internal/ingester/ingester.go`, `internal/ingester/digest.go`,
`internal/notebookparser/parser.go` and the choice of the exclude list in
`cmd/gingest/main.go`.

Modelling conventions.

* A Go `string` (and a `[]byte`) is a finite sequence of bytes: `GoString`.
* A Go `error` is its message; `Option GoError` is a possibly-nil error.
* The operating system is an explicit value `Env`: what `os.Stat`, `os.Open`
  and `os.ReadFile` answer for a path, the working directory, and the JSON
  decoder of `encoding/json` for the notebook shape.
* Functions of the Go standard library that the sources call (`path/filepath`,
  `strings`, `bytes`, `fmt`, `sort`) are written out after their documented
  behaviour on a host whose path separator is `/`.
-/

namespace Gingest

/-! ## Strings -/

/-- A Go string: a sequence of bytes. -/
abbrev GoString := List UInt8

/-- A Go error value, identified with its message. -/
abbrev GoError := GoString

deriving instance DecidableEq for Except

/-- The bytes of a string literal (UTF-8). -/
def str (s : String) : GoString := s.toList.flatMap String.utf8EncodeChar

/-- Decimal rendering of a natural number, the verb `%d`. -/
def itoa (n : Nat) : GoString := (Nat.toDigits 10 n).map (fun c => c.toNat.toUInt8)

/-- `strings.HasPrefix`. -/
def HasPrefix (s pre : GoString) : Bool := pre.isPrefixOf s

/-- `strings.HasSuffix`. -/
def HasSuffix (s suf : GoString) : Bool := suf.reverse.isPrefixOf s.reverse

/-- `strings.Contains` and `bytes.Contains`: `sub` occurs in `s` as a contiguous block. -/
def Contains : GoString → GoString → Bool
  | [], sub => sub.isEmpty
  | c :: s, sub => sub.isPrefixOf (c :: s) || Contains s sub

/-- The comparison `a < b` of two Go strings: lexicographic on bytes. -/
def strLess : GoString → GoString → Bool
  | [], [] => false
  | [], _ :: _ => true
  | _ :: _, [] => false
  | a :: as, b :: bs => decide (a.toNat < b.toNat) || (decide (a = b) && strLess as bs)

/-- One byte of `strings.ToLower` on an ASCII string: `A`..`Z` go to `a`..`z`. -/
def lowerByte (c : UInt8) : UInt8 :=
  if 65 ≤ c.toNat ∧ c.toNat ≤ 90 then c + 32 else c

/-- The two code points outside ASCII whose `unicode.ToLower` is an ASCII letter,
as UTF-8: U+0130 (to `i`) and U+212A (to `k`). -/
def lowerRunes : GoString → GoString
  | 0xC4 :: 0xB0 :: rest => 0x69 :: lowerRunes rest
  | 0xE2 :: 0x84 :: 0xAA :: rest => 0x6B :: lowerRunes rest
  | c :: rest => lowerByte c :: lowerRunes rest
  | [] => []

/-- `strings.ToLower`. On an ASCII-only string every upper-case letter is lowered and
nothing else changes. On a string with a byte `>= 0x80` Go maps `unicode.ToLower` over the
runes; the model lowers the ASCII letters and the two runes whose lower case is ASCII and
leaves every other non-ASCII byte as it is, so the ASCII bytes of the result, the only
bytes the callers below compare against, are those Go produces. -/
def ToLower (s : GoString) : GoString :=
  if s.all (fun c => c.toNat < 128) then s.map lowerByte else lowerRunes s

/-! ## The operating system -/

/-- What the operating system answers for one path. -/
structure OSFile where
  /-- Result of `os.Stat`: the size in bytes, or an error. -/
  stat : Except GoError Int
  /-- Result of opening the file for reading: its bytes, or an error. -/
  data : Except GoError GoString

/-- A notebook cell, `notebookparser.Cell`. -/
structure Cell where
  CellType : GoString
  Source : List GoString
deriving DecidableEq

/-- A notebook, `notebookparser.Notebook`. -/
structure Notebook where
  Cells : List Cell
deriving DecidableEq

/-- The environment of a run. -/
structure Env where
  /-- Result of `os.Getwd`, used by `filepath.Abs`. -/
  cwd : GoString
  /-- The file behind each path. -/
  file : GoString → OSFile
  /-- The function `json.Unmarshal` into a `Notebook`. -/
  unmarshal : GoString → Except GoError Notebook

/-- The error `io.EOF`. -/
def EOF : GoError := str "EOF"

/-- The method `(*os.File).Read` on a freshly opened file holding `data`, with a buffer
of `n > 0` bytes: the bytes read and the error. At end of file it reads nothing and
returns `io.EOF`. -/
def fileRead (data : GoString) (n : Nat) : GoString × Option GoError :=
  if data.isEmpty then ([], some EOF) else (data.take n, none)

/-- `utils.ReadFileContent`. -/
def ReadFileContent (env : Env) (filePath : GoString) : GoString × Option GoError :=
  match (env.file filePath).data with
  | .error err => ([], some err)
  | .ok content => (content, none)

/-- `utils.IsBinaryFile`. -/
def IsBinaryFile (env : Env) (filePath : GoString) : Bool × Option GoError :=
  match (env.file filePath).data with
  | .error err => (false, some err)
  | .ok data =>
    let (chunk, err) := fileRead data 1024
    if err.isSome && chunk.length == 0 then (false, err)
    else (Contains chunk [0], none)

/-- `utils.IsReadmeFile`. -/
def IsReadmeFile (fileName : GoString) : Bool :=
  let lowerName := ToLower fileName
  HasPrefix lowerName (str "readme")

/-- `utils.IsJupyterNotebook`. -/
def IsJupyterNotebook (filePath : GoString) : Bool :=
  HasSuffix (ToLower filePath) (str ".ipynb")

/-! ## `path/filepath` on a host whose separator is `/` -/

/-- The path separator `/`. -/
def Separator : UInt8 := 0x2F

/-- `strings.Split(s, "/")`: the fields between separators. -/
def splitSlash : GoString → List GoString
  | [] => [[]]
  | c :: s =>
    if c = Separator then [] :: splitSlash s
    else match splitSlash s with
      | [] => [[c]]
      | w :: ws => (c :: w) :: ws

/-- `strings.Join(elems, "/")`. -/
def joinSlash : List GoString → GoString
  | [] => []
  | [e] => e
  | e :: es => e ++ Separator :: joinSlash es

/-- One path element processed by `filepath.Clean`. `out` holds the elements written so
far, last one first. An empty element and `.` are dropped; `..` removes the last real
element when there is one, is kept on a path that is not rooted, and is dropped at the
root. -/
def cleanStep (rooted : Bool) (out : List GoString) (elem : GoString) : List GoString :=
  if elem = [] ∨ elem = str "." then out
  else if elem = str ".." then
    match out with
    | top :: rest => if top = str ".." then elem :: out else rest
    | [] => if rooted then [] else [elem]
  else elem :: out

/-- `filepath.Clean`. -/
def Clean (path : GoString) : GoString :=
  if path = [] then str "."
  else
    let rooted := path.head? = some Separator
    let out := (splitSlash path).foldl (cleanStep rooted) []
    let body := joinSlash out.reverse
    if rooted then Separator :: body
    else if body = [] then str "." else body

/-- `filepath.IsAbs`. -/
def IsAbs (path : GoString) : Bool := path.head? = some Separator

/-- `filepath.Join`. -/
def Join (elem : List GoString) : GoString :=
  match elem.dropWhile (fun e => e = []) with
  | [] => []
  | rest => Clean (joinSlash rest)

/-- `filepath.Base`. -/
def Base (path : GoString) : GoString :=
  if path = [] then str "."
  else
    -- strip trailing slashes
    let path := (path.reverse.dropWhile (fun c => c = Separator)).reverse
    -- find the last element
    let path := (path.reverse.takeWhile (fun c => c ≠ Separator)).reverse
    -- if empty now, it had only slashes
    if path = [] then [Separator] else path

/-- `filepath.Dir`. -/
def Dir (path : GoString) : GoString :=
  Clean (path.reverse.dropWhile (fun c => c ≠ Separator)).reverse

/-- `filepath.ToSlash`: the identity where the separator is `/`. -/
def ToSlash (path : GoString) : GoString := path

/-- The loop of `filepath.Rel` that skips the leading elements `base` and `targ` share.
The result is `(base[b0:bi], base[b0:], targ[t0:])` at loop exit. -/
def relLoop : Nat → GoString → GoString → GoString × GoString × GoString
  | 0, base, targ => ([], base, targ)
  | fuel + 1, base, targ =>
    if base = [] ∨ targ = [] then ([], base, targ)
    else
      let be := base.takeWhile (fun c => c ≠ Separator)
      let te := targ.takeWhile (fun c => c ≠ Separator)
      if te ≠ be then (be, base, targ)
      else relLoop fuel ((base.drop be.length).drop 1) ((targ.drop te.length).drop 1)

/-- `filepath.Rel`. The error message is `Rel: can't make <targ> relative to <base>`. -/
def Rel (basepath targpath : GoString) : Except GoError GoString :=
  let failure : Except GoError GoString :=
    .error (str "Rel: can't make " ++ targpath ++ str " relative to " ++ basepath)
  let base := Clean basepath
  let targ := Clean targpath
  if targ = base then .ok (str ".")
  else
    let base := if base = str "." then [] else base
    let baseSlashed := base.head? = some Separator
    let targSlashed := targ.head? = some Separator
    if baseSlashed ≠ targSlashed then failure
    else
      let (cur, baseRest, targRest) := relLoop (base.length + 1) base targ
      if cur = str ".." then failure
      else if baseRest ≠ [] then
        let seps := baseRest.count Separator
        let ups := str ".." ++ (List.replicate seps (str "/..")).flatten
        .ok (if targRest ≠ [] then ups ++ Separator :: targRest else ups)
      else .ok targRest

/-- The path of an entry relative to `rootDir`, as both passes compute it:
`filepath.Rel`, the path itself when `Rel` fails, then `filepath.ToSlash`. -/
def relPathOf (rootDir path : GoString) : GoString :=
  let relPath := match Rel rootDir path with
    | .ok rel => rel
    | .error _ => path
  ToSlash relPath

/-- `filepath.Abs`, with the working directory taken from the environment. -/
def Abs (env : Env) (path : GoString) : Except GoError GoString :=
  if IsAbs path then .ok (Clean path)
  else .ok (Join [env.cwd, path])

/-! ## `filepath.Match` -/

/-- The rune `utf8.RuneError`. -/
def RuneError : Nat := 0xFFFD

/-- Whether `b` is a UTF-8 continuation byte within `lo..hi`. -/
def inRange (lo hi : Nat) (b : UInt8) : Bool := lo ≤ b.toNat && b.toNat ≤ hi

/-- `utf8.DecodeRuneInString`: the first rune of `s` and its width in bytes; an invalid
encoding gives `(RuneError, 1)` and the empty string `(RuneError, 0)`. -/
def decodeRune (s : GoString) : Nat × Nat :=
  match s with
  | [] => (RuneError, 0)
  | s0 :: t =>
    let b0 := s0.toNat
    if b0 < 0x80 then (b0, 1)
    else if b0 < 0xC2 then (RuneError, 1)
    else if b0 < 0xE0 then
      match t with
      | s1 :: _ =>
        if inRange 0x80 0xBF s1 then ((b0 % 32) * 64 + s1.toNat % 64, 2) else (RuneError, 1)
      | _ => (RuneError, 1)
    else if b0 < 0xF0 then
      match t with
      | s1 :: s2 :: _ =>
        let lo := if b0 = 0xE0 then 0xA0 else 0x80
        let hi := if b0 = 0xED then 0x9F else 0xBF
        if inRange lo hi s1 && inRange 0x80 0xBF s2 then
          ((b0 % 16) * 4096 + (s1.toNat % 64) * 64 + s2.toNat % 64, 3)
        else (RuneError, 1)
      | _ => (RuneError, 1)
    else if b0 < 0xF5 then
      match t with
      | s1 :: s2 :: s3 :: _ =>
        let lo := if b0 = 0xF0 then 0x90 else 0x80
        let hi := if b0 = 0xF4 then 0x8F else 0xBF
        if inRange lo hi s1 && inRange 0x80 0xBF s2 && inRange 0x80 0xBF s3 then
          ((b0 % 8) * 262144 + (s1.toNat % 64) * 4096 + (s2.toNat % 64) * 64 + s3.toNat % 64, 4)
        else (RuneError, 1)
      | _ => (RuneError, 1)
    else (RuneError, 1)

/-- The index at which `scanChunk` stops: the first `*` outside a bracket expression;
a backslash skips the byte after it. -/
def scanIdx : GoString → Bool → Nat
  | [], _ => 0
  | [0x5C], _ => 1
  | 0x5C :: _ :: rest, inrange => 2 + scanIdx rest inrange
  | 0x5B :: rest, _ => 1 + scanIdx rest true
  | 0x5D :: rest, _ => 1 + scanIdx rest false
  | 0x2A :: rest, inrange => if inrange then 1 + scanIdx rest inrange else 0
  | _ :: rest, inrange => 1 + scanIdx rest inrange

/-- `scanChunk` of `filepath.Match`: whether the pattern starts with stars, the chunk up to
the next star, and the rest of the pattern. -/
def scanChunk (pattern : GoString) : Bool × GoString × GoString :=
  let stripped := pattern.dropWhile (fun c => c = 0x2A)
  let star := pattern.head? = some 0x2A
  let i := scanIdx stripped false
  (star, stripped.take i, stripped.drop i)

/-- `getEsc` of `filepath.Match`: one possibly escaped rune of a bracket expression and the
chunk after it; `none` is `ErrBadPattern`. -/
def getEsc (chunk : GoString) : Option (Nat × GoString) :=
  match chunk with
  | [] => none
  | c :: rest =>
    if c = 0x2D ∨ c = 0x5D then none
    else
      let chunk := if c = 0x5C then rest else chunk
      if chunk = [] then none
      else
        let (r, n) := decodeRune chunk
        let nchunk := chunk.drop n
        if (r = RuneError ∧ n = 1) ∨ nchunk = [] then none else some (r, nchunk)

/-- The loop of `matchChunk` that reads the ranges of a bracket expression: the chunk
after the closing bracket and whether the rune `r` lies in one of the ranges; `none` is
`ErrBadPattern`. -/
def classLoop : Nat → GoString → Nat → Bool → Nat → Option (GoString × Bool)
  | 0, _, _, _, _ => none
  | fuel + 1, chunk, r, mtch, nrange =>
    if chunk.head? = some 0x5D ∧ nrange > 0 then some (chunk.tail, mtch)
    else
      match getEsc chunk with
      | none => none
      | some (lo, chunk1) =>
        if chunk1.head? = some 0x2D then
          match getEsc chunk1.tail with
          | none => none
          | some (hi, chunk2) =>
            classLoop fuel chunk2 r (mtch || (decide (lo ≤ r) && decide (r ≤ hi))) (nrange + 1)
        else classLoop fuel chunk1 r (mtch || (decide (lo ≤ r) && decide (r ≤ lo))) (nrange + 1)

/-- Result of `matchChunk`. -/
inductive ChunkResult where
  /-- The error `ErrBadPattern`. -/
  | bad
  /-- No match. -/
  | fail
  /-- The chunk matches a prefix of the string; `rest` is what follows it. -/
  | ok (rest : GoString)
deriving DecidableEq

/-- The loop of `matchChunk`. After the match has failed the loop goes on through the
chunk to check that it is well formed, no longer reading `s`. -/
def matchChunkLoop : Nat → GoString → GoString → Bool → ChunkResult
  | 0, _, _, _ => .bad
  | fuel + 1, chunk, s, failed =>
    match chunk with
    | [] => if failed then .fail else .ok s
    | c :: chunk1 =>
      let failed := failed || s.isEmpty
      if c = 0x5B then
        -- character class
        let r := if failed then 0 else (decodeRune s).1
        let s := if failed then s else s.drop (decodeRune s).2
        let negated := chunk1.head? = some 0x5E
        let chunk2 := if negated then chunk1.tail else chunk1
        match classLoop fuel chunk2 r false 0 with
        | none => .bad
        | some (chunk3, mtch) => matchChunkLoop fuel chunk3 s (failed || (mtch == negated))
      else if c = 0x3F then
        if failed then matchChunkLoop fuel chunk1 s failed
        else matchChunkLoop fuel chunk1 (s.drop (decodeRune s).2) (s.head? = some Separator)
      else if c = 0x5C then
        match chunk1 with
        | [] => .bad
        | c2 :: chunk2 =>
          if failed then matchChunkLoop fuel chunk2 s failed
          else matchChunkLoop fuel chunk2 s.tail (s.head? ≠ some c2)
      else
        if failed then matchChunkLoop fuel chunk1 s failed
        else matchChunkLoop fuel chunk1 s.tail (s.head? ≠ some c)

/-- `matchChunk` of `filepath.Match`. -/
def matchChunk (chunk s : GoString) : ChunkResult :=
  matchChunkLoop (chunk.length + 1) chunk s false

/-- The loop of `filepath.Match` taken after a star: try the chunk after skipping 1, 2, ...
bytes of the name, never skipping a separator. `some t` continues the pattern loop with
the name `t`; `none` returns no match. -/
def starScan (chunk rest : GoString) : GoString → Option GoString
  | [] => none
  | c :: name1 =>
    if c = Separator then none
    else
      match matchChunk chunk name1 with
      | .ok t => if rest = [] ∧ t ≠ [] then starScan chunk rest name1 else some t
      | .bad => none
      | .fail => starScan chunk rest name1

/-- The pattern loop of `filepath.Match`: the result `matched`. -/
def matchLoop : Nat → GoString → GoString → Bool
  | 0, _, _ => false
  | fuel + 1, pattern, name =>
    if pattern = [] then name.isEmpty
    else
      let (star, chunk, rest) := scanChunk pattern
      if star ∧ chunk = [] then
        -- trailing star matches the rest of the name unless it has a separator
        !(name.contains Separator)
      else
        match matchChunk chunk name with
        | .bad => false
        | .ok t =>
          if t = [] ∨ rest ≠ [] then matchLoop fuel rest t
          else if star then
            match starScan chunk rest name with
            | some t1 => matchLoop fuel rest t1
            | none => false
          else false
        | .fail =>
          if star then
            match starScan chunk rest name with
            | some t1 => matchLoop fuel rest t1
            | none => false
          else false

/-- The first result of `filepath.Match(pattern, name)`: whether `name` matches the shell
pattern. It is `false` whenever Go returns `ErrBadPattern`, the error that every caller in
this repository discards. -/
def Match (pattern name : GoString) : Bool :=
  matchLoop (pattern.length + 1) pattern name

/-! ## `utils.ShouldIncludeFile` -/

/-- The block of `ShouldIncludeFile` run once an exclude pattern has matched the path or
the file name: `true` when some include pattern matches the path or the file name. -/
def includeOverride (relativePath fileName : GoString) (includePatterns : List GoString) :
    Bool :=
  if includePatterns.length > 0 then
    includePatterns.any
      (fun includePattern => Match includePattern relativePath || Match includePattern fileName)
  else false

/-- The loop `for dir != "." && dir != "/"` of `ShouldIncludeFile`: whether the exclude
pattern matches the base name of `dir` or of one of its parents. `fuel` bounds the number
of iterations. -/
def parentMatches (pattern : GoString) : Nat → GoString → Bool
  | 0, _ => false
  | fuel + 1, dir =>
    if dir ≠ str "." ∧ dir ≠ str "/" then
      if Match pattern (Base dir) then true
      else parentMatches pattern fuel (Dir dir)
    else false

/-- The loop of `ShouldIncludeFile` over the exclude patterns: `some b` when the loop
returns `b`, `none` when it runs to its end. -/
def excludeLoop (relativePath fileName : GoString) (includePatterns : List GoString) :
    List GoString → Option Bool
  | [] => none
  | pattern :: rest =>
    if Match pattern relativePath then
      some (includeOverride relativePath fileName includePatterns)
    else if Match pattern fileName then
      some (includeOverride relativePath fileName includePatterns)
    else if parentMatches pattern (relativePath.length + 1) (Dir relativePath) then
      some false
    else excludeLoop relativePath fileName includePatterns rest

/-- `utils.ShouldIncludeFile`. -/
def ShouldIncludeFile (relativePath : GoString) (includePatterns excludePatterns : List GoString) :
    Bool :=
  let fileName := Base relativePath
  match excludeLoop relativePath fileName includePatterns excludePatterns with
  | some result => result
  | none =>
    if includePatterns.length > 0 then
      includePatterns.any (fun pattern => Match pattern relativePath || Match pattern fileName)
    else true

/-! ## `fmt` verbs for floating-point numbers -/

/-- The smallest `sh` with `n < 2 ^ (53 + sh)`, searched from `sh` upwards for `fuel`
steps. -/
def float64Shift (n : Nat) : Nat → Nat → Nat
  | 0, sh => sh
  | fuel + 1, sh => if n < 2 ^ (53 + sh) then sh else float64Shift n fuel (sh + 1)

/-- The value of `float64(n)` for an `int64` `n >= 0`: `n` rounded to 53 significant bits,
ties to even. The value is again an integer. -/
def float64OfNat (n : Nat) : Nat :=
  let sh := float64Shift n 11 0
  let q := n / 2 ^ sh
  let r := n % 2 ^ sh
  let up := 2 * r > 2 ^ sh ∨ (2 * r = 2 ^ sh ∧ q % 2 = 1)
  (if up then q + 1 else q) * 2 ^ sh

/-- The digits of `n`, padded with zeros on the left to `width` digits. -/
def zeroPad (width : Nat) (n : Nat) : GoString :=
  List.replicate (width - (itoa n).length) 0x30 ++ itoa n

/-- The verb `%.<prec>f` applied to the number `num / den` (`den > 0`): the decimal
expansion rounded to `prec` digits after the point, ties to even. With `den` a power of
two and `num` a `float64` integer the quotient is the exact value of the `float64`
division, and Go formats that exact value. -/
def fmtFixed (prec num den : Nat) : GoString :=
  let scaled := num * 10 ^ prec
  let q := scaled / den
  let r := scaled % den
  let up := 2 * r > den ∨ (2 * r = den ∧ q % 2 = 1)
  let q := if up then q + 1 else q
  if prec = 0 then itoa q
  else itoa (q / 10 ^ prec) ++ str "." ++ zeroPad prec (q % 10 ^ prec)

/-- `fmt.Sprintf("%.1f", float64(n)/(1024*1024))` for `n >= 0`. -/
def fmtMB (n : Int) : GoString := fmtFixed 1 (float64OfNat n.toNat) (1024 * 1024)

/-- `fmt.Sprintf("%.2f", float64(n)/1024)`: the conversion and the rounding are symmetric
about zero, so a negative `n` gives the minus sign and the digits of `-n`. -/
def fmtKB (n : Int) : GoString :=
  (if n < 0 then str "-" else []) ++ fmtFixed 2 (float64OfNat n.natAbs) 1024

/-! ## Records and statistics -/

/-- `types.FileInfo`. -/
structure FileInfo where
  RelativePath : GoString
  AbsolutePath : GoString
  Content : GoString
  IsBinary : Bool
  Error : Option GoError
deriving DecidableEq

/-- `types.Stats`. The four counters start at zero and are only ever incremented, so
they are natural numbers here. -/
structure Stats where
  NumFilesProcessed : Nat
  NumDirsProcessed : Nat
  NumBinaryFiles : Nat
  NumSkippedFiles : Nat
  TotalContentBytes : Int
  Source : GoString
  Branch : GoString
  AllPaths : List GoString
deriving DecidableEq

/-! ## `notebookparser.ParseNotebook` -/

/-- The text `ParseNotebook` writes for the cell at index `i` of the cell array. -/
def cellText (i : Nat) (cell : Cell) : GoString :=
  if cell.CellType = str "code" ∨ cell.CellType = str "markdown" ∨ cell.CellType = str "raw" then
    str "## Cell " ++ itoa (i + 1) ++ str " (" ++ cell.CellType ++ str ")\n\n" ++
      (if cell.Source.length > 0 then
        let cellContent := cell.Source.flatten
        cellContent ++ (if !HasSuffix cellContent (str "\n") then str "\n" else []) ++ str "\n"
      else [])
  else []

/-- The loop of `ParseNotebook` over the cells, from index `i` on. -/
def renderCells : Nat → List Cell → GoString
  | _, [] => []
  | i, cell :: rest => cellText i cell ++ renderCells (i + 1) rest

/-- `notebookparser.ParseNotebook`. -/
def ParseNotebook (env : Env) (filePath : GoString) : GoString × Option GoError :=
  match (env.file filePath).data with
  | .error err => ([], some (str "failed to read notebook file: " ++ err))
  | .ok data =>
    match env.unmarshal data with
    | .error err => ([], some (str "failed to parse notebook JSON: " ++ err))
    | .ok notebook =>
      (str "# Jupyter Notebook Content\n\n" ++ renderCells 0 notebook.Cells, none)

/-! ## `ingester.ProcessLocalDirectoryWithPatterns` -/

/-- The placeholder written for a file larger than the limit. -/
def skipMessage (size maxFileSize : Int) : GoString :=
  str "[File content skipped: Exceeds max size (" ++ fmtMB size ++ str " MB > " ++
    fmtMB maxFileSize ++ str " MB)]"

/-- The body of the goroutine started for one file (second pass of
`ProcessLocalDirectoryWithPatterns`): the record it sends on the channel, and the
statistics after its increments.

The declaration `isBinary, err := utils.IsBinaryFile(filePath)` stands in the block of an
`else`, so it declares a new `isBinary` there; the `isBinary` of the record is the one
declared before the size check, which no branch sets to `true`. -/
def processFile (env : Env) (rootDir : GoString) (maxFileSize : Int) (filePath : GoString)
    (stats : Stats) : FileInfo × Stats :=
  let relPath := relPathOf rootDir filePath
  match (env.file filePath).stat with
  | .error err =>
    ({ RelativePath := relPath, AbsolutePath := filePath, Content := [], IsBinary := false,
       Error := some err },
     { stats with NumFilesProcessed := stats.NumFilesProcessed + 1 })
  | .ok size =>
    let isBinary := false
    let (content, readErr, stats) : GoString × Option GoError × Stats :=
      if maxFileSize > 0 ∧ size > maxFileSize then
        (skipMessage size maxFileSize, none,
          { stats with NumSkippedFiles := stats.NumSkippedFiles + 1 })
      else if IsJupyterNotebook filePath then
        let (content, readErr) := ParseNotebook env filePath
        if readErr = none then
          (content, readErr,
            { stats with TotalContentBytes := stats.TotalContentBytes + content.length })
        else (content, readErr, stats)
      else
        let (isBinary1, err) := IsBinaryFile env filePath
        if err ≠ none then ([], err, stats)
        else if isBinary1 then
          (str "[Binary File]", none, { stats with NumBinaryFiles := stats.NumBinaryFiles + 1 })
        else
          let (content, readErr) := ReadFileContent env filePath
          (content, readErr,
            { stats with TotalContentBytes := stats.TotalContentBytes + content.length })
    ({ RelativePath := relPath, AbsolutePath := filePath, Content := content,
       IsBinary := isBinary, Error := readErr },
     { stats with NumFilesProcessed := stats.NumFilesProcessed + 1 })

mutual
/-- A directory entry as `filepath.WalkDir` meets it: a file (anything that is not a
directory), or a directory with the result of `os.ReadDir` on it, an optional error and
the entries read, in the order `ReadDir` returns them. -/
inductive Entry where
  | file (name : GoString)
  | dir (name : GoString) (readErr : Option GoError) (children : Entries)
/-- A list of directory entries. -/
inductive Entries where
  | nil
  | cons (e : Entry) (rest : Entries)
end

/-- `d.Name()`. -/
def Entry.name : Entry → GoString
  | .file name => name
  | .dir name _ _ => name

/-- The error a `WalkDirFunc` returns when it is not nil: `filepath.SkipDir` or another
error. -/
inductive WalkErr where
  | skipDir
  | other (err : GoError)
deriving DecidableEq

/-- The variables the first pass writes: `allPaths`, `filePaths` and `stats`. -/
structure WalkState where
  allPaths : List GoString
  filePaths : List GoString
  stats : Stats
deriving DecidableEq

/-- The function passed to `filepath.WalkDir` (first pass). -/
def walkFn (env : Env) (rootDir : GoString) (includePatterns excludePatterns : List GoString)
    (path : GoString) (isDir : Bool) (err : Option GoError) (st : WalkState) :
    WalkState × Option WalkErr :=
  match err with
  | some e => (st, some (.other e))
  | none =>
    let relPath := relPathOf rootDir path
    -- skip the root directory itself
    if relPath = str "." then (st, none)
    else if isDir then
      let st := { st with stats := { st.stats with NumDirsProcessed := st.stats.NumDirsProcessed + 1 } }
      if !ShouldIncludeFile relPath includePatterns excludePatterns then (st, some .skipDir)
      else (st, none)
    else if !ShouldIncludeFile relPath includePatterns excludePatterns then (st, none)
    else
      let st := { st with allPaths := st.allPaths ++ [relPath] }
      match Abs env path with
      | .error e => (st, some (.other e))
      | .ok absPath => ({ st with filePaths := st.filePaths ++ [absPath] }, none)

mutual
/-- `walkDir` of `path/filepath`: visit the entry `e` found at `path`. -/
def walkDir (fn : GoString → Bool → Option GoError → WalkState → WalkState × Option WalkErr)
    (path : GoString) : Entry → WalkState → WalkState × Option WalkErr
  | .file _, st => fn path false none st
  | .dir _ readErr children, st =>
    match fn path true none st with
    | (st, some .skipDir) => (st, none)
    | (st, some (.other e)) => (st, some (.other e))
    | (st, none) =>
      match readErr with
      | none => walkEntries fn path children st
      | some e =>
        -- second call, to report the ReadDir error
        match fn path true (some e) st with
        | (st, some .skipDir) => (st, none)
        | (st, some (.other e1)) => (st, some (.other e1))
        | (st, none) => walkEntries fn path children st
/-- The loop of `walkDir` over the entries of the directory at `path`. -/
def walkEntries (fn : GoString → Bool → Option GoError → WalkState → WalkState × Option WalkErr)
    (path : GoString) : Entries → WalkState → WalkState × Option WalkErr
  | .nil, st => (st, none)
  | .cons d1 rest, st =>
    match walkDir fn (Join [path, d1.name]) d1 st with
    | (st, some .skipDir) => (st, none)
    | (st, some (.other e)) => (st, some (.other e))
    | (st, none) => walkEntries fn path rest st
end

/-- `filepath.WalkDir`. The tree is the result of `os.Lstat` on the root, an error or the
entry found there; the name of that entry is not used. -/
def WalkDir (fn : GoString → Bool → Option GoError → WalkState → WalkState × Option WalkErr)
    (root : GoString) (tree : Except GoError Entry) (st : WalkState) :
    WalkState × Option GoError :=
  let (st, err) := match tree with
    | .error e => fn root false (some e) st
    | .ok d => walkDir fn root d st
  match err with
  | none => (st, none)
  | some .skipDir => (st, none)
  | some (.other e) => (st, some e)

/-- The zero value of `types.FileInfo`. -/
def FileInfo.zero : FileInfo :=
  { RelativePath := [], AbsolutePath := [], Content := [], IsBinary := false, Error := none }

/-- The first pass of `ProcessLocalDirectoryWithPatterns`: the walk, from the initial
values of `allPaths`, `filePaths` and `stats`. -/
def firstPass (env : Env) (tree : Except GoError Entry) (rootDir : GoString)
    (includePatterns excludePatterns : List GoString) : WalkState × Option GoError :=
  let stats : Stats :=
    { NumFilesProcessed := 0, NumDirsProcessed := 0, NumBinaryFiles := 0, NumSkippedFiles := 0,
      TotalContentBytes := 0, Source := rootDir, Branch := [], AllPaths := [] }
  WalkDir (walkFn env rootDir includePatterns excludePatterns) rootDir tree
    { allPaths := [], filePaths := [], stats := stats }

/-- One result received from the channel: the goroutine of index `index` has run, its
record is stored at `filesData[index]`, its increments are in `stats`. -/
def collectStep (env : Env) (rootDir : GoString) (maxFileSize : Int) (filePaths : List GoString)
    (acc : List FileInfo × Stats) (index : Nat) : List FileInfo × Stats :=
  match filePaths[index]? with
  | none => acc
  | some filePath =>
    let (info, stats) := processFile env rootDir maxFileSize filePath acc.2
    (acc.1.set index info, stats)

/-- `ingester.ProcessLocalDirectoryWithPatterns`.

`tree` is what the walk finds under `rootDir`. One goroutine is started per accepted file;
`order` lists the goroutine indices in the order in which their results arrive on the
channel, a permutation of `0 .. len(filePaths)-1` in every execution. The counters of
`stats` are only ever incremented, under the mutex, so running the goroutine bodies one
after the other in that order yields the same counters as any interleaving. -/
def ProcessLocalDirectoryWithPatterns (env : Env) (tree : Except GoError Entry)
    (order : List Nat) (rootDir : GoString) (maxFileSize : Int)
    (includePatterns excludePatterns : List GoString) : Except GoError (List FileInfo × Stats) :=
  match firstPass env tree rootDir includePatterns excludePatterns with
  | (_, some err) => .error err
  | (st, none) =>
    let filesData := List.replicate st.filePaths.length FileInfo.zero
    let (filesData, stats) :=
      order.foldl (collectStep env rootDir maxFileSize st.filePaths) (filesData, st.stats)
    .ok (filesData, { stats with AllPaths := st.allPaths })

/-! ## `utils.GenerateSummaryString` and `utils.GenerateTreeString` -/

/-- `utils.GenerateSummaryString`; `now` is `time.Now()` in the layout
`2006-01-02 15:04:05`. -/
def GenerateSummaryString (now : GoString) (stats : Stats) : GoString :=
  str "# Codebase Digest Summary\n\n" ++
  (str "**Source:** " ++ stats.Source ++ str "\n") ++
  (if stats.Branch ≠ [] then str "**Branch:** " ++ stats.Branch ++ str "\n" else []) ++
  (str "**Generated:** " ++ now ++ str "\n\n") ++
  str "## Statistics\n\n" ++
  (str "- **Total Files:** " ++ itoa stats.NumFilesProcessed ++ str "\n") ++
  (str "- **Directories:** " ++ itoa stats.NumDirsProcessed ++ str "\n") ++
  (str "- **Binary Files:** " ++ itoa stats.NumBinaryFiles ++ str "\n") ++
  (str "- **Skipped Files:** " ++ itoa stats.NumSkippedFiles ++ str "\n") ++
  (str "- **Total Content Size:** " ++ fmtKB stats.TotalContentBytes ++ str " KB\n\n") ++
  str "---\n\n"

/-- Insertion of `a` into a list sorted by `lt`, after the elements that are not greater. -/
def orderedInsert {α : Type} (lt : α → α → Bool) (a : α) : List α → List α
  | [] => [a]
  | b :: l => if lt a b then a :: b :: l else b :: orderedInsert lt a l

/-- The functions `sort.Slice` and `sort.Strings` with the less-function `lt`: the elements
in ascending order. Go leaves the order of elements that compare equal unspecified; here
they keep their order. -/
def sortSlice {α : Type} (lt : α → α → Bool) : List α → List α
  | [] => []
  | a :: l => orderedInsert lt a (sortSlice lt l)

/-- `strings.Repeat`. -/
def Repeat (s : GoString) (count : Nat) : GoString := (List.replicate count s).flatten

/-- The lookup `fileInfoMap[path]`: the last record of `filesData` with that relative
path. -/
def fileInfoLookup (filesData : List FileInfo) (path : GoString) : Option FileInfo :=
  filesData.reverse.find? (fun fileInfo => fileInfo.RelativePath = path)

/-- The loop of `GenerateTreeString` over the directory levels of one path, from `level`
on. `parts` are the elements of the path, `later` the paths after it; the state is the set
`dirTracker` and the text written. -/
def dirLevels (parts : List GoString) (later : List GoString) :
    Nat → Nat → GoString → List GoString × GoString → List GoString × GoString
  | 0, _, _, acc => acc
  | fuel + 1, level, currentPath, (dirTracker, out) =>
    if level < parts.length - 1 then
      let part := parts.getD level []
      let currentPath := if level = 0 then part else currentPath ++ str "/" ++ part
      if !dirTracker.contains currentPath then
        let prefix1 := Repeat (str "│   ") level
        -- is this the last directory at this level?
        let isLastDir := !later.any (fun other =>
          let otherParts := splitSlash other
          decide (otherParts.length > level + 1) &&
            HasPrefix (joinSlash (otherParts.take (level + 1))) (joinSlash (parts.take (level + 1))))
        let line :=
          if isLastDir then prefix1 ++ str "└── " ++ part ++ str "/\n"
          else prefix1 ++ str "├── " ++ part ++ str "/\n"
        dirLevels parts later fuel (level + 1) currentPath (currentPath :: dirTracker, out ++ line)
      else dirLevels parts later fuel (level + 1) currentPath (dirTracker, out)
    else (dirTracker, out)

/-- The line `GenerateTreeString` writes for the file at `path`. -/
def fileLine (filesData : List FileInfo) (path : GoString) (later : List GoString) : GoString :=
  let parts := splitSlash path
  let fileName := parts.getD (parts.length - 1) []
  let prefix1 := Repeat (str "│   ") (parts.length - 1)
  let currentDir := joinSlash (parts.take (parts.length - 1))
  let isLastFile := !later.any (fun other =>
    let otherParts := splitSlash other
    joinSlash (otherParts.take (otherParts.length - 1)) = currentDir)
  let suffix :=
    match fileInfoLookup filesData path with
    | some fileInfo =>
      if fileInfo.IsBinary then str " (Binary)"
      else if Contains fileInfo.Content (str "[File content skipped:") then
        str " (Skipped - Too Large)"
      else []
    | none => []
  if isLastFile then prefix1 ++ str "└── " ++ fileName ++ suffix ++ str "\n"
  else prefix1 ++ str "├── " ++ fileName ++ suffix ++ str "\n"

/-- The loop of `GenerateTreeString` over the sorted paths. -/
def treeLoop (filesData : List FileInfo) : List GoString → List GoString × GoString → GoString
  | [], (_, out) => out
  | path :: later, acc =>
    let parts := splitSlash path
    let (dirTracker, out) := dirLevels parts later parts.length 0 [] acc
    treeLoop filesData later (dirTracker, out ++ fileLine filesData path later)

/-- `utils.GenerateTreeString`. -/
def GenerateTreeString (paths : List GoString) (rootName : GoString) (filesData : List FileInfo) :
    GoString :=
  if paths.length = 0 then []
  else
    let paths := sortSlice strLess paths
    treeLoop filesData paths ([], rootName ++ str "/\n")

/-! ## `ingester.WriteDigest` -/

/-- The constant `FILE_SEPARATOR_START`. -/
def FILE_SEPARATOR_START : GoString := str "================================================"

/-- The constant `FILE_SEPARATOR_END`. -/
def FILE_SEPARATOR_END : GoString := str "================================================"

/-- The output file of `WriteDigest` as the operating system presents it: the error of
`os.Create`, if any, and the number of write calls that succeed before one fails, if one
does, with its error. -/
structure Output where
  createErr : Option GoError
  failAfter : Option (Nat × GoError)

/-- An output file that can be created and written without error. -/
def Output.good : Output := { createErr := none, failAfter := none }

/-- Perform write calls in order. Each call carries its data and the message
`WriteDigest` wraps a failure in. `n` counts the calls made so far. The result is the
bytes written and the error returned. -/
def performWrites (out : Output) : Nat → List (GoString × GoString) → GoString →
    GoString × Option GoError
  | _, [], written => (written, none)
  | n, (data, msg) :: rest, written =>
    match out.failAfter with
    | some (k, err) =>
      if n = k then (written, some (msg ++ str ": " ++ err))
      else performWrites out (n + 1) rest (written ++ data)
    | none => performWrites out (n + 1) rest (written ++ data)

/-- The partition and sort at the head of `WriteDigest`: the slice `allFiles`, README files
first, then the other files, records with an error left out. -/
def digestFiles (filesData : List FileInfo) : List FileInfo :=
  let kept := filesData.filter (fun fileInfo => fileInfo.Error = none)
  let readmeFiles := kept.filter (fun fileInfo => IsReadmeFile (Base fileInfo.RelativePath))
  let otherFiles := kept.filter (fun fileInfo => !IsReadmeFile (Base fileInfo.RelativePath))
  let less := fun (a b : FileInfo) => strLess a.RelativePath b.RelativePath
  sortSlice less readmeFiles ++ sortSlice less otherFiles

/-- The five write calls of `WriteDigest` for one record. -/
def fileWrites (fileInfo : FileInfo) : List (GoString × GoString) :=
  [ (FILE_SEPARATOR_START ++ str "\n", str "failed to write separator"),
    (str "FILE: " ++ fileInfo.RelativePath ++ str "\n", str "failed to write file header"),
    (FILE_SEPARATOR_END ++ str "\n", str "failed to write separator"),
    (fileInfo.Content, str "failed to write file content"),
    (str "\n\n", str "failed to write newlines") ]

/-- The bytes of the block written for one record. -/
def fileBlock (fileInfo : FileInfo) : GoString :=
  ((fileWrites fileInfo).map Prod.fst).flatten

/-- The write calls of `WriteDigest` for the directory tree, none when there is no path. -/
def treeWrites (filesData : List FileInfo) (stats : Stats) : List (GoString × GoString) :=
  if stats.AllPaths.length > 0 then
    let rootName := Base stats.Source
    let rootName := if rootName = str "." ∨ rootName = [] then str "project" else rootName
    let tree := GenerateTreeString stats.AllPaths rootName filesData
    [ (str "## Directory Structure\n\n```\n", str "failed to write tree header"),
      (tree, str "failed to write tree"),
      (str "```\n\n---\n\n", str "failed to write tree footer") ]
  else []

/-- `ingester.WriteDigest`: the bytes in the output file and the error returned. `out` is
the behaviour of the output file, `now` the formatted time of the call. -/
def WriteDigest (out : Output) (now : GoString) (filesData : List FileInfo) (stats : Stats) :
    GoString × Option GoError :=
  let allFiles := digestFiles filesData
  match out.createErr with
  | some err => ([], some (str "failed to create output file: " ++ err))
  | none =>
    performWrites out 0
      ([(GenerateSummaryString now stats, str "failed to write summary")] ++
        treeWrites filesData stats ++ allFiles.flatMap fileWrites) []

/-! ## `utils.DefaultExclusions` (defaults.go) -/

/-- The package-level variable `DefaultExclusions`: the value it holds at one moment. -/
structure Exclusions where
  Directories : List GoString
  FilePatterns : List GoString
  All : List GoString
deriving DecidableEq

/-- The field `Directories` of `DefaultExclusions`, as the source lists it. -/
def defaultDirectories : List GoString :=
  [str ".git", str ".svn", str ".hg", str ".bzr", str "node_modules", str ".npm", str ".yarn",
   str "bower_components", str ".venv", str "venv", str "env", str ".env", str "__pycache__",
   str ".pytest_cache", str ".mypy_cache", str ".tox", str "site-packages", str "dist",
   str "build", str "*.egg-info", str ".coverage", str "vendor", str "target", str ".gradle",
   str ".m2", str "build", str "out", str "bin", str "obj", str "packages", str ".nuget",
   str ".bundle", str "vendor/bundle", str ".gem", str "vendor", str "composer.phar",
   str "target", str "build", str "cmake-build-*", str ".cmake", str ".vscode", str ".idea",
   str ".vs", str ".atom", str ".sublime-*", str ".DS_Store", str "Thumbs.db",
   str "Desktop.ini", str "tmp", str "temp", str ".tmp", str ".temp", str "cache", str ".cache",
   str "logs", str "log", str "_site", str "docs/_build", str ".docusaurus", str ".next",
   str ".nuxt", str "dist", str "public", str "coverage", str ".nyc_output", str "test-results",
   str "test-reports", str ".docker", str ".terraform", str "*.tfstate*", str ".kube"]

/-- The field `FilePatterns` of `DefaultExclusions`, as the source lists it. -/
def defaultFilePatterns : List GoString :=
  [str "*.log", str "*.log.*", str "*.tmp", str "*.temp", str "*~", str "*.swp", str "*.swo",
   str ".#*", str "#*#", str ".DS_Store", str "Thumbs.db", str "Desktop.ini", str "*.lnk",
   str "*.o", str "*.obj", str "*.exe", str "*.dll", str "*.so", str "*.dylib", str "*.class",
   str "*.pyc", str "*.pyo", str "*.pyd", str "*.zip", str "*.tar", str "*.tar.gz", str "*.tgz",
   str "*.rar", str "*.7z", str "*.jpg", str "*.jpeg", str "*.png", str "*.gif", str "*.bmp",
   str "*.ico", str "*.svg", str "*.webp", str "*.mp4", str "*.avi", str "*.mov", str "*.wmv",
   str "*.flv", str "*.webm", str "*.mp3", str "*.wav", str "*.flac", str "*.aac", str "*.ogg",
   str "*.pdf", str "*.doc", str "*.docx", str "*.xls", str "*.xlsx", str "*.ppt", str "*.pptx",
   str "package-lock.json", str "yarn.lock", str "pnpm-lock.yaml", str "bun.lockb",
   str "Pipfile.lock", str "poetry.lock", str "pdm.lock", str "Gemfile.lock",
   str "composer.lock", str "go.sum", str "Cargo.lock", str "mix.lock",
   str "packages.lock.json", str "project.assets.json", str "*.lock", str "flake.lock",
   str "deno.lock", str "shrinkwrap.yaml", str "npm-shrinkwrap.json", str "uv.lock", str ".env",
   str ".env.*", str "*.env", str "*.iml", str "*.ipr", str "*.iws", str ".project",
   str ".classpath", str ".settings", str "coverage.xml", str "coverage.json", str "lcov.info",
   str ".coverage", str "*.min.js", str "*.min.css", str "*.map", str "*.js.map",
   str "*.css.map"]

/-- The composite literal that initialises `DefaultExclusions`: `All` is not set. -/
def DefaultExclusions : Exclusions :=
  { Directories := defaultDirectories, FilePatterns := defaultFilePatterns, All := [] }

/-- The function `init` of defaults.go: `All` becomes the directories followed by the file
patterns. -/
def init (s : Exclusions) : Exclusions :=
  { s with All := ([] ++ s.Directories) ++ s.FilePatterns }

/-- The value of `DefaultExclusions` once the package is initialised. -/
def initialExclusions : Exclusions := init DefaultExclusions

/-- `utils.GetDefaultExcludePatterns`. -/
def GetDefaultExcludePatterns (s : Exclusions) : List GoString := s.All

/-- `utils.GetDefaultDirectoryExclusions`. -/
def GetDefaultDirectoryExclusions (s : Exclusions) : List GoString := s.Directories

/-- `utils.GetDefaultFileExclusions`. -/
def GetDefaultFileExclusions (s : Exclusions) : List GoString := s.FilePatterns

/-- `utils.AddCustomExclusion`. -/
def AddCustomExclusion (pattern : GoString) (s : Exclusions) : Exclusions :=
  { s with All := s.All ++ [pattern] }

/-- The loop of `RemoveExclusion`: the list without the first element equal to `pattern`;
the loop stops (`break`) after removing it. -/
def removeFirst (pattern : GoString) : List GoString → List GoString
  | [] => []
  | p :: rest => if p = pattern then rest else p :: removeFirst pattern rest

/-- `utils.RemoveExclusion`. -/
def RemoveExclusion (pattern : GoString) (s : Exclusions) : Exclusions :=
  { s with All := removeFirst pattern s.All }

/-- `utils.ResetToDefaults`. -/
def ResetToDefaults (s : Exclusions) : Exclusions :=
  { s with All := ([] ++ s.Directories) ++ s.FilePatterns }

/-! ## `utils.IsGitURL` (git.go) -/

/-- `utils.IsGitURL`. -/
def IsGitURL (source : GoString) : Bool :=
  -- SSH Git URLs (git@host:repo.git)
  if HasPrefix source (str "git@") then true
  -- .git suffix
  else if HasSuffix source (str ".git") then true
  -- common Git hosting services
  else if Contains source (str "github.com") || Contains source (str "gitlab.com") ||
      Contains source (str "bitbucket.org") then true
  else false

/-! ## `strings.TrimSpace` and `utils.ParsePatterns` -/

/-- `strings.Split(s, ",")`: the fields between commas. -/
def splitComma : GoString → List GoString
  | [] => [[]]
  | c :: s =>
    if c = 0x2C then [] :: splitComma s
    else match splitComma s with
      | [] => [[c]]
      | w :: ws => (c :: w) :: ws

/-- The table `asciiSpace` of package `strings`: tab, line feed, vertical tab, form feed,
carriage return and space. -/
def asciiSpace (c : UInt8) : Bool :=
  c = 0x09 || c = 0x0A || c = 0x0B || c = 0x0C || c = 0x0D || c = 0x20

/-- `unicode.IsSpace`: in Latin-1 the six ASCII spaces, U+0085 and U+00A0; above it the
code points with the property `White_Space`. -/
def IsSpace (r : Nat) : Bool :=
  if r ≤ 0xFF then
    r = 0x09 || r = 0x0A || r = 0x0B || r = 0x0C || r = 0x0D || r = 0x20 || r = 0x85 || r = 0xA0
  else
    r = 0x1680 || (0x2000 ≤ r && r ≤ 0x200A) || r = 0x2028 || r = 0x2029 || r = 0x202F ||
      r = 0x205F || r = 0x3000

/-- `utf8.RuneStart`: the byte is not a continuation byte. -/
def RuneStart (b : UInt8) : Bool := !(0x80 ≤ b.toNat && b.toNat ≤ 0xBF)

/-- The loop of `utf8.DecodeLastRuneInString` that steps `start` back to the start of a
rune, not below `lim`. -/
def lastRuneStart (s : GoString) (lim : Int) : Nat → Int → Int
  | 0, start => start
  | fuel + 1, start =>
    if start ≥ lim then
      if RuneStart (s.getD start.toNat 0) then start else lastRuneStart s lim fuel (start - 1)
    else start

/-- `utf8.DecodeLastRuneInString`: the last rune of `s` and its width in bytes. -/
def decodeLastRune (s : GoString) : Nat × Nat :=
  let end1 := s.length
  if end1 = 0 then (RuneError, 0)
  else
    let r := (s.getD (end1 - 1) 0).toNat
    if r < 0x80 then (r, 1)
    else
      let lim : Int := if (end1 : Int) - 4 < 0 then 0 else (end1 : Int) - 4
      let start := lastRuneStart s lim 4 ((end1 : Int) - 2)
      let start := if start < 0 then 0 else start.toNat
      let (r, size) := decodeRune (s.drop start)
      if start + size ≠ end1 then (RuneError, 1) else (r, size)

/-- `strings.TrimLeftFunc(s, unicode.IsSpace)`: `s` from its first rune that is not a
space on, or the empty string when there is none. `fuel` bounds the number of runes. -/
def trimLeftSpace : Nat → GoString → GoString
  | 0, _ => []
  | fuel + 1, s =>
    if s = [] then []
    else
      let (r, size) := decodeRune s
      if !IsSpace r then s else trimLeftSpace fuel (s.drop size)

/-- The function `lastIndexFunc(s, unicode.IsSpace, false)` of package `strings`, from the
index `i` down: the index of the last rune of `s[0:i]` that is not a space, if any. -/
def lastIndexNotSpace (s : GoString) : Nat → Nat → Option Nat
  | 0, _ => none
  | fuel + 1, i =>
    if i > 0 then
      let (r, size) := decodeLastRune (s.take i)
      let i := i - size
      if !IsSpace r then some i else lastIndexNotSpace s fuel i
    else none

/-- `strings.TrimRightFunc(s, unicode.IsSpace)`. -/
def trimRightSpace (s : GoString) : GoString :=
  match lastIndexNotSpace s (s.length + 1) s.length with
  | some i =>
    if (s.getD i 0).toNat ≥ 0x80 then s.take (i + (decodeRune (s.drop i)).2)
    else s.take (i + 1)
  | none => []

/-- The second loop of `strings.TrimSpace`, over the bytes of `s[start:]` from the end;
the argument is that string reversed. -/
def trimSpaceStop : GoString → GoString
  | [] => []
  | c :: rest =>
    if c.toNat ≥ 0x80 then trimRightSpace (c :: rest).reverse
    else if asciiSpace c then trimSpaceStop rest
    else (c :: rest).reverse

/-- `strings.TrimSpace`: the first loop runs over the leading ASCII spaces; at a byte
outside ASCII it hands the rest to `TrimFunc(s[start:], unicode.IsSpace)`. -/
def TrimSpace : GoString → GoString
  | [] => []
  | c :: rest =>
    if c.toNat ≥ 0x80 then
      trimRightSpace (trimLeftSpace ((c :: rest).length + 1) (c :: rest))
    else if asciiSpace c then TrimSpace rest
    else trimSpaceStop (c :: rest).reverse

/-- `utils.ParsePatterns`. -/
def ParsePatterns (patternsString : GoString) : List GoString :=
  if patternsString = [] then []
  else
    (splitComma patternsString).foldl
      (fun result pattern =>
        let trimmed := TrimSpace pattern
        if trimmed ≠ [] then result ++ [trimmed] else result)
      []

/-! ## The exclude list of a run (cmd/gingest/main.go) -/

/-- The part of `main` that chooses `excludeList`. `excludeArg` is the value given to the
flag `--exclude` on the command line, if the flag is given; `defaults` is the state of
`DefaultExclusions`. The flag is defined with the default value `""`, so after `flag.Parse`
its value is the one given, or `""`; `flag.Lookup("exclude")` finds the flag, and
`DefValue` is `""`. -/
def mainExcludeList (excludeArg : Option GoString) (defaults : Exclusions) : List GoString :=
  let excludePatterns : GoString := match excludeArg with
    | some value => value
    | none => []
  let defValue : GoString := []
  -- excludeFlag.Value.String() != excludeFlag.DefValue
  if excludePatterns ≠ defValue then ParsePatterns excludePatterns
  else GetDefaultExcludePatterns defaults

/-! ## Notions used to state the properties -/

/-- The directories the ancestor loop of `ShouldIncludeFile` visits from `dir` upwards:
`dir`, its parent, and so on, up to but not including `.` or `/`. -/
def ancestorDirs : Nat → GoString → List GoString
  | 0, _ => []
  | fuel + 1, dir =>
    if dir ≠ str "." ∧ dir ≠ str "/" then dir :: ancestorDirs fuel (Dir dir) else []

/-- The pattern matches the base name of some ancestor directory of the path. -/
def matchesAncestor (pattern relativePath : GoString) : Bool :=
  (ancestorDirs (relativePath.length + 1) (Dir relativePath)).any
    (fun dir => Match pattern (Base dir))

/-- The pattern matches the full path or its base name. -/
def matchesPathOrBase (pattern relativePath : GoString) : Bool :=
  Match pattern relativePath || Match pattern (Base relativePath)

mutual
/-- The files found in the entry `e` located at `path`, each with the paths of the
directories between the root and the file, outermost first. `ancestors` are the
directories above `e`. -/
def filesUnder (path : GoString) (ancestors : List GoString) :
    Entry → List (GoString × List GoString)
  | .file _ => [(path, ancestors)]
  | .dir _ _ children => filesUnderAll path (ancestors ++ [path]) children
/-- The files found in the entries of the directory at `path`. -/
def filesUnderAll (path : GoString) (ancestors : List GoString) :
    Entries → List (GoString × List GoString)
  | .nil => []
  | .cons e rest =>
    filesUnder (Join [path, e.name]) ancestors e ++ filesUnderAll path ancestors rest
end

/-- The files of the tree found at `rootDir`, each with its ancestor directories below the
root. -/
def filesBelowRoot (rootDir : GoString) : Entry → List (GoString × List GoString)
  | .file _ => []
  | .dir _ _ children => filesUnderAll rootDir [] children

/-- The path is not the root itself: its root-relative path is not `.`. -/
def belowRoot (rootDir path : GoString) : Bool :=
  decide (relPathOf rootDir path ≠ str ".")

/-- `ShouldIncludeFile` accepts the root-relative path of `path`. -/
def accepted (rootDir : GoString) (includePatterns excludePatterns : List GoString)
    (path : GoString) : Bool :=
  ShouldIncludeFile (relPathOf rootDir path) includePatterns excludePatterns

/-- Every directory of the list that lies below the root is accepted. -/
def ancestorsAccepted (rootDir : GoString) (includePatterns excludePatterns : List GoString)
    (ancestors : List GoString) : Bool :=
  ancestors.all (fun a => !belowRoot rootDir a || accepted rootDir includePatterns excludePatterns a)

/-- The file lies below the root, is accepted, and so is each of its ancestor directories
below the root. -/
def keptFile (rootDir : GoString) (includePatterns excludePatterns : List GoString)
    (f : GoString × List GoString) : Bool :=
  belowRoot rootDir f.1 && accepted rootDir includePatterns excludePatterns f.1 &&
    ancestorsAccepted rootDir includePatterns excludePatterns f.2

/-- The bytes `WriteDigest` writes for the directory tree, none when there is no path. -/
def treeSection (filesData : List FileInfo) (stats : Stats) : GoString :=
  ((treeWrites filesData stats).map Prod.fst).flatten

/-- The record `a` does not come after `b` in the order of relative paths. -/
def pathLE (a b : FileInfo) : Prop := strLess b.RelativePath a.RelativePath = false

/-- The record counts as a README file: the base name of its path passes `IsReadmeFile`. -/
def isReadmeRecord (fileInfo : FileInfo) : Bool := IsReadmeFile (Base fileInfo.RelativePath)

/-! ## Concrete inputs -/

/-- A notebook of three cells, the second of a type that is not kept. -/
def demoNotebook : Notebook :=
  { Cells := [ { CellType := str "markdown", Source := [str "# Title\n", str "text"] },
               { CellType := str "heading", Source := [str "skipped"] },
               { CellType := str "code", Source := [str "x = 42"] } ] }

/-- The bytes of the notebook file of the sample environment. -/
def demoNotebookBytes : GoString :=
  str "\x7b\"cells\": [\x7b\"cell_type\": \"markdown\", \"source\": [\"# Title\\n\", \"text\"]\x7d, \x7b\"cell_type\": \"heading\", \"source\": [\"skipped\"]\x7d, \x7b\"cell_type\": \"code\", \"source\": [\"x = 42\"]\x7d]\x7d"

/-- A sample environment: the working directory is `/home`, and `/repo` holds a binary
file, an empty file, a file of 1024 bytes, a Go file and a notebook. -/
def demoEnv : Env :=
  { cwd := str "/home"
    file := fun path =>
      if path = str "/repo/a.bin" then { stat := .ok 3, data := .ok [1, 0, 2] }
      else if path = str "/repo/empty.txt" then { stat := .ok 0, data := .ok [] }
      else if path = str "/repo/large.txt" then
        { stat := .ok 1024, data := .ok (List.replicate 1024 0x41) }
      else if path = str "/repo/main.go" then { stat := .ok 13, data := .ok (str "package main\n") }
      else if path = str "/repo/build/x.go" then { stat := .ok 10, data := .ok (str "package x\n") }
      else if path = str "/repo/nb.ipynb" then { stat := .ok 165, data := .ok demoNotebookBytes }
      else { stat := .error (str "no such file or directory"),
             data := .error (str "no such file or directory") }
    unmarshal := fun data =>
      if data = demoNotebookBytes then .ok demoNotebook
      else .error (str "invalid character") }

/-- A sample tree: the directory `build` with the file `x.go`, and the file `main.go`. -/
def demoTree : Entry :=
  .dir (str "repo") none
    (.cons (.dir (str "build") none (.cons (.file (str "x.go")) .nil))
      (.cons (.file (str "main.go")) .nil))

/-- The statistics at the start of a run on `/repo`. -/
def demoStats : Stats :=
  { NumFilesProcessed := 0, NumDirsProcessed := 0, NumBinaryFiles := 0, NumSkippedFiles := 0,
    TotalContentBytes := 0, Source := str "/repo", Branch := [], AllPaths := [] }

/-- The text the specification gives for a kept cell numbered `n`: the header line, a blank
line, the source fragments joined, a newline unless they already end in one, and one more
newline. -/
def specCellText (n : Nat) (cell : Cell) : GoString :=
  str "## Cell " ++ itoa n ++ str " (" ++ cell.CellType ++ str ")\n\n" ++
    cell.Source.flatten ++
    (if HasSuffix cell.Source.flatten (str "\n") then [] else str "\n") ++ str "\n"

/-- The cell is of a type that `ParseNotebook` keeps. -/
def keptCell (cell : Cell) : Bool :=
  decide (cell.CellType = str "code" ∨ cell.CellType = str "markdown" ∨
    cell.CellType = str "raw")

/-- The output the specification gives for a cell array whose first cell has the number
`n`: for every kept cell, in array order, the text of `specCellText` with the 1-based
position of the cell; nothing for the other cells. -/
def specCellsText : Nat → List Cell → GoString
  | _, [] => []
  | n, cell :: rest =>
    (if keptCell cell then specCellText n cell else []) ++ specCellsText (n + 1) rest

/-- The output of the specification with the one difference the source makes: a kept cell
whose source list is empty gets its header line and the blank line after it, nothing
else. -/
def sourceCellsText : Nat → List Cell → GoString
  | _, [] => []
  | n, cell :: rest =>
    (if keptCell cell then
      (if cell.Source = [] then
        str "## Cell " ++ itoa n ++ str " (" ++ cell.CellType ++ str ")\n\n"
      else specCellText n cell)
    else []) ++ sourceCellsText (n + 1) rest

/-- An environment whose file `/repo/empty.ipynb` decodes to a notebook with one code cell
that has no source. -/
def emptyCellEnv : Env :=
  { cwd := str "/home"
    file := fun path =>
      if path = str "/repo/empty.ipynb" then
        { stat := .ok 48,
          data := .ok (str "\x7b\"cells\": [\x7b\"cell_type\": \"code\", \"source\": []\x7d]\x7d") }
      else { stat := .error (str "no such file or directory"),
             data := .error (str "no such file or directory") }
    unmarshal := fun data =>
      if data = str "\x7b\"cells\": [\x7b\"cell_type\": \"code\", \"source\": []\x7d]\x7d" then
        .ok { Cells := [{ CellType := str "code", Source := [] }] }
      else .error (str "invalid character") }

/-- The check `filepath.Match` makes of a pattern, chunk by chunk, for `ErrBadPattern`:
some chunk of the pattern is malformed. `fuel` bounds the number of chunks. -/
def badPatternLoop : Nat → GoString → Bool
  | 0, _ => false
  | fuel + 1, pattern =>
    if pattern = [] then false
    else
      let (star, chunk, rest) := scanChunk pattern
      if star ∧ chunk = [] then false
      else decide (matchChunk chunk [] = .bad) || badPatternLoop fuel rest

/-- The pattern is syntactically invalid: `filepath.Match` reports `ErrBadPattern` for
it. -/
def BadPattern (pattern : GoString) : Bool :=
  badPatternLoop (pattern.length + 1) pattern

/-- The sample environment with the working directory `/`, so that the relative root
`./repo` names the directory `/repo`. -/
def rootCwdEnv : Env := { demoEnv with cwd := str "/" }


/-! ### The lines of the tree -/

/-- The directory that the first `level + 1` elements of a path name. -/
def dirPathAt (parts : List GoString) (level : Nat) : GoString :=
  joinSlash (parts.take (level + 1))

/-- The proper directory prefixes of a slash-separated path, outermost first: for
`a/b/c.go` these are `a` and `a/b`. -/
def dirPrefixes (path : GoString) : List GoString :=
  (List.range ((splitSlash path).length - 1)).map (dirPathAt (splitSlash path))

/-- The directory part of a path: all its elements but the last, joined again. -/
def parentDir (path : GoString) : GoString :=
  joinSlash ((splitSlash path).take ((splitSlash path).length - 1))

/-- The last element of a path. -/
def fileNameOf (path : GoString) : GoString :=
  (splitSlash path).getD ((splitSlash path).length - 1) []

/-- The depth of an entry: the number of directories above it. -/
def depthOf (path : GoString) : Nat := (splitSlash path).length - 1

/-- One line of the tree below the root line: whether it shows a directory, the path of
the entry it shows, the level it was written at, and its text. -/
structure TreeLine where
  isDir : Bool
  path : GoString
  depth : Nat
  text : GoString
  deriving DecidableEq

/-- The directory lines the loop `dirLevels` writes, in order, with the entries they
show. -/
def dirLinesOf (parts : List GoString) (later : List GoString) :
    Nat → Nat → List GoString → List TreeLine
  | 0, _, _ => []
  | fuel + 1, level, dirTracker =>
    if level < parts.length - 1 then
      if !dirTracker.contains (dirPathAt parts level) then
        let isLastDir := !later.any (fun other =>
          let otherParts := splitSlash other
          decide (otherParts.length > level + 1) &&
            HasPrefix (joinSlash (otherParts.take (level + 1))) (joinSlash (parts.take (level + 1))))
        let line :=
          if isLastDir then
            Repeat (str "│   ") level ++ str "└── " ++ parts.getD level [] ++ str "/\n"
          else Repeat (str "│   ") level ++ str "├── " ++ parts.getD level [] ++ str "/\n"
        { isDir := true, path := dirPathAt parts level, depth := level, text := line } ::
          dirLinesOf parts later fuel (level + 1) (dirPathAt parts level :: dirTracker)
      else dirLinesOf parts later fuel (level + 1) dirTracker
    else []

/-- The paths of the directory lines among `lines`. -/
def dirsOf (lines : List TreeLine) : List GoString :=
  (lines.filter (fun l => l.isDir)).map (fun l => l.path)

/-- The paths of the file lines among `lines`. -/
def filesOf (lines : List TreeLine) : List GoString :=
  (lines.filter (fun l => !l.isDir)).map (fun l => l.path)

/-- The text of a list of lines. -/
def linesText (lines : List TreeLine) : GoString := (lines.map (fun l => l.text)).flatten

/-- The lines the loop `treeLoop` writes for the sorted paths, in order, with the entries
they show: for each path the lines of its directories not written before, then its own. -/
def treeLines (filesData : List FileInfo) : List GoString → List GoString → List TreeLine
  | [], _ => []
  | path :: later, dirTracker =>
    let ds := dirLinesOf (splitSlash path) later (splitSlash path).length 0 dirTracker
    ds ++ { isDir := false, path := path, depth := (splitSlash path).length - 1,
            text := fileLine filesData path later } ::
      treeLines filesData later ((ds.map (fun l => l.path)).reverse ++ dirTracker)

/-- Every entry of `lines` comes after the directory lines of all its proper directory
prefixes, given that the directories in `seen` were written before. -/
def dirsFirst (seen : GoString → Prop) : List TreeLine → Prop
  | [] => True
  | l :: rest =>
    (∀ D ∈ dirPrefixes l.path, seen D) ∧
      dirsFirst (fun D => seen D ∨ (l.isDir = true ∧ D = l.path)) rest

/-- The suffix of a file line in the tree, from the record found for the path. -/
def recordSuffix : Option FileInfo → GoString
  | some fileInfo =>
    if fileInfo.IsBinary then str " (Binary)"
    else if Contains fileInfo.Content (str "[File content skipped:") then
      str " (Skipped - Too Large)"
    else []
  | none => []

/-! ### Calls on the default exclusions -/

/-- A call that modifies the default exclusion list. -/
inductive ExclusionCall where
  | add (pattern : GoString)
  | remove (pattern : GoString)
  | reset
  deriving DecidableEq

/-- The state after one call. -/
def applyCall (s : Exclusions) : ExclusionCall → Exclusions
  | .add pattern => AddCustomExclusion pattern s
  | .remove pattern => RemoveExclusion pattern s
  | .reset => ResetToDefaults s

/-- The state after a sequence of calls, made in order. -/
def applyCalls (calls : List ExclusionCall) (s : Exclusions) : Exclusions :=
  calls.foldl applyCall s

/-- A sample environment with working directory `/`: under `/repo` the notebook `z.ipynb`,
whose four bytes hold a zero byte and are no JSON document, and the file `main.go`. -/
def brokenNotebookEnv : Env :=
  { cwd := str "/"
    file := fun path =>
      if path = str "/repo/z.ipynb" then { stat := .ok 4, data := .ok [0x7B, 0x00, 0x7D, 0x0A] }
      else if path = str "/repo/main.go" then { stat := .ok 13, data := .ok (str "package main\n") }
      else { stat := .error (str "no such file or directory"),
             data := .error (str "no such file or directory") }
    unmarshal := fun _ => .error (str "invalid character") }

/-- The tree of that environment: the directory `repo` with `main.go` and `z.ipynb`. -/
def brokenNotebookTree : Entry :=
  .dir (str "repo") none (.cons (.file (str "main.go")) (.cons (.file (str "z.ipynb")) .nil))

/-- A sample environment: under `/repo` the text file `NOTES.IPYNB`, whose name ends in
the upper-case extension, and the file `long.txt` of 1026 bytes whose only zero byte is
the last one. -/
def plainFilesEnv : Env :=
  { cwd := str "/"
    file := fun path =>
      if path = str "/repo/NOTES.IPYNB" then { stat := .ok 6, data := .ok (str "hello\n") }
      else if path = str "/repo/long.txt" then
        { stat := .ok 1026, data := .ok (List.replicate 1025 0x41 ++ [0]) }
      else { stat := .error (str "no such file or directory"),
             data := .error (str "no such file or directory") }
    unmarshal := fun _ => .error (str "invalid character") }

/-- A sample tree: the directory `src` with the file `main.go`. -/
def srcTree : Entry :=
  .dir (str "repo") none (.cons (.dir (str "src") none (.cons (.file (str "main.go")) .nil)) .nil)

mutual
/-- The directories found in the entry `e` located at `path`, the entry itself included,
each with the paths of the directories between the root and it, outermost first.
`ancestors` are the directories above `e`. -/
def dirsUnder (path : GoString) (ancestors : List GoString) :
    Entry → List (GoString × List GoString)
  | .file _ => []
  | .dir _ _ children => (path, ancestors) :: dirsUnderAll path (ancestors ++ [path]) children
/-- The directories found in the entries of the directory at `path`. -/
def dirsUnderAll (path : GoString) (ancestors : List GoString) :
    Entries → List (GoString × List GoString)
  | .nil => []
  | .cons e rest =>
    dirsUnder (Join [path, e.name]) ancestors e ++ dirsUnderAll path ancestors rest
end

/-- The directories of the tree found at `rootDir`, the root itself left out, each with
its ancestor directories below the root. -/
def dirsBelowRoot (rootDir : GoString) : Entry → List (GoString × List GoString)
  | .file _ => []
  | .dir _ _ children => dirsUnderAll rootDir [] children

/-- The directory lies below the root and each of its proper ancestors below the root is
accepted. -/
def countedDir (rootDir : GoString) (includePatterns excludePatterns : List GoString)
    (d : GoString × List GoString) : Bool :=
  belowRoot rootDir d.1 && ancestorsAccepted rootDir includePatterns excludePatterns d.2

/-- A sample tree: the directory `build` with the directory `sub` and the file `x.go` in
it, the empty directory `docs`, and the file `main.go`. -/
def nestedTree : Entry :=
  .dir (str "repo") none
    (.cons (.dir (str "build") none
        (.cons (.dir (str "sub") none (.cons (.file (str "x.go")) .nil)) .nil))
      (.cons (.dir (str "docs") none .nil)
        (.cons (.file (str "main.go")) .nil)))

/-- The classes of an accepted file, after the order in which the second pass decides. -/
inductive FileClass where
  | failed
  | skipped
  | notebook
  | binary
  | text
  deriving DecidableEq

/-- The class of the file at `filePath`: failed when `os.Stat`, the notebook parser, the
binary check or the read returns an error; skipped when its size is above a positive
limit; else notebook text, binary placeholder or plain text. -/
def classOf (env : Env) (maxFileSize : Int) (filePath : GoString) : FileClass :=
  match (env.file filePath).stat with
  | .error _ => .failed
  | .ok size =>
    if maxFileSize > 0 ∧ size > maxFileSize then .skipped
    else if IsJupyterNotebook filePath then
      if (ParseNotebook env filePath).2 = none then .notebook else .failed
    else
      match IsBinaryFile env filePath with
      | (_, some _) => .failed
      | (true, none) => .binary
      | (false, none) => if (ReadFileContent env filePath).2 = none then .text else .failed

/-- The bytes a record adds to the total: the length of its content when the file is
plain text or notebook text, nothing otherwise. -/
def countedBytes (env : Env) (maxFileSize : Int) (pr : GoString × FileInfo) : Int :=
  if classOf env maxFileSize pr.1 = .text ∨ classOf env maxFileSize pr.1 = .notebook then
    (pr.2.Content.length : Int)
  else 0

mutual
/-- The names of an entry and of all entries under it. -/
def entryNames : Entry → List GoString
  | .file name => [name]
  | .dir name _ children => name :: entriesNames children
/-- The names of the entries of a list and of all entries under them. -/
def entriesNames : Entries → List GoString
  | .nil => []
  | .cons e rest => entryNames e ++ entriesNames rest
end

/-- The names of all entries below the root. -/
def namesBelow : Entry → List GoString
  | .file _ => []
  | .dir _ _ children => entriesNames children

/-- The byte of the backslash. -/
def Backslash : UInt8 := 0x5C

/-- A sample tree: the one file `a\b.txt`, whose name holds a backslash. -/
def backslashTree : Entry :=
  .dir (str "repo") none (.cons (.file (str "a\\b.txt")) .nil)

/-- No path collected by the walk holds the byte `b`. -/
def pathsWithout (b : UInt8) (st : WalkState) : Prop :=
  (∀ p ∈ st.allPaths, b ∉ p) ∧ (∀ p ∈ st.filePaths, b ∉ p)

/-- The byte of the comma. -/
def Comma : UInt8 := 0x2C

/-- The elements of a list joined by commas, as `strings.Join(elems, ",")` does. -/
def joinComma : List GoString → GoString
  | [] => []
  | [x] => x
  | x :: y :: rest => x ++ Comma :: joinComma (y :: rest)

/-- The UTF-8 encoding of a code point, as `utf8.AppendRune` writes it: surrogates and
values above `0x10FFFF` are written as the error rune. -/
def encodeRune (r : Nat) : GoString :=
  if r < 0x80 then [UInt8.ofNat r]
  else if r < 0x800 then [UInt8.ofNat (0xC0 + r / 64), UInt8.ofNat (0x80 + r % 64)]
  else if r > 0x10FFFF ∨ (0xD800 ≤ r ∧ r ≤ 0xDFFF) then [0xEF, 0xBF, 0xBD]
  else if r < 0x10000 then
    [UInt8.ofNat (0xE0 + r / 4096), UInt8.ofNat (0x80 + r / 64 % 64), UInt8.ofNat (0x80 + r % 64)]
  else
    [UInt8.ofNat (0xF0 + r / 262144), UInt8.ofNat (0x80 + r / 4096 % 64),
      UInt8.ofNat (0x80 + r / 64 % 64), UInt8.ofNat (0x80 + r % 64)]

/-- The UTF-8 text of a sequence of code points. -/
def encodeRunes : List Nat → GoString
  | [] => []
  | r :: rs => encodeRune r ++ encodeRunes rs

/-- The code points that `unicode.IsSpace` accepts. -/
def spaceRunes : List Nat :=
  [0x09, 0x0A, 0x0B, 0x0C, 0x0D, 0x20, 0x85, 0xA0, 0x1680, 0x2000, 0x2001, 0x2002, 0x2003,
    0x2004, 0x2005, 0x2006, 0x2007, 0x2008, 0x2009, 0x200A, 0x2028, 0x2029, 0x202F, 0x205F,
    0x3000]

/-- A sequence of code points that are all white space. -/
def allSpace (rs : List Nat) : Prop := ∀ r ∈ rs, IsSpace r = true

/-- The list `lines` is a tree of the paths. Its file lines are the paths in sorted order.
No directory has two lines, and the directories with a line are the proper directory
prefixes of the paths. Every line comes after the lines of all directories above its entry
and sits at the depth of its entry. The text of a directory line is the indentation, a
branch marker, the name and a slash. The text of a file line is the indentation, the
corner when no file line after it has the same directory part and the tee otherwise, the
name, and the suffix of the record of the path. -/
def IsTreeOf (filesData : List FileInfo) (paths : List GoString) (lines : List TreeLine) :
    Prop :=
  filesOf lines = sortSlice strLess paths ∧
  (dirsOf lines).Nodup ∧
  (∀ D, D ∈ dirsOf lines ↔ ∃ p ∈ paths, D ∈ dirPrefixes p) ∧
  (∀ X l Y, lines = X ++ l :: Y →
    (∀ D ∈ dirPrefixes l.path, D ∈ dirsOf X) ∧
    l.depth = depthOf l.path ∧
    (l.isDir = true → ∃ marker, (marker = str "└── " ∨ marker = str "├── ") ∧
      l.text = Repeat (str "│   ") l.depth ++ marker ++ fileNameOf l.path ++ str "/\n") ∧
    (l.isDir = false →
      l.text = Repeat (str "│   ") l.depth ++
        (if ∀ other ∈ filesOf Y, parentDir other ≠ parentDir l.path then str "└── "
         else str "├── ") ++
        fileNameOf l.path ++ recordSuffix (fileInfoLookup filesData l.path) ++ str "\n"))

/-- A sample record that carries an error. -/
def erroredRecord : FileInfo :=
  { FileInfo.zero with RelativePath := str "bad.txt", Error := some (str "permission denied") }

/-- Sample records: the record of `bad.txt`, which carries an error, and that of `main.go`. -/
def erroredRecords : List FileInfo :=
  [erroredRecord,
   { FileInfo.zero with RelativePath := str "main.go", Content := str "package main\n" }]

/-- Sample statistics of a run that accepted `bad.txt` and `main.go`. -/
def erroredStats : Stats :=
  { demoStats with NumFilesProcessed := 2, AllPaths := [str "bad.txt", str "main.go"] }
/-! ## Lemmas on strings -/

/-- A string contains the one-byte string `"\x00"` exactly when it has a zero byte. -/
theorem contains_zero_iff (s : GoString) : Contains s [0] = true ↔ (0 : UInt8) ∈ s := by
  induction s with
  | nil => simp [Contains]
  | cons c s ih =>
    simp only [Contains, Bool.or_eq_true, ih, List.mem_cons]
    constructor
    · rintro (h | h)
      · left
        simp [List.isPrefixOf] at h
        exact h
      · right; exact h
    · rintro (h | h)
      · left
        simp [List.isPrefixOf, h]
      · right; exact h

/-! ## Classification of one file -/

/-- C1 (code bug): for an accepted file that can be stat'ed and opened, is not over the size
limit, is not a notebook and has a zero byte among its first 1024 bytes, the record has
the content `[Binary File]` and no error, as the claim says, but its `IsBinary` is `false`,
not `true`: the flag set by the sniff is a variable local to the `else` block, and the
record reads the outer one. -/
theorem C1_binary_content_but_flag_false (env : Env) (rootDir filePath : GoString)
    (maxFileSize size : Int) (stats : Stats) (data : GoString)
    (hstat : (env.file filePath).stat = .ok size)
    (hsize : ¬ (maxFileSize > 0 ∧ size > maxFileSize))
    (hnb : IsJupyterNotebook filePath = false)
    (hdata : (env.file filePath).data = .ok data)
    (hnull : (0 : UInt8) ∈ data.take 1024) :
    (processFile env rootDir maxFileSize filePath stats).1.Content = str "[Binary File]" ∧
    (processFile env rootDir maxFileSize filePath stats).1.IsBinary = false ∧
    (processFile env rootDir maxFileSize filePath stats).1.Error = none := by
  have hne : data ≠ [] := by
    rintro rfl
    simp at hnull
  have hbin : IsBinaryFile env filePath = (true, none) := by
    simp only [IsBinaryFile, hdata, fileRead]
    have : data.isEmpty = false := by cases data <;> simp_all
    simp [this, (contains_zero_iff _).2 hnull]
  simp [processFile, hstat, hsize, hnb, hbin]

/-- C1, at a concrete input: the file `/repo/a.bin` with bytes `01 00 02`. -/
theorem C1_witness_a_bin :
    (demoEnv.file (str "/repo/a.bin")).data = .ok [1, 0, 2] ∧
    (processFile demoEnv (str "/repo") 0 (str "/repo/a.bin") demoStats).1.Content =
      str "[Binary File]" ∧
    (processFile demoEnv (str "/repo") 0 (str "/repo/a.bin") demoStats).1.IsBinary = false ∧
    (processFile demoEnv (str "/repo") 0 (str "/repo/a.bin") demoStats).1.Error = none :=
  ⟨by decide,
   C1_binary_content_but_flag_false demoEnv (str "/repo") (str "/repo/a.bin") 0 3 demoStats
     [1, 0, 2] (by decide) (by decide) (by decide) (by decide) (by decide)⟩
/-- C2 (code bug): for an accepted empty file that can be stat'ed and opened, is not over
the size limit and is not a notebook, `IsBinaryFile` returns `(false, io.EOF)`, not
`(false, nil)`, and the record has empty content, `IsBinary = false` and the error `EOF`,
not a nil error: the first read of an empty file returns `0, io.EOF`, which the guard
`err != nil && n == 0` takes for a failure. -/
theorem C2_empty_file_record_carries_EOF (env : Env) (rootDir filePath : GoString)
    (maxFileSize size : Int) (stats : Stats)
    (hstat : (env.file filePath).stat = .ok size)
    (hsize : ¬ (maxFileSize > 0 ∧ size > maxFileSize))
    (hnb : IsJupyterNotebook filePath = false)
    (hdata : (env.file filePath).data = .ok []) :
    IsBinaryFile env filePath = (false, some EOF) ∧
    (processFile env rootDir maxFileSize filePath stats).1.Content = [] ∧
    (processFile env rootDir maxFileSize filePath stats).1.IsBinary = false ∧
    (processFile env rootDir maxFileSize filePath stats).1.Error = some EOF := by
  have hbin : IsBinaryFile env filePath = (false, some EOF) := by
    simp [IsBinaryFile, hdata, fileRead]
  simp [processFile, hstat, hsize, hnb, hbin]


/-- C2, at a concrete input: the empty file `/repo/empty.txt`. -/
theorem C2_witness_empty_txt :
    (demoEnv.file (str "/repo/empty.txt")).data = .ok [] ∧
    IsBinaryFile demoEnv (str "/repo/empty.txt") = (false, some EOF) ∧
    (processFile demoEnv (str "/repo") 0 (str "/repo/empty.txt") demoStats).1.Content = [] ∧
    (processFile demoEnv (str "/repo") 0 (str "/repo/empty.txt") demoStats).1.IsBinary = false ∧
    (processFile demoEnv (str "/repo") 0 (str "/repo/empty.txt") demoStats).1.Error = some EOF :=
  ⟨by decide,
   C2_empty_file_record_carries_EOF demoEnv (str "/repo") (str "/repo/empty.txt") 0 0 demoStats
     (by decide) (by decide) (by decide) (by decide)⟩

/-- C9: for a file that can be stat'ed, of size `size`, and a limit `maxFileSize`: the
record is the size-skip placeholder (content
`[File content skipped: Exceeds max size (<a> MB > <b> MB)]` with the two sizes in megabytes
to one decimal, `IsBinary = false`, no error, and one more in `NumSkippedFiles`) if and only
if `maxFileSize > 0` and `size > maxFileSize`; otherwise `NumSkippedFiles` is unchanged; and
for a file of 1024 bytes with the limit 512 the content is
`[File content skipped: Exceeds max size (0.0 MB > 0.0 MB)]`. -/
theorem C9_size_skip_iff (env : Env) (rootDir filePath : GoString)
    (maxFileSize size : Int) (stats : Stats)
    (hstat : (env.file filePath).stat = .ok size) :
    (((processFile env rootDir maxFileSize filePath stats).1.Content =
          str "[File content skipped: Exceeds max size (" ++ fmtMB size ++ str " MB > " ++
            fmtMB maxFileSize ++ str " MB)]" ∧
        (processFile env rootDir maxFileSize filePath stats).1.IsBinary = false ∧
        (processFile env rootDir maxFileSize filePath stats).1.Error = none ∧
        (processFile env rootDir maxFileSize filePath stats).2.NumSkippedFiles =
          stats.NumSkippedFiles + 1) ↔
      (maxFileSize > 0 ∧ size > maxFileSize)) ∧
    (¬ (maxFileSize > 0 ∧ size > maxFileSize) →
      (processFile env rootDir maxFileSize filePath stats).2.NumSkippedFiles =
        stats.NumSkippedFiles) ∧
    (size = 1024 → maxFileSize = 512 →
      (processFile env rootDir maxFileSize filePath stats).1.Content =
        str "[File content skipped: Exceeds max size (0.0 MB > 0.0 MB)]") := by
  have hkeep : ¬ (maxFileSize > 0 ∧ size > maxFileSize) →
      (processFile env rootDir maxFileSize filePath stats).2.NumSkippedFiles =
        stats.NumSkippedFiles := by
    intro hsize
    simp only [processFile, hstat, hsize, if_false]
    by_cases hnb : IsJupyterNotebook filePath = true
    · simp only [hnb, if_true]
      split <;> rfl
    · simp only [hnb]
      repeat' split
      all_goals rfl
  refine ⟨⟨?_, ?_⟩, hkeep, ?_⟩
  · rintro ⟨-, -, -, hcount⟩
    by_contra hsize
    rw [hkeep hsize] at hcount
    omega
  · intro hsize
    simp [processFile, hstat, hsize, skipMessage]
  · rintro rfl rfl
    have h : skipMessage 1024 512 =
        str "[File content skipped: Exceeds max size (0.0 MB > 0.0 MB)]" := by decide
    simp [processFile, hstat, h]

/-- C9, at a concrete input: the file `/repo/large.txt` of 1024 bytes with the limit 512. -/
theorem C9_witness_large_txt :
    (demoEnv.file (str "/repo/large.txt")).stat = .ok 1024 ∧
    (processFile demoEnv (str "/repo") 512 (str "/repo/large.txt") demoStats).1.Content =
      str "[File content skipped: Exceeds max size (0.0 MB > 0.0 MB)]" :=
  ⟨by decide,
   (C9_size_skip_iff demoEnv (str "/repo") (str "/repo/large.txt") 512 1024 demoStats
     (by decide)).2.2 rfl rfl⟩

/-! ## The pattern matcher -/

/-- The ancestor loop of `ShouldIncludeFile` searches the list `ancestorDirs`. -/
theorem parentMatches_eq_any (pattern : GoString) (fuel : Nat) (dir : GoString) :
    parentMatches pattern fuel dir =
      (ancestorDirs fuel dir).any (fun d => Match pattern (Base d)) := by
  induction fuel generalizing dir with
  | zero => simp [parentMatches, ancestorDirs]
  | succ n ih =>
    simp only [parentMatches, ancestorDirs]
    split
    · rw [List.any_cons, ih]
      cases Match pattern (Base dir) <;> simp
    · simp

/-- With an include pattern that matches the path or its base name, the override block
returns `true`. -/
theorem includeOverride_of_match (relativePath : GoString) (includePatterns : List GoString)
    (hinc : ∃ q ∈ includePatterns, matchesPathOrBase q relativePath = true) :
    includeOverride relativePath (Base relativePath) includePatterns = true := by
  obtain ⟨q, hq, hm⟩ := hinc
  have hlen : includePatterns.length > 0 := List.length_pos_of_mem hq
  simp only [includeOverride, hlen, if_true, List.any_eq_true]
  exact ⟨q, hq, hm⟩

/-- C3, counterexample: with the exclude pattern `build` and the include pattern `*.go`, the
exclude pattern matches the base name of the ancestor directory of `build/x.go` and the
include pattern matches its base name, yet `ShouldIncludeFile` returns `false`. -/
theorem C3_ancestor_exclusion_not_overridden :
    (∃ p ∈ [str "build"], matchesPathOrBase p (str "build/x.go") = true ∨
        matchesAncestor p (str "build/x.go") = true) ∧
    (∃ q ∈ [str "*.go"], matchesPathOrBase q (str "build/x.go") = true) ∧
    ShouldIncludeFile (str "build/x.go") [str "*.go"] [str "build"] = false := by
  decide

/-- C3, amended: when some include pattern matches the full path or the base name,
`ShouldIncludeFile` returns `true` if no exclude pattern matches the base name of an
ancestor directory, also when an exclude pattern matches the full path or the base name
(the include match overrides that exclusion); and it returns `false` if some exclude pattern
matches the base name of an ancestor directory and none matches the full path or the base
name (the include match does not override an exclusion through an ancestor). -/
theorem C3_include_overrides_path_exclusion (relativePath : GoString)
    (includePatterns excludePatterns : List GoString)
    (hinc : ∃ q ∈ includePatterns, matchesPathOrBase q relativePath = true) :
    ((∀ p ∈ excludePatterns, matchesAncestor p relativePath = false) →
      ShouldIncludeFile relativePath includePatterns excludePatterns = true) ∧
    ((∀ p ∈ excludePatterns, matchesPathOrBase p relativePath = false) →
      (∃ p ∈ excludePatterns, matchesAncestor p relativePath = true) →
      ShouldIncludeFile relativePath includePatterns excludePatterns = false) := by
  have hov := includeOverride_of_match relativePath includePatterns hinc
  constructor
  · intro hanc
    have hloop : excludeLoop relativePath (Base relativePath) includePatterns excludePatterns
        = some true ∨
        excludeLoop relativePath (Base relativePath) includePatterns excludePatterns = none := by
      induction excludePatterns with
      | nil => right; rfl
      | cons p rest ih =>
        have h2 := hanc p (List.mem_cons_self _ _)
        simp only [matchesAncestor] at h2
        simp only [excludeLoop, parentMatches_eq_any, h2, hov]
        by_cases h1 : Match p relativePath = true
        · simp [h1]
        · by_cases h3 : Match p (Base relativePath) = true
          · simp [h1, h3]
          · simp only [h1, h3, if_false, Bool.false_eq_true]
            exact ih (fun p hp => hanc p (List.mem_cons_of_mem _ hp))
    obtain ⟨q, hq, hm⟩ := hinc
    have hlen : includePatterns.length > 0 := List.length_pos_of_mem hq
    rcases hloop with h | h
    · simp [ShouldIncludeFile, h]
    · simp only [ShouldIncludeFile, h, hlen, if_true, List.any_eq_true]
      exact ⟨q, hq, hm⟩
  · intro hpath hex
    have hloop : excludeLoop relativePath (Base relativePath) includePatterns excludePatterns
        = some false := by
      induction excludePatterns with
      | nil => simp at hex
      | cons p rest ih =>
        have h1 := hpath p (List.mem_cons_self _ _)
        simp only [matchesPathOrBase, Bool.or_eq_false_iff] at h1
        simp only [excludeLoop, h1.1, h1.2, parentMatches_eq_any]
        by_cases h2 : matchesAncestor p relativePath = true
        · simp only [matchesAncestor] at h2
          simp [h2]
        · obtain ⟨p', hp', hm'⟩ := hex
          rcases List.mem_cons.1 hp' with rfl | hrest
          · exact absurd hm' h2
          · simp only [matchesAncestor] at h2
            simp only [h2, if_false, Bool.false_eq_true]
            exact ih (fun p hp => hpath p (List.mem_cons_of_mem _ hp)) ⟨p', hrest, hm'⟩
    simp [ShouldIncludeFile, hloop]

/-- C3 amended, at concrete inputs: `keep.log` is excluded by `*.log` and brought back by the
include pattern `keep.log`; `build/x.go` under the excluded directory `build` is not brought
back by `*.go`. -/
theorem C3_witness_keep_log :
    (∃ q ∈ [str "keep.log"], matchesPathOrBase q (str "keep.log") = true) ∧
    Match (str "*.log") (str "keep.log") = true ∧
    ShouldIncludeFile (str "keep.log") [str "keep.log"] [str "*.log"] = true ∧
    ShouldIncludeFile (str "build/x.go") [str "*.go"] [str "build"] = false :=
  ⟨by decide, by decide,
   (C3_include_overrides_path_exclusion (str "keep.log") [str "keep.log"] [str "*.log"]
     (by decide)).1 (by decide),
   (C3_include_overrides_path_exclusion (str "build/x.go") [str "*.go"] [str "build"]
     (by decide)).2 (by decide) (by decide)⟩

/-! ## The directory walk -/

/-- The loop over the entries of a directory never returns `SkipDir`. -/
theorem walkEntries_ne_skipDir
    (fn : GoString → Bool → Option GoError → WalkState → WalkState × Option WalkErr)
    (path : GoString) : ∀ (es : Entries) (st : WalkState),
    (walkEntries fn path es st).2 ≠ some .skipDir
  | .nil, st => by simp [walkEntries]
  | .cons d1 rest, st => by
    simp only [walkEntries]
    split
    · simp
    · simp
    · exact walkEntries_ne_skipDir fn path rest _

/-- Visiting an entry with the function of the first pass never returns `SkipDir`. -/
theorem walkDir_ne_skipDir (env : Env) (rootDir : GoString) (inc exc : List GoString)
    (path : GoString) (e : Entry) (st : WalkState) :
    (walkDir (walkFn env rootDir inc exc) path e st).2 ≠ some .skipDir := by
  cases e with
  | file name =>
    simp only [walkDir, walkFn, Abs]
    repeat' split
    all_goals simp_all
  | dir name readErr children =>
    simp only [walkDir]
    repeat' split
    all_goals first
      | exact walkEntries_ne_skipDir _ _ _ _
      | simp

mutual
/-- Every file listed under an entry has the given ancestors among its ancestors. -/
theorem filesUnder_ancestors (path : GoString) (ancestors : List GoString) :
    ∀ (e : Entry) (f : GoString × List GoString), f ∈ filesUnder path ancestors e →
      ∀ a ∈ ancestors, a ∈ f.2
  | .file _, f, hf, a, ha => by
    simp only [filesUnder, List.mem_singleton] at hf
    subst hf
    exact ha
  | .dir _ _ children, f, hf, a, ha => by
    simp only [filesUnder] at hf
    exact filesUnderAll_ancestors path (ancestors ++ [path]) children f hf a
      (List.mem_append_left _ ha)
/-- Every file listed under the entries of a directory has the given ancestors among its
ancestors. -/
theorem filesUnderAll_ancestors (path : GoString) (ancestors : List GoString) :
    ∀ (es : Entries) (f : GoString × List GoString), f ∈ filesUnderAll path ancestors es →
      ∀ a ∈ ancestors, a ∈ f.2
  | .nil, f, hf, a, ha => by simp [filesUnderAll] at hf
  | .cons e rest, f, hf, a, ha => by
    simp only [filesUnderAll, List.mem_append] at hf
    rcases hf with hf | hf
    · exact filesUnder_ancestors _ ancestors e f hf a ha
    · exact filesUnderAll_ancestors path ancestors rest f hf a ha
end

/-- The function of the first pass on a file. -/
theorem walkFn_file (env : Env) (rootDir : GoString) (inc exc : List GoString)
    (path : GoString) (st : WalkState) :
    walkFn env rootDir inc exc path false none st =
      if belowRoot rootDir path && accepted rootDir inc exc path then
        ({ st with allPaths := st.allPaths ++ [relPathOf rootDir path],
                   filePaths := st.filePaths ++ [(if IsAbs path then Clean path
                      else Join [env.cwd, path])] }, none)
      else (st, none) := by
  simp only [walkFn, belowRoot, accepted, Abs]
  by_cases h1 : relPathOf rootDir path = str "."
  · simp [h1]
  · by_cases h2 : ShouldIncludeFile (relPathOf rootDir path) inc exc = true
    · by_cases h3 : IsAbs path = true <;> simp [h1, h2, h3]
    · simp [h1, h2]

/-- The function of the first pass on a directory leaves the path lists as they are. It
returns no error when the directory is the root itself or is accepted, and `SkipDir`
otherwise. -/
theorem walkFn_dir (env : Env) (rootDir : GoString) (inc exc : List GoString)
    (path : GoString) (st : WalkState) :
    (walkFn env rootDir inc exc path true none st).1.allPaths = st.allPaths ∧
    (walkFn env rootDir inc exc path true none st).1.filePaths = st.filePaths ∧
    (walkFn env rootDir inc exc path true none st).2 =
      if !belowRoot rootDir path || accepted rootDir inc exc path then none
      else some .skipDir := by
  simp only [walkFn, belowRoot, accepted]
  by_cases h1 : relPathOf rootDir path = str "."
  · simp [h1]
  · by_cases h2 : ShouldIncludeFile (relPathOf rootDir path) inc exc = true
    · simp [h1, h2]
    · simp [h1, h2]

/-- No file under a directory that lies below the root and is not accepted is kept. -/
theorem filter_kept_of_rejected (rootDir : GoString) (inc exc : List GoString)
    (path : GoString) (ancestors : List GoString) (children : Entries)
    (hrej : (!belowRoot rootDir path || accepted rootDir inc exc path) = false) :
    (filesUnderAll path (ancestors ++ [path]) children).filter (keptFile rootDir inc exc) = [] := by
  rw [List.filter_eq_nil_iff]
  intro f hf hk
  have hmem : path ∈ f.2 :=
    filesUnderAll_ancestors path (ancestors ++ [path]) children f hf path (by simp)
  simp only [keptFile, ancestorsAccepted, Bool.and_eq_true, List.all_eq_true] at hk
  have := hk.2 path hmem
  rw [hrej] at this
  exact Bool.false_ne_true this

mutual
/-- A visit that ends without error appends to `allPaths` the relative paths of the kept
files under the entry, in order, and as many paths to `filePaths`. -/
theorem walkDir_spec (env : Env) (rootDir : GoString) (inc exc : List GoString) :
    ∀ (e : Entry) (path : GoString) (ancestors : List GoString) (st st1 : WalkState),
      ancestorsAccepted rootDir inc exc ancestors = true →
      walkDir (walkFn env rootDir inc exc) path e st = (st1, none) →
      st1.allPaths = st.allPaths ++
        ((filesUnder path ancestors e).filter (keptFile rootDir inc exc)).map
          (fun f => relPathOf rootDir f.1) ∧
      st1.filePaths.length = st.filePaths.length +
        ((filesUnder path ancestors e).filter (keptFile rootDir inc exc)).length
  | .file _, path, ancestors, st, st1, hanc, hw => by
    simp only [walkDir, walkFn_file] at hw
    simp only [filesUnder, List.filter_cons, List.filter_nil, keptFile, hanc, Bool.and_true]
    by_cases hk : (belowRoot rootDir path && accepted rootDir inc exc path) = true
    · rw [if_pos hk] at hw ⊢
      simp only [Prod.mk.injEq, and_true] at hw
      subst hw
      simp
    · rw [if_neg hk] at hw ⊢
      simp only [Prod.mk.injEq, and_true] at hw
      subst hw
      simp
  | .dir _ readErr children, path, ancestors, st, st1, hanc, hw => by
    obtain ⟨ha, hf, hsig⟩ := walkFn_dir env rootDir inc exc path st
    simp only [walkDir] at hw
    simp only [filesUnder]
    rcases hfn : walkFn env rootDir inc exc path true none st with ⟨st2, sig⟩
    rw [hfn] at hw ha hf hsig
    simp only at ha hf hsig
    by_cases hacc : (!belowRoot rootDir path || accepted rootDir inc exc path) = true
    · simp only [hacc, if_true] at hsig
      subst hsig
      have hanc2 : ancestorsAccepted rootDir inc exc (ancestors ++ [path]) = true := by
        simp only [ancestorsAccepted, List.all_append, List.all_cons, List.all_nil,
          Bool.and_true, Bool.and_eq_true] at hanc ⊢
        exact ⟨hanc, hacc⟩
      cases readErr with
      | none =>
        simp only at hw
        have := walkEntries_spec env rootDir inc exc children path (ancestors ++ [path])
          st2 st1 hanc2 hw
        rw [ha, hf] at this
        exact this
      | some e =>
        simp [walkFn] at hw
    · have hrej : (!belowRoot rootDir path || accepted rootDir inc exc path) = false := by
        simpa using hacc
      simp only [hrej, Bool.false_eq_true, if_false] at hsig
      subst hsig
      simp only [Prod.mk.injEq, and_true] at hw
      subst hw
      rw [filter_kept_of_rejected rootDir inc exc path ancestors children hrej]
      simp [ha, hf]
/-- The loop over the entries of a directory, when it ends without error. -/
theorem walkEntries_spec (env : Env) (rootDir : GoString) (inc exc : List GoString) :
    ∀ (es : Entries) (path : GoString) (ancestors : List GoString) (st st1 : WalkState),
      ancestorsAccepted rootDir inc exc ancestors = true →
      walkEntries (walkFn env rootDir inc exc) path es st = (st1, none) →
      st1.allPaths = st.allPaths ++
        ((filesUnderAll path ancestors es).filter (keptFile rootDir inc exc)).map
          (fun f => relPathOf rootDir f.1) ∧
      st1.filePaths.length = st.filePaths.length +
        ((filesUnderAll path ancestors es).filter (keptFile rootDir inc exc)).length
  | .nil, path, ancestors, st, st1, hanc, hw => by
    simp only [walkEntries, Prod.mk.injEq, and_true] at hw
    subst hw
    simp [filesUnderAll]
  | .cons d1 rest, path, ancestors, st, st1, hanc, hw => by
    simp only [walkEntries] at hw
    have hns := walkDir_ne_skipDir env rootDir inc exc (Join [path, d1.name]) d1 st
    rcases hd : walkDir (walkFn env rootDir inc exc) (Join [path, d1.name]) d1 st with ⟨st2, sig⟩
    rw [hd] at hw hns
    cases sig with
    | some err =>
      cases err with
      | skipDir => exact absurd rfl hns
      | other e => simp at hw
    | none =>
      simp only at hw
      obtain ⟨h1, h2⟩ := walkDir_spec env rootDir inc exc d1 (Join [path, d1.name]) ancestors
        st st2 hanc hd
      obtain ⟨h3, h4⟩ := walkEntries_spec env rootDir inc exc rest path ancestors st2 st1 hanc hw
      simp only [filesUnderAll, List.filter_append, List.map_append, List.length_append]
      rw [h3, h1, h4, h2]
      simp [Nat.add_assoc]
end

/-- The root-relative path of the root is `.`. -/
theorem relPathOf_self (rootDir : GoString) : relPathOf rootDir rootDir = str "." := by
  simp [relPathOf, Rel, ToSlash]

/-- A first pass that ends without error has collected the relative paths of the kept
files, in order, and one absolute path for each. -/
theorem firstPass_spec (env : Env) (root : Entry) (rootDir : GoString)
    (inc exc : List GoString) (st : WalkState)
    (hw : firstPass env (.ok root) rootDir inc exc = (st, none)) :
    st.allPaths = ((filesBelowRoot rootDir root).filter (keptFile rootDir inc exc)).map
      (fun f => relPathOf rootDir f.1) ∧
    st.filePaths.length = st.allPaths.length := by
  have hroot : belowRoot rootDir rootDir = false := by
    simp [belowRoot, relPathOf_self]
  simp only [firstPass, WalkDir] at hw
  cases root with
  | file name =>
    simp only [walkDir, walkFn_file, hroot, Bool.false_and, Bool.false_eq_true, if_false,
      Prod.mk.injEq, and_true] at hw
    subst hw
    simp [filesBelowRoot]
  | dir name readErr children =>
    simp only [filesBelowRoot]
    obtain ⟨ha, hf, hsig⟩ := walkFn_dir env rootDir inc exc rootDir
      { allPaths := [], filePaths := [],
        stats := { NumFilesProcessed := 0, NumDirsProcessed := 0, NumBinaryFiles := 0,
                   NumSkippedFiles := 0, TotalContentBytes := 0, Source := rootDir,
                   Branch := [], AllPaths := [] } }
    simp only [walkDir] at hw
    rcases hfn : walkFn env rootDir inc exc rootDir true none
      { allPaths := [], filePaths := [],
        stats := { NumFilesProcessed := 0, NumDirsProcessed := 0, NumBinaryFiles := 0,
                   NumSkippedFiles := 0, TotalContentBytes := 0, Source := rootDir,
                   Branch := [], AllPaths := [] } } with ⟨st2, sig⟩
    rw [hfn] at hw ha hf hsig
    simp only [hroot, Bool.not_false, Bool.true_or, if_true] at ha hf hsig
    subst hsig
    cases readErr with
    | some e => simp [walkFn] at hw
    | none =>
      simp only at hw
      rcases hwe : walkEntries (walkFn env rootDir inc exc) rootDir children st2 with ⟨st3, sig3⟩
      have hns := walkEntries_ne_skipDir (walkFn env rootDir inc exc) rootDir children st2
      rw [hwe] at hw hns
      cases sig3 with
      | some err =>
        cases err with
        | skipDir => exact absurd rfl hns
        | other e => simp at hw
      | none =>
        simp only [Prod.mk.injEq, and_true] at hw
        subst hw
        obtain ⟨h1, h2⟩ := walkEntries_spec env rootDir inc exc children rootDir [] st2 st3
          (by simp [ancestorsAccepted]) hwe
        rw [ha] at h1
        rw [hf] at h2
        simp only [List.nil_append, List.length_nil, Nat.zero_add] at h1 h2
        rw [h1, h2, List.length_map]
        exact ⟨rfl, rfl⟩

/-- Receiving results never changes the length of `filesData`. -/
theorem collect_length (env : Env) (rootDir : GoString) (maxFileSize : Int)
    (filePaths : List GoString) (order : List Nat) (acc : List FileInfo × Stats) :
    (order.foldl (collectStep env rootDir maxFileSize filePaths) acc).1.length = acc.1.length := by
  induction order generalizing acc with
  | nil => rfl
  | cons index rest ih =>
    rw [List.foldl_cons, ih]
    simp only [collectStep]
    split <;> simp

/-- C4: after a successful run, a path is in `stats.AllPaths` if and only if it is the
root-relative path of a file of the tree, other than the root itself, such that
`ShouldIncludeFile` accepts that path and the path of every ancestor directory below the
root; there is one record per path; and with the include pattern `*.go` and the exclude
pattern `build` the path `build/x.go` is never accepted. -/
theorem C4_allPaths_iff_path_and_ancestors_accepted (env : Env) (root : Entry)
    (order : List Nat) (rootDir : GoString) (maxFileSize : Int)
    (includePatterns excludePatterns : List GoString) (records : List FileInfo) (stats : Stats)
    (hrun : ProcessLocalDirectoryWithPatterns env (.ok root) order rootDir maxFileSize
      includePatterns excludePatterns = .ok (records, stats)) :
    (∀ p : GoString, p ∈ stats.AllPaths ↔
      ∃ f ∈ filesBelowRoot rootDir root, relPathOf rootDir f.1 = p ∧ p ≠ str "." ∧
        ShouldIncludeFile p includePatterns excludePatterns = true ∧
        ∀ a ∈ f.2, relPathOf rootDir a ≠ str "." →
          ShouldIncludeFile (relPathOf rootDir a) includePatterns excludePatterns = true) ∧
    records.length = stats.AllPaths.length ∧
    (includePatterns = [str "*.go"] → excludePatterns = [str "build"] →
      str "build/x.go" ∉ stats.AllPaths) := by
  simp only [ProcessLocalDirectoryWithPatterns] at hrun
  rcases hfp : firstPass env (.ok root) rootDir includePatterns excludePatterns with ⟨st, err⟩
  rw [hfp] at hrun
  cases err with
  | some e => simp at hrun
  | none =>
    obtain ⟨hall, hlen⟩ := firstPass_spec env root rootDir includePatterns excludePatterns st hfp
    simp only [Except.ok.injEq, Prod.mk.injEq] at hrun
    obtain ⟨hrec, hstats⟩ := hrun
    have hpaths : stats.AllPaths = st.allPaths := by rw [← hstats]
    have hiff : ∀ p : GoString, p ∈ stats.AllPaths ↔
        ∃ f ∈ filesBelowRoot rootDir root, relPathOf rootDir f.1 = p ∧ p ≠ str "." ∧
          ShouldIncludeFile p includePatterns excludePatterns = true ∧
          ∀ a ∈ f.2, relPathOf rootDir a ≠ str "." →
            ShouldIncludeFile (relPathOf rootDir a) includePatterns excludePatterns = true := by
      intro p
      rw [hpaths, hall, List.mem_map]
      constructor
      · rintro ⟨f, hf, rfl⟩
        rw [List.mem_filter] at hf
        obtain ⟨hmem, hk⟩ := hf
        simp only [keptFile, ancestorsAccepted, belowRoot, accepted, Bool.and_eq_true,
          decide_eq_true_eq, List.all_eq_true, Bool.or_eq_true, Bool.not_eq_true',
          decide_eq_false_iff_not, not_not] at hk
        refine ⟨f, hmem, rfl, hk.1.1, hk.1.2, ?_⟩
        intro a ha hne
        rcases hk.2 a ha with h | h
        · exact absurd h hne
        · exact h
      · rintro ⟨f, hmem, rfl, hne, hacc, hanc⟩
        refine ⟨f, ?_, rfl⟩
        rw [List.mem_filter]
        refine ⟨hmem, ?_⟩
        simp only [keptFile, ancestorsAccepted, belowRoot, accepted, Bool.and_eq_true,
          decide_eq_true_eq, List.all_eq_true, Bool.or_eq_true, Bool.not_eq_true',
          decide_eq_false_iff_not, not_not]
        refine ⟨⟨hne, hacc⟩, ?_⟩
        intro a ha
        by_cases h : relPathOf rootDir a = str "."
        · left; exact h
        · right; exact hanc a ha h
    refine ⟨hiff, ?_, ?_⟩
    · rw [← hrec, hpaths, collect_length, List.length_replicate, hlen]
    · rintro rfl rfl hmem
      obtain ⟨f, -, -, -, hacc, -⟩ := (hiff _).1 hmem
      revert hacc
      decide

/-- C4, at a concrete input: the tree with `build/x.go` and `main.go` under `/repo`, the
include pattern `*.go` and the exclude pattern `build`. -/
theorem C4_witness_build_pruned :
    ProcessLocalDirectoryWithPatterns demoEnv (.ok demoTree) [0] (str "/repo") 0
        [str "*.go"] [str "build"] =
      .ok ([{ RelativePath := str "main.go", AbsolutePath := str "/repo/main.go",
              Content := str "package main\n", IsBinary := false, Error := none }],
           { demoStats with NumFilesProcessed := 1, NumDirsProcessed := 1,
                            TotalContentBytes := 13, AllPaths := [str "main.go"] }) ∧
    str "build/x.go" ∉ [str "main.go"] :=
  have hrun : ProcessLocalDirectoryWithPatterns demoEnv (.ok demoTree) [0] (str "/repo") 0
        [str "*.go"] [str "build"] =
      .ok ([{ RelativePath := str "main.go", AbsolutePath := str "/repo/main.go",
              Content := str "package main\n", IsBinary := false, Error := none }],
           { demoStats with NumFilesProcessed := 1, NumDirsProcessed := 1,
                            TotalContentBytes := 13, AllPaths := [str "main.go"] }) := by
    decide
  ⟨hrun,
   (C4_allPaths_iff_path_and_ancestors_accepted demoEnv demoTree [0] (str "/repo") 0
     [str "*.go"] [str "build"] _ _ hrun).2.2 rfl rfl⟩

/-! ## The concurrent second pass -/

/-- The record a goroutine sends does not depend on the counters it finds. -/
theorem processFile_record_indep (env : Env) (rootDir : GoString) (maxFileSize : Int)
    (filePath : GoString) (s1 s2 : Stats) :
    (processFile env rootDir maxFileSize filePath s1).1 =
      (processFile env rootDir maxFileSize filePath s2).1 := by
  simp only [processFile]
  split
  · rfl
  · simp only [FileInfo.mk.injEq, true_and, and_true]
    repeat' split
    all_goals exact ⟨rfl, rfl⟩

/-- After the results of the goroutines listed in `order` have been received, the slot of
every listed index holds the record of the file of that index, and every other slot is
unchanged. -/
theorem collect_getElem (env : Env) (rootDir : GoString) (maxFileSize : Int)
    (filePaths : List GoString) (s0 : Stats) (order : List Nat) (acc : List FileInfo × Stats)
    (hlen : acc.1.length = filePaths.length) (i : Nat) (hi : i < filePaths.length) :
    (order.foldl (collectStep env rootDir maxFileSize filePaths) acc).1[i]? =
      if i ∈ order then
        filePaths[i]?.map (fun filePath => (processFile env rootDir maxFileSize filePath s0).1)
      else acc.1[i]? := by
  induction order generalizing acc with
  | nil => simp
  | cons index rest ih =>
    rw [List.foldl_cons]
    have hlen1 : (collectStep env rootDir maxFileSize filePaths acc index).1.length
        = filePaths.length := by
      simp only [collectStep]
      split <;> simp [hlen]
    rw [ih _ hlen1]
    by_cases hrest : i ∈ rest
    · simp [hrest]
    · simp only [hrest, if_false, List.mem_cons, or_false]
      by_cases hidx : i = index
      · subst hidx
        have hget : filePaths[i]? = some filePaths[i] := List.getElem?_eq_getElem hi
        simp only [collectStep, hget, if_true, Option.map_some']
        rw [List.getElem?_set_self (by rw [hlen]; exact hi)]
        rw [processFile_record_indep env rootDir maxFileSize filePaths[i] acc.2 s0]
      · simp only [hidx, if_false]
        simp only [collectStep]
        split
        · rfl
        · simp only
          rw [List.getElem?_set_ne (fun h => hidx h.symm)]

/-- C5: when the first pass succeeds with the list `filePaths` of accepted files, then for
every order in which the goroutines deliver their index-tagged results (every permutation
of the indices), the returned slice is the list of the records of the files of `filePaths`,
in the order of `filePaths`: one element per accepted file, the i-th being the record of
the i-th file. -/
theorem C5_records_in_discovery_order (env : Env) (tree : Except GoError Entry)
    (order : List Nat) (rootDir : GoString) (maxFileSize : Int)
    (includePatterns excludePatterns : List GoString) (st : WalkState)
    (hwalk : firstPass env tree rootDir includePatterns excludePatterns = (st, none))
    (hperm : order.Perm (List.range st.filePaths.length)) :
    ∃ stats : Stats,
      ProcessLocalDirectoryWithPatterns env tree order rootDir maxFileSize
          includePatterns excludePatterns =
        .ok (st.filePaths.map
              (fun filePath => (processFile env rootDir maxFileSize filePath st.stats).1),
            stats) := by
  have hrec : (List.foldl (collectStep env rootDir maxFileSize st.filePaths)
      (List.replicate st.filePaths.length FileInfo.zero, st.stats) order).1 =
      st.filePaths.map
        (fun filePath => (processFile env rootDir maxFileSize filePath st.stats).1) := by
    apply List.ext_getElem?
    intro i
    by_cases hi : i < st.filePaths.length
    · rw [collect_getElem env rootDir maxFileSize st.filePaths st.stats order _ (by simp) i hi]
      have hmem : i ∈ order := (hperm.mem_iff).2 (List.mem_range.2 hi)
      simp [hmem]
    · have h1 : (List.foldl (collectStep env rootDir maxFileSize st.filePaths)
          (List.replicate st.filePaths.length FileInfo.zero, st.stats) order).1.length
          = st.filePaths.length := by
        rw [collect_length]; simp
      rw [List.getElem?_eq_none (by omega), List.getElem?_eq_none (by simp; omega)]
  simp only [ProcessLocalDirectoryWithPatterns, hwalk]
  rw [hrec]
  exact ⟨_, rfl⟩

/-- C5, at a concrete input: two accepted files whose results arrive in the order 1, 0. -/
theorem C5_witness_reversed_arrival :
    [1, 0].Perm (List.range 2) ∧
    ∃ stats : Stats,
      ProcessLocalDirectoryWithPatterns demoEnv (.ok demoTree) [1, 0] (str "/repo") 0 [] [] =
        .ok ([str "/repo/build/x.go", str "/repo/main.go"].map
              (fun filePath => (processFile demoEnv (str "/repo") 0 filePath
                { demoStats with NumDirsProcessed := 1 }).1),
            stats) :=
  ⟨by decide,
   C5_records_in_discovery_order demoEnv (.ok demoTree) [1, 0] (str "/repo") 0 [] []
     { allPaths := [str "build/x.go", str "main.go"],
       filePaths := [str "/repo/build/x.go", str "/repo/main.go"],
       stats := { demoStats with NumDirsProcessed := 1 } }
     (by decide) (by decide)⟩

/-! ## The order of Go strings and the sort -/

/-- The order of Go strings is asymmetric. -/
theorem strLess_asymm : ∀ (a b : GoString), strLess a b = true → strLess b a = false
  | [], [], h => by simp [strLess] at h
  | [], _ :: _, _ => by simp [strLess]
  | _ :: _, [], h => by simp [strLess] at h
  | x :: as, y :: bs, h => by
    simp only [strLess, Bool.or_eq_true, Bool.and_eq_true, decide_eq_true_eq] at h
    simp only [strLess, Bool.or_eq_false_iff, Bool.and_eq_false_imp, decide_eq_false_iff_not,
      decide_eq_true_eq]
    rcases h with h | ⟨rfl, h⟩
    · refine ⟨by omega, ?_⟩
      rintro rfl
      omega
    · exact ⟨by omega, fun _ => strLess_asymm as bs h⟩

/-- The order of Go strings is transitive. -/
theorem strLess_trans : ∀ (a b c : GoString), strLess a b = true → strLess b c = true →
    strLess a c = true
  | [], [], _, h, _ => by simp [strLess] at h
  | [], _ :: _, [], _, h => by simp [strLess] at h
  | [], _ :: _, _ :: _, _, _ => by simp [strLess]
  | _ :: _, [], _, h, _ => by simp [strLess] at h
  | _ :: _, _ :: _, [], _, h => by simp [strLess] at h
  | x :: as, y :: bs, z :: cs, h1, h2 => by
    simp only [strLess, Bool.or_eq_true, Bool.and_eq_true, decide_eq_true_eq] at h1 h2 ⊢
    rcases h1 with h1 | ⟨rfl, h1⟩
    · rcases h2 with h2 | ⟨rfl, h2⟩
      · left; omega
      · left; exact h1
    · rcases h2 with h2 | ⟨rfl, h2⟩
      · left; exact h2
      · right; exact ⟨rfl, strLess_trans as bs cs h1 h2⟩

/-- Inserting an element keeps the elements. -/
theorem orderedInsert_perm {α : Type} (lt : α → α → Bool) (a : α) (l : List α) :
    (orderedInsert lt a l).Perm (a :: l) := by
  induction l with
  | nil => exact List.Perm.refl _
  | cons b l ih =>
    simp only [orderedInsert]
    split
    · exact List.Perm.refl _
    · exact (List.Perm.cons b ih).trans (List.Perm.swap a b l)

/-- Sorting keeps the elements. -/
theorem sortSlice_perm {α : Type} (lt : α → α → Bool) (l : List α) :
    (sortSlice lt l).Perm l := by
  induction l with
  | nil => exact List.Perm.refl _
  | cons a l ih =>
    simp only [sortSlice]
    exact (orderedInsert_perm lt a _).trans (List.Perm.cons a ih)

/-- Inserting into an ascending list gives an ascending list. -/
theorem orderedInsert_sorted {α : Type} (lt : α → α → Bool)
    (hasymm : ∀ a b, lt a b = true → lt b a = false)
    (htrans : ∀ a b c, lt a b = true → lt b c = true → lt a c = true)
    (a : α) (l : List α) (hl : l.Pairwise (fun x y => lt y x = false)) :
    (orderedInsert lt a l).Pairwise (fun x y => lt y x = false) := by
  induction l with
  | nil => simp [orderedInsert]
  | cons b l ih =>
    rw [List.pairwise_cons] at hl
    simp only [orderedInsert]
    split
    · rename_i hab
      rw [List.pairwise_cons]
      refine ⟨?_, List.pairwise_cons.2 hl⟩
      intro c hc
      rcases List.mem_cons.1 hc with rfl | hc
      · exact hasymm _ _ hab
      · cases hca : lt c a with
        | false => rfl
        | true =>
          have := htrans c a b hca hab
          rw [hl.1 c hc] at this
          exact absurd this (by simp)
    · rename_i hab
      rw [List.pairwise_cons]
      refine ⟨?_, ih hl.2⟩
      intro c hc
      rcases List.mem_cons.1 ((orderedInsert_perm lt a l).subset hc) with rfl | hc
      · simpa using hab
      · exact hl.1 c hc

/-- Sorting gives an ascending list. -/
theorem sortSlice_sorted {α : Type} (lt : α → α → Bool)
    (hasymm : ∀ a b, lt a b = true → lt b a = false)
    (htrans : ∀ a b c, lt a b = true → lt b c = true → lt a c = true) (l : List α) :
    (sortSlice lt l).Pairwise (fun x y => lt y x = false) := by
  induction l with
  | nil => simp [sortSlice]
  | cons a l ih =>
    simp only [sortSlice]
    exact orderedInsert_sorted lt hasymm htrans a _ ih

/-! ## The digest -/

/-- When no write fails, all the data is written, in order, and no error is returned. -/
theorem performWrites_good : ∀ (writes : List (GoString × GoString)) (n : Nat)
    (written : GoString),
    performWrites Output.good n writes written =
      (written ++ (writes.map Prod.fst).flatten, none)
  | [], n, written => by simp [performWrites]
  | (data, msg) :: rest, n, written => by
    simp only [performWrites, Output.good]
    have := performWrites_good rest (n + 1) (written ++ data)
    simp only [Output.good] at this
    rw [this]
    simp

/-- The write calls for a list of records carry the blocks of the records. -/
theorem flatMap_fileWrites (files : List FileInfo) :
    ((files.flatMap fileWrites).map Prod.fst).flatten = (files.map fileBlock).flatten := by
  induction files with
  | nil => rfl
  | cons f rest ih =>
    simp only [List.flatMap_cons, List.map_append, List.flatten_append, List.map_cons,
      List.flatten_cons, ih, fileBlock]

/-- The bytes of a digest written without an output error: the summary, the tree section,
then the blocks of the records of `digestFiles`, in that order. -/
theorem WriteDigest_good (now : GoString) (filesData : List FileInfo) (stats : Stats) :
    WriteDigest Output.good now filesData stats =
      (GenerateSummaryString now stats ++ treeSection filesData stats ++
        ((digestFiles filesData).map fileBlock).flatten, none) := by
  simp only [WriteDigest, Output.good]
  have := performWrites_good
    ([(GenerateSummaryString now stats, str "failed to write summary")] ++
      treeWrites filesData stats ++ (digestFiles filesData).flatMap fileWrites) 0 []
  simp only [Output.good] at this
  rw [this]
  simp only [List.map_append, List.flatten_append, flatMap_fileWrites, treeSection,
    List.nil_append, List.map_cons, List.map_nil, List.flatten_cons, List.flatten_nil,
    List.append_nil]

/-- C6: the FILE blocks of a digest written without an output error are the blocks of two
lists of records, one after the other: first the error-free records whose base name,
lower-cased, starts with `readme`, in ascending order of `RelativePath`, then the other
error-free records, in ascending order of `RelativePath`. `README.md` is in the first
group, `test.txt` and `zebra.txt` are in the second. -/
theorem C6_readme_blocks_first_each_group_ascending (now : GoString)
    (filesData : List FileInfo) (stats : Stats) :
    ∃ readmes others : List FileInfo,
      (WriteDigest Output.good now filesData stats).1 =
        GenerateSummaryString now stats ++ treeSection filesData stats ++
          ((readmes ++ others).map fileBlock).flatten ∧
      readmes.Perm (filesData.filter (fun r => decide (r.Error = none) && isReadmeRecord r)) ∧
      others.Perm (filesData.filter (fun r => decide (r.Error = none) && !isReadmeRecord r)) ∧
      readmes.Pairwise pathLE ∧ others.Pairwise pathLE ∧
      isReadmeRecord { FileInfo.zero with RelativePath := str "README.md" } = true ∧
      isReadmeRecord { FileInfo.zero with RelativePath := str "test.txt" } = false ∧
      isReadmeRecord { FileInfo.zero with RelativePath := str "zebra.txt" } = false := by
  have hasymm : ∀ a b : FileInfo, strLess a.RelativePath b.RelativePath = true →
      strLess b.RelativePath a.RelativePath = false :=
    fun a b => strLess_asymm _ _
  have htrans : ∀ a b c : FileInfo, strLess a.RelativePath b.RelativePath = true →
      strLess b.RelativePath c.RelativePath = true →
      strLess a.RelativePath c.RelativePath = true :=
    fun a b c => strLess_trans _ _ _
  refine ⟨sortSlice (fun a b => strLess a.RelativePath b.RelativePath)
      ((filesData.filter (fun r => r.Error = none)).filter
        (fun r => IsReadmeFile (Base r.RelativePath))),
    sortSlice (fun a b => strLess a.RelativePath b.RelativePath)
      ((filesData.filter (fun r => r.Error = none)).filter
        (fun r => !IsReadmeFile (Base r.RelativePath))), ?_, ?_, ?_, ?_, ?_, ?_, ?_, ?_⟩
  · rw [WriteDigest_good]
    rfl
  · refine (sortSlice_perm _ _).trans ?_
    rw [List.filter_filter]
    simp only [isReadmeRecord, Bool.and_comm]
    exact List.Perm.refl _
  · refine (sortSlice_perm _ _).trans ?_
    rw [List.filter_filter]
    simp only [isReadmeRecord, Bool.and_comm]
    exact List.Perm.refl _
  · exact sortSlice_sorted _ hasymm htrans _
  · exact sortSlice_sorted _ hasymm htrans _
  · decide
  · decide
  · decide

/-- C7: a digest whose output file can be created and written is written without error
whatever records carry an error; its FILE blocks are those of the records of `digestFiles`,
which are the records without error, each once, and no record with an error. -/
theorem C7_one_block_per_error_free_record (now : GoString) (filesData : List FileInfo)
    (stats : Stats) :
    (WriteDigest Output.good now filesData stats).2 = none ∧
    (WriteDigest Output.good now filesData stats).1 =
      GenerateSummaryString now stats ++ treeSection filesData stats ++
        ((digestFiles filesData).map fileBlock).flatten ∧
    (digestFiles filesData).Perm (filesData.filter (fun r => r.Error = none)) ∧
    ∀ r ∈ filesData, r.Error ≠ none → r ∉ digestFiles filesData := by
  have hperm : (digestFiles filesData).Perm (filesData.filter (fun r => r.Error = none)) := by
    simp only [digestFiles]
    refine ((sortSlice_perm _ _).append (sortSlice_perm _ _)).trans ?_
    exact List.filter_append_perm _ _
  refine ⟨by rw [WriteDigest_good], by rw [WriteDigest_good], hperm, ?_⟩
  intro r _ herr hmem
  have := hperm.subset hmem
  rw [List.mem_filter] at this
  exact herr (by simpa using this.2)

/-- C8: for every record `r` without error, the digest holds, between the blocks of the
records before and after it, exactly these bytes: a line of 48 `=`, the line `FILE: ` followed
by `r.RelativePath`, the same line of 48 `=`, `r.Content` as it is, and two newlines. -/
theorem C8_file_block_bytes (now : GoString) (filesData : List FileInfo) (stats : Stats)
    (r : FileInfo) (hmem : r ∈ filesData) (herr : r.Error = none) :
    ∃ before after : List FileInfo,
      digestFiles filesData = before ++ r :: after ∧
      (WriteDigest Output.good now filesData stats).1 =
        GenerateSummaryString now stats ++ treeSection filesData stats ++
          (before.map fileBlock).flatten ++
          (List.replicate 48 0x3D ++ [0x0A] ++ str "FILE: " ++ r.RelativePath ++ [0x0A] ++
            List.replicate 48 0x3D ++ [0x0A] ++ r.Content ++ [0x0A, 0x0A]) ++
          (after.map fileBlock).flatten := by
  have hperm : (digestFiles filesData).Perm (filesData.filter (fun r => r.Error = none)) := by
    simp only [digestFiles]
    refine ((sortSlice_perm _ _).append (sortSlice_perm _ _)).trans ?_
    exact List.filter_append_perm _ _
  have hin : r ∈ digestFiles filesData :=
    hperm.symm.subset (List.mem_filter.2 ⟨hmem, by simp [herr]⟩)
  obtain ⟨before, after, hsplit⟩ := List.append_of_mem hin
  refine ⟨before, after, hsplit, ?_⟩
  have hblock : fileBlock r =
      List.replicate 48 0x3D ++ [0x0A] ++ str "FILE: " ++ r.RelativePath ++ [0x0A] ++
        List.replicate 48 0x3D ++ [0x0A] ++ r.Content ++ [0x0A, 0x0A] := by
    have h1 : FILE_SEPARATOR_START = List.replicate 48 0x3D := by decide
    have h2 : FILE_SEPARATOR_END = List.replicate 48 0x3D := by decide
    have h3 : str "\n" = [0x0A] := by decide
    have h4 : str "\n\n" = [0x0A, 0x0A] := by decide
    simp only [fileBlock, fileWrites, h1, h2, h3, h4, List.map_cons, List.map_nil,
      List.flatten_cons, List.flatten_nil, List.append_nil, List.append_assoc]
  rw [WriteDigest_good, hsplit]
  simp only [List.map_append, List.map_cons, List.flatten_append, List.flatten_cons, hblock,
    List.append_assoc]

/-- C8, at a concrete input: the records `zebra.txt` and `README.md`, and the block of
`zebra.txt`. -/
theorem C8_witness_zebra_block :
    ∃ before after : List FileInfo,
      digestFiles
          [{ FileInfo.zero with RelativePath := str "zebra.txt", Content := str "stripes" },
           { FileInfo.zero with RelativePath := str "README.md", Content := str "# hi" }] =
        before ++ { FileInfo.zero with RelativePath := str "zebra.txt",
                                       Content := str "stripes" } :: after ∧
      (WriteDigest Output.good (str "2024-01-01 00:00:00")
          [{ FileInfo.zero with RelativePath := str "zebra.txt", Content := str "stripes" },
           { FileInfo.zero with RelativePath := str "README.md", Content := str "# hi" }]
          demoStats).1 =
        GenerateSummaryString (str "2024-01-01 00:00:00") demoStats ++
          treeSection
            [{ FileInfo.zero with RelativePath := str "zebra.txt", Content := str "stripes" },
             { FileInfo.zero with RelativePath := str "README.md", Content := str "# hi" }]
            demoStats ++
          (before.map fileBlock).flatten ++
          (List.replicate 48 0x3D ++ [0x0A] ++ str "FILE: " ++ str "zebra.txt" ++ [0x0A] ++
            List.replicate 48 0x3D ++ [0x0A] ++ str "stripes" ++ [0x0A, 0x0A]) ++
          (after.map fileBlock).flatten :=
  C8_file_block_bytes (str "2024-01-01 00:00:00")
    [{ FileInfo.zero with RelativePath := str "zebra.txt", Content := str "stripes" },
     { FileInfo.zero with RelativePath := str "README.md", Content := str "# hi" }]
    demoStats
    { FileInfo.zero with RelativePath := str "zebra.txt", Content := str "stripes" }
    (by decide) (by decide)

/-! ## Notebooks -/

/-- The text of a cell is empty or ends with a newline. -/
theorem cellText_ends_newline (i : Nat) (cell : Cell) :
    cellText i cell = [] ∨ ∃ y, cellText i cell = y ++ [0x0A] := by
  have h1 : str ")\n\n" = str ")\n" ++ [0x0A] := by decide
  have h2 : str "\n" = [0x0A] := by decide
  simp only [cellText]
  split
  · right
    split
    · refine ⟨str "## Cell " ++ itoa (i + 1) ++ str " (" ++ cell.CellType ++ str ")\n\n" ++
        (cell.Source.flatten ++
          (if !HasSuffix cell.Source.flatten (str "\n") then str "\n" else [])), ?_⟩
      simp only [h2, List.append_assoc]
    · refine ⟨str "## Cell " ++ itoa (i + 1) ++ str " (" ++ cell.CellType ++ str ")\n", ?_⟩
      simp only [h1, List.append_nil, List.append_assoc]
  · left; rfl

/-- The text of a kept cell starts with its header line. -/
theorem cellText_header (i : Nat) (cell : Cell)
    (htype : cell.CellType = str "code" ∨ cell.CellType = str "markdown" ∨
      cell.CellType = str "raw") :
    ∃ z, cellText i cell =
      str "## Cell " ++ itoa (i + 1) ++ str " (" ++ cell.CellType ++ str ")\n" ++ z := by
  have h1 : str ")\n\n" = str ")\n" ++ [0x0A] := by decide
  simp only [cellText, htype, if_true, h1]
  refine ⟨[0x0A] ++ (if cell.Source.length > 0 then
      cell.Source.flatten ++
        (if !HasSuffix cell.Source.flatten (str "\n") then str "\n" else []) ++ str "\n"
    else []), ?_⟩
  simp only [List.append_assoc]

/-- After a text that ends with a newline, the cell loop writes the header of every kept
cell at the start of a line, numbered by the position of the cell. -/
theorem renderCells_header : ∀ (cells : List Cell) (k i : Nat) (cell : Cell) (x : GoString),
    cells[i]? = some cell →
    (cell.CellType = str "code" ∨ cell.CellType = str "markdown" ∨ cell.CellType = str "raw") →
    (0x0A :: (str "## Cell " ++ itoa (k + i + 1) ++ str " (" ++ cell.CellType ++ str ")\n"))
      <:+: (x ++ [0x0A] ++ renderCells k cells)
  | [], _, _, _, _, h, _ => by simp at h
  | c :: rest, k, 0, cell, x, h, htype => by
    simp only [List.getElem?_cons_zero, Option.some.injEq] at h
    subst h
    obtain ⟨z, hz⟩ := cellText_header k c htype
    refine ⟨x, z ++ renderCells (k + 1) rest, ?_⟩
    simp only [renderCells, hz, Nat.add_zero, List.append_assoc, List.cons_append,
      List.nil_append]
  | c :: rest, k, j + 1, cell, x, h, htype => by
    simp only [List.getElem?_cons_succ] at h
    simp only [renderCells]
    have hk : k + (j + 1) + 1 = k + 1 + j + 1 := by omega
    rw [hk]
    rcases cellText_ends_newline k c with he | ⟨y, hy⟩
    · rw [he, List.nil_append]
      exact renderCells_header rest (k + 1) j cell x h htype
    · have := renderCells_header rest (k + 1) j cell (x ++ [0x0A] ++ y) h htype
      rw [hy]
      simpa only [List.append_assoc] using this

/-- C10: when the notebook file can be read and decoded, then for every index `i` of the
cell array whose cell has the type `code`, `markdown` or `raw`, `ParseNotebook` succeeds and
its output contains the line `## Cell <i+1> (<type>)`: the number is the position of the cell
in the whole array, whatever the types of the cells before it. -/
theorem C10_cell_header_numbered_by_position (env : Env) (filePath data : GoString)
    (notebook : Notebook) (i : Nat) (cell : Cell)
    (hdata : (env.file filePath).data = .ok data)
    (hjson : env.unmarshal data = .ok notebook)
    (hcell : notebook.Cells[i]? = some cell)
    (htype : cell.CellType = str "code" ∨ cell.CellType = str "markdown" ∨
      cell.CellType = str "raw") :
    (ParseNotebook env filePath).2 = none ∧
    (str "\n## Cell " ++ itoa (i + 1) ++ str " (" ++ cell.CellType ++ str ")\n")
      <:+: (ParseNotebook env filePath).1 := by
  have h1 : str "# Jupyter Notebook Content\n\n" = str "# Jupyter Notebook Content\n" ++ [0x0A] := by
    decide
  have h2 : str "\n## Cell " = 0x0A :: str "## Cell " := by decide
  simp only [ParseNotebook, hdata, hjson, true_and]
  have := renderCells_header notebook.Cells 0 i cell (str "# Jupyter Notebook Content\n")
    hcell htype
  rw [h1, h2]
  simpa only [Nat.zero_add, List.cons_append] using this

/-- C10, at a concrete input: a notebook whose second cell is not kept and whose third cell
is a code cell, numbered 3. -/
theorem C10_witness_third_cell :
    demoNotebook.Cells[2]? = some { CellType := str "code", Source := [str "x = 42"] } ∧
    (str "\n## Cell " ++ itoa (2 + 1) ++ str " (" ++ str "code" ++ str ")\n")
      <:+: (ParseNotebook demoEnv (str "/repo/nb.ipynb")).1 :=
  ⟨by decide,
   (C10_cell_header_numbered_by_position demoEnv (str "/repo/nb.ipynb") demoNotebookBytes
     demoNotebook 2 { CellType := str "code", Source := [str "x = 42"] }
     (by decide) (by decide) (by decide) (by decide)).2⟩

/-- The cell loop writes, for every cell with a non-empty source list, the text the
specification gives, and for a kept cell with an empty source list the header only. -/
theorem renderCells_eq_sourceCellsText : ∀ (cells : List Cell) (k : Nat),
    renderCells k cells = sourceCellsText (k + 1) cells
  | [], _ => rfl
  | cell :: rest, k => by
    simp only [renderCells, sourceCellsText, renderCells_eq_sourceCellsText rest (k + 1)]
    congr 1
    by_cases hk : cell.CellType = str "code" ∨ cell.CellType = str "markdown" ∨
        cell.CellType = str "raw"
    · by_cases hs : cell.Source = []
      · simp [cellText, keptCell, hk, hs]
      · have hlen : cell.Source.length > 0 := List.length_pos.2 hs
        simp only [cellText, keptCell, hk, hs, hlen, specCellText, if_true, if_false,
          decide_True]
        cases HasSuffix cell.Source.flatten (str "\n") <;> simp
    · simp [cellText, keptCell, hk]

/-- C11, counterexample: a notebook with one code cell whose source list is empty is parsed
without error, and the output is the header and the line `## Cell 1 (code)` with its blank
line, not the text of the specification, which has two more newlines. -/
theorem C11_empty_source_cell_gets_header_only :
    ParseNotebook emptyCellEnv (str "/repo/empty.ipynb") =
      (str "# Jupyter Notebook Content\n\n## Cell 1 (code)\n\n", none) ∧
    str "# Jupyter Notebook Content\n\n" ++
        specCellsText 1 [{ CellType := str "code", Source := [] }] =
      str "# Jupyter Notebook Content\n\n## Cell 1 (code)\n\n\n\n" ∧
    (ParseNotebook emptyCellEnv (str "/repo/empty.ipynb")).1 ≠
      str "# Jupyter Notebook Content\n\n" ++
        specCellsText 1 [{ CellType := str "code", Source := [] }] := by
  decide

/-- C11, amended: for every notebook that is read and decoded, the output of `ParseNotebook`
is `# Jupyter Notebook Content`, a blank line, and then, for each cell of type `code`,
`markdown` or `raw` in array order, `## Cell <n> (<type>)` and a blank line followed, when
the source list of the cell is not empty, by the source fragments joined, a newline unless
they already end in one, and one more newline; `n` is the 1-based position in the array; a
kept cell with an empty source list gets the header and blank line only; other cells
contribute nothing. When no kept cell has an empty source list this is the text of the
specification. -/
theorem C11_notebook_text (env : Env) (filePath data : GoString) (notebook : Notebook)
    (hdata : (env.file filePath).data = .ok data)
    (hjson : env.unmarshal data = .ok notebook) :
    ParseNotebook env filePath =
      (str "# Jupyter Notebook Content\n\n" ++ sourceCellsText 1 notebook.Cells, none) ∧
    ((∀ cell ∈ notebook.Cells, keptCell cell = true → cell.Source ≠ []) →
      ParseNotebook env filePath =
        (str "# Jupyter Notebook Content\n\n" ++ specCellsText 1 notebook.Cells, none)) := by
  have h1 : ParseNotebook env filePath =
      (str "# Jupyter Notebook Content\n\n" ++ sourceCellsText 1 notebook.Cells, none) := by
    simp only [ParseNotebook, hdata, hjson, renderCells_eq_sourceCellsText]
  refine ⟨h1, ?_⟩
  intro hne
  rw [h1]
  have : ∀ (cells : List Cell) (n : Nat),
      (∀ cell ∈ cells, keptCell cell = true → cell.Source ≠ []) →
      sourceCellsText n cells = specCellsText n cells := by
    intro cells
    induction cells with
    | nil => intro n _; rfl
    | cons cell rest ih =>
      intro n h
      simp only [sourceCellsText, specCellsText]
      rw [ih (n + 1) (fun c hc => h c (List.mem_cons_of_mem _ hc))]
      congr 1
      by_cases hk : keptCell cell = true
      · simp [hk, h cell (List.mem_cons_self _ _) hk]
      · simp [hk]
  rw [this notebook.Cells 1 hne]

set_option maxRecDepth 100000 in
/-- C11 amended, at a concrete input: the notebook of three cells of the sample
environment, whose kept cells all have a source. -/
theorem C11_witness_demo_notebook :
    (demoEnv.file (str "/repo/nb.ipynb")).data = .ok demoNotebookBytes ∧
    ParseNotebook demoEnv (str "/repo/nb.ipynb") =
      (str "# Jupyter Notebook Content\n\n" ++ specCellsText 1 demoNotebook.Cells, none) :=
  ⟨by decide,
   (C11_notebook_text demoEnv (str "/repo/nb.ipynb") demoNotebookBytes demoNotebook
     (by decide) (by decide)).2 (by decide)⟩

/-! ## The pattern matcher: exclusion and inclusion rules -/

/-- The exclude loop runs to its end when no exclude pattern matches the path, its base
name or the base name of an ancestor directory. -/
theorem excludeLoop_none (relativePath : GoString) (includePatterns excludePatterns : List GoString)
    (hno : ∀ p ∈ excludePatterns, matchesPathOrBase p relativePath = false ∧
      matchesAncestor p relativePath = false) :
    excludeLoop relativePath (Base relativePath) includePatterns excludePatterns = none := by
  induction excludePatterns with
  | nil => rfl
  | cons p rest ih =>
    obtain ⟨h1, h2⟩ := hno p (List.mem_cons_self _ _)
    simp only [matchesPathOrBase, Bool.or_eq_false_iff] at h1
    simp only [matchesAncestor] at h2
    simp only [excludeLoop, h1.1, h1.2, parentMatches_eq_any, h2]
    exact ih (fun p hp => hno p (List.mem_cons_of_mem _ hp))

/-- With an empty include list the exclude loop returns `false` as soon as an exclude
pattern matches the path, its base name or the base name of an ancestor directory. -/
theorem excludeLoop_nil_include (relativePath : GoString) (excludePatterns : List GoString)
    (hex : ∃ p ∈ excludePatterns, matchesPathOrBase p relativePath = true ∨
      matchesAncestor p relativePath = true) :
    excludeLoop relativePath (Base relativePath) [] excludePatterns = some false := by
  induction excludePatterns with
  | nil => simp at hex
  | cons p rest ih =>
    simp only [excludeLoop, includeOverride, parentMatches_eq_any, List.length_nil,
      gt_iff_lt, Nat.lt_irrefl, if_false]
    by_cases h1 : Match p relativePath = true
    · simp [h1]
    · by_cases h2 : Match p (Base relativePath) = true
      · simp [h1, h2]
      · by_cases h3 : matchesAncestor p relativePath = true
        · simp only [matchesAncestor] at h3
          simp [h1, h2, h3]
        · simp only [matchesAncestor] at h3
          simp only [h1, h2, h3, if_false, Bool.false_eq_true]
          apply ih
          obtain ⟨q, hq, hm⟩ := hex
          rcases List.mem_cons.1 hq with rfl | hrest
          · exfalso
            rcases hm with hm | hm
            · simp only [matchesPathOrBase, Bool.or_eq_true] at hm
              rcases hm with hm | hm
              · exact h1 hm
              · exact h2 hm
            · simp only [matchesAncestor] at hm
              exact h3 hm
          · exact ⟨q, hrest, hm⟩

set_option maxRecDepth 100000 in
/-- C15: with an empty include list, `ShouldIncludeFile` returns `false` if and only if some
exclude pattern matches the full path, the base name, or the base name of an ancestor
directory; otherwise it returns `true`. With the default exclusion list every file under a
directory named `node_modules`, `.venv` or `build` is excluded, as is every file whose base
name matches `*.exe`, `*.jpg`, `*.mp4`, `*.log`, `package-lock.json` or `.DS_Store`, and
`main.go`, `README.md`, `src/component.tsx` and `docs/guide.md` are included. -/
theorem C15_empty_include_excluded_iff_some_exclude_matches (relativePath : GoString)
    (excludePatterns : List GoString) :
    (ShouldIncludeFile relativePath [] excludePatterns = false ↔
      ∃ p ∈ excludePatterns, matchesPathOrBase p relativePath = true ∨
        matchesAncestor p relativePath = true) ∧
    (ShouldIncludeFile relativePath [] excludePatterns = true ↔
      ∀ p ∈ excludePatterns, matchesPathOrBase p relativePath = false ∧
        matchesAncestor p relativePath = false) ∧
    ((∃ dir ∈ ancestorDirs (relativePath.length + 1) (Dir relativePath),
        Base dir = str "node_modules" ∨ Base dir = str ".venv" ∨ Base dir = str "build") →
      ShouldIncludeFile relativePath [] (GetDefaultExcludePatterns initialExclusions) = false) ∧
    ((∃ p ∈ [str "*.exe", str "*.jpg", str "*.mp4", str "*.log", str "package-lock.json",
          str ".DS_Store"], Match p (Base relativePath) = true) →
      ShouldIncludeFile relativePath [] (GetDefaultExcludePatterns initialExclusions) = false) ∧
    ShouldIncludeFile (str "main.go") [] (GetDefaultExcludePatterns initialExclusions) = true ∧
    ShouldIncludeFile (str "README.md") [] (GetDefaultExcludePatterns initialExclusions) = true ∧
    ShouldIncludeFile (str "src/component.tsx") []
      (GetDefaultExcludePatterns initialExclusions) = true ∧
    ShouldIncludeFile (str "docs/guide.md") []
      (GetDefaultExcludePatterns initialExclusions) = true := by
  have hfalse : ∀ (rel : GoString) (exc : List GoString),
      ShouldIncludeFile rel [] exc = false ↔
        ∃ p ∈ exc, matchesPathOrBase p rel = true ∨ matchesAncestor p rel = true := by
    intro rel exc
    constructor
    · intro h
      by_contra hno
      have hno' : ∀ p ∈ exc, matchesPathOrBase p rel = false ∧ matchesAncestor p rel = false := by
        intro p hp
        constructor
        · cases hm : matchesPathOrBase p rel with
          | false => rfl
          | true => exact absurd ⟨p, hp, Or.inl hm⟩ hno
        · cases hm : matchesAncestor p rel with
          | false => rfl
          | true => exact absurd ⟨p, hp, Or.inr hm⟩ hno
      have := excludeLoop_none rel [] exc hno'
      simp [ShouldIncludeFile, this] at h
    · intro hex
      simp [ShouldIncludeFile, excludeLoop_nil_include rel exc hex]
  refine ⟨hfalse _ _, ?_, ?_, ?_, ?_, ?_, ?_, ?_⟩
  · constructor
    · intro h p hp
      have hne : ¬ ShouldIncludeFile relativePath [] excludePatterns = false := by simp [h]
      rw [hfalse] at hne
      constructor
      · cases hm : matchesPathOrBase p relativePath with
        | false => rfl
        | true => exact absurd ⟨p, hp, Or.inl hm⟩ hne
      · cases hm : matchesAncestor p relativePath with
        | false => rfl
        | true => exact absurd ⟨p, hp, Or.inr hm⟩ hne
    · intro hno
      simp [ShouldIncludeFile, excludeLoop_none relativePath [] excludePatterns hno]
  · rintro ⟨dir, hdir, hbase⟩
    rw [hfalse]
    rcases hbase with hb | hb | hb
    · refine ⟨str "node_modules", by decide, Or.inr ?_⟩
      simp only [matchesAncestor, List.any_eq_true]
      exact ⟨dir, hdir, by rw [hb]; decide⟩
    · refine ⟨str ".venv", by decide, Or.inr ?_⟩
      simp only [matchesAncestor, List.any_eq_true]
      exact ⟨dir, hdir, by rw [hb]; decide⟩
    · refine ⟨str "build", by decide, Or.inr ?_⟩
      simp only [matchesAncestor, List.any_eq_true]
      exact ⟨dir, hdir, by rw [hb]; decide⟩
  · rintro ⟨p, hp, hm⟩
    rw [hfalse]
    refine ⟨p, ?_, Or.inl (by simp [matchesPathOrBase, hm])⟩
    have hsub : ∀ q ∈ [str "*.exe", str "*.jpg", str "*.mp4", str "*.log",
        str "package-lock.json", str ".DS_Store"],
        q ∈ GetDefaultExcludePatterns initialExclusions := by decide
    exact hsub p hp
  · decide
  · decide
  · decide
  · decide

set_option maxRecDepth 100000 in
/-- C16: when no exclude pattern matches the full path, the base name or the base name of an
ancestor directory, and the include list is not empty, `ShouldIncludeFile` returns `true` if
and only if some include pattern matches the full path or the base name. With the include
pattern `*.go`, and no exclude pattern or the default ones, `test.go` is included and
`test.txt` and `test.ipynb` are not. -/
theorem C16_include_list_restricts (relativePath : GoString)
    (includePatterns excludePatterns : List GoString)
    (hno : ∀ p ∈ excludePatterns, matchesPathOrBase p relativePath = false ∧
      matchesAncestor p relativePath = false)
    (hinc : includePatterns ≠ []) :
    (ShouldIncludeFile relativePath includePatterns excludePatterns = true ↔
      ∃ q ∈ includePatterns, matchesPathOrBase q relativePath = true) ∧
    ShouldIncludeFile (str "test.go") [str "*.go"] [] = true ∧
    ShouldIncludeFile (str "test.txt") [str "*.go"] [] = false ∧
    ShouldIncludeFile (str "test.ipynb") [str "*.go"] [] = false ∧
    ShouldIncludeFile (str "test.go") [str "*.go"]
      (GetDefaultExcludePatterns initialExclusions) = true ∧
    ShouldIncludeFile (str "test.txt") [str "*.go"]
      (GetDefaultExcludePatterns initialExclusions) = false ∧
    ShouldIncludeFile (str "test.ipynb") [str "*.go"]
      (GetDefaultExcludePatterns initialExclusions) = false := by
  refine ⟨?_, by decide, by decide, by decide, by decide, by decide, by decide⟩
  have hlen : includePatterns.length > 0 := List.length_pos.2 hinc
  simp only [ShouldIncludeFile, excludeLoop_none relativePath includePatterns excludePatterns hno,
    hlen, if_true, List.any_eq_true, matchesPathOrBase]

/-- C16, at a concrete input: `src/main.go` with the include patterns `*.md` and `*.go` and
the exclude pattern `*.log`. -/
theorem C16_witness_main_go :
    (∀ p ∈ [str "*.log"], matchesPathOrBase p (str "src/main.go") = false ∧
      matchesAncestor p (str "src/main.go") = false) ∧
    (∃ q ∈ [str "*.md", str "*.go"], matchesPathOrBase q (str "src/main.go") = true) ∧
    ShouldIncludeFile (str "src/main.go") [str "*.md", str "*.go"] [str "*.log"] = true :=
  ⟨by decide, by decide,
   ((C16_include_list_restricts (str "src/main.go") [str "*.md", str "*.go"] [str "*.log"]
     (by decide) (by decide)).1).2 (by decide)⟩

/-! ## Paths without a directory component -/

/-- The base name of a non-empty path without a separator is the path. -/
theorem Base_of_no_separator (path : GoString) (hne : path ≠ [])
    (hslash : Separator ∉ path) : Base path = path := by
  have h1 : path.reverse.dropWhile (fun c => decide (c = Separator)) = path.reverse := by
    rw [List.dropWhile_eq_self_iff]
    intro hl h
    have hmem : path.reverse.get ⟨0, hl⟩ ∈ path := by
      rw [← List.mem_reverse]
      exact List.get_mem _ _ _
    simp only [decide_eq_true_eq] at h
    rw [h] at hmem
    exact hslash hmem
  have h2 : path.reverse.takeWhile (fun c => decide (c ≠ Separator)) = path.reverse := by
    rw [List.takeWhile_eq_self_iff]
    intro x hx
    simp only [ne_eq, decide_not, Bool.not_eq_true', decide_eq_false_iff_not]
    rintro rfl
    exact hslash (List.mem_reverse.1 hx)
  simp only [Base, hne, if_false, h1, List.reverse_reverse, h2]

/-- The directory of a path without a separator is `.`. -/
theorem Dir_of_no_separator (path : GoString) (hslash : Separator ∉ path) :
    Dir path = str "." := by
  have h1 : path.reverse.dropWhile (fun c => decide (c ≠ Separator)) = [] := by
    rw [List.dropWhile_eq_nil_iff]
    intro x hx
    simp only [ne_eq, decide_not, Bool.not_eq_true', decide_eq_false_iff_not]
    rintro rfl
    exact hslash (List.mem_reverse.1 hx)
  simp only [Dir, h1, List.reverse_nil]
  decide

/-- A path without a separator has no ancestor directory for the exclude loop to test. -/
theorem matchesAncestor_of_no_separator (pattern path : GoString)
    (hslash : Separator ∉ path) : matchesAncestor pattern path = false := by
  simp [matchesAncestor, Dir_of_no_separator path hslash, ancestorDirs]

/-- C17: for every non-empty path without a directory component and every include and
exclude lists in which some exclude pattern matches the path, `ShouldIncludeFile` returns
`true` if and only if some include pattern matches the path. With the exclude pattern
`*.log` and the include pattern `keep.log`, `keep.log` is included and `other.log` is
excluded. -/
theorem C17_override_on_plain_file_name (relativePath : GoString)
    (includePatterns excludePatterns : List GoString)
    (hne : relativePath ≠ []) (hslash : Separator ∉ relativePath)
    (hex : ∃ p ∈ excludePatterns, Match p relativePath = true) :
    (ShouldIncludeFile relativePath includePatterns excludePatterns = true ↔
      ∃ q ∈ includePatterns, Match q relativePath = true) ∧
    ShouldIncludeFile (str "keep.log") [str "keep.log"] [str "*.log"] = true ∧
    ShouldIncludeFile (str "other.log") [str "keep.log"] [str "*.log"] = false := by
  refine ⟨?_, by decide, by decide⟩
  have hbase := Base_of_no_separator relativePath hne hslash
  have hov : includeOverride relativePath relativePath includePatterns = true ↔
      ∃ q ∈ includePatterns, Match q relativePath = true := by
    simp only [includeOverride]
    split
    · simp only [List.any_eq_true, Bool.or_self]
    · rename_i hlen
      have : includePatterns = [] := by
        cases includePatterns with
        | nil => rfl
        | cons a l => simp at hlen
      simp [this]
  have hloop : excludeLoop relativePath relativePath includePatterns excludePatterns =
      some (includeOverride relativePath relativePath includePatterns) := by
    induction excludePatterns with
    | nil => simp at hex
    | cons p rest ih =>
      simp only [excludeLoop]
      by_cases h1 : Match p relativePath = true
      · simp [h1]
      · have hanc := matchesAncestor_of_no_separator p relativePath hslash
        simp only [matchesAncestor] at hanc
        simp only [h1, if_false, parentMatches_eq_any, hanc, Bool.false_eq_true]
        apply ih
        obtain ⟨q, hq, hm⟩ := hex
        rcases List.mem_cons.1 hq with rfl | hrest
        · exact absurd hm h1
        · exact ⟨q, hrest, hm⟩
  simp only [ShouldIncludeFile, hbase, hloop]
  exact hov

/-- C17, at a concrete input: `keep.log`, excluded by `*.log` and matched by the include
pattern `keep.log`. -/
theorem C17_witness_keep_log :
    Separator ∉ str "keep.log" ∧
    (∃ p ∈ [str "*.log"], Match p (str "keep.log") = true) ∧
    (∃ q ∈ [str "keep.log"], Match q (str "keep.log") = true) ∧
    ShouldIncludeFile (str "keep.log") [str "keep.log"] [str "*.log"] = true :=
  ⟨by decide, by decide, by decide,
   ((C17_override_on_plain_file_name (str "keep.log") [str "keep.log"] [str "*.log"]
     (by decide) (by decide) (by decide)).1).2 (by decide)⟩

/-! ## Invalid patterns -/

/-- Reading the ranges of a bracket expression consumes the same part of the chunk, or
fails alike, whatever the rune compared and the match found so far. -/
theorem classLoop_chunk_indep : ∀ (fuel : Nat) (chunk : GoString) (r r1 : Nat)
    (m m1 : Bool) (n : Nat),
    (classLoop fuel chunk r m n).map Prod.fst = (classLoop fuel chunk r1 m1 n).map Prod.fst
  | 0, _, _, _, _, _, _ => rfl
  | fuel + 1, chunk, r, r1, m, m1, n => by
    simp only [classLoop]
    split
    · rfl
    · split
      · rfl
      · split
        · split
          · rfl
          · exact classLoop_chunk_indep fuel _ _ _ _ _ _
        · exact classLoop_chunk_indep fuel _ _ _ _ _ _

/-- Whether `matchChunk` reports a malformed chunk does not depend on the string
matched. -/
theorem matchChunkLoop_bad_indep : ∀ (fuel : Nat) (chunk s s1 : GoString)
    (failed failed1 : Bool),
    matchChunkLoop fuel chunk s failed = .bad ↔ matchChunkLoop fuel chunk s1 failed1 = .bad
  | 0, _, _, _, _, _ => by simp [matchChunkLoop]
  | fuel + 1, [], s, s1, failed, failed1 => by
    simp only [matchChunkLoop]
    constructor <;> intro h <;> split at h <;> simp at h
  | fuel + 1, c :: chunk1, s, s1, failed, failed1 => by
    simp only [matchChunkLoop]
    by_cases h5B : c = 0x5B
    · simp only [h5B, if_true]
      have hcl := classLoop_chunk_indep fuel
        (if chunk1.head? = some 0x5E then chunk1.tail else chunk1)
        (if (failed || s.isEmpty) = true then 0 else (decodeRune s).1)
        (if (failed1 || s1.isEmpty) = true then 0 else (decodeRune s1).1) false false 0
      rcases h1 : classLoop fuel (if chunk1.head? = some 0x5E then chunk1.tail else chunk1)
        (if (failed || s.isEmpty) = true then 0 else (decodeRune s).1) false 0 with _ | ⟨c3, m3⟩
      · rcases h2 : classLoop fuel (if chunk1.head? = some 0x5E then chunk1.tail else chunk1)
          (if (failed1 || s1.isEmpty) = true then 0 else (decodeRune s1).1) false 0 with _ | ⟨c4, m4⟩
        · simp
        · rw [h1, h2] at hcl
          simp at hcl
      · rcases h2 : classLoop fuel (if chunk1.head? = some 0x5E then chunk1.tail else chunk1)
          (if (failed1 || s1.isEmpty) = true then 0 else (decodeRune s1).1) false 0 with _ | ⟨c4, m4⟩
        · rw [h1, h2] at hcl
          simp at hcl
        · rw [h1, h2] at hcl
          simp only [Option.map_some', Option.some.injEq] at hcl
          subst hcl
          exact matchChunkLoop_bad_indep fuel _ _ _ _ _
    · simp only [h5B, if_false]
      by_cases h3F : c = 0x3F
      · simp only [h3F, if_true]
        split <;> split <;> exact matchChunkLoop_bad_indep fuel _ _ _ _ _
      · simp only [h3F, if_false]
        by_cases h5C : c = 0x5C
        · simp only [h5C, if_true]
          cases chunk1 with
          | nil => simp
          | cons c2 chunk2 =>
            simp only
            split <;> split <;> exact matchChunkLoop_bad_indep fuel _ _ _ _ _
        · simp only [h5C, if_false]
          split <;> split <;> exact matchChunkLoop_bad_indep fuel _ _ _ _ _

/-- A malformed chunk is reported on every string. -/
theorem matchChunk_bad (chunk s : GoString) (h : matchChunk chunk [] = .bad) :
    matchChunk chunk s = .bad :=
  (matchChunkLoop_bad_indep _ chunk [] s false false).1 h

/-- A pattern with a malformed chunk matches no name. -/
theorem matchLoop_of_bad : ∀ (fuel1 fuel : Nat) (pattern name : GoString),
    badPatternLoop fuel pattern = true → matchLoop fuel1 pattern name = false
  | 0, _, _, _, _ => rfl
  | _ + 1, 0, _, _, h => by simp [badPatternLoop] at h
  | fuel1 + 1, fuel + 1, pattern, name, h => by
    simp only [badPatternLoop] at h
    simp only [matchLoop]
    by_cases hp : pattern = []
    · simp [hp] at h
    · simp only [hp, if_false] at h ⊢
      by_cases hs : (scanChunk pattern).1 = true ∧ (scanChunk pattern).2.1 = []
      · simp [hs] at h
      · simp only [hs, if_false, Bool.or_eq_true, decide_eq_true_eq] at h ⊢
        rcases h with h | h
        · rw [matchChunk_bad _ name h]
        · have ih := fun nm => matchLoop_of_bad fuel1 fuel (scanChunk pattern).2.2 nm h
          split
          · rfl
          · split
            · exact ih _
            · split
              · split
                · exact ih _
                · rfl
              · rfl
          · split
            · split
              · exact ih _
              · rfl
            · rfl

/-- An invalid pattern matches no name. -/
theorem Match_of_bad (pattern name : GoString) (h : BadPattern pattern = true) :
    Match pattern name = false :=
  matchLoop_of_bad _ _ pattern name h

/-- The exclude loop skips an exclude pattern that matches no name. -/
theorem excludeLoop_skip (relativePath fileName : GoString) (inc : List GoString)
    (p : GoString) (hp : ∀ name, Match p name = false) (exc1 exc2 : List GoString) :
    excludeLoop relativePath fileName inc (exc1 ++ p :: exc2) =
      excludeLoop relativePath fileName inc (exc1 ++ exc2) := by
  induction exc1 with
  | nil =>
    have hpar : parentMatches p (relativePath.length + 1) (Dir relativePath) = false := by
      rw [parentMatches_eq_any, List.any_eq_false]
      intro d _
      simp [hp]
    simp [excludeLoop, hp, hpar]
  | cons q rest ih =>
    have ih1 : excludeLoop relativePath fileName inc (rest.append (p :: exc2)) =
        excludeLoop relativePath fileName inc (rest.append exc2) := ih
    simp only [List.cons_append, excludeLoop, ih1]

/-- The override block is the same with and without an include pattern that matches no
name, as long as another include pattern remains. -/
theorem includeOverride_skip (relativePath fileName : GoString) (p : GoString)
    (hp : ∀ name, Match p name = false) (inc1 inc2 : List GoString)
    (hne : inc1 ++ inc2 ≠ []) :
    includeOverride relativePath fileName (inc1 ++ p :: inc2) =
      includeOverride relativePath fileName (inc1 ++ inc2) := by
  have h1 : (inc1 ++ p :: inc2).length > 0 := by simp
  have h2 : (inc1 ++ inc2).length > 0 := List.length_pos.2 hne
  simp only [includeOverride, h1, h2, if_true, List.any_append, List.any_cons, hp,
    Bool.or_self, Bool.false_or]

/-- The exclude loop depends on the include list through the override block only. -/
theorem excludeLoop_congr (relativePath fileName : GoString) (inc inc1 : List GoString)
    (h : includeOverride relativePath fileName inc = includeOverride relativePath fileName inc1)
    (exc : List GoString) :
    excludeLoop relativePath fileName inc exc = excludeLoop relativePath fileName inc1 exc := by
  induction exc with
  | nil => rfl
  | cons q rest ih => simp only [excludeLoop, h, ih]

/-- C18, counterexample: `[` is an invalid pattern, `a.txt` is included when both lists are
empty, and adding `[` to the include list of that call changes its result to `false`. -/
theorem C18_invalid_include_pattern_changes_result :
    BadPattern (str "[") = true ∧
    ShouldIncludeFile (str "a.txt") [] [] = true ∧
    ShouldIncludeFile (str "a.txt") [str "["] [] = false := by
  decide

/-- C18, amended: for every path and every syntactically invalid pattern `p`,
`ShouldIncludeFile` returns a result and treats `p` as matching nothing:
`ShouldIncludeFile(path, [], [p])` is `true`, `ShouldIncludeFile(path, [p], [])` is `false`,
adding `p` anywhere in the exclude list of a call does not change its result, and adding
`p` anywhere in an include list that is not empty does not change its result. (Adding `p`
to an empty include list makes the list non-empty, so only matching paths stay
included.) -/
theorem C18_invalid_pattern_matches_nothing (path p : GoString)
    (hbad : BadPattern p = true) :
    ShouldIncludeFile path [] [p] = true ∧
    ShouldIncludeFile path [p] [] = false ∧
    (∀ inc exc1 exc2 : List GoString,
      ShouldIncludeFile path inc (exc1 ++ p :: exc2) = ShouldIncludeFile path inc (exc1 ++ exc2)) ∧
    (∀ inc1 inc2 exc : List GoString, inc1 ++ inc2 ≠ [] →
      ShouldIncludeFile path (inc1 ++ p :: inc2) exc =
        ShouldIncludeFile path (inc1 ++ inc2) exc) := by
  have hp : ∀ name, Match p name = false := fun name => Match_of_bad p name hbad
  have hexc : ∀ inc exc1 exc2 : List GoString,
      ShouldIncludeFile path inc (exc1 ++ p :: exc2) =
        ShouldIncludeFile path inc (exc1 ++ exc2) := by
    intro inc exc1 exc2
    simp only [ShouldIncludeFile, excludeLoop_skip path (Base path) inc p hp exc1 exc2]
  refine ⟨?_, ?_, hexc, ?_⟩
  · have := hexc [] [] []
    simp only [List.nil_append] at this
    rw [this]
    simp [ShouldIncludeFile, excludeLoop]
  · simp [ShouldIncludeFile, excludeLoop, hp]
  · intro inc1 inc2 exc hne
    have h1 : (inc1 ++ p :: inc2).length > 0 := by simp
    have h2 : (inc1 ++ inc2).length > 0 := List.length_pos.2 hne
    simp only [ShouldIncludeFile,
      excludeLoop_congr path (Base path) _ _
        (includeOverride_skip path (Base path) p hp inc1 inc2 hne) exc,
      h1, h2, if_true, List.any_append, List.any_cons, hp, Bool.or_self, Bool.false_or]

/-- C18 amended, at a concrete input: the invalid pattern `[` added to the exclude list
`*.log` and to the include list `*.go` for the path `main.go`. -/
theorem C18_witness_open_bracket :
    BadPattern (str "[") = true ∧
    ShouldIncludeFile (str "main.go") [] [str "["] = true ∧
    ShouldIncludeFile (str "main.go") [str "["] [] = false ∧
    ShouldIncludeFile (str "main.go") [str "*.go"] [str "*.log", str "["] =
      ShouldIncludeFile (str "main.go") [str "*.go"] [str "*.log"] ∧
    ShouldIncludeFile (str "main.go") [str "[", str "*.go"] [str "*.log"] =
      ShouldIncludeFile (str "main.go") [str "*.go"] [str "*.log"] :=
  ⟨by decide,
   (C18_invalid_pattern_matches_nothing (str "main.go") (str "[") (by decide)).1,
   (C18_invalid_pattern_matches_nothing (str "main.go") (str "[") (by decide)).2.1,
   (C18_invalid_pattern_matches_nothing (str "main.go") (str "[") (by decide)).2.2.1
     [str "*.go"] [str "*.log"] [],
   (C18_invalid_pattern_matches_nothing (str "main.go") (str "[") (by decide)).2.2.2
     [] [str "*.go"] [str "*.log"] (by decide)⟩

/-! ## Relative paths of records -/

/-- No field of `strings.Split(s, "/")` contains a separator. -/
theorem splitSlash_no_separator : ∀ (s : GoString) (w : GoString), w ∈ splitSlash s →
    Separator ∉ w
  | [], w, hw => by
    simp only [splitSlash, List.mem_singleton] at hw
    subst hw
    simp
  | c :: s, w, hw => by
    simp only [splitSlash] at hw
    split at hw
    · rcases List.mem_cons.1 hw with rfl | h
      · simp
      · exact splitSlash_no_separator s w h
    · rename_i hc
      split at hw
      · simp only [List.mem_singleton] at hw
        subst hw
        simpa using fun h => hc h.symm
      · rename_i w0 ws hsplit
        rcases List.mem_cons.1 hw with rfl | h
        · have h0 := splitSlash_no_separator s w0 (by rw [hsplit]; exact List.mem_cons_self _ _)
          simp only [List.mem_cons, not_or]
          exact ⟨fun h => hc h.symm, h0⟩
        · exact splitSlash_no_separator s w (by rw [hsplit]; exact List.mem_cons_of_mem _ h)

/-- The elements `filepath.Clean` keeps are non-empty and without a separator. -/
theorem cleanStep_elems (rooted : Bool) (out : List GoString) (elem : GoString)
    (hout : ∀ e ∈ out, e ≠ [] ∧ Separator ∉ e) (helem : Separator ∉ elem) :
    ∀ e ∈ cleanStep rooted out elem, e ≠ [] ∧ Separator ∉ e := by
  intro e he
  simp only [cleanStep] at he
  split at he
  · exact hout e he
  · rename_i h1
    split at he
    · rename_i h2
      have hdd : elem ≠ [] ∧ Separator ∉ elem := ⟨fun h => h1 (Or.inl h), helem⟩
      split at he
      · rename_i top rest
        split at he
        · rcases List.mem_cons.1 he with rfl | h
          · exact hdd
          · exact hout e h
        · exact hout e (List.mem_cons_of_mem _ he)
      · split at he
        · simp at he
        · simp only [List.mem_singleton] at he
          subst he
          exact hdd
    · rcases List.mem_cons.1 he with rfl | h
      · exact ⟨fun h => h1 (Or.inl h), helem⟩
      · exact hout e h

/-- The elements left after `filepath.Clean` has processed a list of fields. -/
theorem foldl_cleanStep_elems (rooted : Bool) : ∀ (fields : List GoString) (out : List GoString),
    (∀ e ∈ out, e ≠ [] ∧ Separator ∉ e) → (∀ w ∈ fields, Separator ∉ w) →
    ∀ e ∈ fields.foldl (cleanStep rooted) out, e ≠ [] ∧ Separator ∉ e
  | [], out, hout, _ => by simpa using hout
  | w :: fields, out, hout, hf => by
    rw [List.foldl_cons]
    exact foldl_cleanStep_elems rooted fields _
      (cleanStep_elems rooted out w hout (hf w (List.mem_cons_self _ _)))
      (fun x hx => hf x (List.mem_cons_of_mem _ hx))

/-- Joining non-empty elements without a separator gives a string that does not start with
a separator. -/
theorem joinSlash_head (elems : List GoString)
    (h : ∀ e ∈ elems, e ≠ [] ∧ Separator ∉ e) :
    (joinSlash elems).head? ≠ some Separator := by
  cases elems with
  | nil => simp [joinSlash]
  | cons e rest =>
    obtain ⟨hne, hs⟩ := h e (List.mem_cons_self _ _)
    cases e with
    | nil => exact absurd rfl hne
    | cons c e1 =>
      have hc : c ≠ Separator := by
        intro hc
        exact hs (by rw [hc]; exact List.mem_cons_self _ _)
      cases rest with
      | nil => simpa [joinSlash] using hc
      | cons e2 rest2 => simpa [joinSlash] using hc

/-- `filepath.Clean` of an absolute path is absolute. -/
theorem Clean_isAbs (path : GoString) (h : IsAbs path = true) : IsAbs (Clean path) = true := by
  simp only [IsAbs, decide_eq_true_eq] at h
  have hne : path ≠ [] := by
    rintro rfl
    simp at h
  simp [Clean, hne, h, IsAbs]

/-- `filepath.Clean` of a path that is not absolute is not absolute. -/
theorem Clean_not_isAbs (path : GoString) (h : IsAbs path = false) :
    IsAbs (Clean path) = false := by
  simp only [IsAbs, decide_eq_false_iff_not] at h
  by_cases hne : path = []
  · subst hne
    decide
  · have helems := foldl_cleanStep_elems false (splitSlash path) []
      (by simp) (splitSlash_no_separator path)
    have hhead := joinSlash_head _ (fun e he => helems e (List.mem_reverse.1 he))
    simp only [Clean, hne, if_false, h, decide_False]
    split
    · decide
    · simp only [IsAbs, decide_eq_false_iff_not]
      simpa using hhead

/-- `filepath.Rel` fails when the base is relative and the target absolute. -/
theorem Rel_relative_base_absolute_target (basepath targpath : GoString)
    (hbase : IsAbs basepath = false) (htarg : IsAbs targpath = true) :
    Rel basepath targpath =
      .error (str "Rel: can't make " ++ targpath ++ str " relative to " ++ basepath) := by
  have hb := Clean_not_isAbs basepath hbase
  have ht := Clean_isAbs targpath htarg
  simp only [IsAbs, decide_eq_false_iff_not, decide_eq_true_eq] at hb ht
  have hneq : Clean targpath ≠ Clean basepath := by
    intro heq
    rw [heq] at ht
    exact hb ht
  have hb2 : (if Clean basepath = str "." then ([] : GoString) else Clean basepath).head?
      ≠ some Separator := by
    split
    · simp
    · exact hb
  simp only [Rel, hneq, if_false, ht]
  rw [if_pos]
  simpa using hb2

/-- C19 (code bug): when the root directory argument is relative, the record the second
pass makes for a file has the absolute path of the file as its `RelativePath`: the second
pass calls `filepath.Rel` with the relative root and the absolute file path, `Rel` fails,
and the fallback takes the file path itself. The first pass relates the root to the path
as walked, which succeeds, so `stats.AllPaths` holds the root-relative path. -/
theorem C19_relative_root_gives_absolute_RelativePath (env : Env)
    (rootDir filePath : GoString) (maxFileSize : Int) (stats : Stats)
    (hroot : IsAbs rootDir = false) (hfile : IsAbs filePath = true) :
    (processFile env rootDir maxFileSize filePath stats).1.RelativePath = filePath ∧
    (processFile env rootDir maxFileSize filePath stats).1.AbsolutePath = filePath := by
  have hrel : relPathOf rootDir filePath = filePath := by
    simp [relPathOf, Rel_relative_base_absolute_target rootDir filePath hroot hfile, ToSlash]
  simp only [processFile, hrel]
  split <;> exact ⟨rfl, rfl⟩

/-- C19, at a concrete input: the root `./repo` with the working directory `/`. The paths in
`stats.AllPaths` are `build/x.go` and `main.go`; the records have `/repo/build/x.go` and
`/repo/main.go` as `RelativePath`. -/
theorem C19_witness_dot_slash_repo :
    (ProcessLocalDirectoryWithPatterns rootCwdEnv (.ok demoTree) [0, 1] (str "./repo") 0
        [] []).toOption.map (fun r => (r.1.map (fun f => f.RelativePath), r.2.AllPaths)) =
      some ([str "/repo/build/x.go", str "/repo/main.go"], [str "build/x.go", str "main.go"]) ∧
    (processFile rootCwdEnv (str "./repo") 0 (str "/repo/main.go") demoStats).1.RelativePath =
      str "/repo/main.go" :=
  ⟨by decide,
   (C19_relative_root_gives_absolute_RelativePath rootCwdEnv (str "./repo")
     (str "/repo/main.go") 0 demoStats (by decide) (by decide)).1⟩

/-! ## The default exclusion list -/

/-- Removing the first occurrence of a pattern lowers its count by one (or leaves it at
zero). -/
theorem removeFirst_count (pattern : GoString) : ∀ (l : List GoString),
    (removeFirst pattern l).count pattern = l.count pattern - 1
  | [] => rfl
  | p :: rest => by
    simp only [removeFirst]
    by_cases h : p = pattern
    · subst h
      simp
    · have hne : (p == pattern) = false := by simpa using h
      simp only [h, if_false, List.count_cons, hne, Bool.false_eq_true, Nat.add_zero]
      exact removeFirst_count pattern rest

/-- What `RemoveExclusion` does to the number of times a pattern is listed: it takes one
occurrence away, if there is one. -/
theorem RemoveExclusion_count (p : GoString) (s : Exclusions) :
    (GetDefaultExcludePatterns (RemoveExclusion p s)).count p =
      (GetDefaultExcludePatterns s).count p - 1 := by
  simp only [GetDefaultExcludePatterns, RemoveExclusion, removeFirst_count]

/-- C20 (code bug). `RemoveExclusion` stops at the first occurrence of the pattern: for
every pattern `p` and every state of the default exclusion list in which `p` is listed
twice or more, the list returned by `GetDefaultExcludePatterns` after `RemoveExclusion(p)`
still contains `p`, against the documentation of the function and the check of its
test. -/
theorem C20_pattern_listed_twice_still_listed_after_removal (p : GoString) (s : Exclusions)
    (h : 2 ≤ (GetDefaultExcludePatterns s).count p) :
    p ∈ GetDefaultExcludePatterns (RemoveExclusion p s) := by
  apply List.count_pos_iff.1
  rw [RemoveExclusion_count]
  omega

set_option maxRecDepth 100000 in
/-- C20 (witness). In the initial state the pattern `build` is listed three times, and
after `RemoveExclusion("build")` the list returned by `GetDefaultExcludePatterns` still
contains `build`. -/
theorem C20_build_still_listed_after_removal :
    (GetDefaultExcludePatterns initialExclusions).count (str "build") = 3 ∧
    str "build" ∈ GetDefaultExcludePatterns (RemoveExclusion (str "build") initialExclusions) :=
  ⟨by decide,
    C20_pattern_listed_twice_still_listed_after_removal (str "build") initialExclusions
      (by decide)⟩

/-! ## The tree as a list of lines -/

theorem str_slash : str "/" = [Separator] := by decide

theorem joinSlash_append_singleton (xs : List GoString) (e : GoString) (h : xs ≠ []) :
    joinSlash (xs ++ [e]) = joinSlash xs ++ Separator :: e := by
  induction xs with
  | nil => exact absurd rfl h
  | cons x rest ih =>
    cases rest with
    | nil => simp [joinSlash]
    | cons y ys =>
      have := ih (by simp)
      simp only [List.cons_append] at this ⊢
      simp [joinSlash, this]

theorem dirPathAt_zero (parts : List GoString) (h : 0 < parts.length) :
    dirPathAt parts 0 = parts.getD 0 [] := by
  cases parts with
  | nil => simp at h
  | cons a rest => simp [dirPathAt, joinSlash]

theorem dirPathAt_succ (parts : List GoString) (l : Nat) (h : l + 1 < parts.length) :
    dirPathAt parts (l + 1) = dirPathAt parts l ++ str "/" ++ parts.getD (l + 1) [] := by
  unfold dirPathAt
  have hget : parts[l + 1]? = some (parts.getD (l + 1) []) := by
    simp [List.getD, List.getElem?_eq_getElem h]
  rw [List.take_succ, hget, Option.toList, joinSlash_append_singleton, str_slash]
  · simp
  · intro hnil
    have := congrArg List.length hnil
    simp only [List.length_take, List.length_nil] at this
    omega

theorem dirLevels_eq (parts later : List GoString) :
    ∀ (fuel level : Nat) (cur : GoString) (tracker : List GoString) (out : GoString),
      (0 < level → cur = dirPathAt parts (level - 1)) →
      dirLevels parts later fuel level cur (tracker, out) =
        (((dirLinesOf parts later fuel level tracker).map (fun l => l.path)).reverse ++ tracker,
          out ++ linesText (dirLinesOf parts later fuel level tracker)) := by
  intro fuel
  induction fuel with
  | zero => intro level cur tracker out _; simp [dirLevels, dirLinesOf, linesText]
  | succ fuel ih =>
    intro level cur tracker out hcur
    by_cases hlt : level < parts.length - 1
    · have hpath : (if level = 0 then parts.getD level [] else cur ++ str "/" ++ parts.getD level [])
          = dirPathAt parts level := by
        cases level with
        | zero =>
          simp only [if_true]
          exact (dirPathAt_zero parts (by omega)).symm
        | succ l =>
          have := hcur (by omega)
          simp only [Nat.add_sub_cancel] at this
          rw [dirPathAt_succ parts l (by omega), this]
          simp
      simp only [dirLevels, dirLinesOf, hlt, if_true, hpath]
      by_cases hc : tracker.contains (dirPathAt parts level) = true
      · simp only [hc, Bool.not_true, Bool.false_eq_true, if_false]
        exact ih (level + 1) _ tracker out (by intro _; simp)
      · simp only [hc, Bool.not_false, if_true]
        rw [ih (level + 1) _ _ _ (by intro _; simp)]
        simp [linesText]
    · simp [dirLevels, dirLinesOf, hlt, linesText]

theorem treeLoop_eq (filesData : List FileInfo) :
    ∀ (paths tracker : List GoString) (out : GoString),
      treeLoop filesData paths (tracker, out) = out ++ linesText (treeLines filesData paths tracker) := by
  intro paths
  induction paths with
  | nil => intro tracker out; simp [treeLoop, treeLines, linesText]
  | cons path later ih =>
    intro tracker out
    simp only [treeLoop, treeLines]
    rw [dirLevels_eq (splitSlash path) later _ 0 [] tracker out (by intro h; omega)]
    simp only []
    rw [ih]
    simp [linesText]

theorem GenerateTreeString_lines (paths : List GoString) (rootName : GoString)
    (filesData : List FileInfo) (h : paths ≠ []) :
    GenerateTreeString paths rootName filesData =
      rootName ++ str "/\n" ++ linesText (treeLines filesData (sortSlice strLess paths) []) := by
  unfold GenerateTreeString
  have : ¬ paths.length = 0 := by
    intro h0; exact h (List.length_eq_zero.mp h0)
  simp only [this, if_false]
  exact treeLoop_eq filesData _ _ _

theorem splitSlash_length_pos (s : GoString) : 0 < (splitSlash s).length := by
  induction s with
  | nil => simp [splitSlash]
  | cons c s ih =>
    simp only [splitSlash]
    split
    · simp
    · split
      · simp
      · simp

theorem splitSlash_of_no_separator (e : GoString) (h : Separator ∉ e) : splitSlash e = [e] := by
  induction e with
  | nil => rfl
  | cons c e ih =>
    have hc : c ≠ Separator := fun hc => h (by simp [hc])
    have he : Separator ∉ e := fun he => h (List.mem_cons_of_mem _ he)
    simp [splitSlash, hc, ih he]

theorem splitSlash_append_separator (e rest : GoString) (h : Separator ∉ e) :
    splitSlash (e ++ Separator :: rest) = e :: splitSlash rest := by
  induction e with
  | nil => simp [splitSlash]
  | cons c e ih =>
    have hc : c ≠ Separator := fun hc => h (by simp [hc])
    have he : Separator ∉ e := fun he => h (List.mem_cons_of_mem _ he)
    simp [splitSlash, hc, ih he]

theorem splitSlash_joinSlash : ∀ (xs : List GoString), xs ≠ [] → (∀ e ∈ xs, Separator ∉ e) →
    splitSlash (joinSlash xs) = xs
  | [], h, _ => absurd rfl h
  | [e], _, hs => by
    simpa [joinSlash] using splitSlash_of_no_separator e (hs e (by simp))
  | e :: f :: rest, _, hs => by
    have ih := splitSlash_joinSlash (f :: rest) (by simp)
      (fun x hx => hs x (List.mem_cons_of_mem _ hx))
    simp only [joinSlash]
    rw [splitSlash_append_separator e _ (hs e (by simp)), ih]

/-- The elements of a directory prefix of a path are the first elements of the path. -/
theorem splitSlash_dirPathAt (path : GoString) (l : Nat) :
    splitSlash (dirPathAt (splitSlash path) l) = (splitSlash path).take (l + 1) := by
  unfold dirPathAt
  apply splitSlash_joinSlash
  · intro h
    have := congrArg List.length h
    have hpos := splitSlash_length_pos path
    simp only [List.length_take, List.length_nil] at this
    omega
  · intro e he
    exact splitSlash_no_separator path e (List.mem_of_mem_take he)

theorem dirPathAt_take (parts : List GoString) (k l : Nat) (h : k ≤ l) :
    dirPathAt (parts.take (l + 1)) k = dirPathAt parts k := by
  unfold dirPathAt
  rw [List.take_take]
  congr 2
  omega

theorem mem_dirPrefixes (path D : GoString) :
    D ∈ dirPrefixes path ↔ ∃ l, l < (splitSlash path).length - 1 ∧ D = dirPathAt (splitSlash path) l := by
  unfold dirPrefixes
  simp only [List.mem_map, List.mem_range]
  constructor
  · rintro ⟨l, hl, rfl⟩; exact ⟨l, hl, rfl⟩
  · rintro ⟨l, hl, rfl⟩; exact ⟨l, hl, rfl⟩

theorem mem_dirPrefixes_dirPathAt (path D : GoString) (l : Nat)
    (hl : l < (splitSlash path).length - 1) :
    D ∈ dirPrefixes (dirPathAt (splitSlash path) l) ↔ ∃ k, k < l ∧ D = dirPathAt (splitSlash path) k := by
  rw [mem_dirPrefixes, splitSlash_dirPathAt]
  have hlen : ((splitSlash path).take (l + 1)).length - 1 = l := by
    simp only [List.length_take]
    omega
  rw [hlen]
  constructor
  · rintro ⟨k, hk, rfl⟩
    exact ⟨k, hk, dirPathAt_take _ k l (by omega)⟩
  · rintro ⟨k, hk, rfl⟩
    exact ⟨k, hk, (dirPathAt_take _ k l (by omega)).symm⟩

theorem depthOf_dirPathAt (path : GoString) (l : Nat) (hl : l < (splitSlash path).length - 1) :
    depthOf (dirPathAt (splitSlash path) l) = l := by
  unfold depthOf
  rw [splitSlash_dirPathAt]
  simp only [List.length_take]
  omega

theorem fileNameOf_dirPathAt (path : GoString) (l : Nat) (hl : l < (splitSlash path).length - 1) :
    fileNameOf (dirPathAt (splitSlash path) l) = (splitSlash path).getD l [] := by
  unfold fileNameOf
  rw [splitSlash_dirPathAt]
  have hlen : ((splitSlash path).take (l + 1)).length - 1 = l := by
    simp only [List.length_take]
    omega
  rw [hlen]
  simp only [List.getD_eq_getElem?_getD]
  rw [List.getElem?_take]
  simp

/-! ### The directory lines of one path -/

/-- What every line of `dirLinesOf` is: a directory line for some level from `level` on,
whose directory is not in the tracker. -/
theorem dirLinesOf_mem (parts later : List GoString) :
    ∀ (fuel level : Nat) (tracker : List GoString) (d : TreeLine),
      d ∈ dirLinesOf parts later fuel level tracker →
      d.isDir = true ∧ d.path ∉ tracker ∧
        ∃ l, level ≤ l ∧ l < parts.length - 1 ∧ d.path = dirPathAt parts l ∧ d.depth = l ∧
          ∃ marker, (marker = str "└── " ∨ marker = str "├── ") ∧
            d.text = Repeat (str "│   ") l ++ marker ++ parts.getD l [] ++ str "/\n" := by
  intro fuel
  induction fuel with
  | zero => intro level tracker d hd; simp [dirLinesOf] at hd
  | succ fuel ih =>
    intro level tracker d hd
    simp only [dirLinesOf] at hd
    split at hd
    · rename_i hlt
      split at hd
      · rename_i hc
        rcases List.mem_cons.1 hd with rfl | hd
        · refine ⟨rfl, ?_, level, le_refl _, hlt, rfl, rfl, ?_⟩
          · simpa using hc
          · dsimp only
            split
            · exact ⟨_, Or.inl rfl, rfl⟩
            · exact ⟨_, Or.inr rfl, rfl⟩
        · obtain ⟨h1, h2, l, h3, h4⟩ := ih _ _ _ hd
          exact ⟨h1, fun h => h2 (List.mem_cons_of_mem _ h), l, by omega, h4⟩
      · obtain ⟨h1, h2, l, h3, h4⟩ := ih _ _ _ hd
        exact ⟨h1, h2, l, by omega, h4⟩
    · simp at hd

theorem dirLinesOf_isDir (parts later : List GoString) (fuel level : Nat)
    (tracker : List GoString) :
    ∀ d ∈ dirLinesOf parts later fuel level tracker, d.isDir = true :=
  fun d hd => (dirLinesOf_mem parts later fuel level tracker d hd).1

theorem dirsOf_of_isDir (ds : List TreeLine) (h : ∀ d ∈ ds, d.isDir = true) :
    dirsOf ds = ds.map (fun l => l.path) := by
  unfold dirsOf
  rw [List.filter_eq_self.2 h]

theorem filesOf_of_isDir (ds : List TreeLine) (h : ∀ d ∈ ds, d.isDir = true) :
    filesOf ds = [] := by
  unfold filesOf
  rw [List.filter_eq_nil_iff.2 (fun d hd => by simp [h d hd])]
  rfl

theorem dirsOf_append (a b : List TreeLine) : dirsOf (a ++ b) = dirsOf a ++ dirsOf b := by
  simp [dirsOf]

theorem filesOf_append (a b : List TreeLine) : filesOf (a ++ b) = filesOf a ++ filesOf b := by
  simp [filesOf]

theorem linesText_append (a b : List TreeLine) : linesText (a ++ b) = linesText a ++ linesText b := by
  simp [linesText]

/-- With enough fuel every level from `level` on is in the tracker or gets a line. -/
theorem dirLinesOf_cover (parts later : List GoString) :
    ∀ (fuel level : Nat) (tracker : List GoString), parts.length - 1 ≤ fuel + level →
      ∀ l, level ≤ l → l < parts.length - 1 →
        dirPathAt parts l ∈ tracker ∨
          dirPathAt parts l ∈ (dirLinesOf parts later fuel level tracker).map (fun d => d.path) := by
  intro fuel
  induction fuel with
  | zero => intro level tracker hf l h1 h2; omega
  | succ fuel ih =>
    intro level tracker hf l h1 h2
    have hlt : level < parts.length - 1 := by omega
    simp only [dirLinesOf, hlt, if_true]
    by_cases hc : tracker.contains (dirPathAt parts level) = true
    · simp only [hc, Bool.not_true, Bool.false_eq_true, if_false]
      rcases Nat.eq_or_lt_of_le h1 with rfl | hl
      · left; simpa using hc
      · exact ih (level + 1) tracker (by omega) l hl h2
    · simp only [hc, Bool.not_false, if_true, List.map_cons, List.mem_cons]
      rcases Nat.eq_or_lt_of_le h1 with rfl | hl
      · right; left; rfl
      · rcases ih (level + 1) (dirPathAt parts level :: tracker) (by omega) l hl h2 with h | h
        · rcases List.mem_cons.1 h with h | h
          · right; left; exact h
          · left; exact h
        · right; right; exact h

/-- No directory gets two lines from `dirLinesOf`. -/
theorem dirLinesOf_nodup (parts later : List GoString) :
    ∀ (fuel level : Nat) (tracker : List GoString),
      ((dirLinesOf parts later fuel level tracker).map (fun d => d.path)).Nodup := by
  intro fuel
  induction fuel with
  | zero => intro level tracker; simp [dirLinesOf]
  | succ fuel ih =>
    intro level tracker
    simp only [dirLinesOf]
    split
    · split
      · simp only [List.map_cons, List.nodup_cons]
        refine ⟨?_, ih _ _⟩
        intro hmem
        obtain ⟨d, hd, hpath⟩ := List.mem_map.1 hmem
        have := (dirLinesOf_mem parts later fuel (level + 1) _ d hd).2.1
        apply this
        rw [hpath]
        exact List.mem_cons_self _ _
      · exact ih _ _
    · simp

/-! ### Directories before their entries -/

theorem dirsFirst_mono (lines : List TreeLine) :
    ∀ (S S2 : GoString → Prop), (∀ D, S D → S2 D) → dirsFirst S lines → dirsFirst S2 lines := by
  induction lines with
  | nil => intro S S2 _ _; trivial
  | cons l rest ih =>
    intro S S2 hS h
    exact ⟨fun D hD => hS D (h.1 D hD),
      ih _ _ (fun D hD => hD.elim (fun h1 => Or.inl (hS D h1)) Or.inr) h.2⟩

theorem dirsFirst_append (a b : List TreeLine) :
    ∀ (S : GoString → Prop),
      dirsFirst S (a ++ b) ↔ dirsFirst S a ∧ dirsFirst (fun D => S D ∨ D ∈ dirsOf a) b := by
  induction a with
  | nil =>
    intro S
    simp only [List.nil_append, dirsFirst, true_and]
    constructor
    · exact dirsFirst_mono b _ _ (fun D h => Or.inl h)
    · exact dirsFirst_mono b _ _ (fun D h => h.elim id (fun h2 => by simp [dirsOf] at h2))
  | cons l a ih =>
    intro S
    have hiff : ∀ D, ((S D ∨ (l.isDir = true ∧ D = l.path)) ∨ D ∈ dirsOf a) ↔
        (S D ∨ D ∈ dirsOf (l :: a)) := by
      intro D
      by_cases hl : l.isDir = true
      · simp [dirsOf, List.filter_cons, hl]
        tauto
      · simp [dirsOf, List.filter_cons, hl]
    show ((∀ D ∈ dirPrefixes l.path, S D) ∧
        dirsFirst (fun D => S D ∨ (l.isDir = true ∧ D = l.path)) (a ++ b)) ↔
      ((∀ D ∈ dirPrefixes l.path, S D) ∧
        dirsFirst (fun D => S D ∨ (l.isDir = true ∧ D = l.path)) a) ∧
      dirsFirst (fun D => S D ∨ D ∈ dirsOf (l :: a)) b
    rw [ih]
    constructor
    · rintro ⟨h1, h2, h3⟩
      exact ⟨⟨h1, h2⟩, dirsFirst_mono b _ _ (fun D hD => (hiff D).1 hD) h3⟩
    · rintro ⟨⟨h1, h2⟩, h3⟩
      exact ⟨h1, h2, dirsFirst_mono b _ _ (fun D hD => (hiff D).2 hD) h3⟩

/-- The directory lines of one path come outermost first, after the directories written
before. -/
theorem dirLinesOf_dirsFirst (path : GoString) (later : List GoString) :
    ∀ (fuel level : Nat) (tracker : List GoString) (S : GoString → Prop),
      (∀ k, k < level → S (dirPathAt (splitSlash path) k)) → (∀ D ∈ tracker, S D) →
      dirsFirst S (dirLinesOf (splitSlash path) later fuel level tracker) := by
  intro fuel
  induction fuel with
  | zero => intro level tracker S _ _; simp [dirLinesOf, dirsFirst]
  | succ fuel ih =>
    intro level tracker S hlow htr
    simp only [dirLinesOf]
    split
    · rename_i hlt
      split
      · refine ⟨?_, ?_⟩
        · intro D hD
          obtain ⟨k, hk, rfl⟩ := (mem_dirPrefixes_dirPathAt path D level hlt).1 hD
          exact hlow k hk
        · apply ih
          · intro k hk
            rcases Nat.eq_or_lt_of_le (Nat.le_of_lt_succ hk) with rfl | hk2
            · right; exact ⟨rfl, rfl⟩
            · left; exact hlow k hk2
          · intro D hD
            rcases List.mem_cons.1 hD with rfl | hD
            · right; exact ⟨rfl, rfl⟩
            · left; exact htr D hD
      · rename_i hc
        apply ih
        · intro k hk
          rcases Nat.eq_or_lt_of_le (Nat.le_of_lt_succ hk) with rfl | hk2
          · apply htr
            simpa using hc
          · exact hlow k hk2
        · exact htr
    · trivial

/-! ### The lines of the whole tree -/

/-- The line of a file: indentation by its depth, a marker that is the corner exactly when
no later path has the same directory part, its name, the suffix of its record. -/
theorem fileLine_form (filesData : List FileInfo) (path : GoString) (later : List GoString) :
    fileLine filesData path later =
      Repeat (str "│   ") (depthOf path) ++
        (if ∀ other ∈ later, parentDir other ≠ parentDir path then str "└── " else str "├── ") ++
        fileNameOf path ++ recordSuffix (fileInfoLookup filesData path) ++ str "\n" := by
  have hsuf : (match fileInfoLookup filesData path with
      | some fileInfo =>
        if fileInfo.IsBinary then str " (Binary)"
        else if Contains fileInfo.Content (str "[File content skipped:") then
          str " (Skipped - Too Large)"
        else []
      | none => []) = recordSuffix (fileInfoLookup filesData path) := by
    cases fileInfoLookup filesData path <;> rfl
  have hany : (!later.any (fun other =>
      decide (joinSlash ((splitSlash other).take ((splitSlash other).length - 1)) =
        joinSlash ((splitSlash path).take ((splitSlash path).length - 1))))) = true ↔
      ∀ other ∈ later, parentDir other ≠ parentDir path := by
    simp [parentDir]
  unfold fileLine
  simp only [hsuf]
  by_cases h : ∀ other ∈ later, parentDir other ≠ parentDir path
  · rw [if_pos (hany.2 h), if_pos h]
    rfl
  · rw [if_neg (fun hc => h (hany.1 hc)), if_neg h]
    rfl

theorem treeLines_filesOf (filesData : List FileInfo) :
    ∀ (paths tracker : List GoString), filesOf (treeLines filesData paths tracker) = paths := by
  intro paths
  induction paths with
  | nil => intro tracker; rfl
  | cons path later ih =>
    intro tracker
    simp only [treeLines]
    rw [filesOf_append, filesOf_of_isDir _ (dirLinesOf_isDir _ _ _ _ _)]
    simp only [List.nil_append]
    show filesOf ([_] ++ _) = _
    rw [filesOf_append, ih]
    rfl

theorem dirsOf_treeLines_cons (filesData : List FileInfo) (path : GoString)
    (later tracker : List GoString) :
    dirsOf (treeLines filesData (path :: later) tracker) =
      (dirLinesOf (splitSlash path) later (splitSlash path).length 0 tracker).map (fun l => l.path) ++
        dirsOf (treeLines filesData later
          (((dirLinesOf (splitSlash path) later (splitSlash path).length 0 tracker).map
            (fun l => l.path)).reverse ++ tracker)) := by
  simp only [treeLines]
  rw [dirsOf_append, dirsOf_of_isDir _ (dirLinesOf_isDir _ _ _ _ _)]
  congr 1

/-- No directory has two lines, and none that was in the tracker has one. -/
theorem treeLines_dirs_nodup (filesData : List FileInfo) :
    ∀ (paths tracker : List GoString),
      (dirsOf (treeLines filesData paths tracker)).Nodup ∧
        ∀ D ∈ dirsOf (treeLines filesData paths tracker), D ∉ tracker := by
  intro paths
  induction paths with
  | nil => intro tracker; simp [treeLines, dirsOf]
  | cons path later ih =>
    intro tracker
    rw [dirsOf_treeLines_cons]
    obtain ⟨ih1, ih2⟩ := ih (((dirLinesOf (splitSlash path) later (splitSlash path).length 0
      tracker).map (fun l => l.path)).reverse ++ tracker)
    constructor
    · rw [List.nodup_append]
      refine ⟨dirLinesOf_nodup _ _ _ _ _, ih1, ?_⟩
      intro D hD1 hD2
      exact ih2 D hD2 (List.mem_append_left _ (List.mem_reverse.2 hD1))
    · intro D hD
      rcases List.mem_append.1 hD with h | h
      · obtain ⟨d, hd, rfl⟩ := List.mem_map.1 h
        exact (dirLinesOf_mem _ _ _ _ _ d hd).2.1
      · exact fun ht => ih2 D h (List.mem_append_right _ ht)

/-- The directories with a line are proper directory prefixes of the paths. -/
theorem treeLines_dirs_sound (filesData : List FileInfo) :
    ∀ (paths tracker : List GoString) (D : GoString),
      D ∈ dirsOf (treeLines filesData paths tracker) → ∃ p ∈ paths, D ∈ dirPrefixes p := by
  intro paths
  induction paths with
  | nil => intro tracker D hD; simp [treeLines, dirsOf] at hD
  | cons path later ih =>
    intro tracker D hD
    rw [dirsOf_treeLines_cons] at hD
    rcases List.mem_append.1 hD with h | h
    · obtain ⟨d, hd, rfl⟩ := List.mem_map.1 h
      obtain ⟨_, _, l, _, hl, hpath, _⟩ := dirLinesOf_mem _ _ _ _ _ d hd
      exact ⟨path, List.mem_cons_self _ _, (mem_dirPrefixes path _).2 ⟨l, hl, hpath⟩⟩
    · obtain ⟨p, hp, hD2⟩ := ih _ D h
      exact ⟨p, List.mem_cons_of_mem _ hp, hD2⟩

/-- Every proper directory prefix of a path has a line, unless it was in the tracker. -/
theorem treeLines_dirs_complete (filesData : List FileInfo) :
    ∀ (paths tracker : List GoString) (D : GoString),
      (∃ p ∈ paths, D ∈ dirPrefixes p) →
      D ∈ tracker ∨ D ∈ dirsOf (treeLines filesData paths tracker) := by
  intro paths
  induction paths with
  | nil => intro tracker D hD; simp at hD
  | cons path later ih =>
    intro tracker D hD
    rw [dirsOf_treeLines_cons]
    obtain ⟨p, hp, hDp⟩ := hD
    rcases List.mem_cons.1 hp with rfl | hp
    · obtain ⟨l, hl, rfl⟩ := (mem_dirPrefixes p D).1 hDp
      rcases dirLinesOf_cover (splitSlash p) later (splitSlash p).length 0 tracker (by omega)
        l (Nat.zero_le _) hl with h | h
      · exact Or.inl h
      · exact Or.inr (List.mem_append_left _ h)
    · rcases ih (((dirLinesOf (splitSlash path) later (splitSlash path).length 0
        tracker).map (fun l => l.path)).reverse ++ tracker) D ⟨p, hp, hDp⟩ with h | h
      · rcases List.mem_append.1 h with h | h
        · exact Or.inr (List.mem_append_left _ (List.mem_reverse.1 h))
        · exact Or.inl h
      · exact Or.inr (List.mem_append_right _ h)

/-- Every line comes after the lines of the directories above its entry. -/
theorem treeLines_dirsFirst (filesData : List FileInfo) :
    ∀ (paths tracker : List GoString) (S : GoString → Prop), (∀ D ∈ tracker, S D) →
      dirsFirst S (treeLines filesData paths tracker) := by
  intro paths
  induction paths with
  | nil => intro tracker S _; trivial
  | cons path later ih =>
    intro tracker S htr
    simp only [treeLines]
    rw [dirsFirst_append, dirsOf_of_isDir _ (dirLinesOf_isDir _ _ _ _ _)]
    refine ⟨dirLinesOf_dirsFirst path later _ 0 tracker S (fun k hk => by omega) htr, ?_, ?_⟩
    · intro D hD
      obtain ⟨l, hl, rfl⟩ := (mem_dirPrefixes path D).1 hD
      rcases dirLinesOf_cover (splitSlash path) later (splitSlash path).length 0 tracker
        (by omega) l (Nat.zero_le _) hl with h | h
      · exact Or.inl (htr _ h)
      · exact Or.inr h
    · apply ih
      intro D hD
      rcases List.mem_append.1 hD with h | h
      · exact Or.inl (Or.inr (List.mem_reverse.1 h))
      · exact Or.inl (Or.inl (htr D h))

/-- In a list of lines with directories first, the directories above an entry have their
lines before the line of the entry. -/
theorem dirsFirst_split (S : GoString → Prop) (X : List TreeLine) (l : TreeLine)
    (Y : List TreeLine) (h : dirsFirst S (X ++ l :: Y)) :
    ∀ D ∈ dirPrefixes l.path, S D ∨ D ∈ dirsOf X :=
  ((dirsFirst_append X (l :: Y) S).1 h).2.1

/-- The line of the file at `path` stands in the list between the lines of the paths
before it and those of the paths after it. -/
theorem treeLines_split (filesData : List FileInfo) (path : GoString) (later : List GoString) :
    ∀ (before tracker : List GoString), ∃ X Y,
      treeLines filesData (before ++ path :: later) tracker =
        X ++ { isDir := false, path := path, depth := depthOf path,
               text := fileLine filesData path later } :: Y ∧
      filesOf X = before ∧ filesOf Y = later := by
  intro before
  induction before with
  | nil =>
    intro tracker
    exact ⟨_, _, rfl, filesOf_of_isDir _ (dirLinesOf_isDir _ _ _ _ _), treeLines_filesOf _ _ _⟩
  | cons q before ih =>
    intro tracker
    obtain ⟨X, Y, hXY, hX, hY⟩ := ih (((dirLinesOf (splitSlash q) (before ++ path :: later)
      (splitSlash q).length 0 tracker).map (fun l => l.path)).reverse ++ tracker)
    refine ⟨dirLinesOf (splitSlash q) (before ++ path :: later) (splitSlash q).length 0 tracker ++
      { isDir := false, path := q, depth := (splitSlash q).length - 1,
        text := fileLine filesData q (before ++ path :: later) } :: X, Y, ?_, ?_, hY⟩
    · show treeLines filesData (q :: (before ++ path :: later)) tracker = _
      simp only [treeLines, List.append_assoc, List.cons_append]
      rw [hXY]
    · rw [filesOf_append, filesOf_of_isDir _ (dirLinesOf_isDir _ _ _ _ _)]
      simp only [List.nil_append]
      show filesOf ([_] ++ X) = _
      rw [filesOf_append, hX]
      rfl

theorem str_slash_newline : str "/\n" = str "/" ++ str "\n" := by decide

/-- The shape of every line: its depth is the depth of its entry, and its text is that
many indentation markers, a branch marker, the name of the entry, a slash for a directory
or the suffix of the record for a file, and a line end. -/
theorem treeLines_line_form (filesData : List FileInfo) :
    ∀ (paths tracker : List GoString), ∀ l ∈ treeLines filesData paths tracker,
      l.depth = depthOf l.path ∧
        ∃ marker, (marker = str "└── " ∨ marker = str "├── ") ∧
          l.text = Repeat (str "│   ") l.depth ++ marker ++ fileNameOf l.path ++
            (if l.isDir then str "/" else recordSuffix (fileInfoLookup filesData l.path)) ++
            str "\n" := by
  intro paths
  induction paths with
  | nil => intro tracker l hl; simp [treeLines] at hl
  | cons path later ih =>
    intro tracker l hl
    simp only [treeLines, List.mem_append, List.mem_cons] at hl
    rcases hl with hl | rfl | hl
    · obtain ⟨hdir, _, lv, _, hlv, hpath, hdepth, marker, hm, htext⟩ :=
        dirLinesOf_mem _ _ _ _ _ l hl
      refine ⟨?_, marker, hm, ?_⟩
      · rw [hpath, depthOf_dirPathAt path lv hlv, hdepth]
      · rw [htext, hpath, fileNameOf_dirPathAt path lv hlv, hdepth, hdir, str_slash_newline]
        simp
    · refine ⟨rfl, ?_⟩
      dsimp only
      rw [fileLine_form]
      by_cases h : ∀ other ∈ later, parentDir other ≠ parentDir path
      · exact ⟨_, Or.inl rfl, by rw [if_pos h]; rfl⟩
      · exact ⟨_, Or.inr rfl, by rw [if_neg h]; rfl⟩
    · exact ih _ l hl

/-! ### The tree of the paths -/

/-- A file line of the list stands after the lines of the paths before it, and its text is
the line of its path with the paths of the file lines after it as the later paths. -/
theorem treeLines_file_text (filesData : List FileInfo) :
    ∀ (paths tracker : List GoString) (X : List TreeLine) (l : TreeLine) (Y : List TreeLine),
      treeLines filesData paths tracker = X ++ l :: Y → l.isDir = false →
      l.text = fileLine filesData l.path (filesOf Y) := by
  intro paths
  induction paths with
  | nil =>
    intro tracker X l Y h
    simp [treeLines] at h
  | cons path later ih =>
    intro tracker X l Y h hfile
    simp only [treeLines] at h
    have hhead : ∀ (Y1 : List TreeLine),
        ({ isDir := false, path := path, depth := (splitSlash path).length - 1,
           text := fileLine filesData path later } : TreeLine) ::
          treeLines filesData later
            (((dirLinesOf (splitSlash path) later (splitSlash path).length 0 tracker).map
              (fun l => l.path)).reverse ++ tracker) = l :: Y1 →
        l.text = fileLine filesData l.path (filesOf Y1) := by
      intro Y1 h1
      simp only [List.cons.injEq] at h1
      rw [← h1.1, ← h1.2, treeLines_filesOf]
    rcases List.append_eq_append_iff.1 h with ⟨a, _, ha⟩ | ⟨c, hc, hY⟩
    · cases a with
      | nil => exact hhead Y ha
      | cons f a =>
        simp only [List.cons_append, List.cons.injEq] at ha
        exact ih _ a l Y ha.2 hfile
    · cases c with
      | nil => exact hhead Y hY.symm
      | cons d c =>
        simp only [List.cons_append, List.cons.injEq] at hY
        have hmem : l ∈ dirLinesOf (splitSlash path) later (splitSlash path).length 0 tracker := by
          rw [hc, hY.1]
          simp
        have := dirLinesOf_isDir _ _ _ _ _ l hmem
        rw [hfile] at this
        exact absurd this (by simp)

/-- The lines written for the sorted paths are a tree of the paths. -/
theorem treeLines_isTreeOf (filesData : List FileInfo) (paths : List GoString) :
    IsTreeOf filesData paths (treeLines filesData (sortSlice strLess paths) []) := by
  refine ⟨treeLines_filesOf _ _ _, (treeLines_dirs_nodup filesData _ []).1, ?_, ?_⟩
  · intro D
    constructor
    · intro hD
      obtain ⟨p, hp, hDp⟩ := treeLines_dirs_sound filesData _ [] D hD
      exact ⟨p, (sortSlice_perm strLess paths).mem_iff.1 hp, hDp⟩
    · rintro ⟨p, hp, hDp⟩
      rcases treeLines_dirs_complete filesData (sortSlice strLess paths) [] D
        ⟨p, (sortSlice_perm strLess paths).mem_iff.2 hp, hDp⟩ with h | h
      · simp at h
      · exact h
  · intro X l Y hl
    have hmem : l ∈ treeLines filesData (sortSlice strLess paths) [] := by
      rw [hl]; simp
    obtain ⟨hdepth, marker, hm, htext⟩ := treeLines_line_form filesData _ [] l hmem
    refine ⟨?_, hdepth, ?_, ?_⟩
    · intro D hD
      have hfirst : dirsFirst (fun _ => False) (X ++ l :: Y) := by
        rw [← hl]
        exact treeLines_dirsFirst filesData _ [] _ (fun D hD => by simp at hD)
      rcases dirsFirst_split _ X l Y hfirst D hD with h | h
      · exact h.elim
      · exact h
    · intro hdir
      refine ⟨marker, hm, ?_⟩
      rw [htext, hdir, str_slash_newline]
      simp
    · intro hfile
      rw [treeLines_file_text filesData _ [] X l Y hl hfile, fileLine_form, hdepth]

/-- The output for a list of paths that is not empty: the line of the root name, then the
texts of the lines of a tree of the paths; and for a path that stands in the sorted list
after `before` and before `later`, the line of its file stands in the tree after the lines
of the paths before it and before those of the paths after it. -/
theorem GenerateTreeString_tree (paths : List GoString) (rootName : GoString)
    (filesData : List FileInfo) (before : List GoString) (path : GoString)
    (later : List GoString) (h : sortSlice strLess paths = before ++ path :: later) :
    ∃ lines X Y : List TreeLine,
      GenerateTreeString paths rootName filesData = rootName ++ str "/\n" ++ linesText lines ∧
      IsTreeOf filesData paths lines ∧
      lines = X ++ { isDir := false, path := path, depth := depthOf path,
                     text := fileLine filesData path later } :: Y ∧
      filesOf X = before ∧ filesOf Y = later := by
  have hne : paths ≠ [] := by
    intro hnil
    rw [hnil] at h
    simp [sortSlice] at h
  obtain ⟨X, Y, hXY, hX, hY⟩ := treeLines_split filesData path later before []
  refine ⟨treeLines filesData (sortSlice strLess paths) [], X, Y,
    GenerateTreeString_lines paths rootName filesData hne, treeLines_isTreeOf filesData paths,
    ?_, hX, hY⟩
  rw [h, hXY]

/-! ## C12: the branch marker of a file line -/

/-- C12 (counterexample). Three trees. In the first the directory `a/` and the file
`b.txt` are both children of the root and both drawn with the corner, and `a/` has the
corner although the later path `b.txt` lies under the same parent. In the second the only
child of the root, `src/`, is drawn with the tee. In the third the file `a/b.txt` has the
corner although the later path `a/c/d.txt` lies under the same directory `a`. -/
theorem C12_corner_not_once_per_sibling_group :
    GenerateTreeString [str "a/x.txt", str "b.txt"] (str "root") [] =
        str "root/\n└── a/\n│   └── x.txt\n└── b.txt\n" ∧
      GenerateTreeString [str "src/a.go", str "src/b.go"] (str "root") [] =
        str "root/\n├── src/\n│   ├── a.go\n│   └── b.go\n" ∧
      GenerateTreeString [str "a/b.txt", str "a/c/d.txt"] (str "root") [] =
        str "root/\n├── a/\n│   └── b.txt\n│   └── c/\n│   │   └── d.txt\n" := by
  decide

/-- C12 (amended). The output is the line of the root name and then the lines of a tree of
the paths. For a path that stands in the sorted list after `before` and before `later`,
the line of its file stands in that tree after the lines of the paths before it and before
those of the paths after it, and is the indentation by its depth, a branch marker, its
name, the suffix of its record and a line end. The marker is the corner exactly when no
later path has the same directory part, that is when no later file lies directly in the
same directory, and the tee exactly when some later path has. The same rule holds for
every file line of the tree. -/
theorem C12_file_corner_iff_no_later_file_in_same_directory (paths : List GoString)
    (rootName : GoString) (filesData : List FileInfo) (before : List GoString)
    (path : GoString) (later : List GoString)
    (h : sortSlice strLess paths = before ++ path :: later) :
    ∃ (marker : GoString) (lines X Y : List TreeLine),
      GenerateTreeString paths rootName filesData = rootName ++ str "/\n" ++ linesText lines ∧
      IsTreeOf filesData paths lines ∧
      lines = X ++ { isDir := false, path := path, depth := depthOf path,
                     text := Repeat (str "│   ") (depthOf path) ++ marker ++ fileNameOf path ++
                       recordSuffix (fileInfoLookup filesData path) ++ str "\n" } :: Y ∧
      filesOf X = before ∧ filesOf Y = later ∧
      (marker = str "└── " ∨ marker = str "├── ") ∧
      (marker = str "└── " ↔ ∀ other ∈ later, parentDir other ≠ parentDir path) ∧
      (marker = str "├── " ↔ ∃ other ∈ later, parentDir other = parentDir path) := by
  obtain ⟨lines, X, Y, hout, htree, hsplit, hX, hY⟩ :=
    GenerateTreeString_tree paths rootName filesData before path later h
  have hne : str "└── " ≠ str "├── " := by decide
  by_cases hlast : ∀ other ∈ later, parentDir other ≠ parentDir path
  · refine ⟨str "└── ", lines, X, Y, hout, htree, ?_, hX, hY, Or.inl rfl, ?_, ?_⟩
    · rw [hsplit, fileLine_form, if_pos hlast]
    · exact ⟨fun _ => hlast, fun _ => rfl⟩
    · constructor
      · intro hm; exact absurd hm hne
      · rintro ⟨other, ho, heq⟩; exact absurd heq (hlast other ho)
  · refine ⟨str "├── ", lines, X, Y, hout, htree, ?_, hX, hY, Or.inr rfl, ?_, ?_⟩
    · rw [hsplit, fileLine_form, if_neg hlast]
    · constructor
      · intro hm; exact absurd hm.symm hne
      · intro hl; exact absurd hl hlast
    · constructor
      · intro _
        by_contra hno
        exact hlast (fun other ho heq => hno ⟨other, ho, heq⟩)
      · intro _; rfl

/-- C12 (witness). The paths `a/b.txt` and `a/c/d.txt`: the first stands before the second
in sorted order. -/
theorem C12_witness_file_before_subdirectory :
    sortSlice strLess [str "a/b.txt", str "a/c/d.txt"] = [] ++ str "a/b.txt" :: [str "a/c/d.txt"] ∧
      ∃ (marker : GoString) (lines X Y : List TreeLine),
        GenerateTreeString [str "a/b.txt", str "a/c/d.txt"] (str "root") [] =
          str "root" ++ str "/\n" ++ linesText lines ∧
        IsTreeOf [] [str "a/b.txt", str "a/c/d.txt"] lines ∧
        lines = X ++ { isDir := false, path := str "a/b.txt", depth := depthOf (str "a/b.txt"),
                       text := Repeat (str "│   ") (depthOf (str "a/b.txt")) ++ marker ++
                         fileNameOf (str "a/b.txt") ++
                         recordSuffix (fileInfoLookup [] (str "a/b.txt")) ++ str "\n" } :: Y ∧
        filesOf X = [] ∧ filesOf Y = [str "a/c/d.txt"] ∧
        (marker = str "└── " ∨ marker = str "├── ") ∧
        (marker = str "└── " ↔
          ∀ other ∈ [str "a/c/d.txt"], parentDir other ≠ parentDir (str "a/b.txt")) ∧
        (marker = str "├── " ↔
          ∃ other ∈ [str "a/c/d.txt"], parentDir other = parentDir (str "a/b.txt")) :=
  ⟨by decide,
    C12_file_corner_iff_no_later_file_in_same_directory _ (str "root") [] [] _ _ (by decide)⟩

/-! ## C13: the suffix of a file line -/

theorem Contains_of_isPrefixOf (s sub : GoString) (h : sub.isPrefixOf s = true) :
    Contains s sub = true := by
  cases s with
  | nil =>
    cases sub with
    | nil => rfl
    | cons c sub => simp [List.isPrefixOf] at h
  | cons c s => simp [Contains, h]

theorem isPrefixOf_append_self (a b : GoString) : a.isPrefixOf (a ++ b) = true := by
  induction a with
  | nil => simp [List.isPrefixOf]
  | cons c a ih => simp [List.isPrefixOf, ih]

/-- The placeholder of a file skipped for its size holds the text the tree looks for. -/
theorem skipMessage_contains_marker (size maxFileSize : Int) :
    Contains (skipMessage size maxFileSize) (str "[File content skipped:") = true := by
  apply Contains_of_isPrefixOf
  have hsplit : str "[File content skipped: Exceeds max size (" =
      str "[File content skipped:" ++ str " Exceeds max size (" := by decide
  unfold skipMessage
  rw [hsplit]
  simp only [List.append_assoc]
  exact isPrefixOf_append_self _ _

/-- The placeholder of a file skipped for its size starts with an opening bracket. -/
theorem skipMessage_head (size maxFileSize : Int) :
    (skipMessage size maxFileSize).head? = some 0x5B := by
  have hsplit : str "[File content skipped: Exceeds max size (" =
      0x5B :: str "File content skipped: Exceeds max size (" := by decide
  unfold skipMessage
  rw [hsplit]
  rfl

/-- C13 (counterexample). A record of an ordinary text file, not binary, whose content is
no size-skip placeholder but holds the text `[File content skipped:`: its line in the
tree ends with the suffix of a skipped file. -/
theorem C13_text_record_with_marker_text_gets_skip_suffix :
    (∀ size maxFileSize : Int, str "see [File content skipped: here" ≠ skipMessage size maxFileSize) ∧
      GenerateTreeString [str "notes.txt"] (str "root")
          [{ FileInfo.zero with RelativePath := str "notes.txt",
                                Content := str "see [File content skipped: here",
                                IsBinary := false }] =
        str "root/\n└── notes.txt (Skipped - Too Large)\n" := by
  refine ⟨?_, by decide⟩
  intro size maxFileSize heq
  have := congrArg List.head? heq
  rw [skipMessage_head] at this
  revert this
  decide

/-- C13 (amended). The output is the line of the root name and then the lines of a tree of
the paths. For a path that stands in the sorted list after `before` and before `later`,
the line of its file stands in that tree after the lines of the paths before it and before
those of the paths after it, and ends with a suffix and a line end. With `fileInfo` the
last record of `filesData` with this relative path: the suffix is ` (Binary)` exactly when
`IsBinary` is true; it is ` (Skipped - Too Large)` exactly when `IsBinary` is false and the
content holds the text `[File content skipped:` somewhere, as the size-skip placeholder
does; it is empty exactly when `IsBinary` is false and the content does not hold that
text. With no record for the path the suffix is empty. -/
theorem C13_suffix_binary_or_marker_text_in_content (paths : List GoString)
    (rootName : GoString) (filesData : List FileInfo) (before : List GoString)
    (path : GoString) (later : List GoString)
    (h : sortSlice strLess paths = before ++ path :: later) :
    ∃ (marker suffix : GoString) (lines X Y : List TreeLine),
      GenerateTreeString paths rootName filesData = rootName ++ str "/\n" ++ linesText lines ∧
      IsTreeOf filesData paths lines ∧
      lines = X ++ { isDir := false, path := path, depth := depthOf path,
                     text := Repeat (str "│   ") (depthOf path) ++ marker ++ fileNameOf path ++
                       suffix ++ str "\n" } :: Y ∧
      filesOf X = before ∧ filesOf Y = later ∧
      (marker = str "└── " ∨ marker = str "├── ") ∧
      (∀ fileInfo, filesData.reverse.find? (fun r => r.RelativePath = path) = some fileInfo →
        (suffix = str " (Binary)" ↔ fileInfo.IsBinary = true) ∧
        (suffix = str " (Skipped - Too Large)" ↔
          fileInfo.IsBinary = false ∧
            Contains fileInfo.Content (str "[File content skipped:") = true) ∧
        (suffix = [] ↔
          fileInfo.IsBinary = false ∧
            Contains fileInfo.Content (str "[File content skipped:") = false) ∧
        (∀ size maxFileSize : Int, fileInfo.IsBinary = false →
          fileInfo.Content = skipMessage size maxFileSize →
          suffix = str " (Skipped - Too Large)")) ∧
      ((∀ r ∈ filesData, r.RelativePath ≠ path) → suffix = []) := by
  obtain ⟨lines, X, Y, hout, htree, hsplit, hX, hY⟩ :=
    GenerateTreeString_tree paths rootName filesData before path later h
  have hmarker : ∃ marker, (marker = str "└── " ∨ marker = str "├── ") ∧
      fileLine filesData path later =
        Repeat (str "│   ") (depthOf path) ++ marker ++ fileNameOf path ++
          recordSuffix (fileInfoLookup filesData path) ++ str "\n" := by
    rw [fileLine_form]
    by_cases hlast : ∀ other ∈ later, parentDir other ≠ parentDir path
    · exact ⟨_, Or.inl rfl, by rw [if_pos hlast]⟩
    · exact ⟨_, Or.inr rfl, by rw [if_neg hlast]⟩
  obtain ⟨marker, hm, hline⟩ := hmarker
  have h1 : str " (Binary)" ≠ str " (Skipped - Too Large)" := by decide
  have h2 : str " (Binary)" ≠ [] := by decide
  have h3 : str " (Skipped - Too Large)" ≠ [] := by decide
  refine ⟨marker, recordSuffix (fileInfoLookup filesData path), lines, X, Y, hout, htree, ?_,
    hX, hY, hm, ?_, ?_⟩
  · rw [hsplit, hline]
  · intro fileInfo hfind
    have hlook : fileInfoLookup filesData path = some fileInfo := hfind
    rw [hlook]
    simp only [recordSuffix]
    cases hb : fileInfo.IsBinary with
    | true =>
      simp only [if_true]
      refine ⟨by simp, ?_, ?_, ?_⟩
      · simp [h1]
      · simp [h2]
      · intro _ _ hf; cases hf
    | false =>
      cases hc : Contains fileInfo.Content (str "[File content skipped:") with
      | true =>
        simp only [Bool.false_eq_true, if_false, if_true]
        refine ⟨by simp [h1.symm], by simp, by simp [h3], by intros; trivial⟩
      | false =>
        simp only [Bool.false_eq_true, if_false]
        refine ⟨by simp [h2.symm], by simp [h3.symm], by simp, ?_⟩
        intro size maxFileSize _ hcontent
        rw [hcontent, skipMessage_contains_marker] at hc
        cases hc
  · intro hnone
    have hlook : fileInfoLookup filesData path = none := by
      unfold fileInfoLookup
      rw [List.find?_eq_none]
      intro r hr
      simpa using hnone r (List.mem_reverse.1 hr)
    rw [hlook]
    rfl

/-- C13 (witness). The tree of the one path `notes.txt`, with the record of a text file
whose content holds the text `[File content skipped:`. -/
theorem C13_witness_notes_txt :
    sortSlice strLess [str "notes.txt"] = [] ++ str "notes.txt" :: [] ∧
      ∃ (marker suffix : GoString) (lines X Y : List TreeLine),
        GenerateTreeString [str "notes.txt"] (str "root")
            [{ FileInfo.zero with RelativePath := str "notes.txt",
                                  Content := str "see [File content skipped: here" }] =
          str "root" ++ str "/\n" ++ linesText lines ∧
        IsTreeOf
          [{ FileInfo.zero with RelativePath := str "notes.txt",
                                Content := str "see [File content skipped: here" }]
          [str "notes.txt"] lines ∧
        lines = X ++ { isDir := false, path := str "notes.txt",
                       depth := depthOf (str "notes.txt"),
                       text := Repeat (str "│   ") (depthOf (str "notes.txt")) ++ marker ++
                         fileNameOf (str "notes.txt") ++ suffix ++ str "\n" } :: Y ∧
        filesOf X = [] ∧ filesOf Y = [] ∧
        (marker = str "└── " ∨ marker = str "├── ") ∧
        (∀ fileInfo,
          [{ FileInfo.zero with RelativePath := str "notes.txt",
                                Content := str "see [File content skipped: here" }].reverse.find?
              (fun r => r.RelativePath = str "notes.txt") = some fileInfo →
          (suffix = str " (Binary)" ↔ fileInfo.IsBinary = true) ∧
          (suffix = str " (Skipped - Too Large)" ↔
            fileInfo.IsBinary = false ∧
              Contains fileInfo.Content (str "[File content skipped:") = true) ∧
          (suffix = [] ↔
            fileInfo.IsBinary = false ∧
              Contains fileInfo.Content (str "[File content skipped:") = false) ∧
          (∀ size maxFileSize : Int, fileInfo.IsBinary = false →
            fileInfo.Content = skipMessage size maxFileSize →
            suffix = str " (Skipped - Too Large)")) ∧
        ((∀ r ∈ [{ FileInfo.zero with RelativePath := str "notes.txt",
                                      Content := str "see [File content skipped: here" }],
            r.RelativePath ≠ str "notes.txt") → suffix = []) :=
  ⟨by decide,
    C13_suffix_binary_or_marker_text_in_content _ (str "root") _ [] _ [] (by decide)⟩

/-! ## C14: the lines of the tree -/

/-- C14. The output of `GenerateTreeString` is empty for an empty list of paths, and
otherwise the line of the root name followed by the texts of a list of lines such that:
the file lines are the paths in sorted order, one for each path; no directory has two
lines, and the directories with a line are exactly the proper directory prefixes of the
paths; the line of every entry comes after the lines of all the directories above it; and
a line for an entry at depth `d` is `d` indentation markers, a branch marker, the name of
the entry, a slash for a directory or the suffix of the record for a file, and a line
end. -/
theorem C14_root_line_then_one_line_per_directory_and_path (paths : List GoString)
    (rootName : GoString) (filesData : List FileInfo) :
    ∃ lines : List TreeLine,
      GenerateTreeString paths rootName filesData =
        (if paths = [] then [] else rootName ++ str "/\n" ++ linesText lines) ∧
      filesOf lines = sortSlice strLess paths ∧
      (filesOf lines).Perm paths ∧
      (dirsOf lines).Nodup ∧
      (∀ D, D ∈ dirsOf lines ↔ ∃ p ∈ paths, D ∈ dirPrefixes p) ∧
      (∀ X l Y, lines = X ++ l :: Y → ∀ D ∈ dirPrefixes l.path, D ∈ dirsOf X) ∧
      (∀ l ∈ lines, l.depth = depthOf l.path ∧
        ∃ marker, (marker = str "└── " ∨ marker = str "├── ") ∧
          l.text = Repeat (str "│   ") l.depth ++ marker ++ fileNameOf l.path ++
            (if l.isDir then str "/" else recordSuffix (fileInfoLookup filesData l.path)) ++
            str "\n") := by
  refine ⟨treeLines filesData (sortSlice strLess paths) [], ?_, ?_, ?_, ?_, ?_, ?_, ?_⟩
  · by_cases h : paths = []
    · subst h
      rfl
    · rw [if_neg h]
      exact GenerateTreeString_lines paths rootName filesData h
  · exact treeLines_filesOf _ _ _
  · rw [treeLines_filesOf]
    exact sortSlice_perm _ _
  · exact (treeLines_dirs_nodup filesData _ []).1
  · intro D
    constructor
    · intro hD
      obtain ⟨p, hp, hDp⟩ := treeLines_dirs_sound filesData _ [] D hD
      exact ⟨p, (sortSlice_perm strLess paths).mem_iff.1 hp, hDp⟩
    · rintro ⟨p, hp, hDp⟩
      rcases treeLines_dirs_complete filesData (sortSlice strLess paths) [] D
        ⟨p, (sortSlice_perm strLess paths).mem_iff.2 hp, hDp⟩ with h | h
      · simp at h
      · exact h
  · intro X l Y hl D hD
    have hfirst : dirsFirst (fun _ => False) (X ++ l :: Y) := by
      rw [← hl]
      exact treeLines_dirsFirst filesData _ [] _ (fun D hD => by simp at hD)
    rcases dirsFirst_split _ X l Y hfirst D hD with h | h
    · exact h.elim
    · exact h
  · exact treeLines_line_form filesData _ []

/-! ## C21 to C23: the default exclusion list at run time -/

/-- Removing the first occurrence of a pattern that occurs: the list splits around it. -/
theorem removeFirst_of_mem (p : GoString) : ∀ (l : List GoString), p ∈ l →
    ∃ l1 l2, l = l1 ++ p :: l2 ∧ p ∉ l1 ∧ removeFirst p l = l1 ++ l2
  | [], h => by simp at h
  | q :: rest, h => by
    by_cases hq : q = p
    · subst hq
      exact ⟨[], rest, rfl, by simp, by simp [removeFirst]⟩
    · have hrest : p ∈ rest := by
        rcases List.mem_cons.1 h with h1 | h1
        · exact absurd h1.symm hq
        · exact h1
      obtain ⟨l1, l2, h1, h2, h3⟩ := removeFirst_of_mem p rest hrest
      refine ⟨q :: l1, l2, by simp [h1], ?_, ?_⟩
      · simp only [List.mem_cons, not_or]
        exact ⟨fun h => hq h.symm, h2⟩
      · simp [removeFirst, hq, h3]

/-- Removing a pattern that does not occur changes nothing. -/
theorem removeFirst_of_not_mem (p : GoString) : ∀ (l : List GoString), p ∉ l →
    removeFirst p l = l
  | [], _ => rfl
  | q :: rest, h => by
    have hq : q ≠ p := fun hq => h (by simp [hq])
    have hrest : p ∉ rest := fun hr => h (List.mem_cons_of_mem _ hr)
    simp [removeFirst, hq, removeFirst_of_not_mem p rest hrest]

set_option maxRecDepth 100000 in
/-- C21. For a pattern `p` that occurs in the list, `RemoveExclusion(p)` takes out its first
occurrence: the list is `l1 ++ p :: l2` with `p` not in `l1`, and afterwards it is
`l1 ++ l2`, one element shorter, the other elements in their order. For a pattern that
does not occur the list is unchanged. The directory and file tables are never changed. From
the initial state, removing `.git` leaves 163 of the 164 patterns. -/
theorem C21_remove_shortens_by_one_keeps_order (p : GoString) (s : Exclusions) :
    (p ∈ GetDefaultExcludePatterns s →
      ∃ l1 l2, GetDefaultExcludePatterns s = l1 ++ p :: l2 ∧ p ∉ l1 ∧
        GetDefaultExcludePatterns (RemoveExclusion p s) = l1 ++ l2 ∧
        (GetDefaultExcludePatterns (RemoveExclusion p s)).length + 1 =
          (GetDefaultExcludePatterns s).length) ∧
    (p ∉ GetDefaultExcludePatterns s →
      GetDefaultExcludePatterns (RemoveExclusion p s) = GetDefaultExcludePatterns s) ∧
    GetDefaultDirectoryExclusions (RemoveExclusion p s) = GetDefaultDirectoryExclusions s ∧
    GetDefaultFileExclusions (RemoveExclusion p s) = GetDefaultFileExclusions s ∧
    (GetDefaultExcludePatterns initialExclusions).length = 164 ∧
    (GetDefaultExcludePatterns (RemoveExclusion (str ".git") initialExclusions)).length = 163 := by
  refine ⟨?_, ?_, rfl, rfl, by decide, by decide⟩
  · intro hp
    obtain ⟨l1, l2, h1, h2, h3⟩ := removeFirst_of_mem p s.All hp
    refine ⟨l1, l2, h1, h2, h3, ?_⟩
    show (removeFirst p s.All).length + 1 = s.All.length
    rw [h3, h1]
    simp
    omega
  · intro hp
    exact removeFirst_of_not_mem p s.All hp

/-- The calls leave the directory and file tables as they are. -/
theorem applyCalls_tables (calls : List ExclusionCall) : ∀ (s : Exclusions),
    (applyCalls calls s).Directories = s.Directories ∧
      (applyCalls calls s).FilePatterns = s.FilePatterns := by
  induction calls with
  | nil => intro s; exact ⟨rfl, rfl⟩
  | cons call rest ih =>
    intro s
    have h := ih (applyCall s call)
    have hcall : (applyCall s call).Directories = s.Directories ∧
        (applyCall s call).FilePatterns = s.FilePatterns := by
      cases call <;> exact ⟨rfl, rfl⟩
    exact ⟨h.1.trans hcall.1, h.2.trans hcall.2⟩

/-- The state after `ResetToDefaults`, from the two tables. -/
theorem ResetToDefaults_of_tables (s : Exclusions) (d f : List GoString)
    (hd : s.Directories = d) (hf : s.FilePatterns = f) :
    ResetToDefaults s = { Directories := d, FilePatterns := f, All := ([] ++ d) ++ f } := by
  cases s
  simp only at hd hf
  subst hd hf
  rfl

set_option maxRecDepth 100000 in
/-- C22. After every finite sequence of `AddCustomExclusion`, `RemoveExclusion` and
`ResetToDefaults` calls made from the initial state, `ResetToDefaults` makes the list the
directory exclusions followed by the file-pattern exclusions, which is the list held after
package initialisation: 164 patterns, `.git` among them. `ResetToDefaults` twice is
`ResetToDefaults` once, in every state. -/
theorem C22_reset_restores_initial_list (calls : List ExclusionCall) :
    GetDefaultExcludePatterns (ResetToDefaults (applyCalls calls initialExclusions)) =
        GetDefaultDirectoryExclusions initialExclusions ++
          GetDefaultFileExclusions initialExclusions ∧
      GetDefaultExcludePatterns (ResetToDefaults (applyCalls calls initialExclusions)) =
        GetDefaultExcludePatterns initialExclusions ∧
      ResetToDefaults (applyCalls calls initialExclusions) = initialExclusions ∧
      (GetDefaultExcludePatterns (ResetToDefaults (applyCalls calls initialExclusions))).length
        = 164 ∧
      str ".git" ∈
        GetDefaultExcludePatterns (ResetToDefaults (applyCalls calls initialExclusions)) ∧
      (∀ s : Exclusions, ResetToDefaults (ResetToDefaults s) = ResetToDefaults s) := by
  obtain ⟨hd, hf⟩ := applyCalls_tables calls initialExclusions
  have hreset : ResetToDefaults (applyCalls calls initialExclusions) = initialExclusions := by
    rw [ResetToDefaults_of_tables _ _ _ hd hf]
    rfl
  rw [hreset]
  exact ⟨rfl, rfl, rfl, by decide, by decide, fun s => rfl⟩

/-- C23. After `AddCustomExclusion(p)` the list is the list before with `p` appended: one
element longer, `p` is in it, and its first elements are those of the list before, in
order. -/
theorem C23_add_appends (p : GoString) (s : Exclusions) :
    GetDefaultExcludePatterns (AddCustomExclusion p s) = GetDefaultExcludePatterns s ++ [p] ∧
      (GetDefaultExcludePatterns (AddCustomExclusion p s)).length =
        (GetDefaultExcludePatterns s).length + 1 ∧
      p ∈ GetDefaultExcludePatterns (AddCustomExclusion p s) ∧
      (GetDefaultExcludePatterns (AddCustomExclusion p s)).take
        (GetDefaultExcludePatterns s).length = GetDefaultExcludePatterns s ∧
      (GetDefaultExcludePatterns (AddCustomExclusion p s)).getLast? = some p := by
  have h : GetDefaultExcludePatterns (AddCustomExclusion p s) =
      GetDefaultExcludePatterns s ++ [p] := rfl
  rw [h]
  refine ⟨rfl, by simp, by simp, by simp, by simp⟩

/-! ## C24: Git URLs -/

theorem isPrefixOf_iff_append : ∀ (pre s : GoString),
    pre.isPrefixOf s = true ↔ ∃ t, s = pre ++ t
  | [], s => by simp [List.isPrefixOf]
  | _ :: _, [] => by simp [List.isPrefixOf]
  | a :: pre, b :: s => by
    simp only [List.isPrefixOf, Bool.and_eq_true, beq_iff_eq, List.cons_append, List.cons.injEq]
    rw [isPrefixOf_iff_append pre s]
    constructor
    · rintro ⟨rfl, t, rfl⟩; exact ⟨t, rfl, rfl⟩
    · rintro ⟨t, rfl, rfl⟩; exact ⟨rfl, t, rfl⟩

/-- `strings.HasPrefix`: the string starts with the prefix. -/
theorem HasPrefix_iff (s pre : GoString) : HasPrefix s pre = true ↔ ∃ t, s = pre ++ t :=
  isPrefixOf_iff_append pre s

/-- `strings.HasSuffix`: the string ends with the suffix. -/
theorem HasSuffix_iff (s suf : GoString) : HasSuffix s suf = true ↔ ∃ t, s = t ++ suf := by
  unfold HasSuffix
  rw [isPrefixOf_iff_append]
  constructor
  · rintro ⟨t, ht⟩
    refine ⟨t.reverse, ?_⟩
    have := congrArg List.reverse ht
    simpa using this
  · rintro ⟨t, rfl⟩
    exact ⟨t.reverse, by simp⟩

/-- `strings.Contains`: the substring stands somewhere in the string. -/
theorem Contains_iff : ∀ (s sub : GoString),
    Contains s sub = true ↔ ∃ a b, s = a ++ sub ++ b
  | [], sub => by
    simp only [Contains, List.isEmpty_iff]
    constructor
    · rintro rfl; exact ⟨[], [], rfl⟩
    · rintro ⟨a, b, h⟩
      have := congrArg List.length h
      simp only [List.length_nil, List.length_append] at this
      exact List.length_eq_zero.1 (by omega)
  | c :: s, sub => by
    simp only [Contains, Bool.or_eq_true]
    rw [isPrefixOf_iff_append, Contains_iff s sub]
    constructor
    · rintro (⟨t, ht⟩ | ⟨a, b, rfl⟩)
      · exact ⟨[], t, by simpa using ht⟩
      · exact ⟨c :: a, b, by simp⟩
    · rintro ⟨a, b, h⟩
      cases a with
      | nil => left; exact ⟨b, by simpa using h⟩
      | cons x a =>
        right
        simp only [List.cons_append, List.cons.injEq] at h
        exact ⟨a, b, h.2⟩

/-- C24. `IsGitURL(s)` is true exactly when `s` starts with `git@`, or ends with `.git`,
or holds `github.com`, `gitlab.com` or `bitbucket.org` somewhere. It is false for the empty
string, for the local paths `/local/path` and `./relative/path` and for the other URLs
`https://example.com/page` and `ftp://example.com/file`, and true for the Git URLs of the
test table. -/
theorem C24_IsGitURL_iff (s : GoString) :
    (IsGitURL s = true ↔
      (∃ t, s = str "git@" ++ t) ∨ (∃ t, s = t ++ str ".git") ∨
        (∃ a b, s = a ++ str "github.com" ++ b) ∨ (∃ a b, s = a ++ str "gitlab.com" ++ b) ∨
        (∃ a b, s = a ++ str "bitbucket.org" ++ b)) ∧
    IsGitURL (str "") = false ∧
    IsGitURL (str "/local/path") = false ∧
    IsGitURL (str "./relative/path") = false ∧
    IsGitURL (str "https://example.com/page") = false ∧
    IsGitURL (str "ftp://example.com/file") = false ∧
    IsGitURL (str "https://github.com/user/repo.git") = true ∧
    IsGitURL (str "http://gitlab.com/user/repo.git") = true ∧
    IsGitURL (str "https://bitbucket.org/user/repo") = true ∧
    IsGitURL (str "git@github.com:user/repo.git") = true ∧
    IsGitURL (str "https://example.com/repo.git") = true ∧
    IsGitURL (str "https://github.com/user/repo") = true := by
  refine ⟨?_, by decide, by decide, by decide, by decide, by decide, by decide, by decide,
    by decide, by decide, by decide, by decide⟩
  rw [← HasPrefix_iff, ← HasSuffix_iff, ← Contains_iff, ← Contains_iff, ← Contains_iff]
  unfold IsGitURL
  cases HasPrefix s (str "git@") <;> cases HasSuffix s (str ".git") <;>
    cases Contains s (str "github.com") <;> cases Contains s (str "gitlab.com") <;>
    cases Contains s (str "bitbucket.org") <;> simp

/-! ## C25: the exclude list chosen by `main` -/

set_option maxRecDepth 100000 in
/-- C25 (code bug). When the flag `--exclude` is given with the empty string, the exclude
list of the run is the default exclusion list, not the empty list: the value of the flag
then equals its default value `""`, which is the test `main` makes for a flag that was not
given. From the initial state that list has 164 patterns, `node_modules` among them, and
the file `node_modules/x.js` is still excluded. When the flag is not given the default
list is used, and when it is given a value that is not empty the list is `ParsePatterns`
of the value. -/
theorem C25_explicit_empty_exclude_keeps_defaults (defaults : Exclusions) :
    mainExcludeList (some (str "")) defaults = GetDefaultExcludePatterns defaults ∧
    mainExcludeList none defaults = GetDefaultExcludePatterns defaults ∧
    (∀ value : GoString, value ≠ [] →
      mainExcludeList (some value) defaults = ParsePatterns value) ∧
    (mainExcludeList (some (str "")) initialExclusions).length = 164 ∧
    str "node_modules" ∈ mainExcludeList (some (str "")) initialExclusions ∧
    ShouldIncludeFile (str "node_modules/x.js") []
      (mainExcludeList (some (str "")) initialExclusions) = false ∧
    ShouldIncludeFile (str "node_modules/x.js") [] [] = true ∧
    mainExcludeList (some (str "*.log, tmp")) initialExclusions = [str "*.log", str "tmp"] := by
  refine ⟨rfl, rfl, ?_, by decide, by decide, by decide, by decide, by decide⟩
  intro value hvalue
  simp [mainExcludeList, hvalue]

/-! ## C30: the summary -/

set_option maxRecDepth 100000 in
/-- C30. The summary is the title and a blank line, the source line, the branch line
exactly when `Branch` is not empty, the line of the generation time and a blank line, the
heading `## Statistics` and a blank line, five bullet lines with the four counters and the
content size in KB with two decimals, a blank line, and the rule `---` with a blank
line. -/
theorem C30_summary_layout (now : GoString) (stats : Stats) :
    (∃ branchLine : GoString,
      GenerateSummaryString now stats =
        str "# Codebase Digest Summary\n\n" ++
        (str "**Source:** " ++ stats.Source ++ str "\n") ++
        branchLine ++
        (str "**Generated:** " ++ now ++ str "\n\n") ++
        str "## Statistics\n\n" ++
        (str "- **Total Files:** " ++ itoa stats.NumFilesProcessed ++ str "\n") ++
        (str "- **Directories:** " ++ itoa stats.NumDirsProcessed ++ str "\n") ++
        (str "- **Binary Files:** " ++ itoa stats.NumBinaryFiles ++ str "\n") ++
        (str "- **Skipped Files:** " ++ itoa stats.NumSkippedFiles ++ str "\n") ++
        (str "- **Total Content Size:** " ++ fmtKB stats.TotalContentBytes ++ str " KB\n\n") ++
        str "---\n\n" ∧
      (stats.Branch ≠ [] → branchLine = str "**Branch:** " ++ stats.Branch ++ str "\n") ∧
      (stats.Branch = [] → branchLine = []) ∧
      (branchLine ≠ [] ↔ stats.Branch ≠ [])) ∧
    GenerateSummaryString (str "2024-01-01 00:00:00")
        { NumFilesProcessed := 12, NumDirsProcessed := 3, NumBinaryFiles := 1,
          NumSkippedFiles := 2, TotalContentBytes := 1536, Source := str "/repo",
          Branch := str "main", AllPaths := [] } =
      str ("# Codebase Digest Summary\n\n**Source:** /repo\n**Branch:** main\n" ++
        "**Generated:** 2024-01-01 00:00:00\n\n## Statistics\n\n- **Total Files:** 12\n" ++
        "- **Directories:** 3\n- **Binary Files:** 1\n- **Skipped Files:** 2\n" ++
        "- **Total Content Size:** 1.50 KB\n\n---\n\n") ∧
    GenerateSummaryString (str "2024-01-01 00:00:00")
        { NumFilesProcessed := 0, NumDirsProcessed := 0, NumBinaryFiles := 0,
          NumSkippedFiles := 0, TotalContentBytes := 0, Source := str ".",
          Branch := str "", AllPaths := [] } =
      str ("# Codebase Digest Summary\n\n**Source:** .\n" ++
        "**Generated:** 2024-01-01 00:00:00\n\n## Statistics\n\n- **Total Files:** 0\n" ++
        "- **Directories:** 0\n- **Binary Files:** 0\n- **Skipped Files:** 0\n" ++
        "- **Total Content Size:** 0.00 KB\n\n---\n\n") := by
  refine ⟨?_, by decide, by decide⟩
  by_cases hb : stats.Branch = []
  · refine ⟨[], ?_, fun h => absurd hb h, fun _ => rfl, by simp [hb]⟩
    simp [GenerateSummaryString, hb]
  · refine ⟨str "**Branch:** " ++ stats.Branch ++ str "\n", ?_, fun _ => rfl,
      fun h => absurd h hb, ?_⟩
    · simp [GenerateSummaryString, hb]
    · constructor
      · intro _; exact hb
      · intro _ h
        have h0 : str "\n" ≠ [] := by decide
        exact h0 (List.append_eq_nil.1 h).2

/-! ## The counters of a run -/

/-- The function of the first pass never changes the count of processed files. -/
theorem walkFn_numFiles (env : Env) (rootDir : GoString) (inc exc : List GoString)
    (path : GoString) (isDir : Bool) (err : Option GoError) (st : WalkState) :
    (walkFn env rootDir inc exc path isDir err st).1.stats.NumFilesProcessed =
      st.stats.NumFilesProcessed := by
  simp only [walkFn]
  repeat' split
  all_goals rfl

mutual
/-- A visit never changes the count of processed files. -/
theorem walkDir_numFiles (env : Env) (rootDir : GoString) (inc exc : List GoString) :
    ∀ (e : Entry) (path : GoString) (st : WalkState),
      (walkDir (walkFn env rootDir inc exc) path e st).1.stats.NumFilesProcessed =
        st.stats.NumFilesProcessed
  | .file _, path, st => by
    simp only [walkDir]
    exact walkFn_numFiles env rootDir inc exc path false none st
  | .dir _ readErr children, path, st => by
    have h1 := walkFn_numFiles env rootDir inc exc path true none st
    simp only [walkDir]
    rcases hfn : walkFn env rootDir inc exc path true none st with ⟨st1, r1⟩
    rw [hfn] at h1
    simp only at h1
    rcases r1 with _ | r1
    · simp only
      cases readErr with
      | none =>
        simp only
        rw [walkEntries_numFiles env rootDir inc exc children path st1]
        exact h1
      | some e =>
        have h2 := walkFn_numFiles env rootDir inc exc path true (some e) st1
        simp only
        rcases hfn2 : walkFn env rootDir inc exc path true (some e) st1 with ⟨st2, r2⟩
        rw [hfn2] at h2
        simp only at h2
        rcases r2 with _ | r2
        · simp only
          rw [walkEntries_numFiles env rootDir inc exc children path st2, h2]
          exact h1
        · cases r2
          · simp only; rw [h2]; exact h1
          · simp only; rw [h2]; exact h1
    · cases r1
      · simp only; exact h1
      · simp only; exact h1
/-- The loop over the entries of a directory never changes the count of processed
files. -/
theorem walkEntries_numFiles (env : Env) (rootDir : GoString) (inc exc : List GoString) :
    ∀ (es : Entries) (path : GoString) (st : WalkState),
      (walkEntries (walkFn env rootDir inc exc) path es st).1.stats.NumFilesProcessed =
        st.stats.NumFilesProcessed
  | .nil, _, _ => rfl
  | .cons d1 rest, path, st => by
    have h1 := walkDir_numFiles env rootDir inc exc d1 (Join [path, d1.name]) st
    simp only [walkEntries]
    rcases hw : walkDir (walkFn env rootDir inc exc) (Join [path, d1.name]) d1 st with ⟨st1, r1⟩
    rw [hw] at h1
    simp only at h1
    rcases r1 with _ | r1
    · simp only
      rw [walkEntries_numFiles env rootDir inc exc rest path st1]
      exact h1
    · cases r1
      · simp only; exact h1
      · simp only; exact h1
end

/-- A first pass that ends without error has found an entry at the root. -/
theorem firstPass_ok_tree (env : Env) (tree : Except GoError Entry) (rootDir : GoString)
    (inc exc : List GoString) (st : WalkState)
    (hw : firstPass env tree rootDir inc exc = (st, none)) : ∃ root, tree = .ok root := by
  cases tree with
  | ok root => exact ⟨root, rfl⟩
  | error e =>
    simp [firstPass, WalkDir, walkFn] at hw

/-- After a first pass without error no file is counted as processed yet, and there are
as many absolute paths as relative paths. -/
theorem firstPass_counts (env : Env) (tree : Except GoError Entry) (rootDir : GoString)
    (inc exc : List GoString) (st : WalkState)
    (hw : firstPass env tree rootDir inc exc = (st, none)) :
    st.stats.NumFilesProcessed = 0 ∧ st.filePaths.length = st.allPaths.length := by
  obtain ⟨root, rfl⟩ := firstPass_ok_tree env tree rootDir inc exc st hw
  refine ⟨?_, (firstPass_spec env root rootDir inc exc st hw).2⟩
  have h := walkDir_numFiles env rootDir inc exc root rootDir
    { allPaths := [], filePaths := [],
      stats := { NumFilesProcessed := 0, NumDirsProcessed := 0, NumBinaryFiles := 0,
                 NumSkippedFiles := 0, TotalContentBytes := 0, Source := rootDir,
                 Branch := [], AllPaths := [] } }
  simp only [firstPass, WalkDir] at hw
  rcases hwd : walkDir (walkFn env rootDir inc exc) rootDir root
    { allPaths := [], filePaths := [],
      stats := { NumFilesProcessed := 0, NumDirsProcessed := 0, NumBinaryFiles := 0,
                 NumSkippedFiles := 0, TotalContentBytes := 0, Source := rootDir,
                 Branch := [], AllPaths := [] } } with ⟨st1, r1⟩
  rw [hwd] at hw h
  simp only at h
  rcases r1 with _ | r1
  · simp only [Prod.mk.injEq, and_true] at hw
    rw [← hw]; exact h
  · cases r1
    · simp only [Prod.mk.injEq, and_true] at hw
      rw [← hw]; exact h
    · simp at hw

/-- Every goroutine counts its file as processed, whatever the outcome. -/
theorem processFile_numFiles (env : Env) (rootDir : GoString) (maxFileSize : Int)
    (filePath : GoString) (stats : Stats) :
    (processFile env rootDir maxFileSize filePath stats).2.NumFilesProcessed =
      stats.NumFilesProcessed + 1 := by
  simp only [processFile]
  repeat' split
  all_goals rfl

/-- After the results of the goroutines of `order` are received, each has counted one
file. -/
theorem collect_numFiles (env : Env) (rootDir : GoString) (maxFileSize : Int)
    (filePaths : List GoString) (order : List Nat) :
    ∀ (acc : List FileInfo × Stats), (∀ i ∈ order, i < filePaths.length) →
      (order.foldl (collectStep env rootDir maxFileSize filePaths) acc).2.NumFilesProcessed =
        acc.2.NumFilesProcessed + order.length := by
  induction order with
  | nil => intro acc _; rfl
  | cons index rest ih =>
    intro acc hall
    rw [List.foldl_cons, ih _ (fun i hi => hall i (List.mem_cons_of_mem _ hi))]
    have hidx : index < filePaths.length := hall index (List.mem_cons_self _ _)
    have hget : filePaths[index]? = some filePaths[index] := List.getElem?_eq_getElem hidx
    simp only [collectStep, hget, List.length_cons]
    rw [processFile_numFiles]
    omega

/-- A run whose first pass ends without error returns, for every order of arrival, the
records of the accepted files in the order of discovery, and the statistics after all
goroutines. -/
theorem ProcessLocal_of_firstPass (env : Env) (tree : Except GoError Entry)
    (order : List Nat) (rootDir : GoString) (maxFileSize : Int)
    (includePatterns excludePatterns : List GoString) (st : WalkState)
    (hwalk : firstPass env tree rootDir includePatterns excludePatterns = (st, none))
    (hperm : order.Perm (List.range st.filePaths.length)) :
    ProcessLocalDirectoryWithPatterns env tree order rootDir maxFileSize
        includePatterns excludePatterns =
      .ok (st.filePaths.map
            (fun filePath => (processFile env rootDir maxFileSize filePath st.stats).1),
          { (order.foldl (collectStep env rootDir maxFileSize st.filePaths)
              (List.replicate st.filePaths.length FileInfo.zero, st.stats)).2 with
            AllPaths := st.allPaths }) := by
  have hrec : (List.foldl (collectStep env rootDir maxFileSize st.filePaths)
      (List.replicate st.filePaths.length FileInfo.zero, st.stats) order).1 =
      st.filePaths.map
        (fun filePath => (processFile env rootDir maxFileSize filePath st.stats).1) := by
    apply List.ext_getElem?
    intro i
    by_cases hi : i < st.filePaths.length
    · rw [collect_getElem env rootDir maxFileSize st.filePaths st.stats order _ (by simp) i hi]
      have hmem : i ∈ order := (hperm.mem_iff).2 (List.mem_range.2 hi)
      simp [hmem]
    · have h1 : (List.foldl (collectStep env rootDir maxFileSize st.filePaths)
          (List.replicate st.filePaths.length FileInfo.zero, st.stats) order).1.length
          = st.filePaths.length := by
        rw [collect_length]; simp
      rw [List.getElem?_eq_none (by omega), List.getElem?_eq_none (by simp; omega)]
  simp only [ProcessLocalDirectoryWithPatterns, hwalk]
  rw [← hrec]

/-! ## C27: every accepted file is counted once -/

/-- C27. A run whose first pass ends without error returns, for every order in which the
results of the goroutines arrive, records and statistics in which `NumFilesProcessed` is the
number of records and the length of `AllPaths`, which is the number of accepted files:
every goroutine counts its file once, also when its record carries an error. -/
theorem C27_files_processed_counts_records (env : Env) (tree : Except GoError Entry)
    (order : List Nat) (rootDir : GoString) (maxFileSize : Int)
    (includePatterns excludePatterns : List GoString) (st : WalkState)
    (hwalk : firstPass env tree rootDir includePatterns excludePatterns = (st, none))
    (hperm : order.Perm (List.range st.filePaths.length)) :
    ∃ (filesData : List FileInfo) (stats : Stats),
      ProcessLocalDirectoryWithPatterns env tree order rootDir maxFileSize
          includePatterns excludePatterns = .ok (filesData, stats) ∧
      stats.NumFilesProcessed = filesData.length ∧
      stats.NumFilesProcessed = stats.AllPaths.length ∧
      filesData.length = st.filePaths.length := by
  obtain ⟨hzero, hlen⟩ := firstPass_counts env tree rootDir includePatterns excludePatterns st hwalk
  refine ⟨_, _, ProcessLocal_of_firstPass env tree order rootDir maxFileSize includePatterns
    excludePatterns st hwalk hperm, ?_, ?_, ?_⟩
  · simp only [List.length_map]
    rw [collect_numFiles env rootDir maxFileSize st.filePaths order _
      (fun i hi => List.mem_range.1 ((hperm.mem_iff).1 hi))]
    simp only [hzero, Nat.zero_add]
    rw [hperm.length_eq, List.length_range]
  · simp only
    rw [collect_numFiles env rootDir maxFileSize st.filePaths order _
      (fun i hi => List.mem_range.1 ((hperm.mem_iff).1 hi))]
    simp only [hzero, Nat.zero_add]
    rw [hperm.length_eq, List.length_range, hlen]
  · simp

/-- C27, at a concrete input: the tree with `main.go` and the notebook `z.ipynb` that
cannot be parsed; two files are counted, and the record of the notebook carries an
error. -/
theorem C27_witness_broken_notebook_counted :
    [1, 0].Perm (List.range 2) ∧
    (ProcessLocalDirectoryWithPatterns brokenNotebookEnv (.ok brokenNotebookTree) [1, 0]
        (str "/repo") 0 [] []).toOption.map
      (fun r => (r.2.NumFilesProcessed, r.1.length, r.2.AllPaths.length,
        r.1.map (fun f => f.Error.isSome))) = some (2, 2, 2, [false, true]) ∧
    ∃ (filesData : List FileInfo) (stats : Stats),
      ProcessLocalDirectoryWithPatterns brokenNotebookEnv (.ok brokenNotebookTree) [1, 0]
          (str "/repo") 0 [] [] = .ok (filesData, stats) ∧
      stats.NumFilesProcessed = filesData.length ∧
      stats.NumFilesProcessed = stats.AllPaths.length ∧
      filesData.length = 2 :=
  ⟨by decide, by decide,
   C27_files_processed_counts_records brokenNotebookEnv (.ok brokenNotebookTree) [1, 0]
     (str "/repo") 0 [] []
     { allPaths := [str "main.go", str "z.ipynb"],
       filePaths := [str "/repo/main.go", str "/repo/z.ipynb"],
       stats := demoStats }
     (by decide) (by decide)⟩

/-! ## C28 and C29: notebooks and the order of the classification -/

/-- The record of a notebook that is not skipped for its size carries the result of
`ParseNotebook`. -/
theorem processFile_notebook (env : Env) (rootDir : GoString) (maxFileSize : Int)
    (filePath : GoString) (stats : Stats) (size : Int)
    (hstat : (env.file filePath).stat = .ok size)
    (hsize : ¬ (maxFileSize > 0 ∧ size > maxFileSize))
    (hnb : IsJupyterNotebook filePath = true) :
    (processFile env rootDir maxFileSize filePath stats).1.Content =
        (ParseNotebook env filePath).1 ∧
      (processFile env rootDir maxFileSize filePath stats).1.Error =
        (ParseNotebook env filePath).2 ∧
      (processFile env rootDir maxFileSize filePath stats).1.IsBinary = false := by
  simp only [processFile, hstat, hsize, if_false, hnb, if_true]
  split <;> simp

/-- C28. For a notebook among the accepted files of a run whose first pass ends without
error, not skipped for its size: `ParseNotebook` returns an error exactly when the file
cannot be read or its bytes cannot be decoded as a notebook; the text it returns is then
empty and the message starts with `failed to read notebook file: ` or with `failed to parse
notebook JSON: `. The run returns its records and statistics all the same, and the record
of the notebook carries the text and the error of `ParseNotebook`. -/
theorem C28_notebook_failure_stays_in_record (env : Env) (tree : Except GoError Entry)
    (order : List Nat) (rootDir : GoString) (maxFileSize : Int)
    (includePatterns excludePatterns : List GoString) (st : WalkState)
    (i : Nat) (filePath : GoString) (size : Int)
    (hwalk : firstPass env tree rootDir includePatterns excludePatterns = (st, none))
    (hperm : order.Perm (List.range st.filePaths.length))
    (hfile : st.filePaths[i]? = some filePath)
    (hnb : IsJupyterNotebook filePath = true)
    (hstat : (env.file filePath).stat = .ok size)
    (hsize : ¬ (maxFileSize > 0 ∧ size > maxFileSize)) :
    ((ParseNotebook env filePath).2 ≠ none ↔
      (∃ err, (env.file filePath).data = .error err) ∨
        (∃ data err, (env.file filePath).data = .ok data ∧ env.unmarshal data = .error err)) ∧
    ((ParseNotebook env filePath).2 ≠ none → (ParseNotebook env filePath).1 = []) ∧
    (∀ err, (env.file filePath).data = .error err →
      (ParseNotebook env filePath).2 = some (str "failed to read notebook file: " ++ err)) ∧
    (∀ data err, (env.file filePath).data = .ok data → env.unmarshal data = .error err →
      (ParseNotebook env filePath).2 = some (str "failed to parse notebook JSON: " ++ err)) ∧
    ∃ (filesData : List FileInfo) (stats : Stats) (fileInfo : FileInfo),
      ProcessLocalDirectoryWithPatterns env tree order rootDir maxFileSize
          includePatterns excludePatterns = .ok (filesData, stats) ∧
      filesData.length = st.filePaths.length ∧
      filesData[i]? = some fileInfo ∧
      fileInfo.AbsolutePath = filePath ∧
      fileInfo.Content = (ParseNotebook env filePath).1 ∧
      fileInfo.Error = (ParseNotebook env filePath).2 := by
  refine ⟨?_, ?_, ?_, ?_, ?_⟩
  · simp only [ParseNotebook]
    cases hd : (env.file filePath).data with
    | error e => simp
    | ok data =>
      cases hu : env.unmarshal data with
      | error e => simp [hu]
      | ok nb => simp [hu]
  · simp only [ParseNotebook]
    cases hd : (env.file filePath).data with
    | error e => simp
    | ok data =>
      cases hu : env.unmarshal data with
      | error e => simp [hu]
      | ok nb => simp [hu]
  · intro err hd
    simp [ParseNotebook, hd]
  · intro data err hd hu
    simp [ParseNotebook, hd, hu]
  · obtain ⟨h1, h2, _⟩ := processFile_notebook env rootDir maxFileSize filePath st.stats size
      hstat hsize hnb
    refine ⟨_, _, (processFile env rootDir maxFileSize filePath st.stats).1,
      ProcessLocal_of_firstPass env tree order rootDir maxFileSize includePatterns
        excludePatterns st hwalk hperm, by simp, ?_, ?_, h1, h2⟩
    · rw [List.getElem?_map, hfile]
      rfl
    · simp only [processFile]
      split <;> rfl

/-- C28, at a concrete input: the notebook `z.ipynb` whose bytes are no JSON document; the
run returns two records, and the second carries the error of the parser and no text. -/
theorem C28_witness_broken_notebook :
    (ProcessLocalDirectoryWithPatterns brokenNotebookEnv (.ok brokenNotebookTree) [0, 1]
        (str "/repo") 0 [] []).toOption.map
      (fun r => r.1.map (fun f => (f.RelativePath, f.Content, f.Error))) =
      some [(str "main.go", str "package main\n", none),
            (str "z.ipynb", str "",
              some (str "failed to parse notebook JSON: invalid character"))] ∧
    ∃ (filesData : List FileInfo) (stats : Stats) (fileInfo : FileInfo),
      ProcessLocalDirectoryWithPatterns brokenNotebookEnv (.ok brokenNotebookTree) [0, 1]
          (str "/repo") 0 [] [] = .ok (filesData, stats) ∧
      filesData.length = 2 ∧
      filesData[1]? = some fileInfo ∧
      fileInfo.AbsolutePath = str "/repo/z.ipynb" ∧
      fileInfo.Content = (ParseNotebook brokenNotebookEnv (str "/repo/z.ipynb")).1 ∧
      fileInfo.Error = (ParseNotebook brokenNotebookEnv (str "/repo/z.ipynb")).2 :=
  ⟨by decide,
   (C28_notebook_failure_stays_in_record brokenNotebookEnv (.ok brokenNotebookTree) [0, 1]
     (str "/repo") 0 [] []
     { allPaths := [str "main.go", str "z.ipynb"],
       filePaths := [str "/repo/main.go", str "/repo/z.ipynb"],
       stats := demoStats }
     1 (str "/repo/z.ipynb") 4 (by decide) (by decide) (by decide) (by decide) (by decide)
     (by decide)).2.2.2.2⟩

/-- On an ASCII path `IsJupyterNotebook` holds exactly when the path ends in the six
bytes of `.ipynb` up to the case of the letters. -/
theorem IsJupyterNotebook_ascii (filePath : GoString)
    (hascii : ∀ c ∈ filePath, c.toNat < 128) :
    IsJupyterNotebook filePath = true ↔
      ∃ pre suf, filePath = pre ++ suf ∧ suf.map lowerByte = str ".ipynb" := by
  have hall : filePath.all (fun c => decide (c.toNat < 128)) = true := by
    simpa using hascii
  unfold IsJupyterNotebook ToLower
  rw [if_pos hall, HasSuffix_iff]
  constructor
  · rintro ⟨t, ht⟩
    obtain ⟨l1, l2, h1, _, h3⟩ := List.map_eq_append_iff.1 ht
    exact ⟨l1, l2, h1, h3⟩
  · rintro ⟨pre, suf, rfl, hs⟩
    exact ⟨pre.map lowerByte, by simp [hs]⟩

set_option maxRecDepth 100000 in
/-- C29. The record of an accepted file is decided in this order. A failure of `os.Stat`
gives a record with that error. Otherwise a size above a positive limit gives the
size-skip placeholder, whatever the name and the bytes of the file are. Otherwise a path
that `IsJupyterNotebook` accepts (its lower-cased form ends in `.ipynb`) gets the text and
the error of `ParseNotebook`, without a binary check. Otherwise the binary check decides:
its error goes to the record, a zero byte gives `[Binary File]`, and else the record gets
what `ReadFileContent` returns. The samples: a notebook and a file with a zero byte above
the limit are size-skipped, and a notebook with a zero byte is not classified as binary. -/
theorem C29_classification_order (env : Env) (rootDir : GoString) (maxFileSize : Int)
    (filePath : GoString) (stats : Stats) :
    (∀ err, (env.file filePath).stat = .error err →
      (processFile env rootDir maxFileSize filePath stats).1.Error = some err ∧
      (processFile env rootDir maxFileSize filePath stats).1.Content = []) ∧
    (∀ size, (env.file filePath).stat = .ok size → maxFileSize > 0 → size > maxFileSize →
      (processFile env rootDir maxFileSize filePath stats).1.Content =
        skipMessage size maxFileSize ∧
      (processFile env rootDir maxFileSize filePath stats).1.Error = none) ∧
    (∀ size, (env.file filePath).stat = .ok size → ¬ (maxFileSize > 0 ∧ size > maxFileSize) →
      IsJupyterNotebook filePath = true →
      (processFile env rootDir maxFileSize filePath stats).1.Content =
        (ParseNotebook env filePath).1 ∧
      (processFile env rootDir maxFileSize filePath stats).1.Error =
        (ParseNotebook env filePath).2) ∧
    (∀ size, (env.file filePath).stat = .ok size → ¬ (maxFileSize > 0 ∧ size > maxFileSize) →
      IsJupyterNotebook filePath = false →
      (∀ err, (IsBinaryFile env filePath).2 = some err →
        (processFile env rootDir maxFileSize filePath stats).1.Error = some err ∧
        (processFile env rootDir maxFileSize filePath stats).1.Content = []) ∧
      (IsBinaryFile env filePath = (true, none) →
        (processFile env rootDir maxFileSize filePath stats).1.Content = str "[Binary File]" ∧
        (processFile env rootDir maxFileSize filePath stats).1.Error = none) ∧
      (IsBinaryFile env filePath = (false, none) →
        (processFile env rootDir maxFileSize filePath stats).1.Content =
          (ReadFileContent env filePath).1 ∧
        (processFile env rootDir maxFileSize filePath stats).1.Error =
          (ReadFileContent env filePath).2)) ∧
    ((∀ c ∈ filePath, c.toNat < 128) →
      (IsJupyterNotebook filePath = true ↔
        ∃ pre suf, filePath = pre ++ suf ∧ suf.map lowerByte = str ".ipynb")) ∧
    IsJupyterNotebook (str "Notes/Draft.IPyNb") = true ∧
    IsJupyterNotebook (str "notes.ipynb.bak") = false ∧
    (processFile demoEnv (str "/repo") 100 (str "/repo/nb.ipynb") demoStats).1.Content =
      skipMessage 165 100 ∧
    (processFile demoEnv (str "/repo") 2 (str "/repo/a.bin") demoStats).1.Content =
      skipMessage 3 2 ∧
    (processFile demoEnv (str "/repo") 0 (str "/repo/a.bin") demoStats).1.Content =
      str "[Binary File]" ∧
    ((processFile brokenNotebookEnv (str "/repo") 0 (str "/repo/z.ipynb") demoStats).1.Content,
      (processFile brokenNotebookEnv (str "/repo") 0 (str "/repo/z.ipynb") demoStats).1.Error) =
      (str "", some (str "failed to parse notebook JSON: invalid character")) := by
  refine ⟨?_, ?_, ?_, ?_, IsJupyterNotebook_ascii filePath, by decide, by decide, by decide,
    by decide, by decide, by decide⟩
  · intro err hstat
    simp [processFile, hstat]
  · intro size hstat h1 h2
    simp [processFile, hstat, h1, h2]
  · intro size hstat hsize hnb
    have := processFile_notebook env rootDir maxFileSize filePath stats size hstat hsize hnb
    exact ⟨this.1, this.2.1⟩
  · intro size hstat hsize hnb
    refine ⟨?_, ?_, ?_⟩
    · intro err herr
      rcases hb : IsBinaryFile env filePath with ⟨b, e⟩
      rw [hb] at herr
      simp only at herr
      subst herr
      simp [processFile, hstat, hsize, hnb, hb]
    · intro hb
      simp [processFile, hstat, hsize, hnb, hb]
    · intro hb
      simp only [processFile, hstat, hsize, if_false, hnb, Bool.false_eq_true, hb]
      simp

/-! ## C26: the digest does not depend on the order of its inputs -/

/-- Two Go strings of which neither is below the other are equal. -/
theorem strLess_total : ∀ (a b : GoString), strLess a b = false → strLess b a = false → a = b
  | [], [], _, _ => rfl
  | [], _ :: _, h, _ => by simp [strLess] at h
  | _ :: _, [], _, h => by simp [strLess] at h
  | x :: as, y :: bs, h1, h2 => by
    simp only [strLess, Bool.or_eq_false_iff, decide_eq_false_iff_not, Bool.and_eq_false_imp,
      decide_eq_true_eq] at h1 h2
    have hxy : x = y := by
      apply UInt8.ext
      have := h1.1
      have := h2.1
      omega
    subst hxy
    rw [strLess_total as bs (h1.2 rfl) (h2.2 rfl)]

/-- Two ascending lists with the same elements are equal, when two elements of which
neither is below the other are equal. -/
theorem sorted_perm_eq {α : Type} (r : α → α → Prop) : ∀ (l1 l2 : List α), l1.Perm l2 →
    l1.Pairwise r → l2.Pairwise r → (∀ a ∈ l1, ∀ b ∈ l1, r a b → r b a → a = b) → l1 = l2
  | [], l2, hp, _, _, _ => hp.nil_eq
  | a :: l1, [], hp, _, _, _ => absurd hp.symm.nil_eq (by simp)
  | a :: l1, b :: l2, hp, h1, h2, hanti => by
    rw [List.pairwise_cons] at h1 h2
    have ha : a ∈ b :: l2 := hp.subset (List.mem_cons_self _ _)
    have hb : b ∈ a :: l1 := hp.symm.subset (List.mem_cons_self _ _)
    have hab : a = b := by
      rcases List.mem_cons.1 ha with h | h
      · exact h
      · rcases List.mem_cons.1 hb with h3 | h3
        · exact h3.symm
        · exact hanti a (List.mem_cons_self _ _) b hb (h1.1 b h3) (h2.1 a h)
    subst hab
    rw [sorted_perm_eq r l1 l2 (List.Perm.cons_inv hp) h1.2 h2.2
      (fun x hx y hy => hanti x (List.mem_cons_of_mem _ hx) y (List.mem_cons_of_mem _ hy))]

/-- Sorting two lists of strings with the same elements gives the same list. -/
theorem sortSlice_strLess_perm (l1 l2 : List GoString) (hp : l1.Perm l2) :
    sortSlice strLess l1 = sortSlice strLess l2 :=
  sorted_perm_eq (fun x y => strLess y x = false) _ _
    (((sortSlice_perm strLess l1).trans hp).trans (sortSlice_perm strLess l2).symm)
    (sortSlice_sorted strLess strLess_asymm strLess_trans l1)
    (sortSlice_sorted strLess strLess_asymm strLess_trans l2)
    (fun a _ b _ h1 h2 => strLess_total a b h2 h1)

/-- Sorting by `RelativePath` two lists of records with the same elements, no two with the
same `RelativePath`, gives the same list. -/
theorem sortSlice_records_perm (l1 l2 : List FileInfo) (hp : l1.Perm l2)
    (hnd : (l1.map (fun f => f.RelativePath)).Nodup) :
    sortSlice (fun (a b : FileInfo) => strLess a.RelativePath b.RelativePath) l1 =
      sortSlice (fun (a b : FileInfo) => strLess a.RelativePath b.RelativePath) l2 := by
  have hasymm : ∀ a b : FileInfo, strLess a.RelativePath b.RelativePath = true →
      strLess b.RelativePath a.RelativePath = false :=
    fun a b => strLess_asymm a.RelativePath b.RelativePath
  have htrans : ∀ a b c : FileInfo, strLess a.RelativePath b.RelativePath = true →
      strLess b.RelativePath c.RelativePath = true →
      strLess a.RelativePath c.RelativePath = true :=
    fun a b c => strLess_trans a.RelativePath b.RelativePath c.RelativePath
  apply sorted_perm_eq (fun x y => strLess y.RelativePath x.RelativePath = false) _ _
    (((sortSlice_perm _ l1).trans hp).trans (sortSlice_perm _ l2).symm)
    (sortSlice_sorted _ hasymm htrans l1) (sortSlice_sorted _ hasymm htrans l2)
  intro a ha b hb h1 h2
  have ha1 : a ∈ l1 := (sortSlice_perm _ l1).subset ha
  have hb1 : b ∈ l1 := (sortSlice_perm _ l1).subset hb
  exact List.inj_on_of_nodup_map hnd ha1 hb1 (strLess_total _ _ h2 h1)

/-- The first record with a given `RelativePath` is the same in two lists with the same
records, no two with the same `RelativePath`. -/
theorem find_RelativePath_perm (path : GoString) (l1 l2 : List FileInfo) (hp : l1.Perm l2)
    (hnd : (l1.map (fun f => f.RelativePath)).Nodup) :
    l1.find? (fun f => f.RelativePath = path) = l2.find? (fun f => f.RelativePath = path) := by
  induction hp with
  | nil => rfl
  | cons x _ ih =>
    rw [List.map_cons, List.nodup_cons] at hnd
    simp only [List.find?_cons]
    split
    · rfl
    · exact ih hnd.2
  | swap x y l =>
    simp only [List.map_cons, List.nodup_cons, List.mem_cons, not_or] at hnd
    simp only [List.find?_cons]
    by_cases hx : x.RelativePath = path <;> by_cases hy : y.RelativePath = path
    · exact absurd (hy.trans hx.symm) hnd.1.1
    · simp [hx, hy]
    · simp [hx, hy]
    · simp [hx, hy]
  | trans h1 _ ih1 ih2 =>
    exact (ih1 hnd).trans (ih2 ((h1.map _).nodup_iff.1 hnd))

/-- The lookup of a record by its path is the same for two lists with the same records,
no two with the same `RelativePath`. -/
theorem fileInfoLookup_perm (fd1 fd2 : List FileInfo) (hp : fd1.Perm fd2)
    (hnd : (fd1.map (fun f => f.RelativePath)).Nodup) (path : GoString) :
    fileInfoLookup fd1 path = fileInfoLookup fd2 path := by
  unfold fileInfoLookup
  apply find_RelativePath_perm path _ _
    ((List.reverse_perm fd1).trans (hp.trans (List.reverse_perm fd2).symm))
  rw [List.map_reverse]
  exact List.nodup_reverse.2 hnd

/-- The loop over the sorted paths uses the records only through the lookup. -/
theorem treeLoop_congr (fd1 fd2 : List FileInfo)
    (h : ∀ path, fileInfoLookup fd1 path = fileInfoLookup fd2 path) :
    ∀ (paths : List GoString) (acc : List GoString × GoString),
      treeLoop fd1 paths acc = treeLoop fd2 paths acc := by
  intro paths
  induction paths with
  | nil => intro acc; rfl
  | cons path later ih =>
    intro acc
    simp only [treeLoop]
    rw [fileLine_form fd1, fileLine_form fd2, h path]
    exact ih _

/-- The tree is the same for two lists of paths with the same elements and two lists of
records that give the same lookups. -/
theorem GenerateTreeString_perm (paths1 paths2 : List GoString) (rootName : GoString)
    (fd1 fd2 : List FileInfo) (hpaths : paths1.Perm paths2)
    (h : ∀ path, fileInfoLookup fd1 path = fileInfoLookup fd2 path) :
    GenerateTreeString paths1 rootName fd1 = GenerateTreeString paths2 rootName fd2 := by
  unfold GenerateTreeString
  rw [hpaths.length_eq, sortSlice_strLess_perm paths1 paths2 hpaths]
  split
  · rfl
  · exact treeLoop_congr fd1 fd2 h _ _

/-- The records written, in order, are the same for two lists with the same records, no
two with the same `RelativePath`. -/
theorem digestFiles_perm (fd1 fd2 : List FileInfo) (hp : fd1.Perm fd2)
    (hnd : (fd1.map (fun f => f.RelativePath)).Nodup) :
    digestFiles fd1 = digestFiles fd2 := by
  have hsub : ∀ (p : FileInfo → Bool) (l : List FileInfo),
      (l.map (fun f => f.RelativePath)).Nodup →
      ((l.filter p).map (fun f => f.RelativePath)).Nodup :=
    fun p l h => h.sublist ((List.filter_sublist l).map _)
  unfold digestFiles
  simp only
  rw [sortSlice_records_perm _ _ ((hp.filter _).filter _) (hsub _ _ (hsub _ _ hnd)),
    sortSlice_records_perm _ _ ((hp.filter _).filter _) (hsub _ _ (hsub _ _ hnd))]

/-- The summary is a head that ends with `**Generated:** `, the time, and a tail that starts
with the end of that line; neither depends on the time. -/
theorem GenerateSummaryString_split (stats : Stats) :
    ∃ h0 t0 : GoString, ∀ now,
      GenerateSummaryString now stats = (h0 ++ str "**Generated:** ") ++ now ++ (str "\n" ++ t0) := by
  refine ⟨str "# Codebase Digest Summary\n\n" ++
      (str "**Source:** " ++ stats.Source ++ str "\n") ++
      (if stats.Branch ≠ [] then str "**Branch:** " ++ stats.Branch ++ str "\n" else []),
    str "\n" ++ str "## Statistics\n\n" ++
      (str "- **Total Files:** " ++ itoa stats.NumFilesProcessed ++ str "\n") ++
      (str "- **Directories:** " ++ itoa stats.NumDirsProcessed ++ str "\n") ++
      (str "- **Binary Files:** " ++ itoa stats.NumBinaryFiles ++ str "\n") ++
      (str "- **Skipped Files:** " ++ itoa stats.NumSkippedFiles ++ str "\n") ++
      (str "- **Total Content Size:** " ++ fmtKB stats.TotalContentBytes ++ str " KB\n\n") ++
      str "---\n\n", ?_⟩
  intro now
  have h2 : str "\n\n" = str "\n" ++ str "\n" := by decide
  simp only [GenerateSummaryString, h2, List.append_assoc]

/-- C26. Two inputs to `WriteDigest` whose record lists are permutations of each other,
with pairwise distinct `RelativePath`s, whose `AllPaths` are permutations of each other and
whose other statistics are equal, give the same bytes and the same error for the same
output file and the same time of the call. Written at two different times without an
output error, the two digests are one head that ends with `**Generated:** `, the time of
the call, and one tail: they differ in the timestamp line only. -/
theorem C26_digest_reproducible (out : Output) (now : GoString) (fd1 fd2 : List FileInfo)
    (st1 st2 : Stats)
    (hfiles : fd1.Perm fd2)
    (hdistinct : (fd1.map (fun f => f.RelativePath)).Nodup)
    (hpaths : st1.AllPaths.Perm st2.AllPaths)
    (hstats : { st1 with AllPaths := st2.AllPaths } = st2) :
    WriteDigest out now fd1 st1 = WriteDigest out now fd2 st2 ∧
    ∃ head tail : GoString,
      (∃ h0 t0 : GoString, head = h0 ++ str "**Generated:** " ∧ tail = str "\n" ++ t0) ∧
      ∀ now1 now2 : GoString,
        WriteDigest Output.good now1 fd1 st1 = (head ++ now1 ++ tail, none) ∧
        WriteDigest Output.good now2 fd2 st2 = (head ++ now2 ++ tail, none) := by
  have hsum : ∀ t, GenerateSummaryString t st1 = GenerateSummaryString t st2 := by
    intro t
    rw [← hstats]
    rfl
  have hsource : st1.Source = st2.Source := by
    rw [← hstats]
  have hlook := fileInfoLookup_perm fd1 fd2 hfiles hdistinct
  have htree : treeWrites fd1 st1 = treeWrites fd2 st2 := by
    unfold treeWrites
    rw [hpaths.length_eq, hsource]
    split
    · simp only
      rw [GenerateTreeString_perm st1.AllPaths st2.AllPaths _ fd1 fd2 hpaths hlook]
    · rfl
  have hfilesEq := digestFiles_perm fd1 fd2 hfiles hdistinct
  have hall : ∀ (o : Output) (t : GoString), WriteDigest o t fd1 st1 = WriteDigest o t fd2 st2 := by
    intro o t
    simp only [WriteDigest, hsum t, htree, hfilesEq]
  refine ⟨hall out now, ?_⟩
  obtain ⟨h0, t0, hsplit⟩ := GenerateSummaryString_split st1
  refine ⟨h0 ++ str "**Generated:** ",
    (str "\n" ++ t0) ++ treeSection fd1 st1 ++ ((digestFiles fd1).map fileBlock).flatten,
    ⟨h0, t0 ++ treeSection fd1 st1 ++ ((digestFiles fd1).map fileBlock).flatten, rfl,
      by simp only [List.append_assoc]⟩, ?_⟩
  intro now1 now2
  refine ⟨?_, ?_⟩
  · rw [WriteDigest_good, hsplit now1]
    simp only [List.append_assoc]
  · rw [← hall Output.good now2, WriteDigest_good, hsplit now2]
    simp only [List.append_assoc]

/-- C26, at a concrete input: the records of `README.md` and `main.go` in the two orders,
with the paths in the two orders. -/
theorem C26_witness_two_records_swapped :
    WriteDigest Output.good (str "2024-01-01 00:00:00")
        [{ FileInfo.zero with RelativePath := str "main.go", Content := str "package main\n" },
         { FileInfo.zero with RelativePath := str "README.md", Content := str "# Demo\n" }]
        { demoStats with NumFilesProcessed := 2, AllPaths := [str "main.go", str "README.md"] } =
      WriteDigest Output.good (str "2024-01-01 00:00:00")
        [{ FileInfo.zero with RelativePath := str "README.md", Content := str "# Demo\n" },
         { FileInfo.zero with RelativePath := str "main.go", Content := str "package main\n" }]
        { demoStats with NumFilesProcessed := 2, AllPaths := [str "README.md", str "main.go"] } :=
  (C26_digest_reproducible Output.good (str "2024-01-01 00:00:00")
    [{ FileInfo.zero with RelativePath := str "main.go", Content := str "package main\n" },
     { FileInfo.zero with RelativePath := str "README.md", Content := str "# Demo\n" }]
    [{ FileInfo.zero with RelativePath := str "README.md", Content := str "# Demo\n" },
     { FileInfo.zero with RelativePath := str "main.go", Content := str "package main\n" }]
    { demoStats with NumFilesProcessed := 2, AllPaths := [str "main.go", str "README.md"] }
    { demoStats with NumFilesProcessed := 2, AllPaths := [str "README.md", str "main.go"] }
    (List.Perm.swap _ _ _) (by decide) (List.Perm.swap _ _ _) rfl).1

/-! ## C31 and C33: the sections of the digest -/

set_option maxRecDepth 100000 in
/-- C31. A digest written without an output error is the summary, then the
directory-structure section, then the FILE blocks. The section is empty when
`stats.AllPaths` is empty; otherwise it is the line `## Directory Structure`, a blank
line, the opening fence line, the tree of `stats.AllPaths` under the base name of the
source (`project` when that is `.`), the closing fence line, a blank line and the rule
`---` with a blank line. -/
theorem C31_tree_section_iff_paths (now : GoString) (filesData : List FileInfo)
    (stats : Stats) :
    ∃ section1 : GoString,
      WriteDigest Output.good now filesData stats =
        (GenerateSummaryString now stats ++ section1 ++
          ((digestFiles filesData).map fileBlock).flatten, none) ∧
      (stats.AllPaths = [] → section1 = []) ∧
      (stats.AllPaths ≠ [] →
        section1 = str "## Directory Structure\n\n```\n" ++
          GenerateTreeString stats.AllPaths
            (if Base stats.Source = str "." ∨ Base stats.Source = [] then str "project"
             else Base stats.Source) filesData ++
          str "```\n\n---\n\n") ∧
      (section1 ≠ [] ↔ stats.AllPaths ≠ []) := by
  refine ⟨treeSection filesData stats, WriteDigest_good now filesData stats, ?_, ?_, ?_⟩
  · intro h
    simp [treeSection, treeWrites, h]
  · intro h
    have hlen : stats.AllPaths.length > 0 := List.length_pos.2 h
    simp [treeSection, treeWrites, hlen]
  · by_cases h : stats.AllPaths = []
    · simp [treeSection, treeWrites, h]
    · have hlen : stats.AllPaths.length > 0 := List.length_pos.2 h
      have hhead : str "## Directory Structure\n\n```\n" ≠ [] := by decide
      simp only [treeSection, treeWrites, hlen, if_true, ne_eq, h, not_false_eq_true, iff_true]
      intro hnil
      simp only [List.map_cons, List.map_nil, List.flatten_cons, List.flatten_nil,
        List.append_eq_nil] at hnil
      exact hhead hnil.1

/-- The records whose blocks are written are records of the input without error. -/
theorem digestFiles_error_free (filesData : List FileInfo) :
    ∀ f ∈ digestFiles filesData, f ∈ filesData ∧ f.Error = none := by
  have hperm : (digestFiles filesData).Perm (filesData.filter (fun r => r.Error = none)) := by
    simp only [digestFiles]
    refine ((sortSlice_perm _ _).append (sortSlice_perm _ _)).trans ?_
    exact List.filter_append_perm _ _
  intro f hf
  have := hperm.subset hf
  rw [List.mem_filter] at this
  exact ⟨this.1, by simpa using this.2⟩

set_option maxRecDepth 100000 in
/-- C33 (counterexample). The record of `bad.txt` carries an error and its path is in
`stats.AllPaths`: the digest has no FILE block for it, but the directory tree has the line
`├── bad.txt`. -/
theorem C33_errored_file_has_tree_line :
    (WriteDigest Output.good (str "2024-01-01 00:00:00")
        [{ FileInfo.zero with RelativePath := str "bad.txt",
                              Error := some (str "permission denied") },
         { FileInfo.zero with RelativePath := str "main.go", Content := str "package main\n" }]
        { demoStats with NumFilesProcessed := 2, AllPaths := [str "bad.txt", str "main.go"] }).1 =
      GenerateSummaryString (str "2024-01-01 00:00:00")
          { demoStats with NumFilesProcessed := 2, AllPaths := [str "bad.txt", str "main.go"] } ++
        str ("## Directory Structure\n\n```\nrepo/\n├── bad.txt\n└── main.go\n```\n\n---\n\n" ++
          "================================================\nFILE: main.go\n" ++
          "================================================\npackage main\n\n\n") := by
  decide

/-- C33 (amended). For a record with an error whose path is in `stats.AllPaths`: no FILE
block is written for it, since every block written is the block of a record without error
(and, when the `RelativePath`s of the records are distinct, no block carries its path);
but the directory tree, which is drawn from `stats.AllPaths`, holds the line of its path.
The digest is the summary, then the section of the tree, then the blocks; the section is
its heading, the opening fence, the line of the root name, the lines of a tree of
`stats.AllPaths`, the closing fence and the rule; and the file line of the path of the
record, with its marker, name and suffix, stands in that tree after the lines of the paths
before it and before those of the paths after it in sorted order. -/
theorem C33_errored_file_no_block_but_tree_line (now : GoString) (filesData : List FileInfo)
    (stats : Stats) (r : FileInfo)
    (hr : r ∈ filesData) (herr : r.Error ≠ none) (hpath : r.RelativePath ∈ stats.AllPaths) :
    r ∉ digestFiles filesData ∧
    (∀ f ∈ digestFiles filesData, f ∈ filesData ∧ f.Error = none) ∧
    ((filesData.map (fun f => f.RelativePath)).Nodup →
      ∀ f ∈ digestFiles filesData, f.RelativePath ≠ r.RelativePath) ∧
    ∃ (before later : List GoString) (lines X Y : List TreeLine),
      sortSlice strLess stats.AllPaths = before ++ r.RelativePath :: later ∧
      IsTreeOf filesData stats.AllPaths lines ∧
      lines = X ++ { isDir := false, path := r.RelativePath, depth := depthOf r.RelativePath,
                     text := Repeat (str "│   ") (depthOf r.RelativePath) ++
                       (if ∀ other ∈ later, parentDir other ≠ parentDir r.RelativePath
                        then str "└── " else str "├── ") ++
                       fileNameOf r.RelativePath ++
                       recordSuffix (fileInfoLookup filesData r.RelativePath) ++ str "\n" } :: Y ∧
      filesOf X = before ∧ filesOf Y = later ∧
      WriteDigest Output.good now filesData stats =
        (GenerateSummaryString now stats ++
          (str "## Directory Structure\n\n```\n" ++
            ((if Base stats.Source = str "." ∨ Base stats.Source = [] then str "project"
              else Base stats.Source) ++ str "/\n" ++ linesText lines) ++
            str "```\n\n---\n\n") ++
          ((digestFiles filesData).map fileBlock).flatten, none) := by
  have hfree := digestFiles_error_free filesData
  refine ⟨fun hmem => herr (hfree r hmem).2, hfree, ?_, ?_⟩
  · intro hnd f hf heq
    have hfr : f = r := List.inj_on_of_nodup_map hnd (hfree f hf).1 hr heq
    exact herr (hfr ▸ (hfree f hf).2)
  · have hsorted : r.RelativePath ∈ sortSlice strLess stats.AllPaths :=
      (sortSlice_perm strLess stats.AllPaths).mem_iff.2 hpath
    obtain ⟨before, later, hsplit⟩ := List.append_of_mem hsorted
    obtain ⟨lines, X, Y, htree, his, hlines, hX, hY⟩ := GenerateTreeString_tree stats.AllPaths
      (if Base stats.Source = str "." ∨ Base stats.Source = [] then str "project"
       else Base stats.Source) filesData before r.RelativePath later hsplit
    refine ⟨before, later, lines, X, Y, hsplit, his, ?_, hX, hY, ?_⟩
    · rw [hlines, fileLine_form]
    · have hlen : stats.AllPaths.length > 0 := List.length_pos.2 (List.ne_nil_of_mem hpath)
      rw [WriteDigest_good, ← htree]
      simp [treeSection, treeWrites, hlen]

set_option maxRecDepth 100000 in
/-- C33 (witness). The records of `bad.txt`, which carries an error, and of `main.go`, with
both paths accepted. -/
theorem C33_witness_bad_txt :
    erroredRecord ∈ erroredRecords ∧ erroredRecord.Error ≠ none ∧
    erroredRecord.RelativePath ∈ erroredStats.AllPaths ∧
    erroredRecord ∉ digestFiles erroredRecords ∧
    (∀ f ∈ digestFiles erroredRecords, f ∈ erroredRecords ∧ f.Error = none) ∧
    ((erroredRecords.map (fun f => f.RelativePath)).Nodup →
      ∀ f ∈ digestFiles erroredRecords, f.RelativePath ≠ erroredRecord.RelativePath) ∧
    ∃ (before later : List GoString) (lines X Y : List TreeLine),
      sortSlice strLess erroredStats.AllPaths = before ++ erroredRecord.RelativePath :: later ∧
      IsTreeOf erroredRecords erroredStats.AllPaths lines ∧
      lines = X ++ { isDir := false, path := erroredRecord.RelativePath,
                     depth := depthOf erroredRecord.RelativePath,
                     text := Repeat (str "│   ") (depthOf erroredRecord.RelativePath) ++
                       (if ∀ other ∈ later, parentDir other ≠ parentDir erroredRecord.RelativePath
                        then str "└── " else str "├── ") ++
                       fileNameOf erroredRecord.RelativePath ++
                       recordSuffix (fileInfoLookup erroredRecords erroredRecord.RelativePath) ++
                       str "\n" } :: Y ∧
      filesOf X = before ∧ filesOf Y = later ∧
      WriteDigest Output.good (str "2024-01-01 00:00:00") erroredRecords erroredStats =
        (GenerateSummaryString (str "2024-01-01 00:00:00") erroredStats ++
          (str "## Directory Structure\n\n```\n" ++
            ((if Base erroredStats.Source = str "." ∨ Base erroredStats.Source = []
              then str "project" else Base erroredStats.Source) ++ str "/\n" ++
              linesText lines) ++
            str "```\n\n---\n\n") ++
          ((digestFiles erroredRecords).map fileBlock).flatten, none) :=
  ⟨by decide, by decide, by decide,
    C33_errored_file_no_block_but_tree_line (str "2024-01-01 00:00:00") erroredRecords
      erroredStats erroredRecord (by decide) (by decide) (by decide)⟩

/-! ## C34: the record of a text file -/

set_option maxRecDepth 100000 in
/-- C34 (counterexample). The file `NOTES.IPYNB` holds the six bytes of `hello` and a line
end: it is not empty, not skipped for its size, has no zero byte, and its name does not
end in `.ipynb`. It is parsed as a notebook all the same, because the extension is compared
in lower case: the record has no content and carries the error of the parser. -/
theorem C34_upper_case_extension_is_parsed_as_notebook :
    HasSuffix (str "/repo/NOTES.IPYNB") (str ".ipynb") = false ∧
    (plainFilesEnv.file (str "/repo/NOTES.IPYNB")).data = .ok (str "hello\n") ∧
    (0 : UInt8) ∉ str "hello\n" ∧
    (processFile plainFilesEnv (str "/repo") 0 (str "/repo/NOTES.IPYNB") demoStats).1 =
      { RelativePath := str "NOTES.IPYNB", AbsolutePath := str "/repo/NOTES.IPYNB",
        Content := str "", IsBinary := false,
        Error := some (str "failed to parse notebook JSON: invalid character") } := by
  decide

/-- C34 (amended). For an accepted file that can be stat'ed and read, is not empty, is not
skipped for its size, whose path does not end in `.ipynb` in any letter case
(`IsJupyterNotebook` is false), and that has no zero byte within its first 1024 bytes: the
content of the record is the whole content of the file, `IsBinary` is false and `Error` is
nil, whatever bytes follow the first 1024. -/
theorem C34_text_file_read_whole (env : Env) (rootDir filePath : GoString)
    (maxFileSize : Int) (stats : Stats) (size : Int) (bytes : GoString)
    (hstat : (env.file filePath).stat = .ok size)
    (hsize : ¬ (maxFileSize > 0 ∧ size > maxFileSize))
    (hnb : IsJupyterNotebook filePath = false)
    (hdata : (env.file filePath).data = .ok bytes)
    (hne : bytes ≠ [])
    (hnul : (0 : UInt8) ∉ bytes.take 1024) :
    (processFile env rootDir maxFileSize filePath stats).1.Content = bytes ∧
    (processFile env rootDir maxFileSize filePath stats).1.IsBinary = false ∧
    (processFile env rootDir maxFileSize filePath stats).1.Error = none := by
  have hempty : bytes.isEmpty = false := by
    cases bytes with
    | nil => exact absurd rfl hne
    | cons _ _ => rfl
  have hcontains : Contains (bytes.take 1024) [0] = false := by
    cases h : Contains (bytes.take 1024) [0] with
    | false => rfl
    | true => exact absurd ((contains_zero_iff _).1 h) hnul
  have hbin : IsBinaryFile env filePath = (false, none) := by
    simp [IsBinaryFile, hdata, fileRead, hempty, hcontains]
  simp [processFile, hstat, hsize, hnb, hbin, ReadFileContent, hdata]

set_option maxRecDepth 100000 in
/-- C34 (witness). The file `long.txt`: 1025 letters and then a zero byte, at offset
1025. -/
theorem C34_witness_long_txt :
    (0 : UInt8) ∈ List.replicate 1025 (0x41 : UInt8) ++ [0] ∧
    (processFile plainFilesEnv (str "/repo") 0 (str "/repo/long.txt") demoStats).1.Content =
      List.replicate 1025 0x41 ++ [0] ∧
    (processFile plainFilesEnv (str "/repo") 0 (str "/repo/long.txt") demoStats).1.IsBinary =
      false ∧
    (processFile plainFilesEnv (str "/repo") 0 (str "/repo/long.txt") demoStats).1.Error = none :=
  ⟨List.mem_append.2 (Or.inr (List.mem_singleton.2 rfl)),
   C34_text_file_read_whole plainFilesEnv (str "/repo") (str "/repo/long.txt") 0 demoStats 1026
     (List.replicate 1025 0x41 ++ [0]) (by decide) (by decide) (by decide) (by decide)
     (by decide) (by decide)⟩

/-! ## C37: include patterns and directories -/

/-- With no exclude pattern and an include list that is not empty, a path is accepted
exactly when some include pattern matches it or its base name. -/
theorem ShouldIncludeFile_no_exclude (relativePath : GoString) (includePatterns : List GoString)
    (hinc : includePatterns ≠ []) :
    ShouldIncludeFile relativePath includePatterns [] = true ↔
      ∃ q ∈ includePatterns,
        Match q relativePath = true ∨ Match q (Base relativePath) = true := by
  have hlen : includePatterns.length > 0 := List.length_pos.2 hinc
  simp [ShouldIncludeFile, excludeLoop, hlen]

/-- C37. With no exclude pattern and an include list that is not empty, every path the
walk accepts is the path of a file of the tree such that some include pattern matches the
path or the base name of the file and, for each of its ancestor directories below the
root, some include pattern matches the path or the base name of that directory. -/
theorem C37_accepted_file_has_matching_ancestors (env : Env) (root : Entry)
    (rootDir : GoString) (includePatterns : List GoString) (st : WalkState)
    (hinc : includePatterns ≠ [])
    (hwalk : firstPass env (.ok root) rootDir includePatterns [] = (st, none)) :
    ∀ p ∈ st.allPaths, ∃ f ∈ filesBelowRoot rootDir root,
      p = relPathOf rootDir f.1 ∧
      (∃ q ∈ includePatterns, Match q p = true ∨ Match q (Base p) = true) ∧
      ∀ a ∈ f.2, belowRoot rootDir a = true →
        ∃ q ∈ includePatterns,
          Match q (relPathOf rootDir a) = true ∨
            Match q (Base (relPathOf rootDir a)) = true := by
  intro p hp
  rw [(firstPass_spec env root rootDir includePatterns [] st hwalk).1] at hp
  obtain ⟨f, hf, rfl⟩ := List.mem_map.1 hp
  rw [List.mem_filter] at hf
  obtain ⟨hmem, hkept⟩ := hf
  simp only [keptFile, Bool.and_eq_true] at hkept
  obtain ⟨⟨_, hacc⟩, hanc⟩ := hkept
  refine ⟨f, hmem, rfl, (ShouldIncludeFile_no_exclude _ _ hinc).1 hacc, ?_⟩
  intro a ha hbelow
  simp only [ancestorsAccepted, List.all_eq_true, Bool.or_eq_true, Bool.not_eq_true'] at hanc
  rcases hanc a ha with h | h
  · rw [hbelow] at h
    exact absurd h (by simp)
  · exact (ShouldIncludeFile_no_exclude _ _ hinc).1 h

/-- C37, at a concrete input: the tree with `src/main.go`. With the include pattern `*.go`
alone the pattern matches the base name `main.go`, but the directory `src` does not pass
and is pruned: the walk accepts no path. With the include patterns `*.go` and `src` the
directory passes and the file is accepted. -/
theorem C37_witness_src_pruned :
    ShouldIncludeFile (str "src/main.go") [str "*.go"] [] = true ∧
    ShouldIncludeFile (str "src") [str "*.go"] [] = false ∧
    (ProcessLocalDirectoryWithPatterns demoEnv (.ok srcTree) [] (str "/repo") 0
        [str "*.go"] []).toOption.map (fun r => (r.1, r.2.AllPaths, r.2.NumDirsProcessed)) =
      some ([], [], 1) ∧
    ∀ p ∈ [str "src/main.go"], ∃ f ∈ filesBelowRoot (str "/repo") srcTree,
      p = relPathOf (str "/repo") f.1 ∧
      (∃ q ∈ [str "*.go", str "src"], Match q p = true ∨ Match q (Base p) = true) ∧
      ∀ a ∈ f.2, belowRoot (str "/repo") a = true →
        ∃ q ∈ [str "*.go", str "src"],
          Match q (relPathOf (str "/repo") a) = true ∨
            Match q (Base (relPathOf (str "/repo") a)) = true :=
  ⟨by decide, by decide, by decide,
   C37_accepted_file_has_matching_ancestors demoEnv srcTree (str "/repo")
     [str "*.go", str "src"]
     { allPaths := [str "src/main.go"], filePaths := [str "/repo/src/main.go"],
       stats := { demoStats with NumDirsProcessed := 1 } }
     (by decide) (by decide)⟩

/-! ## C39: the order of the exclude patterns -/

/-- The exclude loop when no include pattern brings a path back: it returns `false` when
some exclude pattern matches the path, its base name or the base name of an ancestor
directory, and runs to its end otherwise. -/
theorem excludeLoop_no_override (relativePath : GoString) (inc : List GoString)
    (hov : includeOverride relativePath (Base relativePath) inc = false) :
    ∀ (exc : List GoString),
      excludeLoop relativePath (Base relativePath) inc exc =
        if exc.any (fun p => matchesPathOrBase p relativePath || matchesAncestor p relativePath)
        then some false else none := by
  intro exc
  induction exc with
  | nil => rfl
  | cons p rest ih =>
    simp only [excludeLoop, hov, parentMatches_eq_any, List.any_cons, ih]
    rcases Bool.eq_false_or_eq_true (Match p relativePath) with h1 | h1 <;>
      rcases Bool.eq_false_or_eq_true (Match p (Base relativePath)) with h2 | h2 <;>
      rcases Bool.eq_false_or_eq_true
        ((ancestorDirs (relativePath.length + 1) (Dir relativePath)).any
          (fun d => Match p (Base d))) with h3 | h3 <;>
      simp [matchesPathOrBase, matchesAncestor, h1, h2, h3]

/-- The exclude loop when no exclude pattern matches an ancestor directory: it returns the
result of the override block when some exclude pattern matches the path or its base name,
and runs to its end otherwise. -/
theorem excludeLoop_no_ancestor (relativePath : GoString) (inc : List GoString) :
    ∀ (exc : List GoString), (∀ p ∈ exc, matchesAncestor p relativePath = false) →
      excludeLoop relativePath (Base relativePath) inc exc =
        if exc.any (fun p => matchesPathOrBase p relativePath)
        then some (includeOverride relativePath (Base relativePath) inc) else none := by
  intro exc
  induction exc with
  | nil => intro _; rfl
  | cons p rest ih =>
    intro hno
    have hp := hno p (List.mem_cons_self _ _)
    simp only [matchesAncestor] at hp
    simp only [excludeLoop, parentMatches_eq_any, hp, List.any_cons,
      ih (fun q hq => hno q (List.mem_cons_of_mem _ hq))]
    rcases Bool.eq_false_or_eq_true (Match p relativePath) with h1 | h1 <;>
      rcases Bool.eq_false_or_eq_true (Match p (Base relativePath)) with h2 | h2 <;>
      simp [matchesPathOrBase, h1, h2]

/-- Whether some element of a list passes a test does not depend on the order. -/
theorem any_perm {α : Type} (f : α → Bool) (l1 l2 : List α) (h : l1.Perm l2) :
    l1.any f = l2.any f := by
  rw [Bool.eq_iff_iff, List.any_eq_true, List.any_eq_true]
  constructor
  · rintro ⟨x, hx, hf⟩; exact ⟨x, h.subset hx, hf⟩
  · rintro ⟨x, hx, hf⟩; exact ⟨x, h.symm.subset hx, hf⟩

/-- C39 (counterexample). The path `build/keep.go` with the include pattern `*.go`: with
the exclude patterns `build`, `keep.*` in this order the file is excluded, because `build`
matches an ancestor directory; in the order `keep.*`, `build` it is included, because
`keep.*` matches the base name first and the include pattern overrides that. -/
theorem C39_exclude_order_changes_result :
    [str "keep.*", str "build"].Perm [str "build", str "keep.*"] ∧
    ShouldIncludeFile (str "build/keep.go") [str "*.go"] [str "build", str "keep.*"] = false ∧
    ShouldIncludeFile (str "build/keep.go") [str "*.go"] [str "keep.*", str "build"] = true :=
  ⟨List.Perm.swap _ _ _, by decide, by decide⟩

/-- C39 (amended). The result of `ShouldIncludeFile` is the same for every permutation of
the exclude list when no include pattern matches the path or its base name (in particular
when the include list is empty), and when no exclude pattern matches the base name of an
ancestor directory of the path. -/
theorem C39_exclude_order_irrelevant_without_conflict (relativePath : GoString)
    (inc ex ex2 : List GoString) (hperm : ex2.Perm ex)
    (h : (∀ q ∈ inc, matchesPathOrBase q relativePath = false) ∨
      (∀ p ∈ ex, matchesAncestor p relativePath = false)) :
    ShouldIncludeFile relativePath inc ex2 = ShouldIncludeFile relativePath inc ex := by
  rcases h with h | h
  · have hov : includeOverride relativePath (Base relativePath) inc = false := by
      simp only [includeOverride]
      split
      · rw [List.any_eq_false]
        intro q hq
        have := h q hq
        simpa [matchesPathOrBase] using this
      · rfl
    simp only [ShouldIncludeFile, excludeLoop_no_override relativePath inc hov,
      any_perm _ ex2 ex hperm]
  · have h2 : ∀ p ∈ ex2, matchesAncestor p relativePath = false :=
      fun p hp => h p (hperm.subset hp)
    simp only [ShouldIncludeFile, excludeLoop_no_ancestor relativePath inc ex h,
      excludeLoop_no_ancestor relativePath inc ex2 h2, any_perm _ ex2 ex hperm]

/-- C39 (witness). The path `src/keep.log` with the include pattern `keep.log` and the
exclude patterns `*.log` and `*.tmp` in the two orders. -/
theorem C39_witness_keep_log :
    [str "*.tmp", str "*.log"].Perm [str "*.log", str "*.tmp"] ∧
    (∀ p ∈ [str "*.log", str "*.tmp"], matchesAncestor p (str "src/keep.log") = false) ∧
    ShouldIncludeFile (str "src/keep.log") [str "keep.log"] [str "*.tmp", str "*.log"] =
      ShouldIncludeFile (str "src/keep.log") [str "keep.log"] [str "*.log", str "*.tmp"] ∧
    ShouldIncludeFile (str "src/keep.log") [str "keep.log"] [str "*.log", str "*.tmp"] = true :=
  ⟨List.Perm.swap _ _ _, by decide,
   C39_exclude_order_irrelevant_without_conflict (str "src/keep.log") [str "keep.log"]
     [str "*.log", str "*.tmp"] [str "*.tmp", str "*.log"] (List.Perm.swap _ _ _)
     (Or.inr (by decide)),
   by decide⟩

/-! ## C35: the count of directories -/

/-- The function of the first pass on a file leaves the count of directories. -/
theorem walkFn_file_numDirs (env : Env) (rootDir : GoString) (inc exc : List GoString)
    (path : GoString) (st : WalkState) :
    (walkFn env rootDir inc exc path false none st).1.stats.NumDirsProcessed =
      st.stats.NumDirsProcessed := by
  simp only [walkFn]
  repeat' split
  all_goals first | rfl | simp_all

/-- The function of the first pass on a directory counts it when it lies below the
root. -/
theorem walkFn_dir_numDirs (env : Env) (rootDir : GoString) (inc exc : List GoString)
    (path : GoString) (st : WalkState) :
    (walkFn env rootDir inc exc path true none st).1.stats.NumDirsProcessed =
      st.stats.NumDirsProcessed + (if belowRoot rootDir path then 1 else 0) := by
  simp only [walkFn, belowRoot]
  by_cases h1 : relPathOf rootDir path = str "."
  · simp [h1]
  · by_cases h2 : ShouldIncludeFile (relPathOf rootDir path) inc exc = true
    · simp [h1, h2]
    · simp [h1, h2]

mutual
/-- Every directory listed under an entry, other than the entry itself, has the given
ancestors among its ancestors. -/
theorem dirsUnder_ancestors (path : GoString) (ancestors : List GoString) :
    ∀ (e : Entry) (d : GoString × List GoString), d ∈ dirsUnder path ancestors e →
      ∀ a ∈ ancestors, a ∈ d.2
  | .file _, d, hd, a, ha => by simp [dirsUnder] at hd
  | .dir _ _ children, d, hd, a, ha => by
    simp only [dirsUnder, List.mem_cons] at hd
    rcases hd with rfl | hd
    · exact ha
    · exact dirsUnderAll_ancestors path (ancestors ++ [path]) children d hd a
        (List.mem_append_left _ ha)
/-- Every directory listed under the entries of a directory has the given ancestors among
its ancestors. -/
theorem dirsUnderAll_ancestors (path : GoString) (ancestors : List GoString) :
    ∀ (es : Entries) (d : GoString × List GoString), d ∈ dirsUnderAll path ancestors es →
      ∀ a ∈ ancestors, a ∈ d.2
  | .nil, d, hd, a, ha => by simp [dirsUnderAll] at hd
  | .cons e rest, d, hd, a, ha => by
    simp only [dirsUnderAll, List.mem_append] at hd
    rcases hd with hd | hd
    · exact dirsUnder_ancestors _ ancestors e d hd a ha
    · exact dirsUnderAll_ancestors path ancestors rest d hd a ha
end

/-- No directory under a directory that lies below the root and is not accepted is
counted. -/
theorem filter_counted_of_rejected (rootDir : GoString) (inc exc : List GoString)
    (path : GoString) (ancestors : List GoString) (children : Entries)
    (hrej : (!belowRoot rootDir path || accepted rootDir inc exc path) = false) :
    (dirsUnderAll path (ancestors ++ [path]) children).filter (countedDir rootDir inc exc) = [] := by
  rw [List.filter_eq_nil_iff]
  intro d hd hk
  have hmem : path ∈ d.2 :=
    dirsUnderAll_ancestors path (ancestors ++ [path]) children d hd path (by simp)
  simp only [countedDir, ancestorsAccepted, Bool.and_eq_true, List.all_eq_true] at hk
  have := hk.2 path hmem
  rw [hrej] at this
  exact Bool.false_ne_true this

mutual
/-- A visit that ends without error counts the directories under the entry that lie below
the root and whose ancestors are all accepted. -/
theorem walkDir_numDirs (env : Env) (rootDir : GoString) (inc exc : List GoString) :
    ∀ (e : Entry) (path : GoString) (ancestors : List GoString) (st st1 : WalkState),
      ancestorsAccepted rootDir inc exc ancestors = true →
      walkDir (walkFn env rootDir inc exc) path e st = (st1, none) →
      st1.stats.NumDirsProcessed = st.stats.NumDirsProcessed +
        ((dirsUnder path ancestors e).filter (countedDir rootDir inc exc)).length
  | .file _, path, ancestors, st, st1, hanc, hw => by
    have h := walkFn_file_numDirs env rootDir inc exc path st
    simp only [walkDir] at hw
    rw [hw] at h
    simpa [dirsUnder] using h
  | .dir name readErr children, path, ancestors, st, st1, hanc, hw => by
    obtain ⟨_, _, hsig⟩ := walkFn_dir env rootDir inc exc path st
    have hn := walkFn_dir_numDirs env rootDir inc exc path st
    simp only [walkDir] at hw
    rcases hfn : walkFn env rootDir inc exc path true none st with ⟨st2, sig⟩
    rw [hfn] at hw hsig hn
    simp only at hsig hn
    have hself : ((dirsUnder path ancestors (.dir name readErr children)).filter
        (countedDir rootDir inc exc)).length =
        (if belowRoot rootDir path then 1 else 0) +
          ((dirsUnderAll path (ancestors ++ [path]) children).filter
            (countedDir rootDir inc exc)).length := by
      simp only [dirsUnder, List.filter_cons, countedDir, hanc, Bool.and_true]
      by_cases hb : belowRoot rootDir path = true
      · simp [hb, Nat.add_comm]
      · simp [hb]
    rw [hself]
    by_cases hacc : (!belowRoot rootDir path || accepted rootDir inc exc path) = true
    · simp only [hacc, if_true] at hsig
      subst hsig
      have hanc2 : ancestorsAccepted rootDir inc exc (ancestors ++ [path]) = true := by
        simp only [ancestorsAccepted, List.all_append, List.all_cons, List.all_nil,
          Bool.and_true, Bool.and_eq_true] at hanc ⊢
        exact ⟨hanc, hacc⟩
      cases readErr with
      | none =>
        simp only at hw
        have := walkEntries_numDirs env rootDir inc exc children path (ancestors ++ [path])
          st2 st1 hanc2 hw
        rw [this, hn]
        omega
      | some e =>
        simp [walkFn] at hw
    · have hrej : (!belowRoot rootDir path || accepted rootDir inc exc path) = false := by
        simpa using hacc
      simp only [hrej, Bool.false_eq_true, if_false] at hsig
      subst hsig
      simp only [Prod.mk.injEq, and_true] at hw
      subst hw
      rw [filter_counted_of_rejected rootDir inc exc path ancestors children hrej, hn]
      simp
/-- The loop over the entries of a directory, when it ends without error. -/
theorem walkEntries_numDirs (env : Env) (rootDir : GoString) (inc exc : List GoString) :
    ∀ (es : Entries) (path : GoString) (ancestors : List GoString) (st st1 : WalkState),
      ancestorsAccepted rootDir inc exc ancestors = true →
      walkEntries (walkFn env rootDir inc exc) path es st = (st1, none) →
      st1.stats.NumDirsProcessed = st.stats.NumDirsProcessed +
        ((dirsUnderAll path ancestors es).filter (countedDir rootDir inc exc)).length
  | .nil, path, ancestors, st, st1, hanc, hw => by
    simp only [walkEntries, Prod.mk.injEq, and_true] at hw
    subst hw
    simp [dirsUnderAll]
  | .cons d1 rest, path, ancestors, st, st1, hanc, hw => by
    simp only [walkEntries] at hw
    have hns := walkDir_ne_skipDir env rootDir inc exc (Join [path, d1.name]) d1 st
    rcases hd : walkDir (walkFn env rootDir inc exc) (Join [path, d1.name]) d1 st with ⟨st2, sig⟩
    rw [hd] at hw hns
    cases sig with
    | some err =>
      cases err with
      | skipDir => exact absurd rfl hns
      | other e => simp at hw
    | none =>
      simp only at hw
      have h1 := walkDir_numDirs env rootDir inc exc d1 (Join [path, d1.name]) ancestors
        st st2 hanc hd
      have h2 := walkEntries_numDirs env rootDir inc exc rest path ancestors st2 st1 hanc hw
      simp only [dirsUnderAll, List.filter_append, List.length_append]
      rw [h2, h1]
      omega
end

/-! ## The other counters of a run -/

/-- The function of the first pass changes no statistic but the count of directories. -/
theorem walkFn_stats_sel {α : Type} (sel : Stats → α)
    (hsel : ∀ (s : Stats) (n : Nat), sel { s with NumDirsProcessed := n } = sel s)
    (env : Env) (rootDir : GoString) (inc exc : List GoString)
    (path : GoString) (isDir : Bool) (err : Option GoError) (st : WalkState) :
    sel (walkFn env rootDir inc exc path isDir err st).1.stats = sel st.stats := by
  simp only [walkFn]
  repeat' split
  all_goals first | rfl | exact hsel _ _

mutual
/-- A visit changes no statistic but the count of directories. -/
theorem walkDir_stats_sel {α : Type} (sel : Stats → α)
    (hsel : ∀ (s : Stats) (n : Nat), sel { s with NumDirsProcessed := n } = sel s)
    (env : Env) (rootDir : GoString) (inc exc : List GoString) :
    ∀ (e : Entry) (path : GoString) (st : WalkState),
      sel (walkDir (walkFn env rootDir inc exc) path e st).1.stats = sel st.stats
  | .file _, path, st => by
    simp only [walkDir]
    exact walkFn_stats_sel sel hsel env rootDir inc exc path false none st
  | .dir _ readErr children, path, st => by
    have h1 := walkFn_stats_sel sel hsel env rootDir inc exc path true none st
    simp only [walkDir]
    rcases hfn : walkFn env rootDir inc exc path true none st with ⟨st1, r1⟩
    rw [hfn] at h1
    simp only at h1
    rcases r1 with _ | r1
    · simp only
      cases readErr with
      | none =>
        simp only
        rw [walkEntries_stats_sel sel hsel env rootDir inc exc children path st1]
        exact h1
      | some e =>
        have h2 := walkFn_stats_sel sel hsel env rootDir inc exc path true (some e) st1
        simp only
        rcases hfn2 : walkFn env rootDir inc exc path true (some e) st1 with ⟨st2, r2⟩
        rw [hfn2] at h2
        simp only at h2
        rcases r2 with _ | r2
        · simp only
          rw [walkEntries_stats_sel sel hsel env rootDir inc exc children path st2, h2]
          exact h1
        · cases r2
          · simp only; rw [h2]; exact h1
          · simp only; rw [h2]; exact h1
    · cases r1
      · simp only; exact h1
      · simp only; exact h1
/-- The loop over the entries of a directory changes no statistic but the count of
directories. -/
theorem walkEntries_stats_sel {α : Type} (sel : Stats → α)
    (hsel : ∀ (s : Stats) (n : Nat), sel { s with NumDirsProcessed := n } = sel s)
    (env : Env) (rootDir : GoString) (inc exc : List GoString) :
    ∀ (es : Entries) (path : GoString) (st : WalkState),
      sel (walkEntries (walkFn env rootDir inc exc) path es st).1.stats = sel st.stats
  | .nil, _, _ => rfl
  | .cons d1 rest, path, st => by
    have h1 := walkDir_stats_sel sel hsel env rootDir inc exc d1 (Join [path, d1.name]) st
    simp only [walkEntries]
    rcases hw : walkDir (walkFn env rootDir inc exc) (Join [path, d1.name]) d1 st with ⟨st1, r1⟩
    rw [hw] at h1
    simp only at h1
    rcases r1 with _ | r1
    · simp only
      rw [walkEntries_stats_sel sel hsel env rootDir inc exc rest path st1]
      exact h1
    · cases r1
      · simp only; exact h1
      · simp only; exact h1
end

/-- After a first pass without error every statistic but the count of directories has its
initial value. -/
theorem firstPass_stats_sel {α : Type} (sel : Stats → α)
    (hsel : ∀ (s : Stats) (n : Nat), sel { s with NumDirsProcessed := n } = sel s)
    (env : Env) (root : Entry) (rootDir : GoString)
    (inc exc : List GoString) (st : WalkState)
    (hw : firstPass env (.ok root) rootDir inc exc = (st, none)) :
    sel st.stats =
      sel { NumFilesProcessed := 0, NumDirsProcessed := 0, NumBinaryFiles := 0,
            NumSkippedFiles := 0, TotalContentBytes := 0, Source := rootDir,
            Branch := [], AllPaths := [] } := by
  have h := walkDir_stats_sel sel hsel env rootDir inc exc root rootDir
    { allPaths := [], filePaths := [],
      stats := { NumFilesProcessed := 0, NumDirsProcessed := 0, NumBinaryFiles := 0,
                 NumSkippedFiles := 0, TotalContentBytes := 0, Source := rootDir,
                 Branch := [], AllPaths := [] } }
  simp only [firstPass, WalkDir] at hw
  rcases hwd : walkDir (walkFn env rootDir inc exc) rootDir root
    { allPaths := [], filePaths := [],
      stats := { NumFilesProcessed := 0, NumDirsProcessed := 0, NumBinaryFiles := 0,
                 NumSkippedFiles := 0, TotalContentBytes := 0, Source := rootDir,
                 Branch := [], AllPaths := [] } } with ⟨st1, r1⟩
  rw [hwd] at hw h
  simp only at h
  rcases r1 with _ | r1
  · simp only [Prod.mk.injEq, and_true] at hw
    rw [← hw]; exact h
  · cases r1
    · simp only [Prod.mk.injEq, and_true] at hw
      rw [← hw]; exact h
    · simp at hw

/-- A statistic that every goroutine raises by an amount that depends on its file only is
raised, after the results of the goroutines of `order` are received, by the sum of the
amounts. -/
theorem collect_sum (env : Env) (rootDir : GoString) (maxFileSize : Int)
    (filePaths : List GoString) (sel : Stats → Int) (delta : GoString → Int)
    (hstep : ∀ (p : GoString) (s : Stats),
      sel (processFile env rootDir maxFileSize p s).2 = sel s + delta p)
    (order : List Nat) :
    ∀ (acc : List FileInfo × Stats), (∀ i ∈ order, i < filePaths.length) →
      sel (order.foldl (collectStep env rootDir maxFileSize filePaths) acc).2 =
        sel acc.2 + (order.map (fun i => delta (filePaths.getD i []))).sum := by
  induction order with
  | nil => intro acc _; simp
  | cons index rest ih =>
    intro acc hall
    rw [List.foldl_cons, ih _ (fun i hi => hall i (List.mem_cons_of_mem _ hi))]
    have hidx : index < filePaths.length := hall index (List.mem_cons_self _ _)
    have hget : filePaths[index]? = some filePaths[index] := List.getElem?_eq_getElem hidx
    have hgetD : filePaths.getD index [] = filePaths[index] := by
      simp [List.getD, hget]
    simp only [collectStep, hget, List.map_cons, List.sum_cons, hgetD]
    rw [hstep]
    omega

/-- Mapping over the indices of a list is mapping over the list. -/
theorem map_range_getD (l : List GoString) (g : GoString → Int) :
    (List.range l.length).map (fun i => g (l.getD i [])) = l.map g := by
  apply List.ext_getElem
  · simp
  · intro i h1 h2
    simp only [List.length_map, List.length_range] at h1
    simp [List.getD, List.getElem?_eq_getElem h1]

/-- The sum over the goroutines in their order of arrival is the sum over the files. -/
theorem sum_order (filePaths : List GoString) (order : List Nat) (delta : GoString → Int)
    (hperm : order.Perm (List.range filePaths.length)) :
    (order.map (fun i => delta (filePaths.getD i []))).sum = (filePaths.map delta).sum := by
  rw [(hperm.map _).sum_eq, map_range_getD]

/-- What one goroutine does to the statistics, by the class of its file: it counts the
file, counts it as binary or skipped when it is, adds the length of the content of a text
or notebook record, and leaves the count of directories; its record carries an error
exactly when the class is `failed`. -/
theorem processFile_stats (env : Env) (rootDir : GoString) (maxFileSize : Int)
    (filePath : GoString) (s : Stats) :
    (processFile env rootDir maxFileSize filePath s).2.NumDirsProcessed = s.NumDirsProcessed ∧
    (processFile env rootDir maxFileSize filePath s).2.TotalContentBytes =
      s.TotalContentBytes +
        countedBytes env maxFileSize
          (filePath, (processFile env rootDir maxFileSize filePath s).1) ∧
    (processFile env rootDir maxFileSize filePath s).2.NumBinaryFiles =
      s.NumBinaryFiles + (if classOf env maxFileSize filePath = .binary then 1 else 0) ∧
    (processFile env rootDir maxFileSize filePath s).2.NumSkippedFiles =
      s.NumSkippedFiles + (if classOf env maxFileSize filePath = .skipped then 1 else 0) ∧
    (classOf env maxFileSize filePath = .failed ↔
      (processFile env rootDir maxFileSize filePath s).1.Error ≠ none) := by
  unfold countedBytes classOf processFile
  rcases hstat : (env.file filePath).stat with err | size
  · simp
  · by_cases hsize : maxFileSize > 0 ∧ size > maxFileSize
    · simp [hsize]
    · by_cases hnb : IsJupyterNotebook filePath = true
      · rcases hp : ParseNotebook env filePath with ⟨content, perr⟩
        cases perr with
        | none => simp [hsize, hnb, hp]
        | some e => simp [hsize, hnb, hp]
      · rcases hb : IsBinaryFile env filePath with ⟨b, berr⟩
        cases berr with
        | some e => simp [hsize, hnb, hb]
        | none =>
          cases b with
          | true => simp [hsize, hnb, hb]
          | false =>
            rcases hr : ReadFileContent env filePath with ⟨content, rerr⟩
            have hzero : rerr ≠ none → content = [] := by
              intro hne
              simp only [ReadFileContent] at hr
              split at hr
              · simp only [Prod.mk.injEq] at hr
                exact hr.1.symm
              · simp only [Prod.mk.injEq] at hr
                exact absurd hr.2.symm hne
            cases rerr with
            | none => simp [hsize, hnb, hb, hr]
            | some e =>
              have := hzero (by simp)
              subst this
              simp [hsize, hnb, hb, hr]

/-- After the results of the goroutines of `order` are received, binary and skipped files
together are not more than the files processed, as they were before. -/
theorem collect_binary_skipped_le (env : Env) (rootDir : GoString) (maxFileSize : Int)
    (filePaths : List GoString) (order : List Nat) :
    ∀ (acc : List FileInfo × Stats),
      acc.2.NumBinaryFiles + acc.2.NumSkippedFiles ≤ acc.2.NumFilesProcessed →
      (order.foldl (collectStep env rootDir maxFileSize filePaths) acc).2.NumBinaryFiles +
        (order.foldl (collectStep env rootDir maxFileSize filePaths) acc).2.NumSkippedFiles ≤
        (order.foldl (collectStep env rootDir maxFileSize filePaths) acc).2.NumFilesProcessed := by
  induction order with
  | nil => intro acc h; exact h
  | cons index rest ih =>
    intro acc h
    rw [List.foldl_cons]
    apply ih
    simp only [collectStep]
    split
    · exact h
    · rename_i filePath _
      obtain ⟨_, _, hb, hs, _⟩ := processFile_stats env rootDir maxFileSize filePath acc.2
      have hf := processFile_numFiles env rootDir maxFileSize filePath acc.2
      simp only
      rw [hb, hs, hf]
      by_cases h1 : classOf env maxFileSize filePath = .binary
      · simp [h1]; omega
      · by_cases h2 : classOf env maxFileSize filePath = .skipped
        · simp [h2]; omega
        · simp [h1, h2]; omega

/-- C36. A run whose first pass ends without error returns, for every order of arrival,
statistics in which `TotalContentBytes` is the sum, over the accepted files and their
records, of the length of the content of the records of plain text and notebook text;
records of binary, skipped and failed files add nothing. `NumBinaryFiles` and
`NumSkippedFiles` are the numbers of binary and of skipped files, together not more than
`NumFilesProcessed`. A file is failed exactly when its record carries an error. -/
theorem C36_content_bytes_sum_over_text_records (env : Env) (root : Entry)
    (order : List Nat) (rootDir : GoString) (maxFileSize : Int)
    (includePatterns excludePatterns : List GoString) (st : WalkState)
    (hwalk : firstPass env (.ok root) rootDir includePatterns excludePatterns = (st, none))
    (hperm : order.Perm (List.range st.filePaths.length)) :
    ∃ (filesData : List FileInfo) (stats : Stats),
      ProcessLocalDirectoryWithPatterns env (.ok root) order rootDir maxFileSize
          includePatterns excludePatterns = .ok (filesData, stats) ∧
      filesData.length = st.filePaths.length ∧
      stats.TotalContentBytes =
        ((st.filePaths.zip filesData).map (countedBytes env maxFileSize)).sum ∧
      (stats.NumBinaryFiles : Int) =
        (st.filePaths.map
          (fun p => if classOf env maxFileSize p = .binary then (1 : Int) else 0)).sum ∧
      (stats.NumSkippedFiles : Int) =
        (st.filePaths.map
          (fun p => if classOf env maxFileSize p = .skipped then (1 : Int) else 0)).sum ∧
      stats.NumBinaryFiles + stats.NumSkippedFiles ≤ stats.NumFilesProcessed ∧
      ∀ pr ∈ st.filePaths.zip filesData,
        (classOf env maxFileSize pr.1 = .failed ↔ pr.2.Error ≠ none) := by
  have hall : ∀ i ∈ order, i < st.filePaths.length :=
    fun i hi => List.mem_range.1 ((hperm.mem_iff).1 hi)
  have hzip : st.filePaths.zip (st.filePaths.map
      (fun filePath => (processFile env rootDir maxFileSize filePath st.stats).1)) =
      st.filePaths.map
        (fun p => (p, (processFile env rootDir maxFileSize p st.stats).1)) := by
    rw [List.zip_map_right]
    induction st.filePaths with
    | nil => rfl
    | cons a l ih => simp [ih]
  refine ⟨_, _, ProcessLocal_of_firstPass env (.ok root) order rootDir maxFileSize
    includePatterns excludePatterns st hwalk hperm, by simp, ?_, ?_, ?_, ?_, ?_⟩
  · have hsum := collect_sum env rootDir maxFileSize st.filePaths
      (fun s => s.TotalContentBytes)
      (fun p => countedBytes env maxFileSize
        (p, (processFile env rootDir maxFileSize p st.stats).1))
      (fun p s => by
        have := (processFile_stats env rootDir maxFileSize p s).2.1
        rw [processFile_record_indep env rootDir maxFileSize p s st.stats] at this
        exact this) order
      (List.replicate st.filePaths.length FileInfo.zero, st.stats) hall
    have h0 := firstPass_stats_sel (fun s => s.TotalContentBytes) (fun _ _ => rfl)
      env root rootDir includePatterns excludePatterns st hwalk
    have hso := sum_order st.filePaths order
      (fun p => countedBytes env maxFileSize
        (p, (processFile env rootDir maxFileSize p st.stats).1)) hperm
    simp only at h0 hsum hso ⊢
    rw [hsum, h0, hso, hzip, List.map_map]
    simp only [Int.zero_add]
    rfl
  · have hsum := collect_sum env rootDir maxFileSize st.filePaths
      (fun s => (s.NumBinaryFiles : Int))
      (fun p => if classOf env maxFileSize p = .binary then (1 : Int) else 0)
      (fun p s => by
        have := (processFile_stats env rootDir maxFileSize p s).2.2.1
        simp only [this]
        split <;> simp) order
      (List.replicate st.filePaths.length FileInfo.zero, st.stats) hall
    have h0 := firstPass_stats_sel (fun s => s.NumBinaryFiles) (fun _ _ => rfl)
      env root rootDir includePatterns excludePatterns st hwalk
    have hso := sum_order st.filePaths order
      (fun p => if classOf env maxFileSize p = .binary then (1 : Int) else 0) hperm
    simp only at h0 hsum hso ⊢
    rw [hsum, h0, hso]
    simp
  · have hsum := collect_sum env rootDir maxFileSize st.filePaths
      (fun s => (s.NumSkippedFiles : Int))
      (fun p => if classOf env maxFileSize p = .skipped then (1 : Int) else 0)
      (fun p s => by
        have := (processFile_stats env rootDir maxFileSize p s).2.2.2.1
        simp only [this]
        split <;> simp) order
      (List.replicate st.filePaths.length FileInfo.zero, st.stats) hall
    have h0 := firstPass_stats_sel (fun s => s.NumSkippedFiles) (fun _ _ => rfl)
      env root rootDir includePatterns excludePatterns st hwalk
    have hso := sum_order st.filePaths order
      (fun p => if classOf env maxFileSize p = .skipped then (1 : Int) else 0) hperm
    simp only at h0 hsum hso ⊢
    rw [hsum, h0, hso]
    simp
  · have hb := firstPass_stats_sel (fun s => s.NumBinaryFiles) (fun _ _ => rfl)
      env root rootDir includePatterns excludePatterns st hwalk
    have hs := firstPass_stats_sel (fun s => s.NumSkippedFiles) (fun _ _ => rfl)
      env root rootDir includePatterns excludePatterns st hwalk
    simp only at hb hs
    exact collect_binary_skipped_le env rootDir maxFileSize st.filePaths order
      (List.replicate st.filePaths.length FileInfo.zero, st.stats) (by rw [hb, hs]; omega)
  · intro pr hpr
    rw [hzip] at hpr
    obtain ⟨p, _, rfl⟩ := List.mem_map.1 hpr
    exact (processFile_stats env rootDir maxFileSize p st.stats).2.2.2.2

set_option maxRecDepth 100000 in
/-- C36, at a concrete input: the tree with the text file `main.go` of 13 bytes and the
notebook `z.ipynb` that cannot be parsed; the total is 13. -/
theorem C36_witness_broken_notebook_adds_nothing :
    (ProcessLocalDirectoryWithPatterns brokenNotebookEnv (.ok brokenNotebookTree) [1, 0]
        (str "/repo") 0 [] []).toOption.map
      (fun r => (r.2.TotalContentBytes, r.2.NumBinaryFiles, r.2.NumSkippedFiles,
        r.2.NumFilesProcessed)) = some (13, 0, 0, 2) ∧
    [str "/repo/main.go", str "/repo/z.ipynb"].map (classOf brokenNotebookEnv 0) =
      [.text, .failed] ∧
    ∃ (filesData : List FileInfo) (stats : Stats),
      ProcessLocalDirectoryWithPatterns brokenNotebookEnv (.ok brokenNotebookTree) [1, 0]
          (str "/repo") 0 [] [] = .ok (filesData, stats) ∧
      filesData.length = 2 ∧
      stats.TotalContentBytes =
        (([str "/repo/main.go", str "/repo/z.ipynb"].zip filesData).map
          (countedBytes brokenNotebookEnv 0)).sum ∧
      (stats.NumBinaryFiles : Int) =
        ([str "/repo/main.go", str "/repo/z.ipynb"].map
          (fun p => if classOf brokenNotebookEnv 0 p = .binary then (1 : Int) else 0)).sum ∧
      (stats.NumSkippedFiles : Int) =
        ([str "/repo/main.go", str "/repo/z.ipynb"].map
          (fun p => if classOf brokenNotebookEnv 0 p = .skipped then (1 : Int) else 0)).sum ∧
      stats.NumBinaryFiles + stats.NumSkippedFiles ≤ stats.NumFilesProcessed ∧
      ∀ pr ∈ [str "/repo/main.go", str "/repo/z.ipynb"].zip filesData,
        (classOf brokenNotebookEnv 0 pr.1 = .failed ↔ pr.2.Error ≠ none) :=
  ⟨by decide, by decide,
   C36_content_bytes_sum_over_text_records brokenNotebookEnv brokenNotebookTree [1, 0]
     (str "/repo") 0 [] []
     { allPaths := [str "main.go", str "z.ipynb"],
       filePaths := [str "/repo/main.go", str "/repo/z.ipynb"],
       stats := demoStats }
     (by decide) (by decide)⟩

/-- After a first pass without error the count of directories is the number of
directories below the root whose ancestors are all accepted. -/
theorem firstPass_numDirs (env : Env) (root : Entry) (rootDir : GoString)
    (inc exc : List GoString) (st : WalkState)
    (hw : firstPass env (.ok root) rootDir inc exc = (st, none)) :
    st.stats.NumDirsProcessed =
      ((dirsBelowRoot rootDir root).filter (countedDir rootDir inc exc)).length := by
  have hroot : belowRoot rootDir rootDir = false := by
    simp [belowRoot, relPathOf_self]
  simp only [firstPass, WalkDir] at hw
  cases root with
  | file name =>
    simp only [walkDir, walkFn_file, hroot, Bool.false_and, Bool.false_eq_true, if_false,
      Prod.mk.injEq, and_true] at hw
    subst hw
    simp [dirsBelowRoot]
  | dir name readErr children =>
    simp only [dirsBelowRoot]
    obtain ⟨_, _, hsig⟩ := walkFn_dir env rootDir inc exc rootDir
      { allPaths := [], filePaths := [],
        stats := { NumFilesProcessed := 0, NumDirsProcessed := 0, NumBinaryFiles := 0,
                   NumSkippedFiles := 0, TotalContentBytes := 0, Source := rootDir,
                   Branch := [], AllPaths := [] } }
    have hn := walkFn_dir_numDirs env rootDir inc exc rootDir
      { allPaths := [], filePaths := [],
        stats := { NumFilesProcessed := 0, NumDirsProcessed := 0, NumBinaryFiles := 0,
                   NumSkippedFiles := 0, TotalContentBytes := 0, Source := rootDir,
                   Branch := [], AllPaths := [] } }
    simp only [walkDir] at hw
    rcases hfn : walkFn env rootDir inc exc rootDir true none
      { allPaths := [], filePaths := [],
        stats := { NumFilesProcessed := 0, NumDirsProcessed := 0, NumBinaryFiles := 0,
                   NumSkippedFiles := 0, TotalContentBytes := 0, Source := rootDir,
                   Branch := [], AllPaths := [] } } with ⟨st2, sig⟩
    rw [hfn] at hw hsig hn
    simp only [hroot, Bool.not_false, Bool.true_or, if_true, Bool.false_eq_true, if_false,
      Nat.add_zero] at hsig hn
    subst hsig
    cases readErr with
    | some e => simp [walkFn] at hw
    | none =>
      simp only at hw
      rcases hwe : walkEntries (walkFn env rootDir inc exc) rootDir children st2 with ⟨st3, sig3⟩
      have hns := walkEntries_ne_skipDir (walkFn env rootDir inc exc) rootDir children st2
      rw [hwe] at hw hns
      cases sig3 with
      | some err =>
        cases err with
        | skipDir => exact absurd rfl hns
        | other e => simp at hw
      | none =>
        simp only [Prod.mk.injEq, and_true] at hw
        subst hw
        have h1 := walkEntries_numDirs env rootDir inc exc children rootDir [] st2 st3
          (by simp [ancestorsAccepted]) hwe
        rw [h1, hn]
        simp

/-- C35. A run whose first pass ends without error returns statistics in which
`NumDirsProcessed` is the number of directories of the tree, the root left out, that lie
below the root and all of whose proper ancestors below the root pass `ShouldIncludeFile`:
a directory that does not pass is counted itself, and nothing under it is. -/
theorem C35_dirs_processed_counts_visited_directories (env : Env) (root : Entry)
    (order : List Nat) (rootDir : GoString) (maxFileSize : Int)
    (includePatterns excludePatterns : List GoString) (st : WalkState)
    (hwalk : firstPass env (.ok root) rootDir includePatterns excludePatterns = (st, none))
    (hperm : order.Perm (List.range st.filePaths.length)) :
    ∃ (filesData : List FileInfo) (stats : Stats),
      ProcessLocalDirectoryWithPatterns env (.ok root) order rootDir maxFileSize
          includePatterns excludePatterns = .ok (filesData, stats) ∧
      stats.NumDirsProcessed =
        ((dirsBelowRoot rootDir root).filter
          (countedDir rootDir includePatterns excludePatterns)).length := by
  refine ⟨_, _, ProcessLocal_of_firstPass env (.ok root) order rootDir maxFileSize
    includePatterns excludePatterns st hwalk hperm, ?_⟩
  have hsum := collect_sum env rootDir maxFileSize st.filePaths
    (fun s => (s.NumDirsProcessed : Int)) (fun _ => 0)
    (fun p s => by
      have := (processFile_stats env rootDir maxFileSize p s).1
      simp [this]) order
    (List.replicate st.filePaths.length FileInfo.zero, st.stats)
    (fun i hi => List.mem_range.1 ((hperm.mem_iff).1 hi))
  simp only [List.map_const', List.sum_replicate, smul_zero, add_zero, Nat.cast_inj] at hsum
  simp only
  rw [hsum]
  exact firstPass_numDirs env root rootDir includePatterns excludePatterns st hwalk

/-- C35, at a concrete input: the tree with `build/sub/x.go`, the empty directory `docs`
and `main.go`, and the exclude pattern `build`. The directories `build` and `docs` are
counted; `build` is pruned, so `build/sub` is not counted. -/
theorem C35_witness_pruned_build_counted :
    (dirsBelowRoot (str "/repo") nestedTree).map (fun d => d.1) =
      [str "/repo/build", str "/repo/build/sub", str "/repo/docs"] ∧
    (dirsBelowRoot (str "/repo") nestedTree).map (countedDir (str "/repo") [] [str "build"]) =
      [true, false, true] ∧
    ∃ (filesData : List FileInfo) (stats : Stats),
      ProcessLocalDirectoryWithPatterns demoEnv (.ok nestedTree) [0] (str "/repo") 0
          [] [str "build"] = .ok (filesData, stats) ∧
      stats.NumDirsProcessed =
        ((dirsBelowRoot (str "/repo") nestedTree).filter
          (countedDir (str "/repo") [] [str "build"])).length :=
  ⟨by decide, by decide,
   C35_dirs_processed_counts_visited_directories demoEnv nestedTree [0] (str "/repo") 0
     [] [str "build"]
     { allPaths := [str "main.go"], filePaths := [str "/repo/main.go"],
       stats := { demoStats with NumDirsProcessed := 2 } }
     (by decide) (by decide)⟩

/-! ## C40: the ancestor loop ends -/

/-- The weight of a list of path elements: their lengths and one separator each. -/
theorem splitSlash_weight : ∀ (s : GoString),
    ((splitSlash s).map (fun e => e.length + 1)).sum = s.length + 1
  | [] => rfl
  | c :: s => by
    have ih := splitSlash_weight s
    simp only [splitSlash]
    split
    · simp [ih]; omega
    · split
      · rename_i h
        rw [h] at ih
        simp at ih
      · rename_i w ws h
        rw [h] at ih
        simp only [List.map_cons, List.sum_cons, List.length_cons] at ih ⊢
        omega

/-- The length of joined elements is their weight less one separator. -/
theorem joinSlash_length : ∀ (l : List GoString), l ≠ [] →
    (joinSlash l).length + 1 = (l.map (fun e => e.length + 1)).sum
  | [], h => absurd rfl h
  | [e], _ => by simp [joinSlash]
  | e :: f :: rest, _ => by
    have ih := joinSlash_length (f :: rest) (by simp)
    simp only [joinSlash, List.length_append, List.length_cons, List.map_cons,
      List.sum_cons] at ih ⊢
    omega

/-- One step of `filepath.Clean` adds at most the weight of the element, and nothing for
an empty element. -/
theorem cleanStep_weight (rooted : Bool) (out : List GoString) (elem : GoString) :
    ((cleanStep rooted out elem).map (fun e => e.length + 1)).sum +
        (if elem = [] then 1 else 0) ≤
      (out.map (fun e => e.length + 1)).sum + (elem.length + 1) := by
  simp only [cleanStep]
  by_cases h0 : elem = []
  · subst h0
    simp
  · simp only [h0, false_or, if_false, Nat.add_zero]
    repeat' split
    all_goals
      first
        | omega
        | (simp only [List.map_cons, List.sum_cons, List.map_nil, List.sum_nil,
            List.length_cons, List.length_nil]
           omega)

/-- The elements `filepath.Clean` keeps weigh no more than the fields it read, less one for
every empty field. -/
theorem foldl_cleanStep_weight (rooted : Bool) : ∀ (fields out : List GoString),
    ((fields.foldl (cleanStep rooted) out).map (fun e => e.length + 1)).sum +
        fields.count [] ≤
      (out.map (fun e => e.length + 1)).sum + (fields.map (fun e => e.length + 1)).sum
  | [], out => by simp
  | w :: fields, out => by
    have ih := foldl_cleanStep_weight rooted fields (cleanStep rooted out w)
    have hstep := cleanStep_weight rooted out w
    rw [List.foldl_cons]
    simp only [List.map_cons, List.sum_cons, List.count_cons]
    by_cases hw : w = []
    · subst hw
      simp only [if_true, beq_self_eq_true] at hstep ⊢
      simp only [List.length_nil] at hstep ⊢
      omega
    · have hb : (w == ([] : GoString)) = false := by simpa using hw
      simp only [hw, if_false, hb, Bool.false_eq_true] at hstep ⊢
      omega

/-- `filepath.Clean` does not lengthen a path that is not empty. -/
theorem Clean_length_le (path : GoString) (hne : path ≠ []) :
    (Clean path).length ≤ path.length := by
  have hw := foldl_cleanStep_weight (decide (path.head? = some Separator)) (splitSlash path) []
  rw [splitSlash_weight] at hw
  simp only [List.map_nil, List.sum_nil, Nat.zero_add] at hw
  have hpos : 0 < path.length := List.length_pos.2 hne
  simp only [Clean, hne, if_false]
  by_cases hout : (splitSlash path).foldl
      (cleanStep (decide (path.head? = some Separator))) [] = []
  · rw [hout]
    by_cases hr : path.head? = some Separator
    · simp [hr, joinSlash]; omega
    · simp [hr, joinSlash]
      have : (str ".").length = 1 := by decide
      omega
  · have hrev : ((splitSlash path).foldl
        (cleanStep (decide (path.head? = some Separator))) []).reverse ≠ [] := by
      simpa using hout
    have hj := joinSlash_length _ hrev
    have hsum : ((((splitSlash path).foldl
        (cleanStep (decide (path.head? = some Separator))) []).reverse).map
          (fun e => e.length + 1)).sum =
        (((splitSlash path).foldl
          (cleanStep (decide (path.head? = some Separator))) []).map
            (fun e => e.length + 1)).sum := by
      rw [List.map_reverse, List.sum_reverse]
    rw [hsum] at hj
    by_cases hr : path.head? = some Separator
    · have hcount : 1 ≤ (splitSlash path).count [] := by
        cases path with
        | nil => exact absurd rfl hne
        | cons c rest =>
          have hc : c = Separator := by simpa using hr
          subst hc
          simp [splitSlash]
      simp only [hr, decide_True, if_true, List.length_cons] at hw hj ⊢
      omega
    · simp only [hr, decide_False, Bool.false_eq_true, if_false] at hw hj ⊢
      split
      · have : (str ".").length = 1 := by decide
        omega
      · omega

/-- The fields of a string with a separator added at its end. -/
theorem splitSlash_snoc_separator : ∀ (y : GoString),
    splitSlash (y ++ [Separator]) = splitSlash y ++ [[]]
  | [] => by simp [splitSlash]
  | c :: y => by
    have ih : splitSlash (y.append [Separator]) = splitSlash y ++ [[]] :=
      splitSlash_snoc_separator y
    simp only [List.cons_append, splitSlash]
    split
    · rw [ih]; rfl
    · rw [ih]
      rcases hs : splitSlash y with _ | ⟨w, ws⟩
      · have := splitSlash_weight y
        rw [hs] at this
        simp at this
      · rfl

/-- `filepath.Clean` ignores a separator at the end of a path that is not empty. -/
theorem Clean_snoc_separator (y : GoString) (hne : y ≠ []) :
    Clean (y ++ [Separator]) = Clean y := by
  have hne2 : y ++ [Separator] ≠ [] := by simp
  have hhead : (y ++ [Separator]).head? = y.head? := by
    cases y with
    | nil => exact absurd rfl hne
    | cons c rest => rfl
  simp only [Clean, hne, hne2, if_false, hhead, splitSlash_snoc_separator, List.foldl_append,
    List.foldl_cons, List.foldl_nil]
  have hstep : ∀ (r : Bool) (out : List GoString), cleanStep r out [] = out := by
    intro r out
    simp [cleanStep]
  rw [hstep]

/-- What is left of a list after dropping the elements that are not separators starts with
a separator. -/
theorem dropWhile_not_separator : ∀ (l : List UInt8),
    l.dropWhile (fun c => decide (c ≠ Separator)) = [] ∨
      ∃ t, l.dropWhile (fun c => decide (c ≠ Separator)) = Separator :: t ∧ t.length < l.length
  | [] => Or.inl rfl
  | c :: l => by
    by_cases hc : c = Separator
    · subst hc
      exact Or.inr ⟨l, by simp [List.dropWhile], by simp⟩
    · have hstep : (c :: l).dropWhile (fun c => decide (c ≠ Separator)) =
          l.dropWhile (fun c => decide (c ≠ Separator)) := by
        have hp : decide (c ≠ Separator) = true := by simpa using hc
        rw [List.dropWhile_cons]
        simp only [hp, if_true]
      rw [hstep]
      rcases dropWhile_not_separator l with h | ⟨t, h, hlen⟩
      · exact Or.inl h
      · exact Or.inr ⟨t, h, by simp; omega⟩

/-- One step of the ancestor loop: the parent directory is `.`, or `/`, or strictly
shorter. -/
theorem Dir_terminal_or_shorter (dir : GoString) :
    Dir dir = str "." ∨ Dir dir = str "/" ∨ (Dir dir).length < dir.length := by
  unfold Dir
  rcases dropWhile_not_separator dir.reverse with h | ⟨t, h, hlen⟩
  · left
    rw [h]
    decide
  · rw [h]
    simp only [List.reverse_cons]
    rw [List.length_reverse] at hlen
    by_cases ht : t = []
    · subst ht
      right; left
      decide
    · right; right
      have hne : t.reverse ≠ [] := by simpa using ht
      rw [Clean_snoc_separator _ hne]
      have := Clean_length_le _ hne
      rw [List.length_reverse] at this
      omega

/-- At `.` and at `/` the ancestor loop is over, whatever the bound. -/
theorem parentMatches_terminal (pattern : GoString) (fuel : Nat) (dir : GoString)
    (h : dir = str "." ∨ dir = str "/") : parentMatches pattern fuel dir = false := by
  cases fuel with
  | zero => rfl
  | succ n =>
    simp only [parentMatches]
    rcases h with h | h <;> simp [h]

theorem parentMatches_succ (pattern : GoString) (k : Nat) (dir : GoString) :
    parentMatches pattern (k + 1) dir =
      if dir ≠ str "." ∧ dir ≠ str "/" then
        if Match pattern (Base dir) then true else parentMatches pattern k (Dir dir)
      else false := rfl

/-- A bound above the length of `dir` is enough for the ancestor loop: a larger bound gives
the same result. -/
theorem parentMatches_fuel (pattern : GoString) : ∀ (n : Nat) (dir : GoString) (m : Nat),
    dir.length ≤ n → n + 1 ≤ m →
    parentMatches pattern m dir = parentMatches pattern (n + 1) dir := by
  intro n
  induction n with
  | zero =>
    intro dir m hlen hm
    obtain ⟨m1, rfl⟩ : ∃ m1, m = m1 + 1 := ⟨m - 1, by omega⟩
    rw [parentMatches_succ, parentMatches_succ]
    split
    · split
      · rfl
      · rcases Dir_terminal_or_shorter dir with h | h | h
        · rw [parentMatches_terminal pattern m1 _ (Or.inl h),
            parentMatches_terminal pattern 0 _ (Or.inl h)]
        · rw [parentMatches_terminal pattern m1 _ (Or.inr h),
            parentMatches_terminal pattern 0 _ (Or.inr h)]
        · omega
    · rfl
  | succ n ih =>
    intro dir m hlen hm
    obtain ⟨m1, rfl⟩ : ∃ m1, m = m1 + 1 := ⟨m - 1, by omega⟩
    rw [parentMatches_succ, parentMatches_succ]
    split
    · split
      · rfl
      · rcases Dir_terminal_or_shorter dir with h | h | h
        · rw [parentMatches_terminal pattern m1 _ (Or.inl h),
            parentMatches_terminal pattern (n + 1) _ (Or.inl h)]
        · rw [parentMatches_terminal pattern m1 _ (Or.inr h),
            parentMatches_terminal pattern (n + 1) _ (Or.inr h)]
        · exact ih (Dir dir) m1 (by omega) (by omega)
    · rfl

/-- From a directory of length at most `n` the ancestor loop reaches `.` or `/` after at
most `n + 1` steps. -/
theorem Dir_iterate_terminal : ∀ (n : Nat) (dir : GoString), dir.length ≤ n →
    ∃ k, k ≤ n + 1 ∧ (Nat.iterate Dir k dir = str "." ∨ Nat.iterate Dir k dir = str "/") := by
  intro n
  induction n with
  | zero =>
    intro dir hlen
    rcases Dir_terminal_or_shorter dir with h | h | h
    · exact ⟨1, by omega, Or.inl h⟩
    · exact ⟨1, by omega, Or.inr h⟩
    · omega
  | succ n ih =>
    intro dir hlen
    rcases Dir_terminal_or_shorter dir with h | h | h
    · exact ⟨1, by omega, Or.inl h⟩
    · exact ⟨1, by omega, Or.inr h⟩
    · obtain ⟨k, hk, hterm⟩ := ih (Dir dir) (by omega)
      exact ⟨k + 1, by omega, by simpa [Function.iterate_succ] using hterm⟩

set_option maxRecDepth 100000 in
/-- C40. `ShouldIncludeFile` returns a result for every path and pattern lists. One step of
its ancestor loop takes `dir` to `.`, to `/`, or to a strictly shorter directory; from the
parent directory of the path the loop reaches `.` or `/` after at most as many steps as the
path has bytes; and the bound on the steps written in the definition is never met: every
larger bound gives the same result. The samples are the directories the loop visits for
an empty path, an absolute path, paths with `..`, and paths with repeated and trailing
separators. -/
theorem C40_ancestor_loop_ends (relativePath pattern : GoString) :
    (∀ dir : GoString,
      Dir dir = str "." ∨ Dir dir = str "/" ∨ (Dir dir).length < dir.length) ∧
    (∃ k, k ≤ relativePath.length ∧
      (Nat.iterate Dir k (Dir relativePath) = str "." ∨
        Nat.iterate Dir k (Dir relativePath) = str "/")) ∧
    (∀ extra : Nat,
      parentMatches pattern (relativePath.length + 1 + extra) (Dir relativePath) =
        parentMatches pattern (relativePath.length + 1) (Dir relativePath)) ∧
    (∀ inc exc : List GoString, ∃ result : Bool,
      ShouldIncludeFile relativePath inc exc = result) ∧
    ancestorDirs 1 (Dir (str "")) = [] ∧
    ancestorDirs 7 (Dir (str "/a/b/c")) = [str "/a/b", str "/a"] ∧
    ancestorDirs 9 (Dir (str "../../x")) = [str "../..", str ".."] ∧
    ancestorDirs 11 (Dir (str "a//b/../c/")) = [str "a/c", str "a"] ∧
    ancestorDirs 4 (Dir (str "///")) = [] := by
  refine ⟨Dir_terminal_or_shorter, ?_, ?_, fun inc exc => ⟨_, rfl⟩, by decide, by decide,
    by decide, by decide, by decide⟩
  · rcases Dir_terminal_or_shorter relativePath with h | h | h
    · exact ⟨0, by omega, Or.inl h⟩
    · exact ⟨0, by omega, Or.inr h⟩
    · obtain ⟨k, hk, hterm⟩ := Dir_iterate_terminal (relativePath.length - 1)
        (Dir relativePath) (by omega)
      exact ⟨k, by omega, hterm⟩
  · intro extra
    rcases Dir_terminal_or_shorter relativePath with h | h | h
    · rw [parentMatches_terminal pattern _ _ (Or.inl h),
        parentMatches_terminal pattern _ _ (Or.inl h)]
    · rw [parentMatches_terminal pattern _ _ (Or.inr h),
        parentMatches_terminal pattern _ _ (Or.inr h)]
    · exact parentMatches_fuel pattern relativePath.length (Dir relativePath) _
        (by omega) (by omega)

/-! ## C32: backslashes in paths -/

/-- A byte that is not in a string is in none of its fields. -/
theorem splitSlash_not_mem (b : UInt8) : ∀ (s : GoString), b ∉ s →
    ∀ w ∈ splitSlash s, b ∉ w
  | [], _, w, hw => by
    simp only [splitSlash, List.mem_singleton] at hw
    subst hw
    simp
  | c :: s, hb, w, hw => by
    have hbc : b ≠ c := fun h => hb (by simp [h])
    have hbs : b ∉ s := fun h => hb (List.mem_cons_of_mem _ h)
    have ih := splitSlash_not_mem b s hbs
    simp only [splitSlash] at hw
    split at hw
    · rcases List.mem_cons.1 hw with rfl | h
      · simp
      · exact ih w h
    · split at hw
      · simp only [List.mem_singleton] at hw
        subst hw
        simpa using hbc
      · rename_i w0 ws hsplit
        rcases List.mem_cons.1 hw with rfl | h
        · have h0 := ih w0 (by rw [hsplit]; exact List.mem_cons_self _ _)
          simp only [List.mem_cons, not_or]
          exact ⟨hbc, h0⟩
        · exact ih w (by rw [hsplit]; exact List.mem_cons_of_mem _ h)

/-- A byte that is no separator and in none of the elements is not in their join. -/
theorem joinSlash_not_mem (b : UInt8) (hsep : b ≠ Separator) : ∀ (l : List GoString),
    (∀ w ∈ l, b ∉ w) → b ∉ joinSlash l
  | [], _ => by simp [joinSlash]
  | [e], h => by simpa [joinSlash] using h e (by simp)
  | e :: f :: rest, h => by
    have ih := joinSlash_not_mem b hsep (f :: rest) (fun w hw => h w (List.mem_cons_of_mem _ hw))
    simp only [joinSlash, List.mem_append, List.mem_cons, not_or]
    exact ⟨h e (by simp), hsep, ih⟩

/-- One step of `filepath.Clean` keeps elements it had or the one it reads. -/
theorem cleanStep_not_mem (b : UInt8) (rooted : Bool) (out : List GoString) (elem : GoString)
    (hout : ∀ e ∈ out, b ∉ e) (helem : b ∉ elem) :
    ∀ e ∈ cleanStep rooted out elem, b ∉ e := by
  intro e he
  simp only [cleanStep] at he
  split at he
  · exact hout e he
  · split at he
    · split at he
      · split at he
        · rcases List.mem_cons.1 he with rfl | h
          · exact helem
          · exact hout e h
        · exact hout e (List.mem_cons_of_mem _ he)
      · split at he
        · simp at he
        · simp only [List.mem_singleton] at he
          subst he
          exact helem
    · rcases List.mem_cons.1 he with rfl | h
      · exact helem
      · exact hout e h

theorem foldl_cleanStep_not_mem (b : UInt8) (rooted : Bool) :
    ∀ (fields out : List GoString), (∀ e ∈ out, b ∉ e) → (∀ w ∈ fields, b ∉ w) →
      ∀ e ∈ fields.foldl (cleanStep rooted) out, b ∉ e
  | [], out, hout, _ => by simpa using hout
  | w :: fields, out, hout, hf => by
    rw [List.foldl_cons]
    exact foldl_cleanStep_not_mem b rooted fields _
      (cleanStep_not_mem b rooted out w hout (hf w (List.mem_cons_self _ _)))
      (fun x hx => hf x (List.mem_cons_of_mem _ hx))

/-- `filepath.Clean` brings in no byte but the dot and the separator. -/
theorem Clean_not_mem (b : UInt8) (hdot : b ≠ 0x2E) (hsep : b ≠ Separator) (path : GoString)
    (hb : b ∉ path) : b ∉ Clean path := by
  have hd : b ∉ str "." := by
    have : str "." = [0x2E] := by decide
    rw [this]
    simpa using hdot
  have helems := foldl_cleanStep_not_mem b (decide (path.head? = some Separator))
    (splitSlash path) [] (by simp) (splitSlash_not_mem b path hb)
  have hbody := joinSlash_not_mem b hsep _ (fun e he => helems e (List.mem_reverse.1 he))
  simp only [Clean]
  split
  · exact hd
  · split
    · simp only [List.mem_cons, not_or]
      exact ⟨hsep, hbody⟩
    · split
      · exact hd
      · exact hbody

/-- `filepath.Join` brings in no byte but the dot and the separator. -/
theorem Join_not_mem (b : UInt8) (hdot : b ≠ 0x2E) (hsep : b ≠ Separator)
    (elem : List GoString) (h : ∀ e ∈ elem, b ∉ e) : b ∉ Join elem := by
  simp only [Join]
  split
  · simp
  · rename_i rest hrest
    apply Clean_not_mem b hdot hsep
    apply joinSlash_not_mem b hsep
    intro w hw
    exact h w ((List.dropWhile_sublist _).subset hw)

/-- The part of the target left by the loop of `filepath.Rel` is a part of the target. -/
theorem relLoop_not_mem (b : UInt8) : ∀ (fuel : Nat) (base targ : GoString), b ∉ targ →
    b ∉ (relLoop fuel base targ).2.2
  | 0, _, _, h => h
  | fuel + 1, base, targ, h => by
    simp only [relLoop]
    split
    · exact h
    · split
      · exact h
      · apply relLoop_not_mem b fuel
        intro hm
        exact h (List.mem_of_mem_drop (List.mem_of_mem_drop hm))

/-- `filepath.Rel` brings in no byte but the dot and the separator. -/
theorem Rel_not_mem (b : UInt8) (hdot : b ≠ 0x2E) (hsep : b ≠ Separator)
    (basepath targpath rel : GoString) (hb : b ∉ targpath)
    (hrel : Rel basepath targpath = .ok rel) : b ∉ rel := by
  have hd : b ∉ str "." := by
    have : str "." = [0x2E] := by decide
    rw [this]
    simpa using hdot
  have hdd : b ∉ str ".." := by
    have : str ".." = [0x2E, 0x2E] := by decide
    rw [this]
    simpa using hdot
  have hsd : b ∉ str "/.." := by
    have : str "/.." = [Separator, 0x2E, 0x2E] := by decide
    rw [this]
    simp only [List.mem_cons, List.mem_singleton, not_or, List.not_mem_nil, not_false_eq_true,
      and_true]
    exact ⟨hsep, hdot, hdot⟩
  have hups : ∀ n : Nat, b ∉ str ".." ++ (List.replicate n (str "/..")).flatten := by
    intro n
    simp only [List.mem_append, List.mem_flatten, not_or, not_exists, not_and]
    refine ⟨hdd, ?_⟩
    intro l hl
    rw [List.eq_of_mem_replicate hl]
    exact hsd
  have hclean := Clean_not_mem b hdot hsep targpath hb
  simp only [Rel] at hrel
  split at hrel
  · simp only [Except.ok.injEq] at hrel
    subst hrel
    exact hd
  · generalize (if Clean basepath = str "." then [] else Clean basepath) = base1 at hrel
    split at hrel
    · simp at hrel
    · have hrest := relLoop_not_mem b (base1.length + 1) base1 (Clean targpath) hclean
      rcases hl : relLoop (base1.length + 1) base1 (Clean targpath)
        with ⟨cur, baseRest, targRest⟩
      rw [hl] at hrel hrest
      simp only at hrel hrest
      split at hrel
      · simp at hrel
      · split at hrel
        · simp only [Except.ok.injEq] at hrel
          subst hrel
          split
          · simp only [List.mem_append, List.mem_cons, not_or]
            exact ⟨by simpa [List.mem_append] using hups _, hsep, hrest⟩
          · exact hups _
        · simp only [Except.ok.injEq] at hrel
          subst hrel
          exact hrest

/-- The root-relative path of a path holds no byte the path does not hold, but the dot and
the separator. -/
theorem relPathOf_not_mem (b : UInt8) (hdot : b ≠ 0x2E) (hsep : b ≠ Separator)
    (rootDir path : GoString) (hb : b ∉ path) : b ∉ relPathOf rootDir path := by
  simp only [relPathOf, ToSlash]
  rcases hrel : Rel rootDir path with err | rel
  · exact hb
  · exact Rel_not_mem b hdot hsep rootDir path rel hb hrel

/-- The function of the first pass collects no path with the byte `b` when the path it is
called with and the working directory do not hold it. -/
theorem walkFn_pathsWithout (b : UInt8) (hdot : b ≠ 0x2E) (hsep : b ≠ Separator)
    (env : Env) (rootDir : GoString) (inc exc : List GoString)
    (path : GoString) (isDir : Bool) (err : Option GoError) (st : WalkState)
    (hcwd : b ∉ env.cwd) (hpath : b ∉ path) (hst : pathsWithout b st) :
    pathsWithout b (walkFn env rootDir inc exc path isDir err st).1 := by
  have hrel := relPathOf_not_mem b hdot hsep rootDir path hpath
  have habs : ∀ a, Abs env path = .ok a → b ∉ a := by
    intro a ha
    simp only [Abs] at ha
    split at ha
    · simp only [Except.ok.injEq] at ha
      subst ha
      exact Clean_not_mem b hdot hsep path hpath
    · simp only [Except.ok.injEq] at ha
      subst ha
      apply Join_not_mem b hdot hsep
      intro e he
      simp only [List.mem_cons, List.mem_singleton, List.not_mem_nil, or_false] at he
      rcases he with rfl | rfl
      · exact hcwd
      · exact hpath
  obtain ⟨h1, h2⟩ := hst
  have hall : ∀ p ∈ st.allPaths ++ [relPathOf rootDir path], b ∉ p := by
    intro p hp
    rcases List.mem_append.1 hp with h | h
    · exact h1 p h
    · simp only [List.mem_singleton] at h
      subst h
      exact hrel
  simp only [walkFn]
  split
  · exact ⟨h1, h2⟩
  · split
    · exact ⟨h1, h2⟩
    · split
      · split
        · exact ⟨h1, h2⟩
        · exact ⟨h1, h2⟩
      · split
        · exact ⟨h1, h2⟩
        · rcases ha : Abs env path with e | a
          · exact ⟨hall, h2⟩
          · refine ⟨hall, ?_⟩
            intro p hp
            rcases List.mem_append.1 hp with h | h
            · exact h2 p h
            · simp only [List.mem_singleton] at h
              subst h
              exact habs _ ha

mutual
/-- A visit collects no path with the byte `b` when the path of the entry, the working
directory and the names below the entry do not hold it. -/
theorem walkDir_pathsWithout (b : UInt8) (hdot : b ≠ 0x2E) (hsep : b ≠ Separator)
    (env : Env) (rootDir : GoString) (inc exc : List GoString) (hcwd : b ∉ env.cwd) :
    ∀ (e : Entry) (path : GoString) (st : WalkState), b ∉ path →
      (∀ n ∈ namesBelow e, b ∉ n) → pathsWithout b st →
      pathsWithout b (walkDir (walkFn env rootDir inc exc) path e st).1
  | .file _, path, st, hpath, _, hst => by
    simp only [walkDir]
    exact walkFn_pathsWithout b hdot hsep env rootDir inc exc path false none st hcwd hpath hst
  | .dir _ readErr children, path, st, hpath, hnames, hst => by
    have h1 := walkFn_pathsWithout b hdot hsep env rootDir inc exc path true none st
      hcwd hpath hst
    simp only [walkDir]
    rcases hfn : walkFn env rootDir inc exc path true none st with ⟨st1, r1⟩
    rw [hfn] at h1
    simp only at h1
    rcases r1 with _ | r1
    · simp only
      cases readErr with
      | none =>
        simp only
        exact walkEntries_pathsWithout b hdot hsep env rootDir inc exc hcwd children path st1
          hpath hnames h1
      | some e =>
        have h2 := walkFn_pathsWithout b hdot hsep env rootDir inc exc path true (some e) st1
          hcwd hpath h1
        simp only
        rcases hfn2 : walkFn env rootDir inc exc path true (some e) st1 with ⟨st2, r2⟩
        rw [hfn2] at h2
        simp only at h2
        rcases r2 with _ | r2
        · simp only
          exact walkEntries_pathsWithout b hdot hsep env rootDir inc exc hcwd children path st2
            hpath hnames h2
        · cases r2
          · simp only; exact h2
          · simp only; exact h2
    · cases r1
      · simp only; exact h1
      · simp only; exact h1
/-- The loop over the entries of a directory collects no path with the byte `b`. -/
theorem walkEntries_pathsWithout (b : UInt8) (hdot : b ≠ 0x2E) (hsep : b ≠ Separator)
    (env : Env) (rootDir : GoString) (inc exc : List GoString) (hcwd : b ∉ env.cwd) :
    ∀ (es : Entries) (path : GoString) (st : WalkState), b ∉ path →
      (∀ n ∈ entriesNames es, b ∉ n) → pathsWithout b st →
      pathsWithout b (walkEntries (walkFn env rootDir inc exc) path es st).1
  | .nil, _, _, _, _, hst => hst
  | .cons d1 rest, path, st, hpath, hnames, hst => by
    have hname : b ∉ d1.name := by
      apply hnames
      simp only [entriesNames, List.mem_append]
      left
      cases d1 <;> simp [entryNames, Entry.name]
    have hbelow : ∀ n ∈ namesBelow d1, b ∉ n := by
      intro n hn
      apply hnames
      simp only [entriesNames, List.mem_append]
      left
      cases d1 with
      | file name => simp [namesBelow] at hn
      | dir name readErr children =>
        simp only [namesBelow] at hn
        simp [entryNames, hn]
    have hrest : ∀ n ∈ entriesNames rest, b ∉ n := by
      intro n hn
      apply hnames
      simp only [entriesNames, List.mem_append]
      exact Or.inr hn
    have hchild : b ∉ Join [path, d1.name] := by
      apply Join_not_mem b hdot hsep
      intro e he
      simp only [List.mem_cons, List.mem_singleton, List.not_mem_nil, or_false] at he
      rcases he with rfl | rfl
      · exact hpath
      · exact hname
    have h1 := walkDir_pathsWithout b hdot hsep env rootDir inc exc hcwd d1
      (Join [path, d1.name]) st hchild hbelow hst
    simp only [walkEntries]
    rcases hw : walkDir (walkFn env rootDir inc exc) (Join [path, d1.name]) d1 st with ⟨st1, r1⟩
    rw [hw] at h1
    simp only at h1
    rcases r1 with _ | r1
    · simp only
      exact walkEntries_pathsWithout b hdot hsep env rootDir inc exc hcwd rest path st1
        hpath hrest h1
    · cases r1
      · simp only; exact h1
      · simp only; exact h1
end

/-- The record of a file has the root-relative path of the file as `RelativePath`. -/
theorem processFile_RelativePath (env : Env) (rootDir : GoString) (maxFileSize : Int)
    (filePath : GoString) (stats : Stats) :
    (processFile env rootDir maxFileSize filePath stats).1.RelativePath =
      relPathOf rootDir filePath := by
  simp only [processFile]
  split <;> rfl

set_option maxRecDepth 100000 in
/-- C32 (counterexample). On a host whose separator is `/` the file name `a\b.txt` is one
path element: the run on the tree with that file returns `a\b.txt`, with its backslash, in
`stats.AllPaths` and as the `RelativePath` of the record. -/
theorem C32_backslash_in_file_name_is_kept :
    Backslash ∈ str "a\\b.txt" ∧
    (ProcessLocalDirectoryWithPatterns demoEnv (.ok backslashTree) [0] (str "/repo") 0
        [] []).toOption.map (fun r => (r.2.AllPaths, r.1.map (fun f => f.RelativePath))) =
      some ([str "a\\b.txt"], [str "a\\b.txt"]) := by
  decide

/-- C32 (amended). On a host whose separator is `/`, where `filepath.ToSlash` changes
nothing: when neither the root directory argument, nor the working directory, nor the
name of any entry below the root holds a backslash, then after a run whose first pass ends
without error no entry of `stats.AllPaths` and no `RelativePath` of a record holds a
backslash. -/
theorem C32_no_backslash_without_backslash_in_names (env : Env) (root : Entry)
    (order : List Nat) (rootDir : GoString) (maxFileSize : Int)
    (includePatterns excludePatterns : List GoString) (st : WalkState)
    (hroot : Backslash ∉ rootDir) (hcwd : Backslash ∉ env.cwd)
    (hnames : ∀ n ∈ namesBelow root, Backslash ∉ n)
    (hwalk : firstPass env (.ok root) rootDir includePatterns excludePatterns = (st, none))
    (hperm : order.Perm (List.range st.filePaths.length)) :
    ∃ (filesData : List FileInfo) (stats : Stats),
      ProcessLocalDirectoryWithPatterns env (.ok root) order rootDir maxFileSize
          includePatterns excludePatterns = .ok (filesData, stats) ∧
      (∀ p ∈ stats.AllPaths, Backslash ∉ p) ∧
      (∀ r ∈ filesData, Backslash ∉ r.RelativePath) := by
  have hdot : Backslash ≠ 0x2E := by decide
  have hsep : Backslash ≠ Separator := by decide
  have hinv : pathsWithout Backslash st := by
    have h := walkDir_pathsWithout Backslash hdot hsep env rootDir includePatterns
      excludePatterns hcwd root rootDir
      { allPaths := [], filePaths := [],
        stats := { NumFilesProcessed := 0, NumDirsProcessed := 0, NumBinaryFiles := 0,
                   NumSkippedFiles := 0, TotalContentBytes := 0, Source := rootDir,
                   Branch := [], AllPaths := [] } }
      hroot hnames ⟨by simp, by simp⟩
    simp only [firstPass, WalkDir] at hwalk
    rcases hwd : walkDir (walkFn env rootDir includePatterns excludePatterns) rootDir root
      { allPaths := [], filePaths := [],
        stats := { NumFilesProcessed := 0, NumDirsProcessed := 0, NumBinaryFiles := 0,
                   NumSkippedFiles := 0, TotalContentBytes := 0, Source := rootDir,
                   Branch := [], AllPaths := [] } } with ⟨st1, r1⟩
    rw [hwd] at hwalk h
    simp only at h
    rcases r1 with _ | r1
    · simp only [Prod.mk.injEq, and_true] at hwalk
      rw [← hwalk]; exact h
    · cases r1
      · simp only [Prod.mk.injEq, and_true] at hwalk
        rw [← hwalk]; exact h
      · simp at hwalk
  refine ⟨_, _, ProcessLocal_of_firstPass env (.ok root) order rootDir maxFileSize
    includePatterns excludePatterns st hwalk hperm, hinv.1, ?_⟩
  intro r hr
  obtain ⟨p, hp, rfl⟩ := List.mem_map.1 hr
  rw [processFile_RelativePath]
  exact relPathOf_not_mem Backslash hdot hsep rootDir p (hinv.2 p hp)

set_option maxRecDepth 100000 in
/-- C32 (witness). The sample tree with `build/x.go` and `main.go`. -/
theorem C32_witness_demo_tree :
    (∀ n ∈ namesBelow demoTree, Backslash ∉ n) ∧
    ∃ (filesData : List FileInfo) (stats : Stats),
      ProcessLocalDirectoryWithPatterns demoEnv (.ok demoTree) [0, 1] (str "/repo") 0
          [] [] = .ok (filesData, stats) ∧
      (∀ p ∈ stats.AllPaths, Backslash ∉ p) ∧
      (∀ r ∈ filesData, Backslash ∉ r.RelativePath) :=
  ⟨by decide,
   C32_no_backslash_without_backslash_in_names demoEnv demoTree [0, 1] (str "/repo") 0 [] []
     { allPaths := [str "build/x.go", str "main.go"],
       filePaths := [str "/repo/build/x.go", str "/repo/main.go"],
       stats := { demoStats with NumDirsProcessed := 1 } }
     (by decide) (by decide) (by decide) (by decide) (by decide)⟩

/-! ## C38: `strings.TrimSpace` and `ParsePatterns` -/

/-- The width `utf8.DecodeRuneInString` reports for a string that is not empty is between
one and four and not more than the length of the string. -/
theorem decodeRune_width (s : GoString) (hne : s ≠ []) :
    1 ≤ (decodeRune s).2 ∧ (decodeRune s).2 ≤ s.length ∧ (decodeRune s).2 ≤ 4 := by
  unfold decodeRune
  split
  · exact absurd rfl hne
  · simp only
    repeat' split
    all_goals simp only [List.length_cons]
    all_goals omega

/-- An ASCII byte is a rune of width one. -/
theorem decodeRune_ascii (c : UInt8) (t : GoString) (hc : c.toNat < 0x80) :
    decodeRune (c :: t) = (c.toNat, 1) := by
  simp [decodeRune, hc]

/-- A byte outside ASCII that is followed by nothing or by the start of a rune is no valid
encoding. -/
theorem decodeRune_lone (c : UInt8) (t : GoString) (hc : 0x80 ≤ c.toNat)
    (ht : ∀ d ∈ t.head?, RuneStart d = true) : decodeRune (c :: t) = (RuneError, 1) := by
  have hnot : ¬ c.toNat < 0x80 := by omega
  cases t with
  | nil =>
    simp only [decodeRune, hnot, if_false]
    repeat' split
    all_goals rfl
  | cons d t1 =>
    have hd := ht d (by simp)
    simp only [RuneStart, Bool.not_eq_true', Bool.and_eq_false_imp, decide_eq_true_eq,
      decide_eq_false_iff_not] at hd
    have hin : ∀ lo hi : Nat, 0x80 ≤ lo → hi ≤ 0xBF → inRange lo hi d = false := by
      intro lo hi hlo hhi
      simp only [inRange, Bool.and_eq_false_imp, decide_eq_true_eq, decide_eq_false_iff_not]
      intro h1 h2
      exact hd (by omega) (by omega)
    simp only [decodeRune, hnot, if_false]
    split
    · rfl
    · split
      · simp [hin 0x80 0xBF (by omega) (by omega)]
      · split
        · cases t1 with
          | nil => rfl
          | cons d2 t2 =>
            have : inRange (if c.toNat = 0xE0 then 0xA0 else 0x80)
                (if c.toNat = 0xED then 0x9F else 0xBF) d = false :=
              hin _ _ (by split <;> omega) (by split <;> omega)
            simp [this]
        · split
          · cases t1 with
            | nil => rfl
            | cons d2 t2 =>
              cases t2 with
              | nil => rfl
              | cons d3 t3 =>
                have : inRange (if c.toNat = 0xF0 then 0x90 else 0x80)
                    (if c.toNat = 0xF4 then 0x8F else 0xBF) d = false :=
                  hin _ _ (by split <;> omega) (by split <;> omega)
                simp [this]
          · rfl

/-- A rune that is a space is not the error rune. -/
theorem IsSpace_RuneError : IsSpace RuneError = false := by decide

/-- On ASCII `unicode.IsSpace` is the table `asciiSpace`. -/
theorem IsSpace_ascii (c : UInt8) (hc : c.toNat < 0x80) : IsSpace c.toNat = asciiSpace c := by
  have h9 : (c = 0x09) ↔ c.toNat = 0x09 := ⟨fun h => by rw [h]; rfl, fun h => UInt8.ext h⟩
  have hA : (c = 0x0A) ↔ c.toNat = 0x0A := ⟨fun h => by rw [h]; rfl, fun h => UInt8.ext h⟩
  have hB : (c = 0x0B) ↔ c.toNat = 0x0B := ⟨fun h => by rw [h]; rfl, fun h => UInt8.ext h⟩
  have hC : (c = 0x0C) ↔ c.toNat = 0x0C := ⟨fun h => by rw [h]; rfl, fun h => UInt8.ext h⟩
  have hD : (c = 0x0D) ↔ c.toNat = 0x0D := ⟨fun h => by rw [h]; rfl, fun h => UInt8.ext h⟩
  have h20 : (c = 0x20) ↔ c.toNat = 0x20 := ⟨fun h => by rw [h]; rfl, fun h => UInt8.ext h⟩
  have hle : c.toNat ≤ 0xFF := by omega
  rw [Bool.eq_iff_iff]
  simp only [IsSpace, hle, if_true, asciiSpace, Bool.or_eq_true, decide_eq_true_eq, h9, hA, hB,
    hC, hD, h20]
  omega

/-- The first byte of a string that starts with a space rune is the start of a rune. -/
theorem decodeRune_space_start (s : GoString) (h : IsSpace (decodeRune s).1 = true) :
    ∃ c t, s = c :: t ∧ RuneStart c = true := by
  cases s with
  | nil => simp [decodeRune, IsSpace_RuneError] at h
  | cons c t =>
    refine ⟨c, t, rfl, ?_⟩
    simp only [RuneStart, Bool.not_eq_true', Bool.and_eq_false_imp, decide_eq_true_eq,
      decide_eq_false_iff_not]
    intro h1 h2
    have hnot : ¬ c.toNat < 0x80 := by omega
    have hlt : c.toNat < 0xC2 := by omega
    simp [decodeRune, hnot, hlt, IsSpace_RuneError] at h

/-- The first rune of a prefix of a string is the first rune of the string, or the prefix
is cut inside that rune (or is empty) and gives the error rune with a width of at most
one. -/
theorem decodeRune_take (X : GoString) (k : Nat) :
    decodeRune (X.take k) = decodeRune X ∨
      ((decodeRune (X.take k)).1 = RuneError ∧ (decodeRune (X.take k)).2 ≤ 1) := by
  cases X with
  | nil => left; simp
  | cons a t =>
    cases k with
    | zero => right; simp [decodeRune]
    | succ k =>
      rw [List.take_succ_cons]
      by_cases h1 : a.toNat < 0x80
      · left; simp [decodeRune, h1]
      by_cases h2 : a.toNat < 0xC2
      · left; simp [decodeRune, h1, h2]
      by_cases h3 : a.toNat < 0xE0
      · rcases t with _ | ⟨b, t⟩
        · left; simp
        · rcases k with _ | k
          · right; simp [decodeRune, h1, h2, h3]
          · left; simp [decodeRune, h1, h2, h3]
      by_cases h4 : a.toNat < 0xF0
      · rcases t with _ | ⟨b, _ | ⟨c, t⟩⟩
        · left; simp
        · left; rcases k with _ | k <;> simp [decodeRune, h1, h2, h3, h4]
        · rcases k with _ | _ | k
          · right; simp [decodeRune, h1, h2, h3, h4]
          · right; simp [decodeRune, h1, h2, h3, h4]
          · left; simp [decodeRune, h1, h2, h3, h4]
      by_cases h5 : a.toNat < 0xF5
      · rcases t with _ | ⟨b, _ | ⟨c, _ | ⟨d, t⟩⟩⟩
        · left; simp
        · left; rcases k with _ | k <;> simp [decodeRune, h1, h2, h3, h4, h5]
        · left; rcases k with _ | _ | k <;> simp [decodeRune, h1, h2, h3, h4, h5]
        · rcases k with _ | _ | _ | k
          · right; simp [decodeRune, h1, h2, h3, h4, h5]
          · right; simp [decodeRune, h1, h2, h3, h4, h5]
          · right; simp [decodeRune, h1, h2, h3, h4, h5]
          · left; simp [decodeRune, h1, h2, h3, h4, h5]
      · left; simp [decodeRune, h1, h2, h3, h4, h5]

/-- A prefix that holds a whole rune of two or more bytes holds the first rune of the
string. -/
theorem decodeRune_of_take (Z : GoString) (n : Nat) (hn : 2 ≤ (decodeRune (Z.take n)).2) :
    decodeRune Z = decodeRune (Z.take n) := by
  rcases decodeRune_take Z n with h | h
  · exact h.symm
  · omega

/-- The first rune of a prefix is the first rune of the string or the error rune. -/
theorem decodeRune_take_rune (X : GoString) (k : Nat) :
    (decodeRune (X.take k)).1 = (decodeRune X).1 ∨ (decodeRune (X.take k)).1 = RuneError := by
  rcases decodeRune_take X k with h | h
  · left; rw [h]
  · right; exact h.1

/-- Scanning back for the start of a rune does not move forward. -/
theorem lastRuneStart_le (s : GoString) (lim : Int) (fuel : Nat) (start : Int) :
    lastRuneStart s lim fuel start ≤ start := by
  induction fuel generalizing start with
  | zero => simp [lastRuneStart]
  | succ fuel ih =>
    simp only [lastRuneStart]
    split
    · split
      · exact le_refl _
      · exact le_trans (ih (start - 1)) (by omega)
    · exact le_refl _

/-- The last byte of a string that is not empty, as a suffix. -/
theorem drop_length_pred (Y : GoString) (hne : Y ≠ []) :
    Y.drop (Y.length - 1) = [Y.getD (Y.length - 1) 0] := by
  induction Y with
  | nil => exact absurd rfl hne
  | cons a t ih =>
    cases t with
    | nil => rfl
    | cons b t1 =>
      have := ih (by simp)
      simp only [List.length_cons, Nat.add_sub_cancel] at this ⊢
      rw [List.drop_succ_cons, List.getD_cons_succ]
      exact this

/-- The result of `utf8.DecodeLastRuneInString` on a string that is not empty: the error
rune with width one, or the first rune of the suffix of the reported width, which is the
whole suffix. -/
theorem decodeLastRune_spec (Y : GoString) (hne : Y ≠ []) :
    decodeLastRune Y = (RuneError, 1) ∨
      (1 ≤ (decodeLastRune Y).2 ∧ (decodeLastRune Y).2 ≤ Y.length ∧
        decodeRune (Y.drop (Y.length - (decodeLastRune Y).2)) = decodeLastRune Y) := by
  have hlen : Y.length ≠ 0 := fun h => hne (List.length_eq_zero.1 h)
  simp only [decodeLastRune, hlen, if_false]
  split
  · rename_i hr
    right
    refine ⟨le_refl _, by omega, ?_⟩
    simp only
    rw [drop_length_pred Y hne, decodeRune_ascii _ _ hr]
  · generalize (if (Y.length : Int) - 4 < 0 then (0 : Int) else (Y.length : Int) - 4) = lim
    have hle := lastRuneStart_le Y lim 4 ((Y.length : Int) - 2)
    generalize lastRuneStart Y lim 4 ((Y.length : Int) - 2) = st at hle ⊢
    generalize hst : (if st < 0 then 0 else st.toNat) = start
    have hlt : start < Y.length := by
      rw [← hst]
      split <;> omega
    by_cases hsum : start + (decodeRune (List.drop start Y)).2 = Y.length
    · right
      simp only [hsum, ne_eq, not_true_eq_false, if_false]
      refine ⟨by omega, by omega, ?_⟩
      have : Y.length - (decodeRune (List.drop start Y)).2 = start := by omega
      rw [this]
    · left
      simp only [ne_eq, hsum, not_false_eq_true, if_true]

/-- The width `utf8.DecodeLastRuneInString` reports for a string that is not empty is at
least one and not more than the length. -/
theorem decodeLastRune_width (Y : GoString) (hne : Y ≠ []) :
    1 ≤ (decodeLastRune Y).2 ∧ (decodeLastRune Y).2 ≤ Y.length := by
  have hlen : 1 ≤ Y.length := List.length_pos.2 hne
  rcases decodeLastRune_spec Y hne with h | h
  · rw [h]; exact ⟨le_refl _, hlen⟩
  · exact ⟨h.1, h.2.1⟩

/-- When the last rune of a string is a space, the byte at which it starts is the start of
a rune. -/
theorem decodeLastRune_space_start (Y : GoString) (hne : Y ≠ [])
    (h : IsSpace (decodeLastRune Y).1 = true) :
    RuneStart (Y.getD (Y.length - (decodeLastRune Y).2) 0) = true := by
  rcases decodeLastRune_spec Y hne with h1 | ⟨h1, h2, h3⟩
  · rw [h1, IsSpace_RuneError] at h
    exact absurd h (by simp)
  · rw [← h3] at h
    obtain ⟨c, t, hct, hc⟩ := decodeRune_space_start _ h
    have : Y.getD (Y.length - (decodeLastRune Y).2) 0 = c := by
      have h0 : (Y.drop (Y.length - (decodeLastRune Y).2)).getD 0 0 = c := by rw [hct]; rfl
      rw [← h0, List.getD_eq_getElem?_getD, List.getD_eq_getElem?_getD, List.getElem?_drop]
      simp
    rw [this]
    exact hc

/-- One step of the search from the end, written out. -/
theorem lastIndexNotSpace_succ (s : GoString) (fuel i : Nat) :
    lastIndexNotSpace s (fuel + 1) i =
      if i > 0 then
        if IsSpace (decodeLastRune (s.take i)).1 = false then
          some (i - (decodeLastRune (s.take i)).2)
        else lastIndexNotSpace s fuel (i - (decodeLastRune (s.take i)).2)
      else none := by
  simp only [lastIndexNotSpace]
  split
  · cases IsSpace (decodeLastRune (s.take i)).1 <;> simp
  · rfl

/-- A prefix of positive length of a string is not empty. -/
theorem take_ne_nil (X : GoString) (j : Nat) (hj : 0 < j) (hle : j ≤ X.length) :
    X.take j ≠ [] := by
  intro h
  have := congrArg List.length h
  simp only [List.length_take, List.length_nil] at this
  omega

/-- The search from the end does not run out of steps: the bound written in the
definition, one more than the index, gives the same result as every larger bound. -/
theorem lastIndexNotSpace_fuel (X : GoString) (n : Nat) :
    ∀ (j m : Nat), j ≤ X.length → j < n → j < m →
      lastIndexNotSpace X n j = lastIndexNotSpace X m j := by
  induction n with
  | zero => intro j m _ h; omega
  | succ n ih =>
    intro j m hle hn hm
    obtain ⟨m, rfl⟩ : ∃ m1, m = m1 + 1 := ⟨m - 1, by omega⟩
    rw [lastIndexNotSpace_succ, lastIndexNotSpace_succ]
    by_cases hj : j > 0
    · simp only [hj, if_true]
      have hw := decodeLastRune_width (X.take j) (take_ne_nil X j hj hle)
      split
      · rfl
      · exact ih _ m (by omega) (by omega) (by omega)
    · simp only [hj, if_false]

/-- Where the search from the end stops: at the start of a last rune that is not a space,
of a prefix that ends where the string ends or where a rune starts. -/
theorem lastIndexNotSpace_some (X : GoString) (fuel : Nat) :
    ∀ (j i : Nat), j ≤ X.length → (j = X.length ∨ RuneStart (X.getD j 0) = true) →
      lastIndexNotSpace X fuel j = some i →
      ∃ j2, 0 < j2 ∧ j2 ≤ j ∧ (j2 = X.length ∨ RuneStart (X.getD j2 0) = true) ∧
        IsSpace (decodeLastRune (X.take j2)).1 = false ∧
        i = j2 - (decodeLastRune (X.take j2)).2 := by
  induction fuel with
  | zero => intro j i _ _ h; simp [lastIndexNotSpace] at h
  | succ fuel ih =>
    intro j i hle hb h
    rw [lastIndexNotSpace_succ] at h
    by_cases hj : j > 0
    · simp only [hj, if_true] at h
      have hne := take_ne_nil X j hj hle
      have hw := decodeLastRune_width (X.take j) hne
      simp only [List.length_take, Nat.min_eq_left hle] at hw
      by_cases hsp : IsSpace (decodeLastRune (X.take j)).1 = false
      · simp only [hsp, if_true, Option.some.injEq] at h
        exact ⟨j, hj, le_refl _, hb, hsp, h.symm⟩
      · simp only [hsp, if_false] at h
        have hsp1 : IsSpace (decodeLastRune (X.take j)).1 = true := by
          simpa using hsp
        have hstart := decodeLastRune_space_start (X.take j) hne hsp1
        simp only [List.length_take, Nat.min_eq_left hle] at hstart
        have hget : (X.take j).getD (j - (decodeLastRune (X.take j)).2) 0 =
            X.getD (j - (decodeLastRune (X.take j)).2) 0 := by
          rw [List.getD_eq_getElem?_getD, List.getD_eq_getElem?_getD,
            List.getElem?_take_of_lt (by omega)]
        rw [hget] at hstart
        obtain ⟨j2, h1, h2, h3, h4, h5⟩ := ih _ i (by omega) (Or.inr hstart) h
        exact ⟨j2, h1, by omega, h3, h4, h5⟩
    · simp only [hj, if_false] at h
      exact absurd h (by simp)

/-- The suffix of a string from an index inside it starts with the byte at the index. -/
theorem drop_eq_getD_cons (X : GoString) (i : Nat) (hi : i < X.length) :
    X.drop i = X.getD i 0 :: X.drop (i + 1) := by
  rw [List.drop_eq_getElem_cons hi, List.getD_eq_getElem?_getD, List.getElem?_eq_getElem hi]
  rfl

/-- The first byte of a suffix is the byte at the index. -/
theorem head_drop_eq (X : GoString) (j : Nat) (d : UInt8) (h : d ∈ (X.drop j).head?) :
    j < X.length ∧ X.getD j 0 = d := by
  have hj : j < X.length := by
    by_contra hc
    rw [List.drop_eq_nil_of_le (by omega)] at h
    simp at h
  rw [drop_eq_getD_cons X j hj] at h
  simp only [List.head?_cons, Option.mem_def, Option.some.injEq] at h
  exact ⟨hj, h⟩

/-- The end that `TrimRightFunc` computes from the index the search returns is the end of
the prefix whose last rune the search looked at. -/
theorem trimRight_end (X : GoString) (j2 : Nat) (hpos : 0 < j2) (hle : j2 ≤ X.length)
    (hb : j2 = X.length ∨ RuneStart (X.getD j2 0) = true) :
    (if (X.getD (j2 - (decodeLastRune (X.take j2)).2) 0).toNat ≥ 0x80 then
        X.take (j2 - (decodeLastRune (X.take j2)).2 +
          (decodeRune (X.drop (j2 - (decodeLastRune (X.take j2)).2))).2)
      else X.take (j2 - (decodeLastRune (X.take j2)).2 + 1)) = X.take j2 := by
  have hne := take_ne_nil X j2 hpos hle
  have hw := decodeLastRune_width (X.take j2) hne
  have hspec := decodeLastRune_spec (X.take j2) hne
  simp only [List.length_take, Nat.min_eq_left hle] at hw hspec
  generalize hsz : (decodeLastRune (X.take j2)).2 = size at hw hspec ⊢
  have hi : j2 - size < X.length := by omega
  have hdrop := drop_eq_getD_cons X (j2 - size) hi
  have hYdrop : (X.take j2).drop (j2 - size) = (X.drop (j2 - size)).take size := by
    rw [List.drop_take]
    congr 1
    omega
  by_cases h1 : size = 1
  · subst h1
    split
    · rename_i hge
      have hlone : decodeRune (X.drop (j2 - 1)) = (RuneError, 1) := by
        rw [hdrop]
        apply decodeRune_lone _ _ hge
        intro d hd
        have hj : j2 - 1 + 1 = j2 := by omega
        rw [hj] at hd
        obtain ⟨hlt, hd2⟩ := head_drop_eq X j2 d hd
        rcases hb with hb | hb
        · omega
        · rw [← hd2]; exact hb
      rw [hlone]
      congr 1
      omega
    · congr 1
      omega
  · have hvalid : decodeRune ((X.drop (j2 - size)).take size) = decodeLastRune (X.take j2) := by
      rcases hspec with hs | hs
      · rw [hs] at hsz
        simp only at hsz
        omega
      · rw [← hYdrop]; exact hs.2.2
    have hwid : (decodeRune ((X.drop (j2 - size)).take size)).2 = size := by
      rw [hvalid, hsz]
    have hfull := decodeRune_of_take (X.drop (j2 - size)) size (by omega)
    split
    · rw [hfull, hwid]
      congr 1
      omega
    · rename_i hlt
      have hasc : decodeRune (X.drop (j2 - size)) = ((X.getD (j2 - size) 0).toNat, 1) := by
        rw [hdrop]
        exact decodeRune_ascii _ _ (by omega)
      rw [hfull] at hasc
      have := congrArg Prod.snd hasc
      rw [hwid] at this
      simp only at this
      omega

/-- What `strings.TrimRightFunc` with `unicode.IsSpace` returns: a prefix of the string whose
last rune is not a space. -/
theorem trimRightSpace_spec (X : GoString) :
    (∃ j, trimRightSpace X = X.take j) ∧
      IsSpace (decodeLastRune (trimRightSpace X)).1 = false := by
  simp only [trimRightSpace]
  cases h : lastIndexNotSpace X (X.length + 1) X.length with
  | none =>
    simp only
    exact ⟨⟨0, rfl⟩, by decide⟩
  | some i =>
    obtain ⟨j2, hpos, hle, hb, hsp, hi⟩ :=
      lastIndexNotSpace_some X _ _ i (le_refl _) (Or.inl rfl) h
    simp only
    rw [hi, trimRight_end X j2 hpos hle hb]
    exact ⟨⟨j2, rfl⟩, hsp⟩

/-- A string whose last rune is not a space is returned as it is by
`strings.TrimRightFunc`. -/
theorem trimRightSpace_id (X : GoString) (hne : X ≠ [])
    (h : IsSpace (decodeLastRune X).1 = false) : trimRightSpace X = X := by
  have hpos : 0 < X.length := List.length_pos.2 hne
  have hfound : lastIndexNotSpace X (X.length + 1) X.length =
      some (X.length - (decodeLastRune (X.take X.length)).2) := by
    rw [lastIndexNotSpace_succ]
    simp only [gt_iff_lt, hpos, if_true, List.take_length, h]
  simp only [trimRightSpace, hfound]
  rw [trimRight_end X X.length hpos (le_refl _) (Or.inl rfl), List.take_length]

/-- One step of the search from the start, written out. -/
theorem trimLeftSpace_succ (fuel : Nat) (s : GoString) :
    trimLeftSpace (fuel + 1) s =
      if s = [] then []
      else if IsSpace (decodeRune s).1 = false then s
      else trimLeftSpace fuel (s.drop (decodeRune s).2) := by
  simp only [trimLeftSpace]
  split
  · rfl
  · cases IsSpace (decodeRune s).1 <;> simp

/-- What `strings.TrimLeftFunc` with `unicode.IsSpace` returns is a suffix of the string. -/
theorem trimLeftSpace_suffix (fuel : Nat) :
    ∀ s : GoString, ∃ k, trimLeftSpace fuel s = s.drop k := by
  induction fuel with
  | zero => intro s; exact ⟨s.length, by simp [trimLeftSpace]⟩
  | succ fuel ih =>
    intro s
    rw [trimLeftSpace_succ]
    split
    · exact ⟨s.length, by simp⟩
    · split
      · exact ⟨0, rfl⟩
      · obtain ⟨k, hk⟩ := ih (s.drop (decodeRune s).2)
        exact ⟨(decodeRune s).2 + k, by rw [hk, List.drop_drop]⟩

/-- What `strings.TrimLeftFunc` with `unicode.IsSpace` returns does not start with a
space. -/
theorem trimLeftSpace_first (fuel : Nat) :
    ∀ s : GoString, IsSpace (decodeRune (trimLeftSpace fuel s)).1 = false := by
  induction fuel with
  | zero => intro s; simp only [trimLeftSpace]; decide
  | succ fuel ih =>
    intro s
    rw [trimLeftSpace_succ]
    split
    · decide
    · split
      · assumption
      · exact ih _

/-- A string that does not start with a space is returned as it is by
`strings.TrimLeftFunc`. -/
theorem trimLeftSpace_id (fuel : Nat) (s : GoString) (h : IsSpace (decodeRune s).1 = false) :
    trimLeftSpace (fuel + 1) s = s := by
  rw [trimLeftSpace_succ]
  split
  · rename_i h0; exact h0.symm
  · simp only [h, if_true]

/-- The search from the start does not run out of steps: the bound written in the
definition, one more than the length, gives the same result as every larger bound. -/
theorem trimLeftSpace_fuel (n : Nat) :
    ∀ (m : Nat) (s : GoString), s.length < n → s.length < m →
      trimLeftSpace n s = trimLeftSpace m s := by
  induction n with
  | zero => intro m s h; omega
  | succ n ih =>
    intro m s hn hm
    obtain ⟨m, rfl⟩ : ∃ m1, m = m1 + 1 := ⟨m - 1, by omega⟩
    rw [trimLeftSpace_succ, trimLeftSpace_succ]
    split
    · rfl
    · rename_i hne
      split
      · rfl
      · have hw := decodeRune_width s hne
        have hpos : 0 < s.length := List.length_pos.2 hne
        exact ih m _ (by rw [List.length_drop]; omega) (by rw [List.length_drop]; omega)

/-- The last rune of a string that ends with an ASCII byte is that byte. -/
theorem decodeLastRune_ascii (Y : GoString) (c : UInt8) (hc : c.toNat < 0x80) :
    decodeLastRune (Y ++ [c]) = (c.toNat, 1) := by
  have hget : (Y ++ [c]).getD (Y.length + 1 - 1) 0 = c := by
    rw [List.getD_eq_getElem?_getD]
    simp
  simp only [decodeLastRune, List.length_append, List.length_singleton, Nat.add_one_ne_zero,
    if_false, hget, hc, if_true]

/-- What the loop of `strings.TrimSpace` over the end of the string returns: a prefix of the
string whose last rune is not a space. The argument is the string read from its end. -/
theorem trimSpaceStop_spec :
    ∀ r : GoString, (∃ t, trimSpaceStop r ++ t = r.reverse) ∧
      IsSpace (decodeLastRune (trimSpaceStop r)).1 = false
  | [] => ⟨⟨[], rfl⟩, by decide⟩
  | c :: rest => by
    simp only [trimSpaceStop]
    split
    · obtain ⟨⟨j, hj⟩, hlast⟩ := trimRightSpace_spec (c :: rest).reverse
      refine ⟨⟨(c :: rest).reverse.drop j, ?_⟩, hlast⟩
      rw [hj, List.take_append_drop]
    · rename_i hlt
      split
      · obtain ⟨⟨t, ht⟩, hlast⟩ := trimSpaceStop_spec rest
        refine ⟨⟨t ++ [c], ?_⟩, hlast⟩
        rw [List.reverse_cons, ← ht, List.append_assoc]
      · rename_i hsp
        refine ⟨⟨[], by simp⟩, ?_⟩
        have hc : c.toNat < 0x80 := by omega
        rw [List.reverse_cons, decodeLastRune_ascii _ _ hc]
        simp only
        rw [IsSpace_ascii c hc]
        simpa using hsp

/-- What `strings.TrimSpace` returns: a part of the string, between a part before it and a
part after it, that neither starts nor ends with a space. -/
theorem TrimSpace_spec :
    ∀ s : GoString, (∃ a b, s = a ++ TrimSpace s ++ b) ∧
      IsSpace (decodeRune (TrimSpace s)).1 = false ∧
      IsSpace (decodeLastRune (TrimSpace s)).1 = false
  | [] => ⟨⟨[], [], rfl⟩, by decide, by decide⟩
  | c :: rest => by
    simp only [TrimSpace]
    split
    · obtain ⟨k, hk⟩ := trimLeftSpace_suffix ((c :: rest).length + 1) (c :: rest)
      have hfirst := trimLeftSpace_first ((c :: rest).length + 1) (c :: rest)
      obtain ⟨⟨j, hj⟩, hlast⟩ :=
        trimRightSpace_spec (trimLeftSpace ((c :: rest).length + 1) (c :: rest))
      refine ⟨⟨(c :: rest).take k, ((c :: rest).drop k).drop j, ?_⟩, ?_, hlast⟩
      · rw [hj, hk, List.append_assoc, List.take_append_drop, List.take_append_drop]
      · rw [hj]
        rcases decodeRune_take_rune (trimLeftSpace ((c :: rest).length + 1) (c :: rest)) j
          with h | h
        · rw [h]; exact hfirst
        · rw [h]; decide
    · rename_i hlt
      split
      · obtain ⟨⟨a, b, hab⟩, hfirst, hlast⟩ := TrimSpace_spec rest
        refine ⟨⟨c :: a, b, ?_⟩, hfirst, hlast⟩
        rw [List.cons_append, List.cons_append, ← hab]
      · rename_i hsp
        obtain ⟨⟨t, ht⟩, hlast⟩ := trimSpaceStop_spec (c :: rest).reverse
        rw [List.reverse_reverse] at ht
        refine ⟨⟨[], t, by rw [List.nil_append, ht]⟩, ?_, hlast⟩
        have hc : c.toNat < 0x80 := by omega
        cases hT : trimSpaceStop (c :: rest).reverse with
        | nil => decide
        | cons d T =>
          rw [hT] at ht
          simp only [List.cons_append, List.cons.injEq] at ht
          rw [ht.1, decodeRune_ascii _ _ hc]
          simp only
          rw [IsSpace_ascii c hc]
          simpa using hsp

/-- A string that is not empty and neither starts nor ends with a space is returned as it
is by `strings.TrimSpace`. -/
theorem TrimSpace_id (T : GoString) (hfirst : IsSpace (decodeRune T).1 = false)
    (hlast : IsSpace (decodeLastRune T).1 = false) : TrimSpace T = T := by
  cases T with
  | nil => rfl
  | cons c rest =>
    simp only [TrimSpace]
    split
    · rw [trimLeftSpace_id _ _ hfirst]
      exact trimRightSpace_id _ (by simp) hlast
    · rename_i hlt
      have hc : c.toNat < 0x80 := by omega
      have hsp : asciiSpace c = false := by
        rw [decodeRune_ascii _ _ hc] at hfirst
        simp only at hfirst
        rw [← IsSpace_ascii c hc]; exact hfirst
      simp only [hsp, Bool.false_eq_true, if_false]
      cases hrev : (c :: rest).reverse with
      | nil => simp at hrev
      | cons d r =>
        have hT : c :: rest = r.reverse ++ [d] := by
          have := congrArg List.reverse hrev
          rw [List.reverse_reverse, List.reverse_cons] at this
          exact this
        simp only [trimSpaceStop]
        split
        · rw [List.reverse_cons, ← hT]
          exact trimRightSpace_id _ (by simp) hlast
        · rename_i hd
          have hd1 : d.toNat < 0x80 := by omega
          have hsp2 : asciiSpace d = false := by
            rw [hT, decodeLastRune_ascii _ _ hd1] at hlast
            simp only at hlast
            rw [← IsSpace_ascii d hd1]; exact hlast
          simp only [hsp2, Bool.false_eq_true, if_false]
          rw [List.reverse_cons, ← hT]

/-- The code points that `unicode.IsSpace` accepts are those of the list `spaceRunes`. -/
theorem IsSpace_iff_mem (r : Nat) : IsSpace r = true ↔ r ∈ spaceRunes := by
  simp only [IsSpace, spaceRunes, List.mem_cons, List.mem_singleton, List.not_mem_nil, or_false]
  split
  · simp only [Bool.or_eq_true, decide_eq_true_eq]
    omega
  · simp only [Bool.or_eq_true, Bool.and_eq_true, decide_eq_true_eq]
    omega

/-- The encodings of the white space code points: none is empty or holds a comma, each
decodes to its code point with the length of the encoding as width, and each is either one
ASCII byte or starts with a byte outside ASCII. -/
theorem spaceRunes_encoding :
    ∀ r ∈ spaceRunes,
      encodeRune r ≠ [] ∧ Comma ∉ encodeRune r ∧
      decodeRune (encodeRune r) = (r, (encodeRune r).length) ∧
      ((2 ≤ (encodeRune r).length ∧ 0x80 ≤ ((encodeRune r).getD 0 0).toNat) ∨
        (encodeRune r = [UInt8.ofNat r] ∧ r < 0x80)) := by
  decide

/-- The text that starts with the encoding of a white space code point starts with that
rune. -/
theorem decodeRune_encode_space (r : Nat) (rest : GoString) (h : IsSpace r = true) :
    decodeRune (encodeRune r ++ rest) = (r, (encodeRune r).length) := by
  obtain ⟨_, _, hdec, hform⟩ := spaceRunes_encoding r ((IsSpace_iff_mem r).1 h)
  rcases hform with ⟨h2, _⟩ | ⟨h1, hlt⟩
  · have htake : (encodeRune r ++ rest).take (encodeRune r).length = encodeRune r :=
      List.take_left _ _
    have := decodeRune_of_take (encodeRune r ++ rest) (encodeRune r).length
      (by rw [htake, hdec]; exact h2)
    rw [this, htake, hdec]
  · have hto : (UInt8.ofNat r).toNat = r := by
      show r % 256 = r
      omega
    rw [h1, List.singleton_append, decodeRune_ascii _ _ (by omega), hto]
    rfl

/-- A text of white space only is trimmed from the start to nothing. -/
theorem trimLeftSpace_allSpace (fuel : Nat) :
    ∀ rs : List Nat, allSpace rs → trimLeftSpace fuel (encodeRunes rs) = [] := by
  induction fuel with
  | zero => intro rs _; rfl
  | succ fuel ih =>
    intro rs hrs
    cases rs with
    | nil => rfl
    | cons r rs =>
      have hr : IsSpace r = true := hrs r (by simp)
      rw [trimLeftSpace_succ]
      simp only [encodeRunes, decodeRune_encode_space r _ hr, hr, Bool.true_eq_false, if_false,
        List.drop_left]
      split
      · rfl
      · exact ih rs (fun x hx => hrs x (by simp [hx]))

/-- A text of white space only is trimmed by `strings.TrimSpace` to nothing. -/
theorem TrimSpace_allSpace : ∀ rs : List Nat, allSpace rs → TrimSpace (encodeRunes rs) = []
  | [], _ => rfl
  | r :: rs, hrs => by
    have hr : IsSpace r = true := hrs r (by simp)
    have hrest : allSpace rs := fun x hx => hrs x (by simp [hx])
    obtain ⟨hne, _, _, hform⟩ := spaceRunes_encoding r ((IsSpace_iff_mem r).1 hr)
    rcases hform with ⟨h2, hfirst⟩ | ⟨h1, hlt⟩
    · cases he : encodeRune r with
      | nil => exact absurd he hne
      | cons c e =>
        rw [he] at hfirst
        simp only [List.getD_cons_zero] at hfirst
        have hall := trimLeftSpace_allSpace ((c :: (e ++ encodeRunes rs)).length + 1) (r :: rs) hrs
        simp only [encodeRunes, he, List.cons_append] at hall
        simp only [encodeRunes, he, List.cons_append, TrimSpace, ge_iff_le, hfirst, if_true, hall]
        rfl
    · have hto : (UInt8.ofNat r).toNat = r := by
        show r % 256 = r
        omega
      have hsp : asciiSpace (UInt8.ofNat r) = true := by
        rw [← IsSpace_ascii _ (by omega), hto]; exact hr
      have hnot : ¬ (UInt8.ofNat r).toNat ≥ 0x80 := by omega
      simp only [encodeRunes, h1, List.singleton_append, TrimSpace, hnot, if_false, hsp, if_true]
      exact TrimSpace_allSpace rs hrest

/-- Splitting at commas gives at least one field. -/
theorem splitComma_ne_nil : ∀ s : GoString, splitComma s ≠ []
  | [] => by simp [splitComma]
  | c :: s => by
    simp only [splitComma]
    split
    · simp
    · split <;> simp

/-- Splitting a text that starts with a byte other than the comma puts the byte in front
of the first field of the rest. -/
theorem splitComma_cons (c : UInt8) (s f0 : GoString) (fs : List GoString) (hc : c ≠ Comma)
    (hs : splitComma s = f0 :: fs) : splitComma (c :: s) = (c :: f0) :: fs := by
  have hc1 : ¬ c = 0x2C := hc
  simp only [splitComma, hc1, if_false, hs]

/-- Splitting a text that starts with a comma gives an empty first field. -/
theorem splitComma_comma (s : GoString) : splitComma (Comma :: s) = [] :: splitComma s := by
  simp [splitComma, Comma]

/-- No field holds a comma. -/
theorem splitComma_no_comma : ∀ (s f : GoString), f ∈ splitComma s → Comma ∉ f
  | [], f, hf => by
    simp only [splitComma, List.mem_singleton] at hf
    rw [hf]; simp
  | c :: s, f, hf => by
    by_cases hc : c = Comma
    · rw [hc, splitComma_comma, List.mem_cons] at hf
      rcases hf with hf | hf
      · rw [hf]; simp
      · exact splitComma_no_comma s f hf
    · cases hs : splitComma s with
      | nil => exact absurd hs (splitComma_ne_nil s)
      | cons f0 fs =>
        rw [splitComma_cons c s f0 fs hc hs, List.mem_cons] at hf
        rcases hf with hf | hf
        · rw [hf, List.mem_cons, not_or]
          exact ⟨fun h => hc h.symm, splitComma_no_comma s f0 (by rw [hs]; simp)⟩
        · exact splitComma_no_comma s f (by rw [hs]; simp [hf])

/-- The fields joined by commas are the text. -/
theorem joinComma_splitComma : ∀ s : GoString, joinComma (splitComma s) = s
  | [] => rfl
  | c :: s => by
    by_cases hc : c = Comma
    · rw [hc, splitComma_comma]
      cases hs : splitComma s with
      | nil => exact absurd hs (splitComma_ne_nil s)
      | cons f0 fs =>
        rw [joinComma, ← hs, joinComma_splitComma s]
        rfl
    · cases hs : splitComma s with
      | nil => exact absurd hs (splitComma_ne_nil s)
      | cons f0 fs =>
        have ih := joinComma_splitComma s
        rw [hs] at ih
        rw [splitComma_cons c s f0 fs hc hs]
        cases fs with
        | nil =>
          simp only [joinComma] at ih ⊢
          rw [ih]
        | cons f1 fs =>
          simp only [joinComma] at ih ⊢
          rw [List.cons_append, ih]

/-- Splitting a text that starts with a part without comma puts the part in front of the
first field of the rest. -/
theorem splitComma_append (e s f0 : GoString) (fs : List GoString) (he : Comma ∉ e)
    (hs : splitComma s = f0 :: fs) : splitComma (e ++ s) = (e ++ f0) :: fs := by
  induction e with
  | nil => exact hs
  | cons c e ih =>
    rw [List.mem_cons, not_or] at he
    rw [List.cons_append, splitComma_cons c (e ++ s) (e ++ f0) fs (fun h => he.1 h.symm) (ih he.2)]
    rfl

/-- Splitting the join of elements without comma gives the elements back. -/
theorem splitComma_joinComma :
    ∀ l : List GoString, l ≠ [] → (∀ e ∈ l, Comma ∉ e) → splitComma (joinComma l) = l
  | [], h, _ => absurd rfl h
  | [x], _, hl => by
    have := splitComma_append x [] [] [] (hl x (by simp)) rfl
    simpa [joinComma] using this
  | x :: y :: rest, _, hl => by
    have ih := splitComma_joinComma (y :: rest) (by simp) (fun e he => hl e (by simp [he]))
    have h1 : splitComma (Comma :: joinComma (y :: rest)) = [] :: y :: rest := by
      rw [splitComma_comma, ih]
    have := splitComma_append x _ [] (y :: rest) (hl x (by simp)) h1
    simpa [joinComma] using this

/-- The loop of `ParsePatterns` appends to the result the trimmed fields that are not
empty. -/
theorem ParsePatterns_foldl (fields : List GoString) :
    ∀ result : List GoString,
      fields.foldl
        (fun result pattern =>
          if TrimSpace pattern ≠ [] then result ++ [TrimSpace pattern] else result) result =
        result ++ (fields.map TrimSpace).filter (fun t => decide (t ≠ [])) := by
  induction fields with
  | nil => intro result; simp
  | cons f fields ih =>
    intro result
    rw [List.foldl_cons, ih]
    by_cases h : TrimSpace f = []
    · simp [h]
    · simp [h]

/-- `ParsePatterns` returns the trimmed fields that are not empty, in order. -/
theorem ParsePatterns_eq (s : GoString) :
    ParsePatterns s = ((splitComma s).map TrimSpace).filter (fun t => decide (t ≠ [])) := by
  simp only [ParsePatterns]
  split
  · rename_i h
    rw [h]
    rfl
  · have := ParsePatterns_foldl (splitComma s) []
    simp only [List.nil_append] at this
    exact this

/-- The elements `ParsePatterns` returns: not empty, without comma, and neither starting
nor ending with white space. -/
theorem ParsePatterns_mem (s e : GoString) (he : e ∈ ParsePatterns s) :
    e ≠ [] ∧ Comma ∉ e ∧ IsSpace (decodeRune e).1 = false ∧
      IsSpace (decodeLastRune e).1 = false := by
  rw [ParsePatterns_eq, List.mem_filter, List.mem_map] at he
  obtain ⟨⟨f, hf, rfl⟩, hne⟩ := he
  obtain ⟨⟨a, b, hab⟩, hfirst, hlast⟩ := TrimSpace_spec f
  refine ⟨by simpa using hne, ?_, hfirst, hlast⟩
  intro hc
  apply splitComma_no_comma s f hf
  rw [hab]
  simp [hc]

/-- Filtering and mapping change nothing when they change no element. -/
theorem filter_map_id (l : List GoString) (hid : ∀ e ∈ l, TrimSpace e = e)
    (hne : ∀ e ∈ l, e ≠ []) :
    (l.map TrimSpace).filter (fun t => decide (t ≠ [])) = l := by
  induction l with
  | nil => rfl
  | cons x l ih =>
    have hx := hid x (by simp)
    have hx2 := hne x (by simp)
    rw [List.map_cons, hx, List.filter_cons_of_pos (by simpa using hx2),
      ih (fun e he => hid e (by simp [he])) (fun e he => hne e (by simp [he]))]

/-- Parsing the join of the elements of a parsed list gives the list back. -/
theorem ParsePatterns_round_trip (s : GoString) :
    ParsePatterns (joinComma (ParsePatterns s)) = ParsePatterns s := by
  by_cases hnil : ParsePatterns s = []
  · rw [hnil]; rfl
  · rw [ParsePatterns_eq (joinComma (ParsePatterns s)),
      splitComma_joinComma _ hnil (fun e he => (ParsePatterns_mem s e he).2.1)]
    exact filter_map_id _
      (fun e he => TrimSpace_id e (ParsePatterns_mem s e he).2.2.1 (ParsePatterns_mem s e he).2.2.2)
      (fun e he => (ParsePatterns_mem s e he).1)

/-- The fields of a text of commas and white space are texts of white space. -/
theorem splitComma_spaces :
    ∀ rs : List Nat, (∀ r ∈ rs, r = 0x2C ∨ IsSpace r = true) →
      ∀ f ∈ splitComma (encodeRunes rs), ∃ rs1, allSpace rs1 ∧ f = encodeRunes rs1
  | [], _, f, hf => by
    simp only [encodeRunes, splitComma, List.mem_singleton] at hf
    exact ⟨[], by simp [allSpace], hf⟩
  | r :: rs, hrs, f, hf => by
    have ih := splitComma_spaces rs (fun x hx => hrs x (by simp [hx]))
    rcases hrs r (by simp) with hr | hr
    · have henc : encodeRune r = [Comma] := by rw [hr]; decide
      rw [encodeRunes, henc, List.singleton_append, splitComma_comma, List.mem_cons] at hf
      rcases hf with hf | hf
      · exact ⟨[], by simp [allSpace], hf⟩
      · exact ih f hf
    · obtain ⟨_, hcomma, _, _⟩ := spaceRunes_encoding r ((IsSpace_iff_mem r).1 hr)
      cases hs : splitComma (encodeRunes rs) with
      | nil => exact absurd hs (splitComma_ne_nil _)
      | cons f0 fs =>
        rw [encodeRunes, splitComma_append _ _ f0 fs hcomma hs, List.mem_cons] at hf
        rcases hf with hf | hf
        · obtain ⟨rs1, h1, h2⟩ := ih f0 (by rw [hs]; simp)
          refine ⟨r :: rs1, ?_, by rw [hf, h2]; rfl⟩
          intro x hx
          rcases List.mem_cons.1 hx with hx | hx
          · rw [hx]; exact hr
          · exact h1 x hx
        · exact ih f (by rw [hs]; simp [hf])

/-- A text of commas and white space only is parsed to the empty list. -/
theorem ParsePatterns_spaces (rs : List Nat) (hrs : ∀ r ∈ rs, r = 0x2C ∨ IsSpace r = true) :
    ParsePatterns (encodeRunes rs) = [] := by
  rw [ParsePatterns_eq, List.filter_eq_nil_iff]
  intro t ht
  obtain ⟨f, hf, rfl⟩ := List.mem_map.1 ht
  obtain ⟨rs1, h1, h2⟩ := splitComma_spaces rs hrs f hf
  rw [h2, TrimSpace_allSpace rs1 h1]
  simp

/-- A byte is the byte of its value. -/
theorem ofNat_toNat (x : UInt8) : UInt8.ofNat x.toNat = x := by
  apply UInt8.ext
  show x.toNat % 256 = x.toNat
  have : x.toNat < 256 := x.val.isLt
  omega

/-- The byte of a value is the given byte when the value is the value of the byte. -/
theorem ofNat_eq (n : Nat) (x : UInt8) (h : n = x.toNat) : UInt8.ofNat n = x := by
  rw [h]; exact ofNat_toNat x

/-- The white space code points are at most `0x3000`. -/
theorem spaceRunes_le : ∀ r ∈ spaceRunes, r ≤ 0x3000 := by decide

/-- A text that starts with a white space rune starts with the encoding of that rune, and
the width of the rune is the length of the encoding. -/
theorem decodeRune_space_encode (s : GoString) (h : IsSpace (decodeRune s).1 = true) :
    s = encodeRune (decodeRune s).1 ++ s.drop (decodeRune s).2 := by
  have hle := spaceRunes_le _ ((IsSpace_iff_mem _).1 h)
  have hne : (decodeRune s).1 ≠ RuneError := by
    intro h0
    rw [h0, IsSpace_RuneError] at h
    exact absurd h (by simp)
  cases s with
  | nil => exact absurd rfl hne
  | cons a t =>
    have ha : a.toNat < 256 := a.val.isLt
    by_cases h1 : a.toNat < 0x80
    · rw [decodeRune_ascii a t h1]
      simp only [encodeRune, h1, if_true, ofNat_toNat, List.drop_succ_cons, List.drop_zero,
        List.singleton_append]
    by_cases h2 : a.toNat < 0xC2
    · exact absurd (by simp [decodeRune, h1, h2]) hne
    by_cases h3 : a.toNat < 0xE0
    · rcases t with _ | ⟨b, t⟩
      · exact absurd (by simp [decodeRune, h1, h2, h3]) hne
      · have hb : b.toNat < 256 := b.val.isLt
        by_cases hin : inRange 0x80 0xBF b = true
        · have hdec : decodeRune (a :: b :: t) = ((a.toNat % 32) * 64 + b.toNat % 64, 2) := by
            simp [decodeRune, h1, h2, h3, hin]
          simp only [inRange, Bool.and_eq_true, decide_eq_true_eq] at hin
          rw [hdec]
          have hr1 : ¬ (a.toNat % 32) * 64 + b.toNat % 64 < 0x80 := by omega
          have hr2 : (a.toNat % 32) * 64 + b.toNat % 64 < 0x800 := by omega
          simp only [encodeRune, hr1, hr2, if_false, if_true, List.drop_succ_cons, List.drop_zero,
            List.cons_append, List.nil_append]
          rw [ofNat_eq _ a (by omega), ofNat_eq _ b (by omega)]
        · exact absurd (by simp [decodeRune, h1, h2, h3, hin]) hne
    by_cases h4 : a.toNat < 0xF0
    · rcases t with _ | ⟨b, _ | ⟨c, t⟩⟩
      · exact absurd (by simp [decodeRune, h1, h2, h3, h4]) hne
      · exact absurd (by simp [decodeRune, h1, h2, h3, h4]) hne
      · have hb : b.toNat < 256 := b.val.isLt
        have hc : c.toNat < 256 := c.val.isLt
        by_cases hin : (inRange (if a.toNat = 0xE0 then 0xA0 else 0x80)
            (if a.toNat = 0xED then 0x9F else 0xBF) b && inRange 0x80 0xBF c) = true
        · have hdec : decodeRune (a :: b :: c :: t) =
              ((a.toNat % 16) * 4096 + (b.toNat % 64) * 64 + c.toNat % 64, 3) := by
            simp only [decodeRune, h1, h2, h3, h4, if_false, if_true, hin]
          simp only [inRange, Bool.and_eq_true, decide_eq_true_eq] at hin
          rw [hdec]
          have hlo : (if a.toNat = 0xE0 then 0xA0 else 0x80) ≤ b.toNat := hin.1.1
          have hhi : b.toNat ≤ (if a.toNat = 0xED then 0x9F else 0xBF) := hin.1.2
          have hlo1 : 0x80 ≤ b.toNat := by split at hlo <;> omega
          have hhi1 : b.toNat ≤ 0xBF := by split at hhi <;> omega
          have hlo2 : a.toNat = 0xE0 → 0xA0 ≤ b.toNat := by
            intro h0; rw [if_pos h0] at hlo; exact hlo
          have hhi2 : a.toNat = 0xED → b.toNat ≤ 0x9F := by
            intro h0; rw [if_pos h0] at hhi; exact hhi
          have hr1 : ¬ (a.toNat % 16) * 4096 + (b.toNat % 64) * 64 + c.toNat % 64 < 0x80 := by
            omega
          have hr2 : ¬ (a.toNat % 16) * 4096 + (b.toNat % 64) * 64 + c.toNat % 64 < 0x800 := by
            omega
          have hr3 : ¬ ((a.toNat % 16) * 4096 + (b.toNat % 64) * 64 + c.toNat % 64 > 0x10FFFF ∨
              (0xD800 ≤ (a.toNat % 16) * 4096 + (b.toNat % 64) * 64 + c.toNat % 64 ∧
                (a.toNat % 16) * 4096 + (b.toNat % 64) * 64 + c.toNat % 64 ≤ 0xDFFF)) := by
            omega
          have hr4 : (a.toNat % 16) * 4096 + (b.toNat % 64) * 64 + c.toNat % 64 < 0x10000 := by
            omega
          simp only [encodeRune, hr1, hr2, hr3, hr4, if_false, if_true, List.drop_succ_cons,
            List.drop_zero, List.cons_append, List.nil_append]
          rw [ofNat_eq _ a (by omega), ofNat_eq _ b (by omega), ofNat_eq _ c (by omega)]
        · have hin1 := Bool.eq_false_iff.2 hin
          exact absurd (by simp only [decodeRune, h1, h2, h3, h4, if_false, if_true, hin1,
            Bool.false_eq_true]) hne
    by_cases h5 : a.toNat < 0xF5
    · rcases t with _ | ⟨b, _ | ⟨c, _ | ⟨d, t⟩⟩⟩
      · exact absurd (by simp [decodeRune, h1, h2, h3, h4, h5]) hne
      · exact absurd (by simp [decodeRune, h1, h2, h3, h4, h5]) hne
      · exact absurd (by simp [decodeRune, h1, h2, h3, h4, h5]) hne
      · by_cases hin : (inRange (if a.toNat = 0xF0 then 0x90 else 0x80)
            (if a.toNat = 0xF4 then 0x8F else 0xBF) b && inRange 0x80 0xBF c &&
              inRange 0x80 0xBF d) = true
        · have hdec : decodeRune (a :: b :: c :: d :: t) =
              ((a.toNat % 8) * 262144 + (b.toNat % 64) * 4096 + (c.toNat % 64) * 64 +
                d.toNat % 64, 4) := by
            simp only [decodeRune, h1, h2, h3, h4, h5, if_false, if_true, hin]
          simp only [inRange, Bool.and_eq_true, decide_eq_true_eq] at hin
          rw [hdec] at hle
          simp only at hle
          have hlo : (if a.toNat = 0xF0 then 0x90 else 0x80) ≤ b.toNat := hin.1.1.1
          have hhi : b.toNat ≤ (if a.toNat = 0xF4 then 0x8F else 0xBF) := hin.1.1.2
          have hhi1 : b.toNat ≤ 0xBF := by split at hhi <;> omega
          have hlo2 : a.toNat = 0xF0 → 0x90 ≤ b.toNat := by
            intro h0; rw [if_pos h0] at hlo; exact hlo
          omega
        · have hin1 := Bool.eq_false_iff.2 hin
          exact absurd (by simp only [decodeRune, h1, h2, h3, h4, h5, if_false, if_true, hin1,
            Bool.false_eq_true]) hne
    · exact absurd (by simp [decodeRune, h1, h2, h3, h4, h5]) hne

/-- The encoding of the code point of an ASCII byte is the byte. -/
theorem encodeRune_ascii (c : UInt8) (hc : c.toNat < 0x80) : encodeRune c.toNat = [c] := by
  simp only [encodeRune, hc, if_true, ofNat_toNat]

/-- The text of two sequences of code points one after the other. -/
theorem encodeRunes_append (rs1 rs2 : List Nat) :
    encodeRunes (rs1 ++ rs2) = encodeRunes rs1 ++ encodeRunes rs2 := by
  induction rs1 with
  | nil => rfl
  | cons r rs1 ih =>
    show encodeRune r ++ encodeRunes (rs1 ++ rs2) =
      encodeRune r ++ encodeRunes rs1 ++ encodeRunes rs2
    rw [ih, List.append_assoc]

/-- What `strings.TrimLeftFunc` with `unicode.IsSpace` cuts off is white space. -/
theorem trimLeftSpace_lead (fuel : Nat) :
    ∀ s : GoString, s.length < fuel →
      ∃ lead, allSpace lead ∧ s = encodeRunes lead ++ trimLeftSpace fuel s := by
  induction fuel with
  | zero => intro s h; omega
  | succ fuel ih =>
    intro s hlen
    rw [trimLeftSpace_succ]
    split
    · rename_i h0
      exact ⟨[], by simp [allSpace], by rw [h0]; rfl⟩
    · rename_i hne
      split
      · exact ⟨[], by simp [allSpace], rfl⟩
      · rename_i hsp
        have hsp1 : IsSpace (decodeRune s).1 = true := by simpa using hsp
        have hw := decodeRune_width s hne
        have hpos : 0 < s.length := List.length_pos.2 hne
        obtain ⟨lead, hlead, hrest⟩ := ih (s.drop (decodeRune s).2)
          (by rw [List.length_drop]; omega)
        refine ⟨(decodeRune s).1 :: lead, ?_, ?_⟩
        · intro x hx
          rcases List.mem_cons.1 hx with hx | hx
          · rw [hx]; exact hsp1
          · exact hlead x hx
        · rw [encodeRunes, List.append_assoc, ← hrest]
          exact decodeRune_space_encode s hsp1

/-- A suffix of white space starts where the text ends or where a rune starts. -/
theorem spaces_boundary (X : GoString) (j : Nat) (tr : List Nat) (hle : j ≤ X.length)
    (htr : allSpace tr) (hdrop : X.drop j = encodeRunes tr) :
    j = X.length ∨ RuneStart (X.getD j 0) = true := by
  by_cases hj : j = X.length
  · exact Or.inl hj
  · right
    have hlt : j < X.length := by omega
    cases tr with
    | nil =>
      have := congrArg List.length hdrop
      simp only [List.length_drop, encodeRunes, List.length_nil] at this
      omega
    | cons r tr =>
      have hr : IsSpace r = true := htr r (by simp)
      have hdec := decodeRune_encode_space r (encodeRunes tr) hr
      have hsp : IsSpace (decodeRune (X.drop j)).1 = true := by
        rw [hdrop, encodeRunes, hdec]; exact hr
      obtain ⟨c, t, hct, hc⟩ := decodeRune_space_start _ hsp
      rw [drop_eq_getD_cons X j hlt] at hct
      simp only [List.cons.injEq] at hct
      rw [hct.1]; exact hc

/-- The search from the end passes over white space only: it ends at the start of the
text, with nothing found, or at a prefix whose last rune is not a space. -/
theorem lastIndexNotSpace_trail (X : GoString) (fuel : Nat) :
    ∀ (j : Nat) (tr : List Nat), j ≤ X.length → j < fuel → allSpace tr →
      X.drop j = encodeRunes tr →
      ∃ j2 tr2, j2 ≤ j ∧ allSpace tr2 ∧ X.drop j2 = encodeRunes tr2 ∧
        ((j2 = 0 ∧ lastIndexNotSpace X fuel j = none) ∨
          (0 < j2 ∧ IsSpace (decodeLastRune (X.take j2)).1 = false ∧
            lastIndexNotSpace X fuel j = some (j2 - (decodeLastRune (X.take j2)).2))) := by
  induction fuel with
  | zero => intro j tr _ h; omega
  | succ fuel ih =>
    intro j tr hle hfuel htr hdrop
    rw [lastIndexNotSpace_succ]
    by_cases hj : j > 0
    · simp only [hj, if_true]
      have hne := take_ne_nil X j hj hle
      by_cases hsp : IsSpace (decodeLastRune (X.take j)).1 = false
      · simp only [hsp, if_true]
        exact ⟨j, tr, le_refl _, htr, hdrop, Or.inr ⟨hj, hsp, rfl⟩⟩
      · simp only [hsp, if_false]
        have hsp1 : IsSpace (decodeLastRune (X.take j)).1 = true := by simpa using hsp
        have hspec := decodeLastRune_spec (X.take j) hne
        simp only [List.length_take, Nat.min_eq_left hle] at hspec
        rcases hspec with h0 | ⟨h1, h2, h3⟩
        · rw [h0, IsSpace_RuneError] at hsp1
          exact absurd hsp1 (by simp)
        · generalize hr : decodeLastRune (X.take j) = p at h1 h2 h3 hsp1 ⊢
          have hZ : (X.take j).drop (j - p.2) =
              encodeRune p.1 ++ ((X.take j).drop (j - p.2)).drop p.2 := by
            have := decodeRune_space_encode ((X.take j).drop (j - p.2)) (by rw [h3]; exact hsp1)
            rw [h3] at this
            exact this
          have hnil : ((X.take j).drop (j - p.2)).drop p.2 = [] := by
            apply List.drop_eq_nil_of_le
            rw [List.length_drop, List.length_take, Nat.min_eq_left hle]
            omega
          rw [hnil, List.append_nil] at hZ
          have hX : X.drop (j - p.2) = encodeRunes (p.1 :: tr) := by
            have hsplit : X.drop (j - p.2) = (X.take j).drop (j - p.2) ++ X.drop j := by
              conv_lhs => rw [← List.take_append_drop j X]
              rw [List.drop_append_of_le_length
                (by rw [List.length_take, Nat.min_eq_left hle]; omega)]
            rw [hsplit, hZ, hdrop]
            rfl
          have htr2 : allSpace (p.1 :: tr) := by
            intro x hx
            rcases List.mem_cons.1 hx with hx | hx
            · rw [hx]; exact hsp1
            · exact htr x hx
          obtain ⟨j2, tr2, hj2, h4, h5, h6⟩ := ih (j - p.2) (p.1 :: tr) (by omega) (by omega)
            htr2 hX
          exact ⟨j2, tr2, by omega, h4, h5, h6⟩
    · simp only [hj, if_false]
      have h0 : j = 0 := by omega
      exact ⟨0, tr, by omega, htr, by rw [← h0]; exact hdrop, Or.inl ⟨rfl, trivial⟩⟩

/-- What `strings.TrimRightFunc` with `unicode.IsSpace` cuts off is white space. -/
theorem trimRightSpace_trail (X : GoString) :
    ∃ trail, allSpace trail ∧ X = trimRightSpace X ++ encodeRunes trail := by
  obtain ⟨j2, tr2, hj2, htr2, hdrop, hcase⟩ :=
    lastIndexNotSpace_trail X (X.length + 1) X.length [] (le_refl _) (by omega)
      (by simp [allSpace]) (by simp [encodeRunes])
  rcases hcase with ⟨h0, hnone⟩ | ⟨hpos, hsp, hsome⟩
  · refine ⟨tr2, htr2, ?_⟩
    simp only [trimRightSpace, hnone, List.nil_append]
    rw [← hdrop, h0, List.drop_zero]
  · refine ⟨tr2, htr2, ?_⟩
    simp only [trimRightSpace, hsome]
    rw [trimRight_end X j2 hpos hj2 (spaces_boundary X j2 tr2 hj2 htr2 hdrop), ← hdrop,
      List.take_append_drop]

/-- What the loop of `strings.TrimSpace` over the end of the string cuts off is white
space. The argument is the string read from its end. -/
theorem trimSpaceStop_trail :
    ∀ r : GoString, ∃ trail, allSpace trail ∧ r.reverse = trimSpaceStop r ++ encodeRunes trail
  | [] => ⟨[], by simp [allSpace], rfl⟩
  | c :: rest => by
    simp only [trimSpaceStop]
    split
    · exact trimRightSpace_trail _
    · rename_i hlt
      have hc : c.toNat < 0x80 := by omega
      split
      · rename_i hsp
        obtain ⟨trail, htrail, hrest⟩ := trimSpaceStop_trail rest
        refine ⟨trail ++ [c.toNat], ?_, ?_⟩
        · intro x hx
          rcases List.mem_append.1 hx with hx | hx
          · exact htrail x hx
          · rw [List.mem_singleton.1 hx, IsSpace_ascii c hc]; exact hsp
        · rw [List.reverse_cons, hrest, encodeRunes_append, List.append_assoc]
          simp only [encodeRunes, encodeRune_ascii c hc, List.append_nil]
      · exact ⟨[], by simp [allSpace], by simp [encodeRunes]⟩

/-- What `strings.TrimSpace` cuts off at the two ends is white space. -/
theorem TrimSpace_parts :
    ∀ s : GoString, ∃ lead trail, allSpace lead ∧ allSpace trail ∧
      s = encodeRunes lead ++ TrimSpace s ++ encodeRunes trail
  | [] => ⟨[], [], by simp [allSpace], by simp [allSpace], rfl⟩
  | c :: rest => by
    simp only [TrimSpace]
    split
    · obtain ⟨lead, hlead, h1⟩ :=
        trimLeftSpace_lead ((c :: rest).length + 1) (c :: rest) (by omega)
      obtain ⟨trail, htrail, h2⟩ :=
        trimRightSpace_trail (trimLeftSpace ((c :: rest).length + 1) (c :: rest))
      refine ⟨lead, trail, hlead, htrail, ?_⟩
      rw [List.append_assoc, ← h2]
      exact h1
    · rename_i hlt
      have hc : c.toNat < 0x80 := by omega
      split
      · rename_i hsp
        obtain ⟨lead, trail, hlead, htrail, hrest⟩ := TrimSpace_parts rest
        refine ⟨c.toNat :: lead, trail, ?_, htrail, ?_⟩
        · intro x hx
          rcases List.mem_cons.1 hx with hx | hx
          · rw [hx, IsSpace_ascii c hc]; exact hsp
          · exact hlead x hx
        · simp only [encodeRunes, encodeRune_ascii c hc, List.singleton_append, List.cons_append,
            List.nil_append]
          rw [← hrest]
      · obtain ⟨trail, htrail, h⟩ := trimSpaceStop_trail (c :: rest).reverse
        rw [List.reverse_reverse] at h
        exact ⟨[], trail, by simp [allSpace], htrail, by simpa [encodeRunes] using h⟩

set_option maxRecDepth 100000 in
/-- C38. For every string `s`, `ParsePatterns s` is the list, in order, of the fields of `s`
between its commas, each trimmed by `strings.TrimSpace`, without those that are empty after
trimming. The fields are the parts without comma whose join by commas is `s`. Trimming a
field cuts off white space runes at its two ends and what is left neither starts nor ends
with a white space rune. So every element of the result is not empty, holds no comma, and
neither starts nor ends with white space; the result is empty for the empty string and for
every text of commas and white space runes only; and parsing the elements of the result
joined by commas gives the result again. The bounds on the steps of the two searches of
the trimming are never met. The samples are a list with blanks, tabs and empty fields, and
a field with a no-break space before and an em space after the letter `a`. -/
theorem C38_ParsePatterns_trimmed_fields (s : GoString) :
    ParsePatterns s = ((splitComma s).map TrimSpace).filter (fun t => decide (t ≠ [])) ∧
    (joinComma (splitComma s) = s ∧ ∀ f ∈ splitComma s, Comma ∉ f) ∧
    (∀ f ∈ splitComma s, ∃ lead trail, allSpace lead ∧ allSpace trail ∧
      f = encodeRunes lead ++ TrimSpace f ++ encodeRunes trail ∧
      IsSpace (decodeRune (TrimSpace f)).1 = false ∧
      IsSpace (decodeLastRune (TrimSpace f)).1 = false) ∧
    (∀ e ∈ ParsePatterns s, e ≠ [] ∧ Comma ∉ e ∧ IsSpace (decodeRune e).1 = false ∧
      IsSpace (decodeLastRune e).1 = false) ∧
    ParsePatterns (str "") = [] ∧
    (∀ rs : List Nat, (∀ r ∈ rs, r = 0x2C ∨ IsSpace r = true) →
      ParsePatterns (encodeRunes rs) = []) ∧
    ParsePatterns (joinComma (ParsePatterns s)) = ParsePatterns s ∧
    (∀ (f : GoString) (m : Nat), f.length < m →
      trimLeftSpace m f = trimLeftSpace (f.length + 1) f ∧
      lastIndexNotSpace f m f.length = lastIndexNotSpace f (f.length + 1) f.length) ∧
    ParsePatterns (str " *.go, ,docs/ ,,\t") = [str "*.go", str "docs/"] ∧
    ParsePatterns [0xC2, 0xA0, 0x61, 0xE2, 0x80, 0x83] = [[0x61]] := by
  refine ⟨ParsePatterns_eq s, ⟨joinComma_splitComma s, splitComma_no_comma s⟩, ?_,
    ParsePatterns_mem s, by decide, ParsePatterns_spaces, ParsePatterns_round_trip s, ?_,
    by decide, by decide⟩
  · intro f _
    obtain ⟨lead, trail, hlead, htrail, hparts⟩ := TrimSpace_parts f
    exact ⟨lead, trail, hlead, htrail, hparts, (TrimSpace_spec f).2⟩
  · intro f m hm
    exact ⟨(trimLeftSpace_fuel (f.length + 1) m f (by omega) hm).symm,
      (lastIndexNotSpace_fuel f (f.length + 1) f.length m (le_refl _) (by omega) hm).symm⟩

end Gingest
